import Mathlib

/-!
# VControl: binding store, event dispatch and configuration language

A shallow embedding of `src/src/vcontrol.c`.

* A pool slot is addressed by the index of its chunk in the chunk list and its
  index inside the chunk; `NULL` is `none` (for slot pointers) or `0` (for
  target addresses).
* The caller-owned target counters live in a separate memory `Mem`, a map from
  addresses to integers.
* Every loop whose termination is not structurally evident takes a budget of
  iterations (`fuel`).  `Res.ok r` at some budget means the C function returns
  with `r`; `Res.fuel` at every budget means it never returns; `Res.fault`
  marks undefined behaviour (a `NULL` dereference or an access outside an
  array).
-/

namespace VControl

/-! ## Outcomes -/

/-- Outcome of running a piece of the program under a loop budget. -/
inductive Res (α : Type) where
  | ok (a : α)
  | fuel
  | fault
  deriving DecidableEq, Repr

/-- Sequencing of outcomes. -/
def Res.bind {α β : Type} (x : Res α) (f : α → Res β) : Res β :=
  match x with
  | .ok a => f a
  | .fuel => .fuel
  | .fault => .fault

instance : Monad Res where
  pure := Res.ok
  bind := Res.bind

/-- The C function returns with result `r`: every large enough budget gives `r`. -/
def Returns {α : Type} (run : Nat → Res α) (r : α) : Prop :=
  ∃ n, ∀ fuel, n ≤ fuel → run fuel = .ok r

/-- The C function never returns: no budget is enough. -/
def Diverges {α : Type} (run : Nat → Res α) : Prop :=
  ∀ fuel, run fuel = .fuel

/-- A larger budget does not change a result. -/
def Mono {α : Type} (run : Nat → Res α) : Prop :=
  ∀ n m r, run n = .ok r → n ≤ m → run m = .ok r

/-! ## Data model (vcontrol.c lines 20-66) -/

/-- How many binding slots are allocated at once. -/
def POOL_CHUNK_SIZE : Nat := 64

/-- Total number of key input buckets. -/
def KEYBOARD_INPUT_BUCKETS : Nat := 512

/-- The key code `SDLK_UNKNOWN`. -/
def SDLK_UNKNOWN : Int := 0

/-- Hat direction bits of SDL. -/
def SDL_HAT_CENTERED : Nat := 0
def SDL_HAT_UP : Nat := 1
def SDL_HAT_RIGHT : Nat := 2
def SDL_HAT_DOWN : Nat := 4
def SDL_HAT_LEFT : Nat := 8

/-- Address of a pool slot: `chunk` is the position of its chunk in the chunk
list (the slot's `parent`), `slot` the index in that chunk's `pool` array. -/
structure Ptr where
  chunk : Nat
  slot : Nat
  deriving DecidableEq, Repr

/-- The struct `keybinding`.  `target` is the address of the caller's counter
(`0` is `NULL`); `next` is the link to the next binding of the chain.  The
`parent` field of the C struct is the `chunk` component of the slot's address. -/
structure keybinding where
  target : Nat
  keycode : Int
  next : Option Ptr
  deriving DecidableEq, Repr

/-- The struct `keypool`, one chunk.  The `next` link of the C struct is the
order of the chunk list. -/
structure keypool where
  pool : List keybinding
  remaining : Int
  deriving DecidableEq, Repr

/-- The struct `axis`. -/
structure axis where
  neg : Option Ptr
  pos : Option Ptr
  polarity : Int
  deriving DecidableEq, Repr

/-- The struct `hat`; `last` is a `Uint8`. -/
structure hat where
  left : Option Ptr
  right : Option Ptr
  up : Option Ptr
  down : Option Ptr
  last : Nat
  deriving DecidableEq, Repr

/-- The struct `joystick`; `stick` tells whether the SDL handle is non-`NULL`. -/
structure joystick where
  stick : Bool
  numaxes : Int
  numbuttons : Int
  numhats : Int
  threshold : Int
  axes : List axis
  buttons : List (Option Ptr)
  hats : List hat
  deriving DecidableEq, Repr

/-- One entry of a name table (`VControl_NameBinding`). -/
structure VControl_NameBinding where
  name : List Char
  target : Nat
  deriving DecidableEq, Repr

/-- The file-level variables of vcontrol.c: the Binding Store.  `pool = []` and
`nametable = none` stand for `NULL`. -/
structure Store where
  bindings : List (Option Ptr)
  joysticks : List joystick
  joycount : Int
  pool : List keypool
  nametable : Option (List VControl_NameBinding)
  deriving DecidableEq, Repr

/-- The caller-owned counters: the integer stored at each address.  Counters
are mathematical integers (signed overflow of a C `int` is undefined). -/
abbrev Mem := Nat → Int

/-- What one device reports when SDL opens it. -/
structure DeviceCaps where
  axes : Nat
  buttons : Nat
  hats : Nat
  deriving DecidableEq, Repr

/-- The host side: what SDL reports, and the contents of freshly allocated
memory for the fields that the source leaves unassigned (`threshold` and
`numhats` in `key_init`, `polarity` in `create_joystick`). -/
structure Host where
  numJoysticks : Nat
  joystickOpen : Nat → Option DeviceCaps
  junkThreshold : Nat → Int
  junkNumhats : Nat → Int
  junkPolarity : Nat → Nat → Int

/-! ## Pool chunks (vcontrol.c lines 68-96) -/

/-- A slot as `allocate_key_chunk` and `remove_binding` leave it: free. -/
def freeSlot : keybinding :=
  { target := 0, keycode := SDLK_UNKNOWN, next := none }

/-- The function `allocate_key_chunk`: a chunk of free slots (`malloc` is taken
to succeed). -/
def allocate_key_chunk : keypool :=
  { pool := List.replicate POOL_CHUNK_SIZE freeSlot, remaining := POOL_CHUNK_SIZE }

/-- Read the slot at an address; a dangling address is a fault. -/
def slotAt (pool : List keypool) (p : Ptr) : Res keybinding :=
  match pool[p.chunk]? with
  | none => .fault
  | some c =>
    match c.pool[p.slot]? with
    | none => .fault
    | some b => .ok b

/-- Overwrite the slot at an address. -/
def setSlot (pool : List keypool) (p : Ptr) (b : keybinding) : List keypool :=
  match pool[p.chunk]? with
  | none => pool
  | some c => pool.set p.chunk { c with pool := c.pool.set p.slot b }

/-- Assign the `next` field of the slot at an address. -/
def setNext (pool : List keypool) (p : Ptr) (n : Option Ptr) : List keypool :=
  match pool[p.chunk]? with
  | none => pool
  | some c =>
    match c.pool[p.slot]? with
    | none => pool
    | some b => pool.set p.chunk { c with pool := c.pool.set p.slot { b with next := n } }

/-- Add `d` to the `remaining` count of chunk `ci`. -/
def addRemaining (pool : List keypool) (ci : Nat) (d : Int) : List keypool :=
  match pool[ci]? with
  | none => pool
  | some c => pool.set ci { c with remaining := c.remaining + d }

/-- The four assignments that free a slot in `remove_binding`:
`todel->target = NULL; todel->keycode = SDLK_UNKNOWN; todel->next = NULL;
todel->parent->remaining++`. -/
def release (pool : List keypool) (p : Ptr) : List keypool :=
  addRemaining (setSlot pool p freeSlot) p.chunk 1

/-! ## add_binding (vcontrol.c lines 256-314) -/

/-- The place `newptr` points at: the chain head cell handed in by the caller,
or the `next` field of a slot. -/
inductive Place where
  | head
  | nextOf (p : Ptr)
  deriving DecidableEq, Repr

/-- First loop of `add_binding`: walk the chain to its end.  The result is
`none` when the pair `(target, keycode)` is met (the function returns at once),
else the place of the terminating `NULL`. -/
def add_scan (pool : List keypool) (target : Nat) (keycode : Int) :
    Nat → Place → Option Ptr → Res (Option Place)
  | _, pl, none => .ok (some pl)
  | 0, _, some _ => .fuel
  | n + 1, _, some p =>
    match slotAt pool p with
    | .ok b =>
      if b.target = target ∧ b.keycode = keycode then .ok none
      else add_scan pool target keycode n (.nextOf p) b.next
    | .fuel => .fuel
    | .fault => .fault

/-- Second loop of `add_binding`: advance `searchbase` to the first chunk whose
`remaining` is not 0, appending a new chunk after the last one when all are
full.  Returns the position of `searchbase` and the chunk list. -/
def search_chunk : List keypool → Nat × List keypool
  | [] => (0, [allocate_key_chunk])
  | c :: cs =>
    if c.remaining = 0 then ((search_chunk cs).1 + 1, c :: (search_chunk cs).2)
    else (0, c :: cs)

/-- Third loop of `add_binding`: the first index `i < POOL_CHUNK_SIZE`, counted
from `i`, whose slot has a `NULL` target. -/
def find_free : List keybinding → Nat → Option Nat
  | [], _ => none
  | b :: bs, i =>
    if POOL_CHUNK_SIZE ≤ i then none
    else if b.target = 0 then some i
    else find_free bs (i + 1)

/-- The function `add_binding`.  `head` is the content of the cell `*newptr` of
the caller; the result is the new content of that cell and the new pool. -/
def add_binding (fuel : Nat) (pool : List keypool) (head : Option Ptr)
    (target : Nat) (keycode : Int) : Res (Option Ptr × List keypool) :=
  match add_scan pool target keycode fuel .head head with
  | .fuel => .fuel
  | .fault => .fault
  | .ok none => .ok (head, pool)
  | .ok (some pl) =>
    match pool with
    | [] => .fault
    | _ :: _ =>
      let ci := (search_chunk pool).1
      let pool1 := (search_chunk pool).2
      match pool1[ci]? with
      | none => .fault
      | some c =>
        match find_free c.pool 0 with
        | none => .ok (head, pool1)
        | some si =>
          let nb : Ptr := { chunk := ci, slot := si }
          let pool2 := setSlot pool1 nb { target := target, keycode := keycode, next := none }
          match pl with
          | .head => .ok (some nb, addRemaining pool2 ci (-1))
          | .nextOf p => .ok (head, addRemaining (setNext pool2 p (some nb)) ci (-1))

/-! ## remove_binding (vcontrol.c lines 316-349) -/

/-- The `while (prev->next != NULL)` loop of `remove_binding`.  `prev` is
never reassigned; the test inside looks at the target only. -/
def remove_loop (target : Nat) : Nat → List keypool → Ptr → Res (List keypool)
  | 0, _, _ => .fuel
  | n + 1, pool, prev =>
    match slotAt pool prev with
    | .fuel => .fuel
    | .fault => .fault
    | .ok pb =>
      match pb.next with
      | none => .ok pool
      | some q =>
        match slotAt pool q with
        | .fuel => .fuel
        | .fault => .fault
        | .ok qb =>
          if qb.target = target then
            remove_loop target n (release (setNext pool prev qb.next) q) prev
          else
            remove_loop target n pool prev

/-- The function `remove_binding`.  `head` is the content of the cell `*ptr`;
the result is the new content of that cell and the new pool. -/
def remove_binding (fuel : Nat) (pool : List keypool) (head : Option Ptr)
    (target : Nat) (keycode : Int) : Res (Option Ptr × List keypool) :=
  match head with
  | none => .ok (none, pool)
  | some p =>
    match slotAt pool p with
    | .fuel => .fuel
    | .fault => .fault
    | .ok b =>
      if b.target = target ∧ b.keycode = keycode then
        .ok (b.next, release pool p)
      else
        match remove_loop target fuel pool p with
        | .fuel => .fuel
        | .fault => .fault
        | .ok pool1 => .ok (some p, pool1)

/-! ## activate and deactivate (vcontrol.c lines 351-374) -/

/-- The function `activate`: add one to the target of every binding of the
chain whose key code is `keycode`. -/
def activate (pool : List keypool) (keycode : Int) : Nat → Option Ptr → Mem → Res Mem
  | _, none, m => .ok m
  | 0, some _, _ => .fuel
  | n + 1, some p, m =>
    match slotAt pool p with
    | .fuel => .fuel
    | .fault => .fault
    | .ok b =>
      if b.keycode = keycode then
        if b.target = 0 then .fault
        else activate pool keycode n b.next (Function.update m b.target (m b.target + 1))
      else activate pool keycode n b.next m

/-- The function `deactivate`: subtract one from the target of every binding
of the chain whose key code is `keycode` and whose target is positive. -/
def deactivate (pool : List keypool) (keycode : Int) : Nat → Option Ptr → Mem → Res Mem
  | _, none, m => .ok m
  | 0, some _, _ => .fuel
  | n + 1, some p, m =>
    match slotAt pool p with
    | .fuel => .fuel
    | .fault => .fault
    | .ok b =>
      if b.keycode = keycode then
        if b.target = 0 then .fault
        else if 0 < m b.target then
          deactivate pool keycode n b.next (Function.update m b.target (m b.target - 1))
        else deactivate pool keycode n b.next m
      else deactivate pool keycode n b.next m

/-! ## Initialisation (vcontrol.c lines 98-238) -/

/-- An array access: an index outside the array is a fault. -/
def Res.ofOption {α : Type} : Option α → Res α
  | some a => .ok a
  | none => .fault

/-- The record `create_joystick` fills in for a device that SDL opened.  The
polarity of the new axis records is not assigned by the source. -/
def opened_joystick (host : Host) (index : Nat) (x : joystick) (caps : DeviceCaps) : joystick :=
  { stick := true
    numaxes := caps.axes
    numbuttons := caps.buttons
    numhats := caps.hats
    threshold := x.threshold
    axes := (List.range caps.axes).map
      (fun j => { neg := none, pos := none, polarity := host.junkPolarity index j })
    buttons := List.replicate caps.buttons none
    hats := List.replicate caps.hats
      { left := none, right := none, up := none, down := none, last := SDL_HAT_CENTERED } }

/-- The function `create_joystick`. -/
def create_joystick (host : Host) (s : Store) (index : Nat) : Store :=
  if s.joycount ≤ (index : Int) then s
  else
    match s.joysticks[index]? with
    | none => s
    | some x =>
      if x.stick then s
      else
        match host.joystickOpen index with
        | none => s
        | some caps =>
          { s with joysticks := s.joysticks.set index (opened_joystick host index x caps) }

/-- The function `destroy_joystick`; `numhats` is left as it was. -/
def destroy_joystick (x : joystick) : joystick :=
  if x.stick then
    { x with stick := false, numaxes := 0, numbuttons := 0, axes := [], buttons := [], hats := [] }
  else x

/-- The function `key_init`.  The threshold and hat count of the new device
records are not assigned by the source. -/
def key_init (host : Host) (nametable : Option (List VControl_NameBinding)) : Store :=
  { bindings := List.replicate KEYBOARD_INPUT_BUCKETS none
    joysticks := (List.range host.numJoysticks).map
      (fun i => { stick := false, numaxes := 0, numbuttons := 0, numhats := host.junkNumhats i,
                  threshold := host.junkThreshold i, axes := [], buttons := [], hats := [] })
    joycount := host.numJoysticks
    pool := [allocate_key_chunk]
    nametable := nametable }

/-- The function `VControl_Init`: `key_init` then `name_init`. -/
def VControl_Init (host : Host) : Store :=
  key_init host none

/-- The function `VControl_RegisterNameTable`. -/
def VControl_RegisterNameTable (s : Store) (table : List VControl_NameBinding) : Store :=
  { s with nametable := some table }

/-- The function `VControl_RemoveAllBindings`: `key_uninit` then `key_init`. -/
def VControl_RemoveAllBindings (host : Host) (s : Store) : Store :=
  key_init host s.nametable

/-- The function `VControl_SetJoyThreshold`; the second component is the
returned status. -/
def VControl_SetJoyThreshold (s : Store) (port : Int) (threshold : Int) : Res (Store × Int) :=
  if 0 ≤ port ∧ port < s.joycount then
    match s.joysticks[port.toNat]? with
    | none => .fault
    | some j => .ok ({ s with joysticks := s.joysticks.set port.toNat { j with threshold := threshold } }, 0)
  else .ok (s, -1)

/-! ## Chain head cells -/

/-- The four chains of a hat record. -/
inductive HatDir where
  | left
  | right
  | up
  | down
  deriving DecidableEq, Repr

/-- A cell of the store that holds the head of a chain: `bindings[i]`,
`joysticks[port].axes[a].neg` or `.pos`, `joysticks[port].buttons[b]`, or one
of the four chain fields of `joysticks[port].hats[h]`. -/
inductive Cell where
  | bucket (i : Nat)
  | axis (port : Nat) (a : Nat) (positive : Bool)
  | button (port : Nat) (b : Nat)
  | hat (port : Nat) (h : Nat) (d : HatDir)
  deriving DecidableEq, Repr

/-- The chain field of a hat record for a direction. -/
def hat.chain (x : hat) : HatDir → Option Ptr
  | .left => x.left
  | .right => x.right
  | .up => x.up
  | .down => x.down

/-- Assign the chain field of a hat record for a direction. -/
def hat.setChain (x : hat) (d : HatDir) (v : Option Ptr) : hat :=
  match d with
  | .left => { x with left := v }
  | .right => { x with right := v }
  | .up => { x with up := v }
  | .down => { x with down := v }

/-- Read a chain head cell; a cell outside its array is a fault. -/
def readCell (s : Store) : Cell → Res (Option Ptr)
  | .bucket i => Res.ofOption s.bindings[i]?
  | .axis port a positive =>
    match s.joysticks[port]? with
    | none => .fault
    | some j =>
      match j.axes[a]? with
      | none => .fault
      | some x => .ok (if positive then x.pos else x.neg)
  | .button port b =>
    match s.joysticks[port]? with
    | none => .fault
    | some j => Res.ofOption j.buttons[b]?
  | .hat port h d =>
    match s.joysticks[port]? with
    | none => .fault
    | some j =>
      match j.hats[h]? with
      | none => .fault
      | some x => .ok (x.chain d)

/-- Assign a chain head cell. -/
def writeCell (s : Store) (c : Cell) (v : Option Ptr) : Store :=
  match c with
  | .bucket i => { s with bindings := s.bindings.set i v }
  | .axis port a positive =>
    match s.joysticks[port]? with
    | none => s
    | some j =>
      match j.axes[a]? with
      | none => s
      | some x =>
        let x1 : axis := if positive then { x with pos := v } else { x with neg := v }
        let j1 : joystick := { j with axes := j.axes.set a x1 }
        { s with joysticks := s.joysticks.set port j1 }
  | .button port b =>
    match s.joysticks[port]? with
    | none => s
    | some j =>
      let j1 : joystick := { j with buttons := j.buttons.set b v }
      { s with joysticks := s.joysticks.set port j1 }
  | .hat port h d =>
    match s.joysticks[port]? with
    | none => s
    | some j =>
      match j.hats[h]? with
      | none => s
      | some x =>
        let j1 : joystick := { j with hats := j.hats.set h (x.setChain d v) }
        { s with joysticks := s.joysticks.set port j1 }

/-- The call `add_binding (&cell, target, keycode)` on the store. -/
def add_at (fuel : Nat) (s : Store) (c : Cell) (target : Nat) (keycode : Int) : Res Store :=
  match readCell s c with
  | .fuel => .fuel
  | .fault => .fault
  | .ok head =>
    match add_binding fuel s.pool head target keycode with
    | .fuel => .fuel
    | .fault => .fault
    | .ok r => .ok { writeCell s c r.1 with pool := r.2 }

/-- The call `remove_binding (&cell, target, keycode)` on the store. -/
def remove_at (fuel : Nat) (s : Store) (c : Cell) (target : Nat) (keycode : Int) : Res Store :=
  match readCell s c with
  | .fuel => .fuel
  | .fault => .fault
  | .ok head =>
    match remove_binding fuel s.pool head target keycode with
    | .fuel => .fuel
    | .fault => .fault
    | .ok r => .ok { writeCell s c r.1 with pool := r.2 }

/-- The call `activate (cell, keycode)`. -/
def activate_at (fuel : Nat) (s : Store) (m : Mem) (c : Cell) (keycode : Int) : Res Mem :=
  match readCell s c with
  | .fuel => .fuel
  | .fault => .fault
  | .ok head => activate s.pool keycode fuel head m

/-- The call `deactivate (cell, keycode)`. -/
def deactivate_at (fuel : Nat) (s : Store) (m : Mem) (c : Cell) (keycode : Int) : Res Mem :=
  match readCell s c with
  | .fuel => .fuel
  | .fault => .fault
  | .ok head => deactivate s.pool keycode fuel head m

/-! ## Keyboard bindings and dispatch (vcontrol.c lines 425-436, 654-664) -/

/-- The index expression `symbol % KEYBOARD_INPUT_BUCKETS` of C, which
truncates towards zero. -/
def bucketIndex (symbol : Int) : Int :=
  Int.tmod symbol KEYBOARD_INPUT_BUCKETS

/-- The function `VControl_AddKeyBinding`; the second component is the
returned status.  A negative index is outside the array `bindings`. -/
def VControl_AddKeyBinding (fuel : Nat) (s : Store) (symbol : Int) (target : Nat) :
    Res (Store × Int) :=
  if bucketIndex symbol < 0 then .fault
  else
    match add_at fuel s (.bucket (bucketIndex symbol).toNat) target symbol with
    | .fuel => .fuel
    | .fault => .fault
    | .ok s1 => .ok (s1, 0)

/-- The function `VControl_RemoveKeyBinding`. -/
def VControl_RemoveKeyBinding (fuel : Nat) (s : Store) (symbol : Int) (target : Nat) :
    Res Store :=
  if bucketIndex symbol < 0 then .fault
  else remove_at fuel s (.bucket (bucketIndex symbol).toNat) target symbol

/-- The function `VControl_ProcessKeyDown`. -/
def VControl_ProcessKeyDown (fuel : Nat) (s : Store) (m : Mem) (symbol : Int) : Res Mem :=
  if bucketIndex symbol < 0 then .fault
  else activate_at fuel s m (.bucket (bucketIndex symbol).toNat) symbol

/-- The function `VControl_ProcessKeyUp`. -/
def VControl_ProcessKeyUp (fuel : Nat) (s : Store) (m : Mem) (symbol : Int) : Res Mem :=
  if bucketIndex symbol < 0 then .fault
  else deactivate_at fuel s m (.bucket (bucketIndex symbol).toNat) symbol

/-! ## Joystick bindings (vcontrol.c lines 438-645) -/

/-- The common prologue `joystick *j = &joysticks[port]; if (!(j->stick))
create_joystick (port);` of the joystick binding functions, for a port already
checked against `joycount`.  Returns the store and the record `*j`. -/
def open_port (host : Host) (s : Store) (port : Nat) : Res (Store × joystick) :=
  match s.joysticks[port]? with
  | none => .fault
  | some j0 =>
    let s1 := if j0.stick then s else create_joystick host s port
    match s1.joysticks[port]? with
    | none => .fault
    | some j => .ok (s1, j)

/-- Attach the status `0` to a store outcome. -/
def status0 : Res Store → Res (Store × Int)
  | .ok s => .ok (s, 0)
  | .fuel => .fuel
  | .fault => .fault

/-- The function `VControl_AddJoyAxisBinding`. -/
def VControl_AddJoyAxisBinding (host : Host) (fuel : Nat) (s : Store)
    (port axis polarity : Int) (target : Nat) : Res (Store × Int) :=
  if 0 ≤ port ∧ port < s.joycount then
    match open_port host s port.toNat with
    | .fuel => .fuel
    | .fault => .fault
    | .ok (s1, j) =>
      if 0 ≤ axis ∧ axis < j.numaxes then
        if polarity < 0 then
          status0 (add_at fuel s1 (.axis port.toNat axis.toNat false) target SDLK_UNKNOWN)
        else if polarity > 0 then
          status0 (add_at fuel s1 (.axis port.toNat axis.toNat true) target SDLK_UNKNOWN)
        else .ok (s1, -1)
      else .ok (s1, -1)
  else .ok (s, -1)

/-- The function `VControl_RemoveJoyAxisBinding`. -/
def VControl_RemoveJoyAxisBinding (host : Host) (fuel : Nat) (s : Store)
    (port axis polarity : Int) (target : Nat) : Res Store :=
  if 0 ≤ port ∧ port < s.joycount then
    match open_port host s port.toNat with
    | .fuel => .fuel
    | .fault => .fault
    | .ok (s1, j) =>
      if 0 ≤ axis ∧ axis < j.numaxes then
        if polarity < 0 then
          remove_at fuel s1 (.axis port.toNat axis.toNat false) target SDLK_UNKNOWN
        else if polarity > 0 then
          remove_at fuel s1 (.axis port.toNat axis.toNat true) target SDLK_UNKNOWN
        else .ok s1
      else .ok s1
  else .ok s

/-- The function `VControl_AddJoyButtonBinding`. -/
def VControl_AddJoyButtonBinding (host : Host) (fuel : Nat) (s : Store)
    (port button : Int) (target : Nat) : Res (Store × Int) :=
  if 0 ≤ port ∧ port < s.joycount then
    match open_port host s port.toNat with
    | .fuel => .fuel
    | .fault => .fault
    | .ok (s1, j) =>
      if 0 ≤ button ∧ button < j.numbuttons then
        status0 (add_at fuel s1 (.button port.toNat button.toNat) target SDLK_UNKNOWN)
      else .ok (s1, -1)
  else .ok (s, -1)

/-- The function `VControl_RemoveJoyButtonBinding`. -/
def VControl_RemoveJoyButtonBinding (host : Host) (fuel : Nat) (s : Store)
    (port button : Int) (target : Nat) : Res Store :=
  if 0 ≤ port ∧ port < s.joycount then
    match open_port host s port.toNat with
    | .fuel => .fuel
    | .fault => .fault
    | .ok (s1, j) =>
      if 0 ≤ button ∧ button < j.numbuttons then
        remove_at fuel s1 (.button port.toNat button.toNat) target SDLK_UNKNOWN
      else .ok s1
  else .ok s

/-- The chain a hat binding call addresses: `dir` must be exactly one of the
four direction values. -/
def hatDirOf (dir : Nat) : Option HatDir :=
  if dir = SDL_HAT_LEFT then some .left
  else if dir = SDL_HAT_RIGHT then some .right
  else if dir = SDL_HAT_UP then some .up
  else if dir = SDL_HAT_DOWN then some .down
  else none

/-- The function `VControl_AddJoyHatBinding`; `dir` is a `Uint8`. -/
def VControl_AddJoyHatBinding (host : Host) (fuel : Nat) (s : Store)
    (port which : Int) (dir : Nat) (target : Nat) : Res (Store × Int) :=
  if 0 ≤ port ∧ port < s.joycount then
    match open_port host s port.toNat with
    | .fuel => .fuel
    | .fault => .fault
    | .ok (s1, j) =>
      if 0 ≤ which ∧ which < j.numhats then
        match hatDirOf dir with
        | some d => status0 (add_at fuel s1 (.hat port.toNat which.toNat d) target SDLK_UNKNOWN)
        | none => .ok (s1, -1)
      else .ok (s1, -1)
  else .ok (s, -1)

/-- The function `VControl_RemoveJoyHatBinding`. -/
def VControl_RemoveJoyHatBinding (host : Host) (fuel : Nat) (s : Store)
    (port which : Int) (dir : Nat) (target : Nat) : Res Store :=
  if 0 ≤ port ∧ port < s.joycount then
    match open_port host s port.toNat with
    | .fuel => .fuel
    | .fault => .fault
    | .ok (s1, j) =>
      if 0 ≤ which ∧ which < j.numhats then
        match hatDirOf dir with
        | some d => remove_at fuel s1 (.hat port.toNat which.toNat d) target SDLK_UNKNOWN
        | none => .ok s1
      else .ok s1
  else .ok s

/-! ## Joystick dispatch (vcontrol.c lines 666-751) -/

/-- The record `joysticks[port]` for a C `int` port; no range check is made
by the dispatch functions. -/
def joystickAt (s : Store) (port : Int) : Res joystick :=
  if port < 0 then .fault else Res.ofOption s.joysticks[port.toNat]?

/-- The function `VControl_ProcessJoyButtonDown`. -/
def VControl_ProcessJoyButtonDown (fuel : Nat) (s : Store) (m : Mem) (port button : Int) :
    Res Mem :=
  match joystickAt s port with
  | .fuel => .fuel
  | .fault => .fault
  | .ok j =>
    if !j.stick then .ok m
    else if button < 0 then .fault
    else activate_at fuel s m (.button port.toNat button.toNat) SDLK_UNKNOWN

/-- The function `VControl_ProcessJoyButtonUp`. -/
def VControl_ProcessJoyButtonUp (fuel : Nat) (s : Store) (m : Mem) (port button : Int) :
    Res Mem :=
  match joystickAt s port with
  | .fuel => .fuel
  | .fault => .fault
  | .ok j =>
    if !j.stick then .ok m
    else if button < 0 then .fault
    else deactivate_at fuel s m (.button port.toNat button.toNat) SDLK_UNKNOWN

/-- The assignment `joysticks[port].axes[a].polarity = v`. -/
def setPolarity (s : Store) (port a : Nat) (v : Int) : Store :=
  match s.joysticks[port]? with
  | none => s
  | some j =>
    match j.axes[a]? with
    | none => s
    | some x =>
      let j1 : joystick := { j with axes := j.axes.set a { x with polarity := v } }
      { s with joysticks := s.joysticks.set port j1 }

/-- The function `VControl_ProcessJoyAxis`. -/
def VControl_ProcessJoyAxis (fuel : Nat) (s : Store) (m : Mem) (port a value : Int) :
    Res (Store × Mem) :=
  match joystickAt s port with
  | .fuel => .fuel
  | .fault => .fault
  | .ok j =>
    if !j.stick then .ok (s, m)
    else if a < 0 then .fault
    else
      match j.axes[a.toNat]? with
      | none => .fault
      | some x =>
        let t := j.threshold
        if value > t then
          if x.polarity ≠ 1 then
            ((if x.polarity = -1 then deactivate s.pool SDLK_UNKNOWN fuel x.neg m
              else .ok m).bind
              (activate s.pool SDLK_UNKNOWN fuel x.pos)).bind
              (fun m2 => .ok (setPolarity s port.toNat a.toNat 1, m2))
          else .ok (s, m)
        else if value < -t then
          if x.polarity ≠ -1 then
            ((if x.polarity = 1 then deactivate s.pool SDLK_UNKNOWN fuel x.pos m
              else .ok m).bind
              (activate s.pool SDLK_UNKNOWN fuel x.neg)).bind
              (fun m2 => .ok (setPolarity s port.toNat a.toNat (-1), m2))
          else .ok (s, m)
        else
          (if x.polarity = -1 then deactivate s.pool SDLK_UNKNOWN fuel x.neg m
           else if x.polarity = 1 then deactivate s.pool SDLK_UNKNOWN fuel x.pos m
           else .ok m).bind
            (fun m1 => .ok (setPolarity s port.toNat a.toNat 0, m1))

/-- The C test `mask & bit`. -/
def hatBit (mask bit : Nat) : Bool :=
  mask &&& bit != 0

/-- One of the first four `if` statements of `VControl_ProcessJoyHat`. -/
def hat_press (pool : List keypool) (fuel : Nat) (old value bit : Nat) (chain : Option Ptr)
    (m : Mem) : Res Mem :=
  if !hatBit old bit && hatBit value bit then activate pool SDLK_UNKNOWN fuel chain m
  else .ok m

/-- One of the last four `if` statements of `VControl_ProcessJoyHat`. -/
def hat_release (pool : List keypool) (fuel : Nat) (old value bit : Nat) (chain : Option Ptr)
    (m : Mem) : Res Mem :=
  if hatBit old bit && !hatBit value bit then deactivate pool SDLK_UNKNOWN fuel chain m
  else .ok m

/-- The assignment `joysticks[port].hats[h].last = v`. -/
def setLast (s : Store) (port h : Nat) (v : Nat) : Store :=
  match s.joysticks[port]? with
  | none => s
  | some j =>
    match j.hats[h]? with
    | none => s
    | some x =>
      let j1 : joystick := { j with hats := j.hats.set h { x with last := v } }
      { s with joysticks := s.joysticks.set port j1 }

/-- The function `VControl_ProcessJoyHat`; `value` is a `Uint8`. -/
def VControl_ProcessJoyHat (fuel : Nat) (s : Store) (m : Mem) (port which : Int) (value : Nat) :
    Res (Store × Mem) :=
  match joystickAt s port with
  | .fuel => .fuel
  | .fault => .fault
  | .ok j =>
    if !j.stick then .ok (s, m)
    else if which < 0 then .fault
    else
      match j.hats[which.toNat]? with
      | none => .fault
      | some x =>
        let old := x.last
        ((((((((hat_press s.pool fuel old value SDL_HAT_LEFT x.left m).bind
          (hat_press s.pool fuel old value SDL_HAT_RIGHT x.right)).bind
          (hat_press s.pool fuel old value SDL_HAT_UP x.up)).bind
          (hat_press s.pool fuel old value SDL_HAT_DOWN x.down)).bind
          (hat_release s.pool fuel old value SDL_HAT_LEFT x.left)).bind
          (hat_release s.pool fuel old value SDL_HAT_RIGHT x.right)).bind
          (hat_release s.pool fuel old value SDL_HAT_UP x.up)).bind
          (hat_release s.pool fuel old value SDL_HAT_DOWN x.down)).bind
          (fun m1 => .ok (setLast s port.toNat which.toNat value, m1))

/-! ## VControl_ResetInput and VControl_HandleEvent (vcontrol.c lines 753-806) -/

/-- The inner `for` loop of `VControl_ResetInput` over the slots of one chunk,
from index `i`. -/
def reset_chunk : List keybinding → Nat → Mem → Mem
  | [], _, m => m
  | b :: bs, i, m =>
    if POOL_CHUNK_SIZE ≤ i then m
    else reset_chunk bs (i + 1) (if b.target = 0 then m else Function.update m b.target 0)

/-- The function `VControl_ResetInput`. -/
def VControl_ResetInput (s : Store) (m : Mem) : Mem :=
  s.pool.foldl (fun acc c => reset_chunk c.pool 0 acc) m

/-- The events `VControl_HandleEvent` tells apart. -/
inductive SDL_Event where
  | keyDown (sym : Int) (isRepeat : Bool)
  | keyUp (sym : Int)
  | joyAxisMotion (which a value : Int)
  | joyHatMotion (which h : Int) (value : Nat)
  | joyButtonDown (which button : Int)
  | joyButtonUp (which button : Int)
  | other
  deriving DecidableEq, Repr

/-- The key-name functions of keynames.h, `VControl_code2name` and
`VControl_name2code`, whose source is not part of vcontrol.c: they are taken
as given.  `none` is a `NULL` string; a name that is no key has code 0. -/
structure KeyNames where
  code2name : Int → Option (List Char)
  name2code : List Char → Int

/-- The C test `isspace (c)` in the "C" locale. -/
def isspace (c : Char) : Bool :=
  c = ' ' || (9 ≤ c.toNat && c.toNat ≤ 13)

/-- The C test `!strcasecmp (a, b)`: the strings are equal up to letter case. -/
def strcaseeq (a b : List Char) : Bool :=
  a.map Char.toLower = b.map Char.toLower

/-- The loop of `target2name` over the entries of the table, which ends at the
first entry with a `NULL` target (the end of the list stands for the
terminating entry). -/
def target2name_loop : List VControl_NameBinding → Nat → Option (List Char)
  | [], _ => none
  | b :: bs, target =>
    if b.target = 0 then none
    else if target = b.target then some b.name
    else target2name_loop bs target

/-- The function `target2name`; the result `none` is the `NULL` string.
Without a registered table the function dereferences `NULL`. -/
def target2name (s : Store) (target : Nat) : Res (Option (List Char)) :=
  match s.nametable with
  | none => .fault
  | some table => .ok (target2name_loop table target)

/-- The loop of `name2target`. -/
def name2target_loop : List VControl_NameBinding → List Char → Nat
  | [], _ => 0
  | b :: bs, name =>
    if b.target = 0 then 0
    else if strcaseeq name b.name then b.target
    else name2target_loop bs name

/-- The function `name2target`; the result 0 is `NULL`. -/
def name2target (s : Store) (name : List Char) : Res Nat :=
  match s.nametable with
  | none => .fault
  | some table => .ok (name2target_loop table name)

/-! ## VControl_Dump (vcontrol.c lines 844-929) -/

/-- The digit character of a number below 10. -/
def digitChar (d : Nat) : Char :=
  Char.ofNat (48 + d)

/-- The decimal digits of `n` put in front of `acc`, at most `k` of them. -/
def natDigits : Nat → Nat → List Char → List Char
  | 0, _, acc => acc
  | k + 1, n, acc =>
    if n / 10 = 0 then digitChar (n % 10) :: acc
    else natDigits k (n / 10) (digitChar (n % 10) :: acc)

/-- What `printf` writes for `%d`. -/
def fmt_d (v : Int) : List Char :=
  if v < 0 then '-' :: natDigits (v.natAbs + 1) v.natAbs []
  else natDigits (v.natAbs + 1) v.natAbs []

/-- The function `dump_keybindings`: one line per binding of the chain.  A
`NULL` string given to `%s`, and a key name that does not fit `namebuffer`
(64 bytes with `"key "` and the terminator), are undefined behaviour. -/
def dump_keybindings (keys : KeyNames) (s : Store) (name : List Char) :
    Nat → Option Ptr → Res (List Char)
  | _, none => .ok []
  | 0, some _ => .fuel
  | n + 1, some p =>
    (slotAt s.pool p).bind fun b =>
    (target2name s b.target).bind fun tn =>
    match tn with
    | none => .fault
    | some targetname =>
      (if b.keycode = SDLK_UNKNOWN then
        Res.ok (targetname ++ ": ".toList ++ name ++ ['\n'])
      else
        match keys.code2name b.keycode with
        | none => .fault
        | some kn =>
          if 59 < kn.length then .fault
          else Res.ok (targetname ++ ": ".toList ++ ("key ".toList ++ kn) ++ ['\n'])).bind
      fun line => (dump_keybindings keys s name n b.next).bind fun rest => .ok (line ++ rest)

/-- The first loop of `VControl_Dump`, over the buckets. -/
def dump_buckets (keys : KeyNames) (s : Store) (fuel : Nat) :
    List (Option Ptr) → Res (List Char)
  | [] => .ok []
  | kb :: kbs =>
    (dump_keybindings keys s "<Unknown key>".toList fuel kb).bind fun t =>
    (dump_buckets keys s fuel kbs).bind fun rest => .ok (t ++ rest)

/-- The loop over the axes of device `i`, from axis `j` on. -/
def dump_axes (keys : KeyNames) (s : Store) (fuel : Nat) (i : Nat) :
    Nat → List axis → Res (List Char)
  | _, [] => .ok []
  | j, x :: xs =>
    (dump_keybindings keys s
      ("joystick ".toList ++ fmt_d i ++ " axis ".toList ++ fmt_d j ++ " negative".toList)
      fuel x.neg).bind fun t1 =>
    (dump_keybindings keys s
      ("joystick ".toList ++ fmt_d i ++ " axis ".toList ++ fmt_d j ++ " positive".toList)
      fuel x.pos).bind fun t2 =>
    (dump_axes keys s fuel i (j + 1) xs).bind fun rest => .ok (t1 ++ t2 ++ rest)

/-- The loop over the buttons of device `i`, from button `j` on. -/
def dump_buttons (keys : KeyNames) (s : Store) (fuel : Nat) (i : Nat) :
    Nat → List (Option Ptr) → Res (List Char)
  | _, [] => .ok []
  | j, kb :: kbs =>
    (dump_keybindings keys s
      ("joystick ".toList ++ fmt_d i ++ " button ".toList ++ fmt_d j) fuel kb).bind fun t =>
    (dump_buttons keys s fuel i (j + 1) kbs).bind fun rest => .ok (t ++ rest)

/-- The loop over the hats of device `i`, from hat `j` on. -/
def dump_hats (keys : KeyNames) (s : Store) (fuel : Nat) (i : Nat) :
    Nat → List hat → Res (List Char)
  | _, [] => .ok []
  | j, x :: xs =>
    (dump_keybindings keys s
      ("joystick ".toList ++ fmt_d i ++ " hat ".toList ++ fmt_d j ++ " left".toList)
      fuel x.left).bind fun t1 =>
    (dump_keybindings keys s
      ("joystick ".toList ++ fmt_d i ++ " hat ".toList ++ fmt_d j ++ " right".toList)
      fuel x.right).bind fun t2 =>
    (dump_keybindings keys s
      ("joystick ".toList ++ fmt_d i ++ " hat ".toList ++ fmt_d j ++ " up".toList)
      fuel x.up).bind fun t3 =>
    (dump_keybindings keys s
      ("joystick ".toList ++ fmt_d i ++ " hat ".toList ++ fmt_d j ++ " down".toList)
      fuel x.down).bind fun t4 =>
    (dump_hats keys s fuel i (j + 1) xs).bind fun rest => .ok (t1 ++ t2 ++ t3 ++ t4 ++ rest)

/-- The first `n` elements of a C array with count `n` held as a list; a list
that is shorter stands for an array read outside its bounds. -/
def arrayTake {α : Type} (xs : List α) (n : Int) : Res (List α) :=
  if (xs.length : Int) < n then .fault else .ok (xs.take n.toNat)

/-- The second loop of `VControl_Dump`, over the devices from port `i` on. -/
def dump_joysticks (keys : KeyNames) (s : Store) (fuel : Nat) :
    Nat → List joystick → Res (List Char)
  | _, [] => .ok []
  | i, j :: js =>
    (if j.stick then
      (arrayTake j.axes j.numaxes).bind fun axes =>
      (dump_axes keys s fuel i 0 axes).bind fun t1 =>
      (arrayTake j.buttons j.numbuttons).bind fun buttons =>
      (dump_buttons keys s fuel i 0 buttons).bind fun t2 =>
      (arrayTake j.hats j.numhats).bind fun hats =>
      (dump_hats keys s fuel i 0 hats).bind fun t3 =>
      Res.ok ("joystick ".toList ++ fmt_d i ++ " threshold ".toList ++ fmt_d j.threshold
        ++ ['\n'] ++ t1 ++ t2 ++ t3)
    else Res.ok []).bind fun t =>
    (dump_joysticks keys s fuel (i + 1) js).bind fun rest => .ok (t ++ rest)

/-- The function `VControl_Dump`: the text written to `out`. -/
def VControl_Dump (keys : KeyNames) (fuel : Nat) (s : Store) : Res (List Char) :=
  (arrayTake s.bindings KEYBOARD_INPUT_BUCKETS).bind fun buckets =>
  (dump_buckets keys s fuel buckets).bind fun t1 =>
  (arrayTake s.joysticks s.joycount).bind fun js =>
  (dump_joysticks keys s fuel 0 js).bind fun t2 => .ok (t1 ++ t2)

/-! ## Configuration parser (vcontrol.c lines 965-1322) -/

/-- The sizes of the line and token buffers. -/
def LINE_SIZE : Nat := 256
def TOKEN_SIZE : Nat := 64

/-- The struct `parse_state`.  The strings are held without their terminator;
`rest` is the part of `line` from position `index` on. -/
structure parse_state where
  line : List Char
  token : List Char
  rest : List Char
  error : Bool
  linenum : Nat
  deriving DecidableEq, Repr

/-- An input stream: the characters not yet read and the end-of-file
indicator that `feof` tests. -/
structure FILE where
  data : List Char
  eof : Bool
  deriving DecidableEq, Repr

/-- The NUL character, which ends a C string. -/
def NUL : Char := Char.ofNat 0

/-- First loop of `next_token`: skip the whitespace in front. -/
def skip_space : List Char → List Char
  | [] => []
  | c :: cs => if c ≠ NUL ∧ isspace c then skip_space cs else c :: cs

/-- Second loop of `next_token`: copy at most `n` characters of the word. -/
def copy_word : Nat → List Char → List Char
  | 0, _ => []
  | _ + 1, [] => []
  | n + 1, c :: cs => if c ≠ NUL ∧ !isspace c then c :: copy_word n cs else []

/-- The position after the second and third loop of `next_token`: the end of
the word. -/
def skip_word : List Char → List Char
  | [] => []
  | c :: cs => if c ≠ NUL ∧ !isspace c then skip_word cs else c :: cs

/-- The function `next_token`. -/
def next_token (st : parse_state) : parse_state :=
  { st with token := copy_word (TOKEN_SIZE - 1) (skip_space st.rest),
            rest := skip_word (skip_space st.rest) }

/-- The `for` loop of `next_line`, with `k` iterations left.  `first` tells
whether `i` is 0.  The result is the line, the stream, and whether the last
character obtained from `fgetc` is a newline. -/
def read_line : Nat → Bool → FILE → List Char × FILE × Bool
  | 0, _, f => ([], f, false)
  | k + 1, first, f =>
    if f.eof then ([], f, false)
    else
      match f.data with
      | [] => (if first then ['\n'] else [], { data := [], eof := true }, false)
      | c :: cs =>
        if c = '#' ∨ c = '\n' then
          (if first then ['\n'] else [], { data := cs, eof := false }, c = '\n')
        else
          let r := read_line k false { data := cs, eof := false }
          (c :: r.1, r.2.1, r.2.2)

/-- The `while` loop of `next_line` that skips to the end of the line, entered
when the last character is no newline and the end of file is not reached. -/
def skip_line : List Char → FILE
  | [] => { data := [], eof := true }
  | c :: cs => if c = '\n' then { data := cs, eof := false } else skip_line cs

/-- The function `next_line`. -/
def next_line (st : parse_state) (f : FILE) : parse_state × FILE :=
  let r := read_line (LINE_SIZE - 1) true f
  let f1 := if r.2.2 ∨ r.2.1.eof then r.2.1 else skip_line r.2.1.data
  ({ line := r.1, token := [], rest := r.1, error := false, linenum := st.linenum + 1 }, f1)

/-- The function `expected_error`. -/
def expected_error (st : parse_state) : parse_state :=
  { st with error := true }

/-- The function `consume`. -/
def consume (st : parse_state) (expected : List Char) : parse_state :=
  next_token (if strcaseeq expected st.token then st else expected_error st)

/-- The function `consume_keyname`. -/
def consume_keyname (keys : KeyNames) (st : parse_state) : parse_state × Int :=
  let keysym := keys.name2code st.token
  (next_token (if keysym = 0 then { st with error := true } else st), keysym)

/-- The function `consume_idname`; the second component is the target, 0
for `NULL`. -/
def consume_idname (s : Store) (st : parse_state) : Res (parse_state × Nat) :=
  match st.token.getLast? with
  | none => .ok ({ st with error := true }, 0)
  | some c =>
    if c ≠ ':' then .ok (expected_error st, 0)
    else
      (name2target s st.token.dropLast).bind fun result =>
      let st1 := next_token { st with token := st.token.dropLast }
      .ok (if result = 0 then { st1 with error := true } else st1, result)

/-- The value of a string of decimal digits, after `acc`. -/
def digitsValue : List Char → Nat → Nat
  | [], acc => acc
  | c :: cs, acc => digitsValue cs (10 * acc + (c.toNat - 48))

/-- The C function `strtol (s, &end, 10)` for a 64-bit `long`: the value and
the string at `end`. -/
def strtol (s : List Char) : Int × List Char :=
  let s1 := s.dropWhile isspace
  let neg := s1.head? = some '-'
  let s2 := if s1.head? = some '-' ∨ s1.head? = some '+' then s1.tail else s1
  let ds := s2.takeWhile Char.isDigit
  if ds = [] then (0, s)
  else
    let v : Int := if neg then -(digitsValue ds 0 : Int) else (digitsValue ds 0 : Int)
    (max (-(2 ^ 63)) (min (2 ^ 63 - 1) v), s2.dropWhile Char.isDigit)

/-- The conversion of a `long` to an `int`. -/
def toInt32 (v : Int) : Int :=
  (v + 2 ^ 31) % 2 ^ 32 - 2 ^ 31

/-- The function `consume_num`. -/
def consume_num (st : parse_state) : parse_state × Int :=
  let r := strtol st.token
  (next_token (if r.2 ≠ [] then { st with error := true } else st), toInt32 r.1)

/-- The function `consume_polarity`. -/
def consume_polarity (st : parse_state) : parse_state × Int :=
  if strcaseeq st.token "positive".toList then (next_token st, 1)
  else if strcaseeq st.token "negative".toList then (next_token st, -1)
  else (next_token (expected_error st), 0)

/-- The function `consume_dir`. -/
def consume_dir (st : parse_state) : parse_state × Nat :=
  if strcaseeq st.token "left".toList then (next_token st, SDL_HAT_LEFT)
  else if strcaseeq st.token "right".toList then (next_token st, SDL_HAT_RIGHT)
  else if strcaseeq st.token "up".toList then (next_token st, SDL_HAT_UP)
  else if strcaseeq st.token "down".toList then (next_token st, SDL_HAT_DOWN)
  else (next_token (expected_error st), 0)

/-- The end of a parsing function that has called the Binding Store: a
non-zero status sets the error flag. -/
def after_call (st : parse_state) (r : Res (Store × Int)) : Res (parse_state × Store) :=
  r.bind fun x => .ok (if x.2 ≠ 0 then { st with error := true } else st, x.1)

/-- The function `parse_joybinding`. -/
def parse_joybinding (host : Host) (fuel : Nat) (st : parse_state) (s : Store) (target : Nat) :
    Res (parse_state × Store) :=
  let st1 := consume st "joystick".toList
  let n1 := consume_num st1
  if n1.1.error then .ok (n1.1, s)
  else if strcaseeq n1.1.token "axis".toList then
    let n2 := consume_num (consume n1.1 "axis".toList)
    if n2.1.error then .ok (n2.1, s)
    else
      let pol := consume_polarity n2.1
      if pol.1.error then .ok (pol.1, s)
      else after_call pol.1 (VControl_AddJoyAxisBinding host fuel s n1.2 n2.2 pol.2 target)
  else if strcaseeq n1.1.token "button".toList then
    let n2 := consume_num (consume n1.1 "button".toList)
    if n2.1.error then .ok (n2.1, s)
    else after_call n2.1 (VControl_AddJoyButtonBinding host fuel s n1.2 n2.2 target)
  else if strcaseeq n1.1.token "hat".toList then
    let n2 := consume_num (consume n1.1 "hat".toList)
    if n2.1.error then .ok (n2.1, s)
    else
      let dir := consume_dir n2.1
      if dir.1.error then .ok (dir.1, s)
      else after_call dir.1 (VControl_AddJoyHatBinding host fuel s n1.2 n2.2 dir.2 target)
  else .ok (expected_error n1.1, s)

/-- The function `parse_binding`. -/
def parse_binding (host : Host) (keys : KeyNames) (fuel : Nat) (st : parse_state) (s : Store) :
    Res (parse_state × Store) :=
  (consume_idname s st).bind fun id =>
  if id.1.error then .ok (id.1, s)
  else if strcaseeq id.1.token "key".toList then
    let k := consume_keyname keys (consume id.1 "key".toList)
    if k.1.error then .ok (k.1, s)
    else after_call k.1 (VControl_AddKeyBinding fuel s k.2 id.2)
  else if strcaseeq id.1.token "joystick".toList then
    parse_joybinding host fuel id.1 s id.2
  else .ok (expected_error id.1, s)

/-- The function `parse_config_line`. -/
def parse_config_line (host : Host) (keys : KeyNames) (fuel : Nat) (st0 : parse_state)
    (s : Store) : Res (parse_state × Store) :=
  let st := next_token { st0 with error := false }
  if st.token = [] then .ok (st, s)
  else if strcaseeq st.token "joystick".toList then
    let n1 := consume_num (consume st "joystick".toList)
    let st2 := if n1.1.error then n1.1 else consume n1.1 "threshold".toList
    let n2 := if st2.error then (st2, 0) else consume_num st2
    if n2.1.error then .ok (n2.1, s)
    else after_call n2.1 (VControl_SetJoyThreshold s n1.2 n2.2)
  else parse_binding host keys fuel st s

/-- The loop of `VControl_ReadConfiguration`, with `fuel` iterations left. -/
def read_loop (host : Host) (keys : KeyNames) (fuel : Nat) :
    Nat → parse_state → FILE → Store → Int → Res (Store × Int)
  | 0, _, _, _, _ => .fuel
  | k + 1, st, f, s, errors =>
    let r := next_line st f
    if r.1.line.head? = none ∨ r.1.line.head? = some NUL then .ok (s, errors)
    else
      (parse_config_line host keys fuel r.1 s).bind fun x =>
      read_loop host keys fuel k x.1 r.2 x.2 (if x.1.error then errors + 1 else errors)

/-- The function `VControl_ReadConfiguration` on an open stream: the store
after the read and the number of errors returned. -/
def VControl_ReadConfiguration (host : Host) (keys : KeyNames) (fuel : Nat) (s : Store)
    (f : FILE) : Res (Store × Int) :=
  read_loop host keys fuel fuel
    { line := [], token := [], rest := [], error := false, linenum := 0 } f s 0

/-! ## Observations used to state properties -/

/-- The chain that starts at `head` visits exactly the slots `l` (address and
content) and then reaches `NULL`. -/
inductive Chain (pool : List keypool) : Option Ptr → List (Ptr × keybinding) → Prop where
  | nil : Chain pool none []
  | cons {p : Ptr} {b : keybinding} {l : List (Ptr × keybinding)} :
      slotAt pool p = .ok b → Chain pool b.next l → Chain pool (some p) ((p, b) :: l)

/-- The pair `(target, key code)` of a binding. -/
def keybinding.pair (b : keybinding) : Nat × Int :=
  (b.target, b.keycode)

/-- The chain that starts at `head` has no cycle and no `NULL` target; `bs`
are the pairs `(target, key code)` of its bindings in chain order. -/
def LiveChain (pool : List keypool) (head : Option Ptr) (bs : List (Nat × Int)) : Prop :=
  ∃ ps, Chain pool head ps ∧ ps.map (fun x => x.2.pair) = bs ∧ ∀ b ∈ bs, b.1 ≠ 0

/-- The cell `c` of the store holds a chain without a cycle whose bindings, in
chain order, are the pairs `l` of a non-`NULL` target and a key code. -/
def HoldsChain (s : Store) (c : Cell) (l : List (Nat × Int)) : Prop :=
  ∃ head, readCell s c = .ok head ∧ LiveChain s.pool head l

/-- The number of slots of the pool. -/
def poolSlots (pool : List keypool) : Nat :=
  (pool.map (fun c => c.pool.length)).sum

/-- The pairs `(target, key code)` met on a walk of at most `n` links. -/
def chain_pairs (pool : List keypool) : Nat → Option Ptr → List (Nat × Int)
  | _, none => []
  | 0, some _ => []
  | n + 1, some p =>
    match slotAt pool p with
    | .ok b => b.pair :: chain_pairs pool n b.next
    | .fuel => []
    | .fault => []

/-- The bindings of the chain held by a cell, in chain order.  The walk is cut
after as many links as the pool has slots, which a chain without a cycle does
not reach. -/
def cell_bindings (s : Store) (c : Cell) : List (Nat × Int) :=
  match readCell s c with
  | .ok head => chain_pairs s.pool (poolSlots s.pool) head
  | .fuel => []
  | .fault => []

/-- The effect of `activate` on the counters, for the pairs
`(target, key code)` of the bindings the chain visits in order. -/
def activate_list (keycode : Int) : List (Nat × Int) → Mem → Mem
  | [], m => m
  | b :: bs, m =>
    activate_list keycode bs
      (if b.2 = keycode then Function.update m b.1 (m b.1 + 1) else m)

/-- The effect of `deactivate` on the counters, for the pairs
`(target, key code)` of the bindings the chain visits in order. -/
def deactivate_list (keycode : Int) : List (Nat × Int) → Mem → Mem
  | [], m => m
  | b :: bs, m =>
    deactivate_list keycode bs
      (if b.2 = keycode ∧ 0 < m b.1 then Function.update m b.1 (m b.1 - 1)
       else m)

/-- How many of the pairs `bs` have key code `keycode` and target `a`. -/
def bound_count (keycode : Int) (bs : List (Nat × Int)) (a : Nat) : Int :=
  (bs.filter (fun b => b.2 = keycode ∧ b.1 = a)).length

/-- Every chain head cell of the store holds a chain without a cycle and
without a `NULL` target. -/
def ChainsOK (s : Store) : Prop :=
  ∀ c head, readCell s c = .ok head → ∃ bs, LiveChain s.pool head bs

/-- The caller's contract for an event: the key code has a bucket, the port
exists and, on an opened device, the axis, hat or button index is one the
device has. -/
def InRange (s : Store) : SDL_Event → Prop
  | .keyDown sym _ => 0 ≤ bucketIndex sym ∧ (bucketIndex sym).toNat < s.bindings.length
  | .keyUp sym => 0 ≤ bucketIndex sym ∧ (bucketIndex sym).toNat < s.bindings.length
  | .joyAxisMotion which a _ =>
    0 ≤ which ∧ ∃ j, s.joysticks[which.toNat]? = some j ∧
      (j.stick = true → 0 ≤ a ∧ a.toNat < j.axes.length)
  | .joyHatMotion which h _ =>
    0 ≤ which ∧ ∃ j, s.joysticks[which.toNat]? = some j ∧
      (j.stick = true → 0 ≤ h ∧ h.toNat < j.hats.length)
  | .joyButtonDown which b =>
    0 ≤ which ∧ ∃ j, s.joysticks[which.toNat]? = some j ∧
      (j.stick = true → 0 ≤ b ∧ b.toNat < j.buttons.length)
  | .joyButtonUp which b =>
    0 ≤ which ∧ ∃ j, s.joysticks[which.toNat]? = some j ∧
      (j.stick = true → 0 ≤ b ∧ b.toNat < j.buttons.length)
  | .other => True

/-- A step on the counters that returns on every memory and turns no counter
that is not negative into a negative one. -/
def SafeStep (run : Nat → Mem → Res Mem) : Prop :=
  ∃ F : Mem → Mem, (∀ m a, 0 ≤ m a → 0 ≤ F m a) ∧ ∀ m, Returns (fun n => run n m) (F m)

/-- The number of slots of a chunk whose target reference is `NULL`. -/
def freeCount (c : keypool) : Nat :=
  c.pool.countP (fun b => b.target = 0)

/-- The free-count invariant of one chunk: it has `POOL_CHUNK_SIZE` slots and
`remaining` is the number of them whose target reference is `NULL`. -/
def ChunkOK (c : keypool) : Prop :=
  c.pool.length = POOL_CHUNK_SIZE ∧ c.remaining = (freeCount c : Int)

/-- The pool is allocated and every chunk satisfies the free-count invariant. -/
def PoolOK (pool : List keypool) : Prop :=
  pool ≠ [] ∧ ∀ c ∈ pool, ChunkOK c

/-- The place where `add_binding` links a new slot: the cell handed in when
the chain is empty, else the `next` field of the last slot. -/
def endPlace (pl : Place) : List (Ptr × keybinding) → Place
  | [] => pl
  | x :: l => endPlace (.nextOf x.1) l

/-- The chain list after the `next` field of its last slot is set to `nb`. -/
def relink (nb : Ptr) : List (Ptr × keybinding) → List (Ptr × keybinding)
  | [] => []
  | [x] => [(x.1, { x.2 with next := some nb })]
  | x :: y :: l => x :: relink nb (y :: l)

/-- The free-count invariant with chunk `ci` counted apart: every chunk has
`POOL_CHUNK_SIZE` slots, and `remaining` is the number of free slots, plus `d`
in chunk `ci`. -/
def PoolOff (ci : Nat) (d : Int) (pool : List keypool) : Prop :=
  pool ≠ [] ∧ ∀ i c, pool[i]? = some c →
    c.pool.length = POOL_CHUNK_SIZE ∧ c.remaining = (freeCount c : Int) + (if i = ci then d else 0)

/-- The chains held by two different cells share no slot. -/
def ChainsDisjoint (s : Store) : Prop :=
  ∀ c1 c2 h1 h2 ps1 ps2, c1 ≠ c2 → readCell s c1 = .ok h1 → readCell s c2 = .ok h2 →
    Chain s.pool h1 ps1 → Chain s.pool h2 ps2 → ∀ x ∈ ps1, ∀ y ∈ ps2, x.1 ≠ y.1

/-- No chain holds the same pair `(target, key code)` twice. -/
def ChainsUnique (s : Store) : Prop :=
  ∀ c l, HoldsChain s c l → l.Nodup

/-- The invariant of the Binding Store: the free-count invariant of the pool,
and chains without a cycle, without a `NULL` target, without a shared slot and
without a repeated pair. -/
structure Inv (s : Store) : Prop where
  pool : PoolOK s.pool
  chains : ChainsOK s
  disjoint : ChainsDisjoint s
  unique : ChainsUnique s

/-- A host without joysticks. -/
def noJoyHost : Host :=
  { numJoysticks := 0, joystickOpen := fun _ => none, junkThreshold := fun _ => 0,
    junkNumhats := fun _ => 0, junkPolarity := fun _ _ => 0 }

/-- A host with one joystick that has two axes, two buttons and one hat. -/
def padHost : Host :=
  { numJoysticks := 1, joystickOpen := fun _ => some { axes := 2, buttons := 2, hats := 1 },
    junkThreshold := fun _ => 0, junkNumhats := fun _ => 0, junkPolarity := fun _ _ => 0 }

/-- Successive calls of `VControl_AddKeyBinding (symbol, target)`. -/
def bind_keys (fuel : Nat) : Store → List (Int × Nat) → Res Store
  | s, [] => .ok s
  | s, (symbol, target) :: rest =>
    match VControl_AddKeyBinding fuel s symbol target with
    | .ok r => bind_keys fuel r.1 rest
    | .fuel => .fuel
    | .fault => .fault

/-- The result of an outcome, or `d` when there is none. -/
def Res.getD {α : Type} (x : Res α) (d : α) : α :=
  match x with
  | .ok a => a
  | .fuel => d
  | .fault => d

/-- The store after `VControl_Init` and the binding of keys 1 and 513, which
share bucket 1, to the targets 100 and 200. -/
def twoKeys : Store :=
  (bind_keys 2 (VControl_Init noJoyHost) [(1, 100), (513, 200)]).getD (VControl_Init noJoyHost)

/-- The store `twoKeys` after key 1025, of the same bucket, is bound to the
target 300. -/
def threeKeys : Store :=
  ((VControl_AddKeyBinding 3 twoKeys 1025 300).getD (twoKeys, 0)).1

/-- The effect on the counters of a direction bit that `value` sets and `old`
does not have: the direction's chain, of pairs `bs`, is activated once. -/
def hat_press_list (old value bit : Nat) (bs : List (Nat × Int)) (m : Mem) : Mem :=
  if !hatBit old bit && hatBit value bit then activate_list SDLK_UNKNOWN bs m else m

/-- The effect on the counters of a direction bit that `old` has and `value`
clears: the direction's chain, of pairs `bs`, is deactivated once. -/
def hat_release_list (old value bit : Nat) (bs : List (Nat × Int)) (m : Mem) : Mem :=
  if hatBit old bit && !hatBit value bit then deactivate_list SDLK_UNKNOWN bs m else m

/-- Successive calls of `VControl_ProcessJoyAxis` on one axis, one per value. -/
def axis_run (fuel : Nat) (port a : Int) : List Int → Store × Mem → Res (Store × Mem)
  | [], r => .ok r
  | v :: vs, r => (VControl_ProcessJoyAxis fuel r.1 r.2 port a v).bind (axis_run fuel port a vs)

/-- Successive calls of `VControl_ProcessJoyHat` on one hat, one per mask. -/
def hat_run (fuel : Nat) (port which : Int) : List Nat → Store × Mem → Res (Store × Mem)
  | [], r => .ok r
  | v :: vs, r => (VControl_ProcessJoyHat fuel r.1 r.2 port which v).bind (hat_run fuel port which vs)

/-- The first component of a successful outcome, or `s`. -/
def Res.storeD (x : Res (Store × Int)) (s : Store) : Store :=
  match x with
  | .ok r => r.1
  | .fuel => s
  | .fault => s

/-- The store of the host `padHost` after `VControl_Init`, the threshold of
joystick 0 set to 10, axis 0 bound to target 100 on its positive side and to
target 200 on its negative side, and hat 0 bound to targets 300 (left), 400
(right), 500 (up) and 600 (down). -/
def padStore : Store :=
  let s0 := VControl_Init padHost
  let s1 := (VControl_SetJoyThreshold s0 0 10).storeD s0
  let s2 := (VControl_AddJoyAxisBinding padHost 1 s1 0 0 1 100).storeD s1
  let s3 := (VControl_AddJoyAxisBinding padHost 1 s2 0 0 (-1) 200).storeD s2
  let s4 := (VControl_AddJoyHatBinding padHost 1 s3 0 0 SDL_HAT_LEFT 300).storeD s3
  let s5 := (VControl_AddJoyHatBinding padHost 1 s4 0 0 SDL_HAT_RIGHT 400).storeD s4
  let s6 := (VControl_AddJoyHatBinding padHost 1 s5 0 0 SDL_HAT_UP 500).storeD s5
  (VControl_AddJoyHatBinding padHost 1 s6 0 0 SDL_HAT_DOWN 600).storeD s6

/-- The device record of joystick 0 in `padStore`. -/
def padDevice : joystick :=
  padStore.joysticks.headD
    { stick := false, numaxes := 0, numbuttons := 0, numhats := 0, threshold := 0,
      axes := [], buttons := [], hats := [] }

/-- The record of axis 0 of joystick 0 in `padStore`. -/
def padAxis : axis :=
  padDevice.axes.headD { neg := none, pos := none, polarity := 0 }

/-- The record of hat 0 of joystick 0 in `padStore`. -/
def padHat : hat :=
  padDevice.hats.headD { left := none, right := none, up := none, down := none, last := 0 }

/-- The axis `a` of the opened device `port` of store `s`: the pool, the
threshold, the heads of the two chains and the current polarity. -/
def AxisIs (s : Store) (port a : Nat) (pool : List keypool) (t : Int)
    (neg pos : Option Ptr) (pol : Int) : Prop :=
  ∃ j x, s.joysticks[port]? = some j ∧ j.stick = true ∧ j.threshold = t ∧
    j.axes[a]? = some x ∧ x.neg = neg ∧ x.pos = pos ∧ x.polarity = pol ∧ s.pool = pool

/-- The polarity an axis has after a value is processed under threshold `t`. -/
def polarityOf (t v : Int) : Int :=
  if v > t then 1 else if v < -t then -1 else 0

/-- A name table with one entry: the name `fire` for the target 100. -/
def fireTable : List VControl_NameBinding :=
  [{ name := "fire".toList, target := 100 }]

/-- Key names in which the key code 97 has the name `a`. -/
def aKeys : KeyNames :=
  { code2name := fun c => if c = 97 then some ['a'] else none,
    name2code := fun n => if n = ['a'] then 97 else 0 }

/-- The store of a host without joysticks after `VControl_Init` and the
registration of `fireTable`. -/
def fireFresh : Store :=
  VControl_RegisterNameTable (VControl_Init noJoyHost) fireTable

/-- The store `fireFresh` after `VControl_AddKeyBinding (SDLK_UNKNOWN, 100)`. -/
def unknownKeyStore : Store :=
  (VControl_AddKeyBinding 1 fireFresh SDLK_UNKNOWN 100).storeD fireFresh

/-- A string that `next_token` returns whole as one token when it is followed
by a blank or the end of the line: not empty, at most `TOKEN_SIZE - 1`
characters, none of them NUL or whitespace. -/
def IsWord (w : List Char) : Prop :=
  w ≠ [] ∧ w.length ≤ TOKEN_SIZE - 1 ∧ ∀ c ∈ w, c ≠ NUL ∧ isspace c = false

/-- The words `ws`, each with a blank in front. -/
def spaced : List (List Char) → List Char
  | [] => []
  | w :: ws => ' ' :: (w ++ spaced ws)

/-- The value is one of a C `int`. -/
def IsInt32 (v : Int) : Prop :=
  -(2 ^ 31) ≤ v ∧ v < 2 ^ 31

/-- The characters of `w` can stand in a word of a configuration line: none
is NUL, whitespace or `#`. -/
def PlainChars (w : List Char) : Prop :=
  ∀ c ∈ w, c ≠ NUL ∧ isspace c = false ∧ c ≠ '#'

/-- The target has a name in the table that reads back to it: `target2name`
finds a name of plain characters, short enough to make one token with its
colon, and `name2target` resolves that name to the same target. -/
def NamedTarget (table : List VControl_NameBinding) (target : Nat) : Prop :=
  ∃ nm, target2name_loop table target = some nm ∧ name2target_loop table nm = target ∧
    PlainChars nm ∧ nm.length ≤ TOKEN_SIZE - 2

/-- The key code is not `SDLK_UNKNOWN` and has a key name that reads back to
it: `VControl_code2name` gives a non-empty name of plain characters that fits
the name buffer, and `VControl_name2code` maps that name to the same code. -/
def NamedKey (keys : KeyNames) (code : Int) : Prop :=
  code ≠ SDLK_UNKNOWN ∧ ∃ kn, keys.code2name code = some kn ∧ keys.name2code kn = code ∧
    kn ≠ [] ∧ PlainChars kn ∧ kn.length ≤ 59

/-- The state `next_line` leaves for a line. -/
def lineState (line : List Char) (linenum : Nat) : parse_state :=
  { line := line, token := [], rest := line, error := false, linenum := linenum }

/-- The state of the parser at the end of a line without error. -/
def doneState (line : List Char) (linenum : Nat) : parse_state :=
  { line := line, token := [], rest := [], error := false, linenum := linenum }

/-- The state of the parser on a line of blank-separated words when the
current token is the first of the words `ws` and the others are not yet
scanned. -/
def tokState (line : List Char) (linenum : Nat) : List (List Char) → parse_state
  | [] => { line := line, token := [], rest := [], error := false, linenum := linenum }
  | w :: ws =>
    { line := line, token := w, rest := spaced ws, error := false, linenum := linenum }

/-- The SDL mask bit of a hat direction. -/
def dirBit : HatDir → Nat
  | .left => SDL_HAT_LEFT
  | .right => SDL_HAT_RIGHT
  | .up => SDL_HAT_UP
  | .down => SDL_HAT_DOWN

/-- The pairs of the four chains of hat 0 of joystick 0 in `padStore`. -/
def padHatPairs : HatDir → List (Nat × Int)
  | .left => [(300, 0)]
  | .right => [(400, 0)]
  | .up => [(500, 0)]
  | .down => [(600, 0)]

/-- The device records are as `key_init` and `create_joystick` leave them: one
record per device of the host; an unopened record has no axis, button or hat
record and axis and button counts 0; an opened record has the counts that the
host reports for its port and arrays of these lengths. -/
def DevicesOK (host : Host) (s : Store) : Prop :=
  s.joycount = s.joysticks.length ∧
    ∀ (p : Nat) (j : joystick), s.joysticks[p]? = some j →
      (j.stick = false → j.numaxes = 0 ∧ j.numbuttons = 0 ∧ j.axes = [] ∧ j.buttons = [] ∧
        j.hats = []) ∧
      (j.stick = true → ∃ caps, host.joystickOpen p = some caps ∧
        j.numaxes = caps.axes ∧ j.axes.length = caps.axes ∧
        j.numbuttons = caps.buttons ∧ j.buttons.length = caps.buttons ∧
        j.numhats = caps.hats ∧ j.hats.length = caps.hats)

/-- A run of blanks: whitespace characters only. -/
def IsBlank (sp : List Char) : Prop :=
  ∀ c ∈ sp, isspace c = true

/-- The text of a list of tokens, each with the run of blanks in front of it. -/
def joined : List (List Char × List Char) → List Char
  | [] => []
  | x :: r => x.1 ++ (x.2 ++ joined r)

/-- The tokens `ts` (each with the blanks in front of it) are separated: every
token is a word and, but for the first, has at least one blank in front. -/
def Separated : List (List Char × List Char) → Prop
  | [] => True
  | x :: r => IsBlank x.1 ∧ IsWord x.2 ∧ ∀ y ∈ r, y.1 ≠ [] ∧ IsBlank y.1 ∧ IsWord y.2

/-- The state of the parser on a line of tokens followed by the blanks `tail`
when the current token is the first of `ts` and the others are not yet
scanned. -/
def scanState (line : List Char) (linenum : Nat) (tail : List Char) :
    List (List Char × List Char) → parse_state
  | [] => { line := line, token := [], rest := [], error := false, linenum := linenum }
  | x :: r =>
    { line := line, token := x.2, rest := joined r ++ tail, error := false, linenum := linenum }

/-- The token `w` is a NUM of the grammar with value `v`: a non-empty string
of decimal digits whose value fits a C `int`. -/
def IsNum (w : List Char) (v : Int) : Prop :=
  w ≠ [] ∧ (∀ c ∈ w, ∃ d : Fin 10, c = digitChar d) ∧ v = (digitsValue w 0 : Nat) ∧ v < 2 ^ 31

/-- A call of the Binding Store that a configuration line stands for. -/
inductive Command where
  | key (target : Nat) (code : Int)
  | axis (target : Nat) (port a polarity : Int)
  | button (target : Nat) (port b : Int)
  | hat (target : Nat) (port h : Int) (dir : Nat)
  | threshold (port t : Int)
  deriving DecidableEq, Repr

/-- The call of the Binding Store that a command is. -/
def Command.run (host : Host) (fuel : Nat) (s : Store) : Command → Res (Store × Int)
  | .key target code => VControl_AddKeyBinding fuel s code target
  | .axis target port a polarity => VControl_AddJoyAxisBinding host fuel s port a polarity target
  | .button target port b => VControl_AddJoyButtonBinding host fuel s port b target
  | .hat target port h dir => VControl_AddJoyHatBinding host fuel s port h dir target
  | .threshold port t => VControl_SetJoyThreshold s port t

/-- The tokens are a sentence of the production `configline` of the grammar
(vcontrol.c lines 946-960), with keywords in any letter case, and the command
is the call it stands for. -/
inductive Sentence (table : List VControl_NameBinding) (keys : KeyNames) :
    List (List Char) → Command → Prop where
  | key {nm kw kn : List Char} :
      name2target_loop table nm ≠ 0 → strcaseeq kw "key".toList = true →
      keys.name2code kn ≠ 0 →
      Sentence table keys [nm ++ [':'], kw, kn]
        (.key (name2target_loop table nm) (keys.name2code kn))
  | axis {nm kwj np kwa na kwp : List Char} {p a pol : Int} :
      name2target_loop table nm ≠ 0 → strcaseeq kwj "joystick".toList = true → IsNum np p →
      strcaseeq kwa "axis".toList = true → IsNum na a →
      (strcaseeq kwp "positive".toList = true ∧ pol = 1 ∨
        strcaseeq kwp "negative".toList = true ∧ pol = -1) →
      Sentence table keys [nm ++ [':'], kwj, np, kwa, na, kwp]
        (.axis (name2target_loop table nm) p a pol)
  | button {nm kwj np kwb nb : List Char} {p b : Int} :
      name2target_loop table nm ≠ 0 → strcaseeq kwj "joystick".toList = true → IsNum np p →
      strcaseeq kwb "button".toList = true → IsNum nb b →
      Sentence table keys [nm ++ [':'], kwj, np, kwb, nb]
        (.button (name2target_loop table nm) p b)
  | hat {nm kwj np kwh nh kwd : List Char} {p h : Int} {d : HatDir} :
      name2target_loop table nm ≠ 0 → strcaseeq kwj "joystick".toList = true → IsNum np p →
      strcaseeq kwh "hat".toList = true → IsNum nh h →
      (strcaseeq kwd "left".toList = true ∧ d = .left ∨
        strcaseeq kwd "right".toList = true ∧ d = .right ∨
        strcaseeq kwd "up".toList = true ∧ d = .up ∨
        strcaseeq kwd "down".toList = true ∧ d = .down) →
      Sentence table keys [nm ++ [':'], kwj, np, kwh, nh, kwd]
        (.hat (name2target_loop table nm) p h (dirBit d))
  | threshold {kwj np kwt nt : List Char} {p t : Int} :
      strcaseeq kwj "joystick".toList = true → IsNum np p →
      strcaseeq kwt "threshold".toList = true → IsNum nt t →
      Sentence table keys [kwj, np, kwt, nt] (.threshold p t)

/-- The binding of `target` to the input `(c, keycode)` is in the store: the
chain that the cell `c` holds has the pair `(target, keycode)`. -/
def Bound (s : Store) (c : Cell) (target : Nat) (keycode : Int) : Prop :=
  ∃ l, HoldsChain s c l ∧ (target, keycode) ∈ l

/-- The host opens every device it counts. -/
def HostOpens (host : Host) : Prop :=
  ∀ p, p < host.numJoysticks → ∃ caps, host.joystickOpen p = some caps

/-- Every key code that `VControl_name2code` gives has a bucket: the index
`code % KEYBOARD_INPUT_BUCKETS` is not negative. -/
def KeysOK (keys : KeyNames) : Prop :=
  ∀ n, 0 ≤ bucketIndex (keys.name2code n)

/-- A store of the host with the name table `table` registered, as
`VControl_Init`, `VControl_RegisterNameTable` and the binding functions leave
it: the store invariant, the shape of the device records, 512 buckets and one
device record per device of the host. -/
structure Good (host : Host) (table : List VControl_NameBinding) (s : Store) : Prop where
  inv : Inv s
  devices : DevicesOK host s
  names : s.nametable = some table
  buckets : s.bindings.length = KEYBOARD_INPUT_BUCKETS
  count : s.joycount = host.numJoysticks

/-- The command can be run: its target is not `NULL` and its key code has a
bucket. -/
def Command.Safe : Command → Prop
  | .key target code => target ≠ 0 ∧ 0 ≤ bucketIndex code
  | .axis target _ _ _ => target ≠ 0
  | .button target _ _ => target ≠ 0
  | .hat target _ _ _ => target ≠ 0
  | .threshold _ _ => True

/-- The command addresses a port and an axis, button or hat that the host
has, with a polarity that is not 0 and a direction that is one of the four. -/
def Command.InRange (host : Host) : Command → Prop
  | .key _ _ => True
  | .axis _ port a polarity =>
    0 ≤ port ∧ port < host.numJoysticks ∧ polarity ≠ 0 ∧
      ∃ caps, host.joystickOpen port.toNat = some caps ∧ 0 ≤ a ∧ a < caps.axes
  | .button _ port b =>
    0 ≤ port ∧ port < host.numJoysticks ∧
      ∃ caps, host.joystickOpen port.toNat = some caps ∧ 0 ≤ b ∧ b < caps.buttons
  | .hat _ port h dir =>
    0 ≤ port ∧ port < host.numJoysticks ∧ (∃ d, dir = dirBit d) ∧
      ∃ caps, host.joystickOpen port.toNat = some caps ∧ 0 ≤ h ∧ h < caps.hats
  | .threshold port _ => 0 ≤ port ∧ port < host.numJoysticks

/-- The binding that the command adds when it succeeds: the target is bound
to the input `(c, keycode)`. -/
def Command.binds : Command → Cell → Nat → Int → Prop
  | .key target code, c, t, k =>
    c = .bucket (bucketIndex code).toNat ∧ t = target ∧ k = code
  | .axis target port a polarity, c, t, k =>
    c = .axis port.toNat a.toNat (decide (0 < polarity)) ∧ t = target ∧ k = SDLK_UNKNOWN
  | .button target port b, c, t, k =>
    c = .button port.toNat b.toNat ∧ t = target ∧ k = SDLK_UNKNOWN
  | .hat target port h dir, c, t, k =>
    (∃ d, dir = dirBit d ∧ c = .hat port.toNat h.toNat d) ∧ t = target ∧ k = SDLK_UNKNOWN
  | .threshold _ _, _, _, _ => False

/-- What a run of a command gives: a store of the same kind and the status 0
or -1; the status is 0 when the command is in range; with -1 the bindings are
those before, with 0 the binding of the command is added to them. -/
def RunsTo (host : Host) (table : List VControl_NameBinding) (s : Store) (cmd : Command)
    (s1 : Store) (r : Int) : Prop :=
  Returns (fun fuel => cmd.run host fuel s) (s1, r) ∧ Good host table s1 ∧
    (r = 0 ∨ r = -1) ∧ (cmd.InRange host → r = 0) ∧
    (r = -1 → ∀ c t k, Bound s1 c t k ↔ Bound s c t k) ∧
    (r = 0 → ∀ c t k, Bound s1 c t k ↔ Bound s c t k ∨ cmd.binds c t k)

/-- What `parse_config_line` comes to on a line: it changes nothing and leaves
the state `st1`, or it ends with a call of the Binding Store, made in a state
`st1` without error, with a command that can be run. -/
def LineDoes (host : Host) (run : Nat → Res (parse_state × Store)) (s : Store) : Prop :=
  (∃ st1, ∀ fuel, run fuel = .ok (st1, s)) ∨
    ∃ st1 cmd, st1.error = false ∧ Command.Safe cmd ∧
      ∀ fuel, run fuel = after_call st1 (cmd.run host fuel s)

/-- A line of a configuration stream with what the parser is to make of it: a
sentence of the grammar (tokens with the blanks in front of each, blanks
after the last) that stands for the command `cmd`, a blank line, or a line
that is in error.  Every line may end in a comment, which is empty or starts
with the character `#`. -/
inductive ConfigLine where
  | binding (ws : List (List Char × List Char)) (tail : List Char) (cmd : Command)
      (comment : List Char)
  | blank (sp : List Char) (comment : List Char)
  | flagged (content : List Char) (comment : List Char)

/-- The text of the line in front of its comment. -/
def ConfigLine.content : ConfigLine → List Char
  | .binding ws tail _ _ => joined ws ++ tail
  | .blank sp _ => sp
  | .flagged content _ => content

/-- The comment of the line. -/
def ConfigLine.comment : ConfigLine → List Char
  | .binding _ _ _ comment => comment
  | .blank _ comment => comment
  | .flagged _ comment => comment

/-- The command that the line stands for, if it is a sentence. -/
def ConfigLine.command : ConfigLine → Option Command
  | .binding _ _ cmd _ => some cmd
  | _ => none

/-- Whether the line is one in error. -/
def ConfigLine.isFlagged : ConfigLine → Bool
  | .flagged _ _ => true
  | _ => false

/-- The text of a stream of lines: a newline stands between two lines, so
that a stream that ends in a newline has an empty last line. -/
def streamText : List ConfigLine → List Char
  | [] => []
  | l :: ls =>
    match ls with
    | [] => l.content ++ l.comment
    | _ :: _ => l.content ++ (l.comment ++ '\n' :: streamText ls)

/-- The line is what it is given as.  In front of the comment it has at most
`LINE_SIZE - 1` characters, none of them a newline or `#`, and the comment has
no newline.  A sentence is one of the grammar with separated tokens and a
command in the range of the host; a blank line has whitespace only; a line in
error is one on which `parse_config_line` sets the error flag, in whatever
store of the host it is read. -/
def ConfigLine.OK (host : Host) (table : List VControl_NameBinding) (keys : KeyNames)
    (l : ConfigLine) : Prop :=
  l.content.length ≤ LINE_SIZE - 1 ∧ (∀ c ∈ l.content, c ≠ '\n' ∧ c ≠ '#') ∧
    (l.comment = [] ∨ l.comment.head? = some '#') ∧ (∀ c ∈ l.comment, c ≠ '\n') ∧
    match l with
    | .binding ws tail cmd _ =>
      Separated ws ∧ IsBlank tail ∧ Sentence table keys (ws.map Prod.snd) cmd ∧
        cmd.InRange host
    | .blank sp _ => IsBlank sp
    | .flagged content _ =>
      ∀ s, Good host table s → ∀ (st0 : parse_state) (fuel : Nat) (r : parse_state × Store),
        st0.rest = content → parse_config_line host keys fuel st0 s = .ok r →
          r.1.error = true

/-- The line buffer after `next_line` has read a line with the text `content`
in front of its comment: an empty line is held as a newline. -/
def lineOf (content : List Char) : List Char :=
  if content = [] then ['\n'] else content

/-- The shape of a line that `next_line` reads whole: at most `LINE_SIZE - 1`
characters in front of the comment, none of them a newline or `#`, and a
comment that is empty or starts with `#` and has no newline. -/
def ConfigLine.Shape (l : ConfigLine) : Prop :=
  l.content.length ≤ LINE_SIZE - 1 ∧ (∀ c ∈ l.content, c ≠ '\n' ∧ c ≠ '#') ∧
    (l.comment = [] ∨ l.comment.head? = some '#') ∧ (∀ c ∈ l.comment, c ≠ '\n')

/-- The parser makes of the line what the line is given as, in every good
store of the host: the line does not end the read, `parse_config_line`
returns, the store is good after it, the error flag is set exactly for a line
in error, and the bindings after it are those before it and the one of its
command. -/
def ConfigLine.Runs (host : Host) (keys : KeyNames) (table : List VControl_NameBinding)
    (l : ConfigLine) : Prop :=
  ∀ s, Good host table s → ∀ linenum : Nat,
    (lineOf l.content).head? ≠ some NUL ∧
      ∃ st1 s1,
        Returns (fun fuel => parse_config_line host keys fuel
          { line := lineOf l.content, token := [], rest := lineOf l.content, error := false,
            linenum := linenum } s) (st1, s1) ∧
        Good host table s1 ∧ st1.error = l.isFlagged ∧
        ∀ c t k, Bound s1 c t k ↔
          Bound s c t k ∨ ∃ cmd, l.command = some cmd ∧ cmd.binds c t k

/-- Three lines of a configuration stream for `fireTable` and `aKeys`: the
sentence `fire: key a`, the line `garbage`, which is in error, and the
sentence `fire: KEY a` followed by a blank and a comment. -/
def garbageLines : List ConfigLine :=
  [.binding [([], "fire:".toList), ([' '], "key".toList), ([' '], ['a'])] [] (.key 100 97) [],
   .flagged "garbage".toList [],
   .binding [([], "fire:".toList), ([' '], "KEY".toList), ([' '], ['a'])] [' '] (.key 100 97)
     "# again".toList]

/-- The store `s2` is built from the store `s` by the calls `cmds`, made in
order, each of which returns 0. -/
inductive Built (host : Host) : Store → List Command → Store → Prop where
  | nil (s : Store) : Built host s [] s
  | step {s s1 s2 : Store} {cmd : Command} {cmds : List Command} :
      Returns (fun fuel => cmd.run host fuel s) (s1, 0) → Built host s1 cmds s2 →
      Built host s (cmd :: cmds) s2

/-- The command is an add-binding call whose target has a name that reads back
to it and, for a key binding, whose key has a name that reads back to it. -/
def Command.Named (table : List VControl_NameBinding) (keys : KeyNames) : Command → Prop
  | .key target code => NamedTarget table target ∧ NamedKey keys code
  | .axis target _ _ _ => NamedTarget table target
  | .button target _ _ => NamedTarget table target
  | .hat target _ _ _ => NamedTarget table target
  | .threshold _ _ => False

/-- The values of type `int` that the host supplies are values of a C `int`:
the number of devices, the counts of an opened device, and the content of the
unassigned field `threshold`. -/
def HostFits (host : Host) : Prop :=
  host.numJoysticks < 2 ^ 31 ∧
    (∀ p caps, host.joystickOpen p = some caps →
      caps.axes < 2 ^ 31 ∧ caps.buttons < 2 ^ 31 ∧ caps.hats < 2 ^ 31) ∧
    ∀ p, IsInt32 (host.junkThreshold p)

/-- The key code `k` can stand in the chain of the cell `c`: a key code with a
name, in the bucket of the key code, or `SDLK_UNKNOWN` in a chain of a
joystick. -/
def CellKey (keys : KeyNames) : Cell → Int → Prop
  | .bucket i, k => NamedKey keys k ∧ 0 ≤ bucketIndex k ∧ (bucketIndex k).toNat = i
  | _, k => k = SDLK_UNKNOWN

/-- A store that `VControl_Dump` writes as lines that read back: a good store
in which every bound target has a name and every chain holds the key codes
that can stand in it. -/
def Dumpable (host : Host) (table : List VControl_NameBinding) (keys : KeyNames)
    (s : Store) : Prop :=
  Good host table s ∧ ∀ c t k, Bound s c t k → NamedTarget table t ∧ CellKey keys c k

/-- The word of the grammar for a hat direction. -/
def dirName : HatDir → List Char
  | .left => "left".toList
  | .right => "right".toList
  | .up => "up".toList
  | .down => "down".toList

/-- The string that `VControl_Dump` passes to `dump_keybindings` with the
chain of a cell. -/
def cellName : Cell → List Char
  | .bucket _ => "<Unknown key>".toList
  | .axis p a positive =>
    "joystick ".toList ++ fmt_d p ++ " axis ".toList ++ fmt_d a ++
      (if positive then " positive".toList else " negative".toList)
  | .button p b => "joystick ".toList ++ fmt_d p ++ " button ".toList ++ fmt_d b
  | .hat p h d => "joystick ".toList ++ fmt_d p ++ " hat ".toList ++ fmt_d h ++ ' ' :: dirName d

/-- The words of the line of a binding after the name of the target: the
input of the cell, with the key name `kn` for a key. -/
def cellWords (kn : List Char) : Cell → List (List Char)
  | .bucket _ => ["key".toList, kn]
  | .axis p a positive =>
    ["joystick".toList, fmt_d p, "axis".toList, fmt_d a,
      if positive then "positive".toList else "negative".toList]
  | .button p b => ["joystick".toList, fmt_d p, "button".toList, fmt_d b]
  | .hat p h d => ["joystick".toList, fmt_d p, "hat".toList, fmt_d h, dirName d]

/-- The add-binding call for the binding of `target` to the input of a cell;
`k` is the key code of a key. -/
def cellCommand (target : Nat) (k : Int) : Cell → Command
  | .bucket _ => .key target k
  | .axis p a positive => .axis target p a (if positive then 1 else -1)
  | .button p b => .button target p b
  | .hat p h d => .hat target p h (dirBit d)

/-- The line that `dump_keybindings` writes for the binding `b` of the chain
of the cell `c`: the name of the target with a colon and the words of the
input, one blank between two words, and the command the line stands for. -/
def bindingLine (table : List VControl_NameBinding) (keys : KeyNames) (c : Cell)
    (b : Nat × Int) : ConfigLine :=
  .binding
    (([], (target2name_loop table b.1).getD [] ++ [':']) ::
      (cellWords ((keys.code2name b.2).getD []) c).map fun w => ([' '], w))
    [] (cellCommand b.1 b.2 c) []

/-- The line `joystick p threshold t` that `VControl_Dump` writes for an
opened device. -/
def thresholdLine (p : Nat) (t : Int) : ConfigLine :=
  .binding [([], "joystick".toList), ([' '], fmt_d p), ([' '], "threshold".toList),
    ([' '], fmt_d t)] [] (.threshold p t) []

/-- The text of lines that each end in a newline. -/
def linesText : List ConfigLine → List Char
  | [] => []
  | l :: ls => l.content ++ (l.comment ++ '\n' :: linesText ls)

/-- The text is one of lines that read back, and the commands of the lines
are the bindings that the store holds in the cells `P`. -/
def Renders (host : Host) (keys : KeyNames) (table : List VControl_NameBinding) (s : Store)
    (P : Cell → Prop) (text : List Char) : Prop :=
  ∃ ls : List ConfigLine, text = linesText ls ∧
    (∀ x ∈ ls, x.Shape ∧ x.Runs host keys table ∧ x.isFlagged = false) ∧
    ∀ c t k, (P c ∧ Bound s c t k) ↔
      ∃ x ∈ ls, ∃ cmd, x.command = some cmd ∧ cmd.binds c t k

/-- The cell is one of the host: a bucket, or an axis, button or hat that an
opened device of the host has. -/
def CellInRange (host : Host) : Cell → Prop
  | .bucket i => i < KEYBOARD_INPUT_BUCKETS
  | .axis p a _ =>
    p < host.numJoysticks ∧ ∃ caps, host.joystickOpen p = some caps ∧ a < caps.axes
  | .button p b =>
    p < host.numJoysticks ∧ ∃ caps, host.joystickOpen p = some caps ∧ b < caps.buttons
  | .hat p h _ =>
    p < host.numJoysticks ∧ ∃ caps, host.joystickOpen p = some caps ∧ h < caps.hats

/-- The text that `dump_keybindings` writes for the binding `b` of a chain
that it walks with the string `name`. -/
def entryText (table : List VControl_NameBinding) (keys : KeyNames) (name : List Char)
    (b : Nat × Int) : List Char :=
  (target2name_loop table b.1).getD [] ++ ": ".toList ++
    (if b.2 = SDLK_UNKNOWN then name else "key ".toList ++ (keys.code2name b.2).getD []) ++
    ['\n']

/-- What is to be known of the line of a binding: its text is the text that
`dump_keybindings` writes, it reads back, and its command binds the target to
the input of the cell. -/
def LineFine (host : Host) (keys : KeyNames) (table : List VControl_NameBinding) (c : Cell)
    (b : Nat × Int) : Prop :=
  linesText [bindingLine table keys c b] = entryText table keys (cellName c) b ∧
    (bindingLine table keys c b).Shape ∧ (bindingLine table keys c b).Runs host keys table ∧
    ∀ c' t' k', (cellCommand b.1 b.2 c).binds c' t' k' ↔ c' = c ∧ t' = b.1 ∧ k' = b.2

/-- The text that `dump_keybindings` writes for a chain with the bindings
`l`, which it walks with the string `name`. -/
def chainText (table : List VControl_NameBinding) (keys : KeyNames) (name : List Char) :
    List (Nat × Int) → List Char
  | [] => []
  | b :: bs => entryText table keys name b ++ chainText table keys name bs

/-- The port of the device that a cell belongs to; a bucket has none. -/
def Cell.port? : Cell → Option Nat
  | .bucket _ => none
  | .axis p _ _ => some p
  | .button p _ => some p
  | .hat p _ _ => some p

/-- Two add-binding calls for `fireTable` and `aKeys` on the host `padHost`:
the key `a` and the positive side of axis 1 of joystick 0, both to the target
`fire`. -/
def fireCalls : List Command :=
  [.key 100 97, .axis 100 0 1 1]

/-- The store of `padHost` with `fireTable` registered. -/
def padFresh : Store :=
  VControl_RegisterNameTable (VControl_Init padHost) fireTable

/-- The store `padFresh` after the first of the calls `fireCalls`. -/
def padFireKey : Store :=
  ((Command.key 100 97).run padHost 1 padFresh).storeD padFresh

/-- The store `padFresh` after the calls `fireCalls`. -/
def padFire : Store :=
  ((Command.axis 100 0 1 1).run padHost 1 padFireKey).storeD padFireKey

/-- Key names in which the key code 97 has the name `a b`, with a blank; the
two functions are inverse to each other on this key. -/
def blankKeys : KeyNames :=
  { code2name := fun c => if c = 97 then some "a b".toList else none,
    name2code := fun n => if n = "a b".toList then 97 else 0 }

/-- A call of the library that changes the bindings: the four add-binding
functions, the four remove-binding functions and
`VControl_RemoveAllBindings`. -/
inductive BindingCall where
  | addKey (symbol : Int) (target : Nat)
  | removeKey (symbol : Int) (target : Nat)
  | addAxis (port axis polarity : Int) (target : Nat)
  | removeAxis (port axis polarity : Int) (target : Nat)
  | addButton (port button : Int) (target : Nat)
  | removeButton (port button : Int) (target : Nat)
  | addHat (port which : Int) (dir : Nat) (target : Nat)
  | removeHat (port which : Int) (dir : Nat) (target : Nat)
  | removeAll
  deriving DecidableEq, Repr

/-- The store after a call that changes the bindings; the status that an add
function returns is dropped. -/
def BindingCall.run (host : Host) (fuel : Nat) (s : Store) : BindingCall → Res Store
  | .addKey symbol target =>
    (VControl_AddKeyBinding fuel s symbol target).bind fun r => .ok r.1
  | .removeKey symbol target => VControl_RemoveKeyBinding fuel s symbol target
  | .addAxis port axis polarity target =>
    (VControl_AddJoyAxisBinding host fuel s port axis polarity target).bind fun r => .ok r.1
  | .removeAxis port axis polarity target =>
    VControl_RemoveJoyAxisBinding host fuel s port axis polarity target
  | .addButton port button target =>
    (VControl_AddJoyButtonBinding host fuel s port button target).bind fun r => .ok r.1
  | .removeButton port button target =>
    VControl_RemoveJoyButtonBinding host fuel s port button target
  | .addHat port which dir target =>
    (VControl_AddJoyHatBinding host fuel s port which dir target).bind fun r => .ok r.1
  | .removeHat port which dir target =>
    VControl_RemoveJoyHatBinding host fuel s port which dir target
  | .removeAll => .ok (VControl_RemoveAllBindings host s)

/-- The target that a call hands to the library; `VControl_RemoveAllBindings`
takes none. -/
def BindingCall.target : BindingCall → Option Nat
  | .addKey _ target => some target
  | .removeKey _ target => some target
  | .addAxis _ _ _ target => some target
  | .removeAxis _ _ _ target => some target
  | .addButton _ _ target => some target
  | .removeButton _ _ target => some target
  | .addHat _ _ _ target => some target
  | .removeHat _ _ _ target => some target
  | .removeAll => none

/-- The store of `padHost` after `VControl_Init` and the binding of button 0
of joystick 0 to the targets 100, 200 and 300, in this order. -/
def threeButtons : Store :=
  let s0 := VControl_Init padHost
  let s1 := (VControl_AddJoyButtonBinding padHost 1 s0 0 0 100).storeD s0
  let s2 := (VControl_AddJoyButtonBinding padHost 2 s1 0 0 200).storeD s1
  (VControl_AddJoyButtonBinding padHost 3 s2 0 0 300).storeD s2

/-- A character of a word: not the end of the string and no whitespace. -/
def wordChar (c : Char) : Bool :=
  c ≠ NUL && !isspace c

/-- A character that `next_token` skips in front of a word. -/
def spaceChar (c : Char) : Bool :=
  c ≠ NUL && isspace c

/-- A state of the Binding Store reached from `VControl_Init` by calls of the
add-binding and remove-binding functions (key, axis, button, hat), each with a
target that is not `NULL` and each returning. -/
inductive Reach (host : Host) : Store → Prop where
  | init : Reach host (VControl_Init host)
  | call {s s1 : Store} (fuel : Nat) (call : BindingCall) :
      Reach host s → (∃ t, call.target = some t ∧ t ≠ 0) →
      call.run host fuel s = .ok s1 → Reach host s1

/-- Successive calls that change the bindings. -/
def run_calls (host : Host) (fuel : Nat) : Store → List BindingCall → Res Store
  | s, [] => .ok s
  | s, call :: rest => (call.run host fuel s).bind fun s1 => run_calls host fuel s1 rest

/-- Three add-binding calls on the device of `padHost`, the second with a
`NULL` target: button 0 to target 100, button 0 to `NULL`, button 1 to
target 100. -/
def nullTargetCalls : List BindingCall :=
  [.addButton 0 0 100, .addButton 0 0 0, .addButton 0 1 100]

/-- The store of `padHost` after `VControl_Init` and the calls
`nullTargetCalls`. -/
def nullTargetStore : Store :=
  (run_calls padHost 3 (VControl_Init padHost) nullTargetCalls).getD (VControl_Init padHost)

/-- Calls with targets that are not `NULL`, on the device of `padHost` and on
the keyboard: three bindings of button 0, two bindings of keys of bucket 1,
and the removal of the first binding of that bucket. -/
def reachCalls : List BindingCall :=
  [.addButton 0 0 100, .addButton 0 0 200, .addButton 0 0 300, .addKey 1 100, .addKey 513 200,
    .removeKey 1 100]

/-- The store of `padHost` after `VControl_Init` and the calls `reachCalls`. -/
def reachStore : Store :=
  (run_calls padHost 4 (VControl_Init padHost) reachCalls).getD (VControl_Init padHost)

/-- The addresses of the slots of the chunks `pool`, the first of which is
chunk `i`. -/
def slotList : List keypool → Nat → List Ptr
  | [], _ => []
  | c :: cs, i => (List.range c.pool.length).map (fun j => { chunk := i, slot := j }) ++
      slotList cs (i + 1)

/-- A key event handed to the library: `VControl_ProcessKeyDown (symbol)` or
`VControl_ProcessKeyUp (symbol)`. -/
inductive KeyEvent where
  | down (symbol : Int)
  | up (symbol : Int)
  deriving DecidableEq, Repr

/-- The key code of a key event. -/
def KeyEvent.symbol : KeyEvent → Int
  | .down symbol => symbol
  | .up symbol => symbol

/-- The calls for a sequence of key events, in order, on the counters. -/
def key_run (fuel : Nat) (s : Store) : List KeyEvent → Mem → Res Mem
  | [], m => .ok m
  | .down symbol :: es, m => (VControl_ProcessKeyDown fuel s m symbol).bind (key_run fuel s es)
  | .up symbol :: es, m => (VControl_ProcessKeyUp fuel s m symbol).bind (key_run fuel s es)

/-- The keys held after a sequence of key events, from the keys `held`: a
press adds its key, a release takes its key away. -/
def heldAfter : List Int → List KeyEvent → List Int
  | held, [] => held
  | held, .down symbol :: es => heldAfter (symbol :: held) es
  | held, .up symbol :: es => heldAfter (held.erase symbol) es

/-- A sequence of key events is well formed from the keys `held`: a key is
pressed only while it is released and released only while it is held. -/
def WellFormed : List Int → List KeyEvent → Prop
  | _, [] => True
  | held, .down symbol :: es => symbol ∉ held ∧ WellFormed (symbol :: held) es
  | held, .up symbol :: es => symbol ∈ held ∧ WellFormed (held.erase symbol) es

/-- The number of the key codes `held` that are bound to the target `a`: the
pair of `a` and the key code is in the chain of the key code's bucket. -/
def heldCount (s : Store) (held : List Int) (a : Nat) : Nat :=
  (held.filter fun k =>
    decide ((a, k) ∈ cell_bindings s (.bucket (bucketIndex k).toNat))).length

/-- Key events on the store `threeKeys`, whose keys 1, 513 and 1025 are bound
to the targets 100, 200 and 300: with key 2 bound to target 100 as well, keys
1 and 2 are pressed, key 513 is pressed and released, key 1 is released and
pressed again. -/
def heldEvents : List KeyEvent :=
  [.down 1, .down 2, .down 513, .up 513, .up 1, .down 1]

/-- The store `threeKeys` after key 2 is bound to the target 100. -/
def fourKeys : Store :=
  ((VControl_AddKeyBinding 1 threeKeys 2 100).getD (threeKeys, 0)).1

/-- The lists `f i`, `f (i + 1)`, ..., `n` of them, one after the other. -/
def catRange {β : Type} (f : Nat → List β) : Nat → Nat → List β
  | _, 0 => []
  | i, n + 1 => f i ++ catRange f (i + 1) n

/-- What `VControl_Dump` writes a line for: a binding of the chain of a cell,
or the threshold of an opened device. -/
inductive DumpItem where
  | binding (c : Cell) (b : Nat × Int)
  | threshold (port : Nat) (value : Int)
  deriving DecidableEq, Repr

/-- The bindings of the chain of a cell, in chain order. -/
def cellItems (s : Store) (c : Cell) : List DumpItem :=
  (cell_bindings s c).map (DumpItem.binding c)

/-- The items of the device at a port: nothing for a device that is not
opened; for an opened device its threshold, then its axes in index order (the
negative chain, then the positive chain), its buttons in index order and its
hats in index order (left, right, up, down). -/
def deviceItems (s : Store) (p : Nat) : List DumpItem :=
  match s.joysticks[p]? with
  | none => []
  | some j =>
    if j.stick then
      DumpItem.threshold p j.threshold ::
        (catRange (fun a => cellItems s (.axis p a false) ++ cellItems s (.axis p a true))
            0 j.numaxes.toNat ++
          catRange (fun b => cellItems s (.button p b)) 0 j.numbuttons.toNat ++
          catRange (fun h => cellItems s (.hat p h .left) ++ cellItems s (.hat p h .right) ++
            cellItems s (.hat p h .up) ++ cellItems s (.hat p h .down)) 0 j.numhats.toNat)
    else []

/-- The items of the store in traversal order: the keyboard buckets in bucket
order, then the devices in port order. -/
def traversal (s : Store) : List DumpItem :=
  catRange (fun i => cellItems s (.bucket i)) 0 KEYBOARD_INPUT_BUCKETS ++
    catRange (deviceItems s) 0 s.joycount.toNat

/-- The line of an item, with its newline. -/
def itemText (table : List VControl_NameBinding) (keys : KeyNames) : DumpItem → List Char
  | .binding c b => entryText table keys (cellName c) b
  | .threshold p t =>
    "joystick ".toList ++ fmt_d p ++ " threshold ".toList ++ fmt_d t ++ ['\n']

/-- The lines of a list of items, one after the other. -/
def itemsText (table : List VControl_NameBinding) (keys : KeyNames) :
    List DumpItem → List Char
  | [] => []
  | x :: xs => itemText table keys x ++ itemsText table keys xs

/-- Every binding of the store can be written: its target has a name in the
name table, and its key code, when it is not `SDLK_UNKNOWN`, has a key name
that fits the name buffer. -/
def Writable (table : List VControl_NameBinding) (keys : KeyNames) (s : Store) : Prop :=
  ∀ c t k, Bound s c t k → (∃ nm, target2name_loop table t = some nm) ∧
    (k ≠ SDLK_UNKNOWN → ∃ kn, keys.code2name k = some kn ∧ kn.length ≤ 59)

/-- The strings are equal up to letter case, which is what `strcasecmp`
tests: one is obtained from the other by changing the case of letters. -/
def CaseEq (a b : List Char) : Prop :=
  a.map Char.toLower = b.map Char.toLower

/-- Token number `k`, counted from 0, of a line as `next_token` cuts it. -/
def line_token : Nat → List Char → List Char
  | 0, l => copy_word (TOKEN_SIZE - 1) (skip_space l)
  | k + 1, l => line_token k (skip_word (skip_space l))

/-- Two states of the parser that agree up to letter case: the tokens and the
unscanned parts are equal up to letter case and the error flags are equal. -/
structure SameCase (st st' : parse_state) : Prop where
  token : CaseEq st.token st'.token
  rest : CaseEq st.rest st'.rest
  error : st.error = st'.error

/-- What `VControl_ReadConfiguration` uses of the parse of a line: the error
flag of the line and the store that the call of the line leaves. -/
def outcome (r : Res (parse_state × Store)) : Res (Bool × Store) :=
  r.bind fun x => .ok (x.1.error, x.2)

/-- The line and the stream that `next_line` leaves: the `for` loop that
reads the line, then the `while` loop that skips to the end of the line. -/
def line_and_stream (k : Nat) (first : Bool) (f : FILE) : List Char × FILE :=
  ((read_line k first f).1,
    if (read_line k first f).2.2 ∨ (read_line k first f).2.1.eof then (read_line k first f).2.1
    else skip_line (read_line k first f).2.1.data)

/-- The text of the lines `ls`, each ended by a newline, followed by the
text `post`. -/
def lines_text : List (List Char) → List Char → List Char
  | [], post => post
  | l :: ls, post => l ++ '\n' :: lines_text ls post

/-- A line that the grammar says is ignored: an empty line, a line of
whitespace only, or a line that starts with `#`; the line holds no newline. -/
def Ignored (ins : List Char) : Prop :=
  (∀ c ∈ ins, c ≠ '\n') ∧ (IsBlank ins ∨ ins.head? = some '#')

/-! # Properties -/

/-! ## A result obtained under one budget is obtained under every larger one -/

theorem Mono.returns {α : Type} {run : Nat → Res α} (h : Mono run) {n : Nat} {r : α}
    (hr : run n = .ok r) : Returns run r :=
  ⟨n, fun m hm => h n m r hr hm⟩

theorem Returns.unique_result {α : Type} {run : Nat → Res α} {r r' : α}
    (h : Returns run r) (h' : Returns run r') : r = r' := by
  obtain ⟨n, hn⟩ := h
  obtain ⟨n', hn'⟩ := h'
  have h1 := hn (max n n') (le_max_left _ _)
  have h2 := hn' (max n n') (le_max_right _ _)
  rw [h1] at h2
  exact Res.ok.inj h2

theorem add_scan_mono (pool : List keypool) (target : Nat) (keycode : Int) :
    ∀ (n m : Nat) (pl : Place) (head : Option Ptr) (r : Option Place),
      add_scan pool target keycode n pl head = .ok r → n ≤ m →
      add_scan pool target keycode m pl head = .ok r := by
  intro n
  induction n with
  | zero =>
    intro m pl head r h _
    cases head with
    | none => cases m <;> simpa [add_scan] using h
    | some p => simp [add_scan] at h
  | succ n ih =>
    intro m pl head r h hm
    cases head with
    | none => cases m <;> simpa [add_scan] using h
    | some p =>
      obtain ⟨m', rfl⟩ : ∃ m', m = m' + 1 := ⟨m - 1, by omega⟩
      simp only [add_scan] at h ⊢
      cases hs : slotAt pool p with
      | ok b =>
        rw [hs] at h
        simp only at h ⊢
        by_cases hb : b.target = target ∧ b.keycode = keycode
        · simpa [hb] using h
        · simp only [hb, if_false] at h ⊢
          exact ih m' _ _ _ h (by omega)
      | fuel => rw [hs] at h; simp at h
      | fault => rw [hs] at h; simp at h

theorem remove_loop_mono (target : Nat) :
    ∀ (n m : Nat) (pool : List keypool) (prev : Ptr) (r : List keypool),
      remove_loop target n pool prev = .ok r → n ≤ m →
      remove_loop target m pool prev = .ok r := by
  intro n
  induction n with
  | zero => intro m pool prev r h _; simp [remove_loop] at h
  | succ n ih =>
    intro m pool prev r h hm
    obtain ⟨m', rfl⟩ : ∃ m', m = m' + 1 := ⟨m - 1, by omega⟩
    simp only [remove_loop] at h ⊢
    cases hs : slotAt pool prev with
    | fuel => rw [hs] at h; simp at h
    | fault => rw [hs] at h; simp at h
    | ok pb =>
      rw [hs] at h
      simp only at h ⊢
      cases hn : pb.next with
      | none => rw [hn] at h; simpa using h
      | some q =>
        rw [hn] at h
        simp only at h ⊢
        cases hq : slotAt pool q with
        | fuel => rw [hq] at h; simp at h
        | fault => rw [hq] at h; simp at h
        | ok qb =>
          rw [hq] at h
          simp only at h ⊢
          by_cases ht : qb.target = target
          · simp only [ht, if_true] at h ⊢
            exact ih m' _ _ _ h (by omega)
          · simp only [ht, if_false] at h ⊢
            exact ih m' _ _ _ h (by omega)

theorem activate_mono (pool : List keypool) (keycode : Int) :
    ∀ (n m : Nat) (head : Option Ptr) (mem r : Mem),
      activate pool keycode n head mem = .ok r → n ≤ m →
      activate pool keycode m head mem = .ok r := by
  intro n
  induction n with
  | zero =>
    intro m head mem r h _
    cases head with
    | none => cases m <;> simpa [activate] using h
    | some p => simp [activate] at h
  | succ n ih =>
    intro m head mem r h hm
    cases head with
    | none => cases m <;> simpa [activate] using h
    | some p =>
      obtain ⟨m', rfl⟩ : ∃ m', m = m' + 1 := ⟨m - 1, by omega⟩
      simp only [activate] at h ⊢
      cases hs : slotAt pool p with
      | fuel => rw [hs] at h; simp at h
      | fault => rw [hs] at h; simp at h
      | ok b =>
        rw [hs] at h
        simp only at h ⊢
        by_cases hk : b.keycode = keycode
        · by_cases ht : b.target = 0
          · simp [hk, ht] at h
          · simp only [hk, ht, if_true, if_false] at h ⊢
            exact ih m' _ _ _ h (by omega)
        · simp only [hk, if_false] at h ⊢
          exact ih m' _ _ _ h (by omega)

theorem deactivate_mono (pool : List keypool) (keycode : Int) :
    ∀ (n m : Nat) (head : Option Ptr) (mem r : Mem),
      deactivate pool keycode n head mem = .ok r → n ≤ m →
      deactivate pool keycode m head mem = .ok r := by
  intro n
  induction n with
  | zero =>
    intro m head mem r h _
    cases head with
    | none => cases m <;> simpa [deactivate] using h
    | some p => simp [deactivate] at h
  | succ n ih =>
    intro m head mem r h hm
    cases head with
    | none => cases m <;> simpa [deactivate] using h
    | some p =>
      obtain ⟨m', rfl⟩ : ∃ m', m = m' + 1 := ⟨m - 1, by omega⟩
      simp only [deactivate] at h ⊢
      cases hs : slotAt pool p with
      | fuel => rw [hs] at h; simp at h
      | fault => rw [hs] at h; simp at h
      | ok b =>
        rw [hs] at h
        simp only at h ⊢
        by_cases hk : b.keycode = keycode
        · by_cases ht : b.target = 0
          · simp [hk, ht] at h
          · by_cases hpos : 0 < mem b.target
            · simp only [hk, ht, hpos, if_true, if_false] at h ⊢
              exact ih m' _ _ _ h (by omega)
            · simp only [hk, ht, hpos, if_true, if_false] at h ⊢
              exact ih m' _ _ _ h (by omega)
        · simp only [hk, if_false] at h ⊢
          exact ih m' _ _ _ h (by omega)

theorem add_binding_mono (pool : List keypool) (head : Option Ptr) (target : Nat)
    (keycode : Int) : Mono (fun fuel => add_binding fuel pool head target keycode) := by
  intro n m r h hm
  simp only [add_binding] at h ⊢
  cases hs : add_scan pool target keycode n .head head with
  | fuel => rw [hs] at h; simp at h
  | fault => rw [hs] at h; simp at h
  | ok pl =>
    rw [hs] at h
    rw [add_scan_mono pool target keycode n m _ _ _ hs hm]
    exact h

theorem remove_binding_mono (pool : List keypool) (head : Option Ptr) (target : Nat)
    (keycode : Int) : Mono (fun fuel => remove_binding fuel pool head target keycode) := by
  intro n m r h hm
  simp only [remove_binding] at h ⊢
  cases head with
  | none => exact h
  | some p =>
    simp only at h ⊢
    cases hs : slotAt pool p with
    | fuel => rw [hs] at h; simp at h
    | fault => rw [hs] at h; simp at h
    | ok b =>
      rw [hs] at h
      simp only at h ⊢
      by_cases hb : b.target = target ∧ b.keycode = keycode
      · simpa only [hb, if_true] using h
      · simp only [hb, if_false] at h ⊢
        cases hl : remove_loop target n pool p with
        | fuel => rw [hl] at h; simp at h
        | fault => rw [hl] at h; simp at h
        | ok pool1 =>
          rw [hl] at h
          rw [remove_loop_mono target n m _ _ _ hl hm]
          exact h

theorem add_at_mono (s : Store) (c : Cell) (target : Nat) (keycode : Int) :
    Mono (fun fuel => add_at fuel s c target keycode) := by
  intro n m r h hm
  simp only [add_at] at h ⊢
  cases hc : readCell s c with
  | fuel => rw [hc] at h; simp at h
  | fault => rw [hc] at h; simp at h
  | ok head =>
    rw [hc] at h
    simp only at h ⊢
    cases ha : add_binding n s.pool head target keycode with
    | fuel => rw [ha] at h; simp at h
    | fault => rw [ha] at h; simp at h
    | ok x =>
      rw [ha] at h
      have hx : add_binding m s.pool head target keycode = .ok x :=
        add_binding_mono s.pool head target keycode n m x ha hm
      rw [hx]
      exact h

theorem remove_at_mono (s : Store) (c : Cell) (target : Nat) (keycode : Int) :
    Mono (fun fuel => remove_at fuel s c target keycode) := by
  intro n m r h hm
  simp only [remove_at] at h ⊢
  cases hc : readCell s c with
  | fuel => rw [hc] at h; simp at h
  | fault => rw [hc] at h; simp at h
  | ok head =>
    rw [hc] at h
    simp only at h ⊢
    cases ha : remove_binding n s.pool head target keycode with
    | fuel => rw [ha] at h; simp at h
    | fault => rw [ha] at h; simp at h
    | ok x =>
      rw [ha] at h
      have hx : remove_binding m s.pool head target keycode = .ok x :=
        remove_binding_mono s.pool head target keycode n m x ha hm
      rw [hx]
      exact h

theorem VControl_AddKeyBinding_mono (s : Store) (symbol : Int) (target : Nat) :
    Mono (fun fuel => VControl_AddKeyBinding fuel s symbol target) := by
  intro n m r h hm
  simp only [VControl_AddKeyBinding] at h ⊢
  by_cases hb : bucketIndex symbol < 0
  · simp [hb] at h
  · simp only [hb, if_false] at h ⊢
    cases ha : add_at n s (.bucket (bucketIndex symbol).toNat) target symbol with
    | fuel => rw [ha] at h; simp at h
    | fault => rw [ha] at h; simp at h
    | ok x =>
      rw [ha] at h
      have hx : add_at m s (.bucket (bucketIndex symbol).toNat) target symbol = .ok x :=
        add_at_mono s _ target symbol n m x ha hm
      rw [hx]
      exact h

theorem VControl_RemoveKeyBinding_mono (s : Store) (symbol : Int) (target : Nat) :
    Mono (fun fuel => VControl_RemoveKeyBinding fuel s symbol target) := by
  intro n m r h hm
  simp only [VControl_RemoveKeyBinding] at h ⊢
  by_cases hb : bucketIndex symbol < 0
  · simp [hb] at h
  · simp only [hb, if_false] at h ⊢
    exact remove_at_mono s _ target symbol n m r h hm

/-! ## activate and deactivate on a chain without a cycle -/

theorem Chain.length_le_fuel_activate {pool : List keypool} {keycode : Int} {head : Option Ptr}
    {ps : List (Ptr × keybinding)} (hc : Chain pool head ps)
    (hlive : ∀ x ∈ ps, x.2.keycode = keycode → x.2.target ≠ 0) :
    ∀ (n : Nat) (m : Mem), ps.length ≤ n →
      activate pool keycode n head m = .ok (activate_list keycode (ps.map (fun x => x.2.pair)) m) := by
  induction hc with
  | nil => intro n m _; cases n <;> simp [activate, activate_list]
  | @cons p b l hs _ ih =>
    intro n m hn
    obtain ⟨n', rfl⟩ : ∃ n', n = n' + 1 := ⟨n - 1, by simp at hn; omega⟩
    have hl : ∀ x ∈ l, x.2.keycode = keycode → x.2.target ≠ 0 :=
      fun x hx => hlive x (List.mem_cons_of_mem _ hx)
    have hn' : l.length ≤ n' := by simp at hn; omega
    simp only [activate, hs, List.map_cons, activate_list, keybinding.pair]
    by_cases hk : b.keycode = keycode
    · have ht : b.target ≠ 0 := hlive (p, b) (List.mem_cons_self _ _) hk
      simp only [hk, ht, if_true, if_false]
      exact ih hl n' _ hn'
    · simp only [hk, if_false]
      exact ih hl n' _ hn'

theorem Chain.length_le_fuel_deactivate {pool : List keypool} {keycode : Int}
    {head : Option Ptr} {ps : List (Ptr × keybinding)} (hc : Chain pool head ps)
    (hlive : ∀ x ∈ ps, x.2.keycode = keycode → x.2.target ≠ 0) :
    ∀ (n : Nat) (m : Mem), ps.length ≤ n →
      deactivate pool keycode n head m = .ok (deactivate_list keycode (ps.map (fun x => x.2.pair)) m) := by
  induction hc with
  | nil => intro n m _; cases n <;> simp [deactivate, deactivate_list]
  | @cons p b l hs _ ih =>
    intro n m hn
    obtain ⟨n', rfl⟩ : ∃ n', n = n' + 1 := ⟨n - 1, by simp at hn; omega⟩
    have hl : ∀ x ∈ l, x.2.keycode = keycode → x.2.target ≠ 0 :=
      fun x hx => hlive x (List.mem_cons_of_mem _ hx)
    have hn' : l.length ≤ n' := by simp at hn; omega
    simp only [deactivate, hs, List.map_cons, deactivate_list, keybinding.pair]
    by_cases hk : b.keycode = keycode
    · have ht : b.target ≠ 0 := hlive (p, b) (List.mem_cons_self _ _) hk
      by_cases hpos : 0 < m b.target
      · simp only [hk, ht, hpos, if_true, if_false, and_self]
        exact ih hl n' _ hn'
      · simp only [hk, ht, hpos, if_true, if_false, and_false]
        exact ih hl n' _ hn'
    · simp only [hk, if_false, false_and]
      exact ih hl n' _ hn'

/-! ## Counters under activate_list and deactivate_list -/

theorem bound_count_nonneg (keycode : Int) (bs : List (Nat × Int)) (a : Nat) :
    0 ≤ bound_count keycode bs a := by
  simp [bound_count]

theorem bound_count_cons (keycode : Int) (b : Nat × Int) (bs : List (Nat × Int)) (a : Nat) :
    bound_count keycode (b :: bs) a =
      (if b.2 = keycode ∧ b.1 = a then 1 else 0) + bound_count keycode bs a := by
  unfold bound_count
  by_cases h : b.2 = keycode ∧ b.1 = a
  · simp [List.filter_cons, h]; omega
  · simp [List.filter_cons, h]

theorem activate_list_apply (keycode : Int) (bs : List (Nat × Int)) :
    ∀ (m : Mem) (a : Nat), activate_list keycode bs m a = m a + bound_count keycode bs a := by
  induction bs with
  | nil => intro m a; simp [activate_list, bound_count]
  | cons b bs ih =>
    intro m a
    rw [activate_list, ih, bound_count_cons]
    by_cases hk : b.2 = keycode
    · by_cases ha : b.1 = a
      · subst ha; simp [hk]; ring
      · have ha' : a ≠ b.1 := fun h => ha h.symm
        simp [hk, ha, Function.update_noteq ha']
    · simp [hk]

theorem deactivate_list_apply (keycode : Int) (bs : List (Nat × Int)) :
    ∀ (m : Mem) (a : Nat),
      (∀ a', bound_count keycode bs a' ≠ 0 → bound_count keycode bs a' ≤ m a') →
      deactivate_list keycode bs m a = m a - bound_count keycode bs a := by
  induction bs with
  | nil => intro m a _; simp [deactivate_list, bound_count]
  | cons b bs ih =>
    intro m a h
    rw [deactivate_list, bound_count_cons]
    by_cases hk : b.2 = keycode
    · have hb := h b.1
      rw [bound_count_cons] at hb
      have hnn := bound_count_nonneg keycode bs b.1
      simp only [hk, and_self, if_true] at hb
      have hle : 1 + bound_count keycode bs b.1 ≤ m b.1 := hb (by omega)
      have hpos : 0 < m b.1 := by omega
      simp only [hk, hpos, and_self, if_true, true_and]
      rw [ih]
      · by_cases ha : b.1 = a
        · subst ha; simp; ring
        · have ha' : a ≠ b.1 := fun h => ha h.symm
          simp [ha, Function.update_noteq ha']
      · intro a' hne
        by_cases ha : b.1 = a'
        · subst ha; simp; omega
        · have ha' : a' ≠ b.1 := fun h => ha h.symm
          have := h a'
          rw [bound_count_cons] at this
          simp only [ha, and_false, if_false, zero_add] at this
          rw [Function.update_noteq ha']
          exact this hne
    · simp only [hk, false_and, if_false, zero_add]
      apply ih
      intro a' hne
      have := h a'
      rw [bound_count_cons] at this
      simp only [hk, false_and, if_false, zero_add] at this
      exact this hne

theorem activate_list_nonneg (keycode : Int) (bs : List (Nat × Int)) (m : Mem) (a : Nat)
    (h : 0 ≤ m a) : 0 ≤ activate_list keycode bs m a := by
  rw [activate_list_apply]
  have := bound_count_nonneg keycode bs a
  omega

theorem deactivate_list_nonneg (keycode : Int) (bs : List (Nat × Int)) :
    ∀ (m : Mem) (a : Nat), 0 ≤ m a → 0 ≤ deactivate_list keycode bs m a := by
  induction bs with
  | nil => intro m a h; simpa [deactivate_list] using h
  | cons b bs ih =>
    intro m a h
    rw [deactivate_list]
    apply ih
    by_cases hc : b.2 = keycode ∧ 0 < m b.1
    · simp only [hc, and_self, if_true]
      by_cases ha : a = b.1
      · subst ha; simp; omega
      · rw [Function.update_noteq ha]; exact h
    · simp only [hc, if_false]; exact h

/-- When the second binding of a chain has another target, the loop of
`remove_binding` makes no progress: it runs out of every budget. -/
theorem remove_loop_stuck (target : Nat) (pool : List keypool) (prev q : Ptr)
    (pb qb : keybinding) (hp : slotAt pool prev = .ok pb) (hn : pb.next = some q)
    (hq : slotAt pool q = .ok qb) (ht : qb.target ≠ target) :
    ∀ fuel, remove_loop target fuel pool prev = .fuel := by
  intro fuel
  induction fuel with
  | zero => rfl
  | succ n ih => simp [remove_loop, hp, hn, hq, ht, ih]

/-- The same for the call on a cell of the store: when the head of the chain
is not the pair to remove and the second binding has another target, the call
never returns. -/
theorem remove_at_stuck (s : Store) (c : Cell) (target : Nat) (keycode : Int) (p q : Ptr)
    (pb qb : keybinding) (hc : readCell s c = .ok (some p)) (hp : slotAt s.pool p = .ok pb)
    (hne : ¬(pb.target = target ∧ pb.keycode = keycode)) (hn : pb.next = some q)
    (hq : slotAt s.pool q = .ok qb) (ht : qb.target ≠ target) :
    ∀ fuel, remove_at fuel s c target keycode = .fuel := by
  intro fuel
  simp [remove_at, hc, remove_binding, hp, hne, remove_loop_stuck target s.pool p q pb qb hp hn hq ht fuel]

set_option maxRecDepth 100000 in
/-- C2: with keys 1 and 513 bound (same bucket), removing the binding of key
1025 to a third target, which does not exist, never returns. -/
theorem remove_absent_key_never_returns :
    bind_keys 2 (VControl_Init noJoyHost) [(1, 100), (513, 200)] = .ok twoKeys ∧
      cell_bindings twoKeys (.bucket 1) = [(100, 1), (200, 513)] ∧
      Diverges (fun fuel => VControl_RemoveKeyBinding fuel twoKeys 1025 300) := by
  refine ⟨by decide, by decide, ?_⟩
  intro fuel
  show VControl_RemoveKeyBinding fuel twoKeys 1025 300 = .fuel
  unfold VControl_RemoveKeyBinding
  rw [if_neg (by decide)]
  exact remove_at_stuck twoKeys _ 300 1025 ⟨0, 0⟩ ⟨0, 1⟩
    { target := 100, keycode := 1, next := some ⟨0, 1⟩ }
    { target := 200, keycode := 513, next := none }
    (by decide) (by decide) (by decide) rfl (by decide) (by decide) fuel

set_option maxRecDepth 100000 in
/-- C3: with keys 1 and 513 bound (same bucket), binding key 1025 to a third
target returns, and removing that very binding afterwards never returns. -/
theorem add_then_remove_never_returns :
    Returns (fun fuel => VControl_AddKeyBinding fuel twoKeys 1025 300) (threeKeys, 0) ∧
      cell_bindings threeKeys (.bucket 1) = [(100, 1), (200, 513), (300, 1025)] ∧
      Diverges (fun fuel => VControl_RemoveKeyBinding fuel threeKeys 1025 300) := by
  refine ⟨(VControl_AddKeyBinding_mono twoKeys 1025 300).returns (n := 2) (by decide),
    by decide, ?_⟩
  intro fuel
  show VControl_RemoveKeyBinding fuel threeKeys 1025 300 = .fuel
  unfold VControl_RemoveKeyBinding
  rw [if_neg (by decide)]
  exact remove_at_stuck threeKeys _ 300 1025 ⟨0, 0⟩ ⟨0, 1⟩
    { target := 100, keycode := 1, next := some ⟨0, 1⟩ }
    { target := 200, keycode := 513, next := some ⟨0, 2⟩ }
    (by decide) (by decide) (by decide) rfl (by decide) (by decide) fuel

set_option maxRecDepth 100000 in
/-- C4: with keys 1 and 513 bound (same bucket) to targets 100 and 200,
removing the binding of key 1025 to target 200 returns and unbinds key 513
from target 200, a binding with another key code. -/
theorem remove_unbinds_other_key :
    cell_bindings twoKeys (.bucket 1) = [(100, 1), (200, 513)] ∧
      ∃ s, Returns (fun fuel => VControl_RemoveKeyBinding fuel twoKeys 1025 200) s ∧
        cell_bindings s (.bucket 1) = [(100, 1)] := by
  refine ⟨by decide, (VControl_RemoveKeyBinding 2 twoKeys 1025 200).getD twoKeys,
    (VControl_RemoveKeyBinding_mono twoKeys 1025 200).returns (n := 2) (by decide), by decide⟩

/-! ## Returning steps -/

theorem Returns.bind {α β : Type} {f : Nat → Res α} {g : Nat → α → Res β} {a : α} {b : β}
    (hf : Returns f a) (hg : Returns (fun n => g n a) b) :
    Returns (fun n => (f n).bind (g n)) b := by
  obtain ⟨n1, h1⟩ := hf
  obtain ⟨n2, h2⟩ := hg
  refine ⟨max n1 n2, fun fuel h => ?_⟩
  have e1 := h1 fuel (le_of_max_le_left h)
  have e2 := h2 fuel (le_of_max_le_right h)
  simp only [e1, Res.bind]
  exact e2

theorem Returns.pure {α : Type} (a : α) : Returns (fun _ => Res.ok a) a :=
  ⟨0, fun _ _ => rfl⟩

theorem LiveChain.activate_returns {pool : List keypool} {head : Option Ptr} {bs : List (Nat × Int)}
    (h : LiveChain pool head bs) (keycode : Int) (m : Mem) :
    Returns (fun n => activate pool keycode n head m) (activate_list keycode bs m) := by
  obtain ⟨ps, hch, hl, hlive⟩ := h
  refine ⟨ps.length, fun fuel hf => ?_⟩
  have hlive' : ∀ x ∈ ps, x.2.keycode = keycode → x.2.target ≠ 0 := by
    intro x hx _
    exact hlive x.2.pair (by rw [← hl]; exact List.mem_map_of_mem (fun x => x.2.pair) hx)
  show VControl.activate pool keycode fuel head m = _
  rw [hch.length_le_fuel_activate hlive' fuel m hf, hl]

theorem LiveChain.deactivate_returns {pool : List keypool} {head : Option Ptr} {bs : List (Nat × Int)}
    (h : LiveChain pool head bs) (keycode : Int) (m : Mem) :
    Returns (fun n => deactivate pool keycode n head m) (deactivate_list keycode bs m) := by
  obtain ⟨ps, hch, hl, hlive⟩ := h
  refine ⟨ps.length, fun fuel hf => ?_⟩
  have hlive' : ∀ x ∈ ps, x.2.keycode = keycode → x.2.target ≠ 0 := by
    intro x hx _
    exact hlive x.2.pair (by rw [← hl]; exact List.mem_map_of_mem (fun x => x.2.pair) hx)
  show VControl.deactivate pool keycode fuel head m = _
  rw [hch.length_le_fuel_deactivate hlive' fuel m hf, hl]

/-! ## Keyboard dispatch -/

theorem HoldsChain.keyDown {s : Store} {K : Int} {l : List (Nat × Int)}
    (hK : 0 ≤ bucketIndex K) (h : HoldsChain s (.bucket (bucketIndex K).toNat) l) (m : Mem) :
    Returns (fun fuel => VControl_ProcessKeyDown fuel s m K) (activate_list K l m) := by
  obtain ⟨head, hc, hl⟩ := h
  simp only [VControl_ProcessKeyDown, not_lt.mpr hK, if_false, activate_at, hc]
  exact hl.activate_returns K m

theorem HoldsChain.keyUp {s : Store} {K : Int} {l : List (Nat × Int)}
    (hK : 0 ≤ bucketIndex K) (h : HoldsChain s (.bucket (bucketIndex K).toNat) l) (m : Mem) :
    Returns (fun fuel => VControl_ProcessKeyUp fuel s m K) (deactivate_list K l m) := by
  obtain ⟨head, hc, hl⟩ := h
  simp only [VControl_ProcessKeyUp, not_lt.mpr hK, if_false, deactivate_at, hc]
  exact hl.deactivate_returns K m

set_option maxRecDepth 100000 in
theorem twoKeys_bucket1 :
    HoldsChain twoKeys (.bucket 1)
      [(100, 1), (200, 513)] :=
  ⟨some ⟨0, 0⟩, by decide,
    [(⟨0, 0⟩, { target := 100, keycode := 1, next := some ⟨0, 1⟩ }),
     (⟨0, 1⟩, { target := 200, keycode := 513, next := none })],
    Chain.cons (by decide) (Chain.cons (by decide) Chain.nil), rfl, by decide⟩

theorem SafeStep.of_activate {pool : List keypool} {head : Option Ptr} {bs : List (Nat × Int)}
    (h : LiveChain pool head bs) (keycode : Int) :
    SafeStep (fun n m => VControl.activate pool keycode n head m) :=
  ⟨activate_list keycode bs, fun m a => activate_list_nonneg keycode bs m a,
    fun m => h.activate_returns keycode m⟩

theorem SafeStep.of_deactivate {pool : List keypool} {head : Option Ptr} {bs : List (Nat × Int)}
    (h : LiveChain pool head bs) (keycode : Int) :
    SafeStep (fun n m => VControl.deactivate pool keycode n head m) :=
  ⟨deactivate_list keycode bs, fun m a => deactivate_list_nonneg keycode bs m a,
    fun m => h.deactivate_returns keycode m⟩

theorem SafeStep.skip : SafeStep (fun _ m => Res.ok m) :=
  ⟨id, fun _ _ h => h, fun m => Returns.pure m⟩

theorem ChainsOK.bucket {s : Store} (hs : ChainsOK s) {i : Nat} (hi : i < s.bindings.length) :
    ∃ head bs, s.bindings[i]? = some head ∧ LiveChain s.pool head bs := by
  have h1 : s.bindings[i]? = some s.bindings[i] := List.getElem?_eq_getElem hi
  obtain ⟨bs, hbs⟩ := hs (.bucket i) s.bindings[i] (by simp [readCell, h1, Res.ofOption])
  exact ⟨_, bs, h1, hbs⟩

theorem ChainsOK.axis {s : Store} (hs : ChainsOK s) {port a : Nat} {j : joystick} {x : axis}
    (hj : s.joysticks[port]? = some j) (hx : j.axes[a]? = some x) :
    (∃ bs, LiveChain s.pool x.neg bs) ∧ ∃ bs, LiveChain s.pool x.pos bs :=
  ⟨hs (.axis port a false) x.neg (by simp [readCell, hj, hx]),
    hs (.axis port a true) x.pos (by simp [readCell, hj, hx])⟩

theorem ChainsOK.button {s : Store} (hs : ChainsOK s) {port b : Nat} {j : joystick}
    {head : Option Ptr} (hj : s.joysticks[port]? = some j) (hb : j.buttons[b]? = some head) :
    ∃ bs, LiveChain s.pool head bs :=
  hs (.button port b) head (by simp [readCell, hj, hb, Res.ofOption])

theorem ChainsOK.hat {s : Store} (hs : ChainsOK s) {port h : Nat} {j : joystick} {x : hat}
    (hj : s.joysticks[port]? = some j) (hx : j.hats[h]? = some x) (d : HatDir) :
    ∃ bs, LiveChain s.pool (x.chain d) bs :=
  hs (.hat port h d) (x.chain d) (by simp [readCell, hj, hx])

theorem SafeStep.hat_press {pool : List keypool} {chain : Option Ptr} {bs : List (Nat × Int)}
    (h : LiveChain pool chain bs) (old value bit : Nat) :
    SafeStep (fun n m => VControl.hat_press pool n old value bit chain m) := by
  unfold VControl.hat_press
  by_cases hc : (!hatBit old bit && hatBit value bit) = true
  · simpa only [hc, if_true] using SafeStep.of_activate h SDLK_UNKNOWN
  · simpa only [hc, if_false] using SafeStep.skip

theorem SafeStep.hat_release {pool : List keypool} {chain : Option Ptr} {bs : List (Nat × Int)}
    (h : LiveChain pool chain bs) (old value bit : Nat) :
    SafeStep (fun n m => VControl.hat_release pool n old value bit chain m) := by
  unfold VControl.hat_release
  by_cases hc : (hatBit old bit && !hatBit value bit) = true
  · simpa only [hc, if_true] using SafeStep.of_deactivate h SDLK_UNKNOWN
  · simpa only [hc, if_false] using SafeStep.skip

theorem slotAt_eq_ok {pool : List keypool} {p : Ptr} {b : keybinding} :
    slotAt pool p = .ok b ↔ ∃ c, pool[p.chunk]? = some c ∧ c.pool[p.slot]? = some b := by
  unfold slotAt
  cases h1 : pool[p.chunk]? with
  | none => simp
  | some c =>
    cases h2 : c.pool[p.slot]? with
    | none => simp [h2]
    | some b' => simp [h2]

theorem slotAt_setSlot_self {pool : List keypool} {p : Ptr} {b0 : keybinding}
    (h : slotAt pool p = .ok b0) (b : keybinding) : slotAt (setSlot pool p b) p = .ok b := by
  obtain ⟨c, hc, hb⟩ := slotAt_eq_ok.mp h
  have hlt : p.chunk < pool.length := by
    by_contra hge
    rw [List.getElem?_eq_none (not_lt.mp hge)] at hc
    cases hc
  have hlt2 : p.slot < c.pool.length := by
    by_contra hge
    rw [List.getElem?_eq_none (not_lt.mp hge)] at hb
    cases hb
  rw [slotAt_eq_ok]
  refine ⟨{ c with pool := c.pool.set p.slot b }, ?_, ?_⟩
  · simp [setSlot, hc, hlt]
  · simp [hlt2]

theorem slotAt_setSlot_ne {pool : List keypool} {p q : Ptr} (hne : q ≠ p) (b : keybinding) :
    slotAt (setSlot pool p b) q = slotAt pool q := by
  unfold setSlot
  cases hc : pool[p.chunk]? with
  | none => rfl
  | some c =>
    simp only
    unfold slotAt
    by_cases hch : p.chunk = q.chunk
    · have hsl : p.slot ≠ q.slot := by
        intro hs
        apply hne
        cases p; cases q; simp_all
      have hlt : p.chunk < pool.length := by
        by_contra hge
        rw [List.getElem?_eq_none (not_lt.mp hge)] at hc
        cases hc
      rw [← hch, hc]
      simp [hlt, List.getElem?_set_ne hsl]
    · rw [List.getElem?_set_ne hch]

theorem setNext_eq_setSlot {pool : List keypool} {p : Ptr} {b0 : keybinding}
    (h : slotAt pool p = .ok b0) (n : Option Ptr) :
    setNext pool p n = setSlot pool p { b0 with next := n } := by
  obtain ⟨c, hc, hb⟩ := slotAt_eq_ok.mp h
  simp [setNext, setSlot, hc, hb]

theorem slotAt_setNext_self {pool : List keypool} {p : Ptr} {b0 : keybinding}
    (h : slotAt pool p = .ok b0) (n : Option Ptr) :
    slotAt (setNext pool p n) p = .ok { b0 with next := n } := by
  rw [setNext_eq_setSlot h]
  exact slotAt_setSlot_self h _

theorem slotAt_setNext_ne {pool : List keypool} {p q : Ptr} (hne : q ≠ p) (n : Option Ptr) :
    slotAt (setNext pool p n) q = slotAt pool q := by
  cases h : slotAt pool p with
  | ok b0 => rw [setNext_eq_setSlot h]; exact slotAt_setSlot_ne hne _
  | fuel => simp [slotAt] at h; split at h <;> [skip; split at h] <;> simp at h
  | fault =>
    have : setNext pool p n = pool := by
      unfold setNext
      unfold slotAt at h
      cases hc : pool[p.chunk]? with
      | none => rfl
      | some c =>
        rw [hc] at h
        simp only at h ⊢
        cases hb : c.pool[p.slot]? with
        | none => rfl
        | some b => rw [hb] at h; simp at h
    rw [this]

theorem slotAt_addRemaining (pool : List keypool) (ci : Nat) (d : Int) (q : Ptr) :
    slotAt (addRemaining pool ci d) q = slotAt pool q := by
  unfold addRemaining
  cases hc : pool[ci]? with
  | none => rfl
  | some c =>
    simp only
    unfold slotAt
    by_cases hch : ci = q.chunk
    · have hlt : ci < pool.length := by
        by_contra hge
        rw [List.getElem?_eq_none (not_lt.mp hge)] at hc
        cases hc
      subst hch
      simp [hc, hlt]
    · rw [List.getElem?_set_ne hch]

/-! ## The chunk search and the free-slot search of add_binding -/

theorem allocate_key_chunk_ok : ChunkOK allocate_key_chunk := by
  constructor
  · simp [allocate_key_chunk]
  · simp [allocate_key_chunk, freeCount, freeSlot, List.countP_replicate]

theorem search_chunk_spec (pool : List keypool) :
    ((search_chunk pool).2 = pool ∨ (search_chunk pool).2 = pool ++ [allocate_key_chunk]) ∧
      ∃ c, (search_chunk pool).2[(search_chunk pool).1]? = some c ∧ c.remaining ≠ 0 := by
  induction pool with
  | nil => exact ⟨Or.inr rfl, allocate_key_chunk, rfl, by simp [allocate_key_chunk, POOL_CHUNK_SIZE]⟩
  | cons c cs ih =>
    by_cases h : c.remaining = 0
    · simp only [search_chunk, h, if_true]
      obtain ⟨h1, c', h2, h3⟩ := ih
      refine ⟨?_, c', by simpa using h2, h3⟩
      rcases h1 with h1 | h1
      · left; rw [h1]
      · right; rw [h1]; rfl
    · simp only [search_chunk, h, if_false]
      exact ⟨Or.inl trivial, c, by simp, h⟩

theorem find_free_spec (bs : List keybinding) :
    ∀ i, i + bs.length ≤ POOL_CHUNK_SIZE → 0 < bs.countP (fun b => b.target = 0) →
      ∃ j b, find_free bs i = some (i + j) ∧ bs[j]? = some b ∧ b.target = 0 := by
  induction bs with
  | nil => intro i _ h; simp at h
  | cons b bs ih =>
    intro i hlen hcnt
    have hi : ¬ POOL_CHUNK_SIZE ≤ i := by simp at hlen; omega
    by_cases hb : b.target = 0
    · exact ⟨0, b, by simp [find_free, hi, hb], by simp, hb⟩
    · have hcnt' : 0 < bs.countP (fun b => b.target = 0) := by
        simpa [List.countP_cons, hb] using hcnt
      obtain ⟨j, b', h1, h2, h3⟩ := ih (i + 1) (by simp at hlen ⊢; omega) hcnt'
      refine ⟨j + 1, b', ?_, by simpa using h2, h3⟩
      simp only [find_free, hi, hb, if_false]
      rw [h1]
      congr 1
      omega

theorem ChunkOK.find_free {c : keypool} (hc : ChunkOK c) (hr : c.remaining ≠ 0) :
    ∃ si b, find_free c.pool 0 = some si ∧ c.pool[si]? = some b ∧ b.target = 0 := by
  have hpos : 0 < c.pool.countP (fun b => b.target = 0) := by
    have := hc.2
    unfold freeCount at this
    omega
  obtain ⟨j, b, h1, h2, h3⟩ := find_free_spec c.pool 0 (by simp [hc.1]) hpos
  exact ⟨j, b, by simpa using h1, h2, h3⟩

theorem PoolOK.search_chunk {pool : List keypool} (h : PoolOK pool) :
    PoolOK (search_chunk pool).2 := by
  rcases (search_chunk_spec pool).1 with h1 | h1
  · rw [h1]; exact h
  · rw [h1]
    refine ⟨by simp, fun c hc => ?_⟩
    rcases List.mem_append.mp hc with hc | hc
    · exact h.2 c hc
    · rw [List.mem_singleton.mp hc]; exact allocate_key_chunk_ok

theorem slotAt_search_chunk {pool : List keypool} {q : Ptr} {b : keybinding}
    (h : slotAt pool q = .ok b) : slotAt (search_chunk pool).2 q = .ok b := by
  rcases (search_chunk_spec pool).1 with h1 | h1
  · rw [h1]; exact h
  · rw [h1]
    obtain ⟨c, hc, hb⟩ := slotAt_eq_ok.mp h
    have hlt : q.chunk < pool.length := by
      by_contra hge
      rw [List.getElem?_eq_none (not_lt.mp hge)] at hc
      cases hc
    exact slotAt_eq_ok.mpr ⟨c, by rw [List.getElem?_append_left hlt]; exact hc, hb⟩

/-- A slot of the grown pool that the old pool does not have is free. -/
theorem slotAt_search_chunk_new {pool : List keypool} {q : Ptr} {b : keybinding}
    (h : slotAt (search_chunk pool).2 q = .ok b) :
    slotAt pool q = .ok b ∨ (slotAt pool q = .fault ∧ b.target = 0) := by
  rcases (search_chunk_spec pool).1 with h1 | h1
  · rw [h1] at h; exact Or.inl h
  · rw [h1] at h
    obtain ⟨c, hc, hb⟩ := slotAt_eq_ok.mp h
    by_cases hlt : q.chunk < pool.length
    · rw [List.getElem?_append_left hlt] at hc
      exact Or.inl (slotAt_eq_ok.mpr ⟨c, hc, hb⟩)
    · right
      constructor
      · simp [slotAt, List.getElem?_eq_none (not_lt.mp hlt)]
      · rw [List.getElem?_append_right (not_lt.mp hlt)] at hc
        have hc' : c = allocate_key_chunk := by
          cases hk : q.chunk - pool.length with
          | zero => rw [hk] at hc; simpa using hc.symm
          | succ k => rw [hk] at hc; simp at hc
        subst hc'
        have hb' : b = freeSlot := by
          simp only [allocate_key_chunk, List.getElem?_replicate] at hb
          split at hb
          · exact (Option.some.inj hb).symm
          · cases hb
        rw [hb']; rfl

/-! ## Chains -/

theorem Chain.slot {pool : List keypool} {head : Option Ptr} {ps : List (Ptr × keybinding)}
    (h : Chain pool head ps) : ∀ x ∈ ps, slotAt pool x.1 = .ok x.2 := by
  induction h with
  | nil => intro x hx; cases hx
  | cons hs _ ih =>
    intro x hx
    rcases List.mem_cons.mp hx with rfl | hx
    · exact hs
    · exact ih x hx

theorem Chain.unique_list {pool : List keypool} {head : Option Ptr} {ps qs : List (Ptr × keybinding)}
    (h : Chain pool head ps) (h' : Chain pool head qs) : ps = qs := by
  induction h generalizing qs with
  | nil => cases h'; rfl
  | cons hs _ ih =>
    cases h' with
    | cons hs' hc' =>
      rw [hs] at hs'
      cases hs'
      rw [ih hc']

theorem Chain.congr {pool pool' : List keypool} {head : Option Ptr}
    {ps : List (Ptr × keybinding)} (h : Chain pool head ps)
    (hsame : ∀ x ∈ ps, slotAt pool' x.1 = .ok x.2) : Chain pool' head ps := by
  induction h with
  | nil => exact Chain.nil
  | cons hs _ ih =>
    exact Chain.cons (hsame _ (List.mem_cons_self _ _))
      (ih (fun x hx => hsame x (List.mem_cons_of_mem _ hx)))

theorem Chain.head_none {pool : List keypool} {ps : List (Ptr × keybinding)}
    (h : Chain pool none ps) : ps = [] := by
  cases h; rfl

theorem Chain.head_some {pool : List keypool} {p : Ptr} {ps : List (Ptr × keybinding)}
    (h : Chain pool (some p) ps) : ps ≠ [] := by
  cases h; simp

theorem relink_pairs (nb : Ptr) :
    ∀ ps : List (Ptr × keybinding),
      (relink nb ps).map (fun x => x.2.pair) = ps.map (fun x => x.2.pair) := by
  intro ps
  induction ps with
  | nil => rfl
  | cons x l ih =>
    cases l with
    | nil => simp [relink, keybinding.pair]
    | cons y l => simp only [relink, List.map_cons] at ih ⊢; rw [ih]

theorem relink_fst (nb : Ptr) :
    ∀ ps : List (Ptr × keybinding),
      (relink nb ps).map Prod.fst = ps.map Prod.fst := by
  intro ps
  induction ps with
  | nil => rfl
  | cons x l ih =>
    cases l with
    | nil => simp [relink]
    | cons y l => simp only [relink, List.map_cons] at ih ⊢; rw [ih]

/-- The scan of `add_binding` on a chain without a cycle that does not hold
the pair ends at the terminating `NULL`. -/
theorem Chain.add_scan_absent {pool : List keypool} {head : Option Ptr}
    {ps : List (Ptr × keybinding)} (h : Chain pool head ps) (target : Nat) (keycode : Int)
    (habs : (target, keycode) ∉ ps.map (fun x => x.2.pair)) :
    ∀ (n : Nat) (pl : Place), ps.length ≤ n →
      add_scan pool target keycode n pl head = .ok (some (endPlace pl ps)) := by
  induction h with
  | nil => intro n pl _; cases n <;> simp [add_scan, endPlace]
  | @cons p b l hs _ ih =>
    intro n pl hn
    obtain ⟨n', rfl⟩ : ∃ n', n = n' + 1 := ⟨n - 1, by simp at hn; omega⟩
    have hb : ¬(b.target = target ∧ b.keycode = keycode) := by
      intro hb
      apply habs
      simp [keybinding.pair, ← hb.1, ← hb.2]
    have hl : (target, keycode) ∉ l.map (fun x => x.2.pair) := by
      intro hm
      exact habs (by simp only [List.map_cons]; exact List.mem_cons_of_mem _ hm)
    simp only [add_scan, hs, hb, if_false, endPlace]
    exact ih hl n' _ (by simp at hn; omega)

/-- The scan of `add_binding` on a chain without a cycle that holds the pair
stops at it. -/
theorem Chain.add_scan_present {pool : List keypool} {head : Option Ptr}
    {ps : List (Ptr × keybinding)} (h : Chain pool head ps) (target : Nat) (keycode : Int)
    (hmem : (target, keycode) ∈ ps.map (fun x => x.2.pair)) :
    ∀ (n : Nat) (pl : Place), ps.length ≤ n →
      add_scan pool target keycode n pl head = .ok none := by
  induction h with
  | nil => simp at hmem
  | @cons p b l hs _ ih =>
    intro n pl hn
    obtain ⟨n', rfl⟩ : ∃ n', n = n' + 1 := ⟨n - 1, by simp at hn; omega⟩
    by_cases hb : b.target = target ∧ b.keycode = keycode
    · simp [add_scan, hs, hb]
    · have hl : (target, keycode) ∈ l.map (fun x => x.2.pair) := by
        simp only [List.map_cons, List.mem_cons] at hmem
        rcases hmem with hm | hm
        · exfalso
          apply hb
          simp only [keybinding.pair, Prod.mk.injEq] at hm
          exact ⟨hm.1.symm, hm.2.symm⟩
        · exact hm
      simp only [add_scan, hs, hb, if_false]
      exact ih hl n' _ (by simp at hn; omega)

/-- Linking a new slot after the last slot of a chain gives the chain with the
new slot at its end. -/
theorem Chain.snoc {pool pool' : List keypool} {head : Option Ptr}
    {ps : List (Ptr × keybinding)} (h : Chain pool head ps) (nb last : Ptr)
    (lb newb : keybinding) (hlast : slotAt pool last = .ok lb) (hlb : lb.next = none)
    (hnew : slotAt pool' nb = .ok newb) (hnn : newb.next = none)
    (hfresh : ∀ x ∈ ps, x.1 ≠ nb)
    (hframe : ∀ x ∈ ps, x.1 ≠ last → slotAt pool' x.1 = .ok x.2)
    (hlink : slotAt pool' last = .ok { lb with next := some nb }) :
    ∀ pl, endPlace pl ps = .nextOf last →
      ps ≠ [] → Chain pool' head (relink nb ps ++ [(nb, newb)]) := by
  induction h with
  | nil => intro _ _ hne; exact absurd rfl hne
  | @cons p b l hs hc ih =>
    intro pl hend _
    cases l with
    | nil =>
      simp only [endPlace, Place.nextOf.injEq] at hend
      subst hend
      rw [hs] at hlast
      cases hlast
      simp only [relink, List.singleton_append]
      refine Chain.cons hlink ?_
      exact Chain.cons hnew (by rw [hnn]; exact Chain.nil)
    | cons y l =>
      have hne : p ≠ last := by
        intro hpl
        subst hpl
        rw [hs] at hlast
        cases hlast
        rw [hlb] at hc
        cases hc
      simp only [relink, List.cons_append]
      refine Chain.cons (hframe (p, b) (List.mem_cons_self _ _) hne) ?_
      exact ih (fun x hx => hfresh x (List.mem_cons_of_mem _ hx))
        (fun x hx => hframe x (List.mem_cons_of_mem _ hx)) (.nextOf p) hend (by simp)

/-! ## The free-count invariant under the assignments of add_binding -/

theorem PoolOK.off {pool : List keypool} (h : PoolOK pool) (ci : Nat) : PoolOff ci 0 pool :=
  ⟨h.1, fun i c hc => by
    have := h.2 c (List.getElem?_mem hc)
    exact ⟨this.1, by simpa using this.2⟩⟩

theorem PoolOff.ok {pool : List keypool} {ci : Nat} (h : PoolOff ci 0 pool) : PoolOK pool :=
  ⟨h.1, fun c hc => by
    obtain ⟨i, hi⟩ := List.getElem?_of_mem hc
    have := h.2 i c hi
    exact ⟨this.1, by simpa using this.2⟩⟩

theorem setSlot_ne_nil {pool : List keypool} (h : pool ≠ []) (p : Ptr) (b : keybinding) :
    setSlot pool p b ≠ [] := by
  unfold setSlot
  cases pool[p.chunk]? with
  | none => exact h
  | some c => simpa using h

theorem getElem?_setSlot {pool : List keypool} {p : Ptr} {b : keybinding} {i : Nat}
    {c : keypool} (h : (setSlot pool p b)[i]? = some c) :
    (i ≠ p.chunk ∧ pool[i]? = some c) ∨
      (i = p.chunk ∧ ∃ c0, pool[i]? = some c0 ∧ c = { c0 with pool := c0.pool.set p.slot b }) := by
  unfold setSlot at h
  cases hc : pool[p.chunk]? with
  | none =>
    rw [hc] at h
    simp only at h
    by_cases hi : i = p.chunk
    · subst hi; rw [hc] at h; cases h
    · exact Or.inl ⟨hi, h⟩
  | some c0 =>
    rw [hc] at h
    simp only at h
    by_cases hi : i = p.chunk
    · subst hi
      right
      have hlt : p.chunk < pool.length := by
        by_contra hge
        rw [List.getElem?_eq_none (not_lt.mp hge)] at hc
        cases hc
      simp only [List.getElem?_set_self hlt, Option.some.injEq] at h
      exact ⟨rfl, c0, hc, h.symm⟩
    · left
      rw [List.getElem?_set_ne (fun e => hi e.symm)] at h
      exact ⟨hi, h⟩

/-- Filling a free slot with a non-`NULL` target leaves `remaining` one above
the number of free slots in that chunk. -/
theorem PoolOff.setSlot_fill {pool : List keypool} {p : Ptr} {b0 b : keybinding}
    (h : PoolOff p.chunk 0 pool) (hs : slotAt pool p = .ok b0) (h0 : b0.target = 0)
    (hb : b.target ≠ 0) : PoolOff p.chunk 1 (setSlot pool p b) := by
  refine ⟨setSlot_ne_nil h.1 p b, fun i c hc => ?_⟩
  rcases getElem?_setSlot hc with ⟨hi, hc'⟩ | ⟨hi, c0, hc0, rfl⟩
  · have := h.2 i c hc'
    simpa [hi] using this
  · subst hi
    have := h.2 _ c0 hc0
    obtain ⟨c1, hc1, hb1⟩ := slotAt_eq_ok.mp hs
    rw [hc0] at hc1
    cases hc1
    have hlt : p.slot < c0.pool.length := by
      by_contra hge
      rw [List.getElem?_eq_none (not_lt.mp hge)] at hb1
      cases hb1
    have hget : c0.pool[p.slot] = b0 := by
      rw [List.getElem?_eq_getElem hlt] at hb1
      exact Option.some.inj hb1
    refine ⟨by simpa using this.1, ?_⟩
    have hcnt := List.countP_set (fun b => decide (b.target = 0)) c0.pool p.slot b hlt
    have hpos : 0 < c0.pool.countP (fun b => decide (b.target = 0)) := by
      apply List.countP_pos_iff.mpr
      exact ⟨b0, List.getElem?_mem hb1, by simpa using h0⟩
    simp only [hget, h0, decide_True, if_true, hb, decide_False, Bool.false_eq_true,
      if_false, add_zero] at hcnt
    simp only [freeCount, hcnt, if_true]
    have h2 := this.2
    simp only [freeCount, if_true, add_zero] at h2
    rw [h2]
    omega

/-- Assigning a `next` field changes no count. -/
theorem PoolOff.setNext {pool : List keypool} {ci : Nat} {d : Int} (h : PoolOff ci d pool)
    (p : Ptr) (n : Option Ptr) : PoolOff ci d (setNext pool p n) := by
  cases hs : slotAt pool p with
  | ok b0 =>
    rw [setNext_eq_setSlot hs]
    refine ⟨setSlot_ne_nil h.1 p _, fun i c hc => ?_⟩
    rcases getElem?_setSlot hc with ⟨_, hc'⟩ | ⟨hi, c0, hc0, rfl⟩
    · exact h.2 i c hc'
    · have := h.2 i c0 hc0
      obtain ⟨c1, hc1, hb1⟩ := slotAt_eq_ok.mp hs
      rw [← hi, hc0] at hc1
      cases hc1
      have hlt : p.slot < c0.pool.length := by
        by_contra hge
        rw [List.getElem?_eq_none (not_lt.mp hge)] at hb1
        cases hb1
      have hget : c0.pool[p.slot] = b0 := by
        rw [List.getElem?_eq_getElem hlt] at hb1
        exact Option.some.inj hb1
      refine ⟨by simpa using this.1, ?_⟩
      have hcnt := List.countP_set (fun b => decide (b.target = 0)) c0.pool p.slot
        { b0 with next := n } hlt
      have hle : (if decide (b0.target = 0) = true then 1 else 0) ≤
          c0.pool.countP (fun b => decide (b.target = 0)) := by
        by_cases h0 : b0.target = 0
        · simp only [h0, decide_True, if_true]
          exact List.countP_pos_iff.mpr ⟨b0, List.getElem?_mem hb1, by simpa using h0⟩
        · simp [h0]
      simp only [hget] at hcnt
      have hfc : freeCount { c0 with pool := c0.pool.set p.slot { b0 with next := n } } =
          freeCount c0 := by
        simp only [freeCount]
        rw [hcnt]
        omega
      rw [hfc]
      exact this.2
  | fuel => simp [slotAt] at hs; split at hs <;> [skip; split at hs] <;> simp at hs
  | fault =>
    have : VControl.setNext pool p n = pool := by
      unfold VControl.setNext
      unfold slotAt at hs
      cases hc : pool[p.chunk]? with
      | none => rfl
      | some c =>
        rw [hc] at hs
        simp only at hs ⊢
        cases hb : c.pool[p.slot]? with
        | none => rfl
        | some b => rw [hb] at hs; simp at hs
    rw [this]
    exact h

/-- Correcting `remaining` in the chunk counted apart restores the invariant. -/
theorem PoolOff.addRemaining {pool : List keypool} {ci : Nat} {d : Int} (h : PoolOff ci d pool) :
    PoolOK (VControl.addRemaining pool ci (-d)) := by
  unfold VControl.addRemaining
  cases hc : pool[ci]? with
  | none =>
    refine ⟨h.1, fun c hcm => ?_⟩
    obtain ⟨i, hi⟩ := List.getElem?_of_mem hcm
    have := h.2 i c hi
    have hne : i ≠ ci := by rintro rfl; rw [hc] at hi; cases hi
    exact ⟨this.1, by simpa [hne] using this.2⟩
  | some c0 =>
    refine ⟨by simpa using h.1, fun c hcm => ?_⟩
    obtain ⟨i, hi⟩ := List.getElem?_of_mem hcm
    by_cases hne : i = ci
    · subst hne
      have hlt : i < pool.length := by
        by_contra hge
        rw [List.getElem?_eq_none (not_lt.mp hge)] at hc
        cases hc
      simp only [List.getElem?_set_self hlt, Option.some.injEq] at hi
      subst hi
      have := h.2 i c0 hc
      refine ⟨this.1, ?_⟩
      simp only [freeCount, if_true] at this ⊢
      omega
    · rw [List.getElem?_set_ne (fun e => hne e.symm)] at hi
      have := h.2 i c hi
      exact ⟨this.1, by simpa [hne] using this.2⟩

/-! ## add_binding on a chain without a cycle -/

theorem Chain.nil_head {pool : List keypool} {head : Option Ptr} (h : Chain pool head []) :
    head = none := by
  cases h; rfl

theorem Chain.endPlace_last {pool : List keypool} {head : Option Ptr}
    {ps : List (Ptr × keybinding)} (h : Chain pool head ps) :
    ∀ pl, ps ≠ [] → ∃ x ∈ ps, endPlace pl ps = .nextOf x.1 ∧ x.2.next = none := by
  induction h with
  | nil => intro _ hne; exact absurd rfl hne
  | @cons p b l hs hc ih =>
    intro pl _
    cases l with
    | nil =>
      exact ⟨(p, b), List.mem_cons_self _ _, rfl, hc.nil_head⟩
    | cons y l =>
      obtain ⟨x, hx, h1, h2⟩ := ih (.nextOf p) (by simp)
      exact ⟨x, List.mem_cons_of_mem _ hx, h1, h2⟩

/-- When the pair is already in the chain, `add_binding` returns and changes
nothing. -/
theorem add_binding_present {pool : List keypool} {head : Option Ptr}
    {ps : List (Ptr × keybinding)} (hch : Chain pool head ps) (target : Nat) (keycode : Int)
    (hmem : (target, keycode) ∈ ps.map (fun x => x.2.pair)) (fuel : Nat)
    (hf : ps.length ≤ fuel) :
    add_binding fuel pool head target keycode = .ok (head, pool) := by
  simp only [add_binding, hch.add_scan_present target keycode hmem fuel .head hf]

/-- When the pair is not in the chain, `add_binding` returns after it has
filled a free slot `nb` and linked it at the end of the chain; no slot outside
the chain other than `nb` changes, and the free-count invariant is kept. -/
theorem add_binding_absent {pool : List keypool} {head : Option Ptr}
    {ps : List (Ptr × keybinding)} (hpool : PoolOK pool) (hch : Chain pool head ps)
    (hlive : ∀ x ∈ ps, x.2.target ≠ 0) (target : Nat) (keycode : Int)
    (habs : (target, keycode) ∉ ps.map (fun x => x.2.pair)) (fuel : Nat)
    (hf : ps.length ≤ fuel) :
    ∃ nb head1 pool1, add_binding fuel pool head target keycode = .ok (head1, pool1) ∧
      (∀ b, slotAt pool nb = .ok b → b.target = 0) ∧
      Chain pool1 head1 (relink nb ps ++ [(nb, { target := target, keycode := keycode, next := none })]) ∧
      (∀ q b, slotAt pool q = .ok b → q ≠ nb → (∀ x ∈ ps, x.1 ≠ q) → slotAt pool1 q = .ok b) ∧
      (target ≠ 0 → PoolOK pool1) := by
  have hscan := hch.add_scan_absent target keycode habs fuel .head hf
  obtain ⟨c0, cs, hpc⟩ : ∃ c0 cs, pool = c0 :: cs := by
    cases hp : pool with
    | nil => exact absurd hp hpool.1
    | cons c0 cs => exact ⟨c0, cs, rfl⟩
  obtain ⟨_, c, hc, hrem⟩ := search_chunk_spec pool
  have hpool1 : PoolOK (search_chunk pool).2 := hpool.search_chunk
  obtain ⟨si, b0, hfind, hb0, hb0t⟩ := (hpool1.2 c (List.getElem?_mem hc)).find_free hrem
  have hnb : slotAt (search_chunk pool).2 ⟨(search_chunk pool).1, si⟩ = .ok b0 :=
    slotAt_eq_ok.mpr ⟨c, hc, hb0⟩
  have hfree : ∀ b, slotAt pool ⟨(search_chunk pool).1, si⟩ = .ok b → b.target = 0 := by
    intro b hb
    have := slotAt_search_chunk hb
    rw [hnb] at this
    cases this
    exact hb0t
  have hfresh : ∀ x ∈ ps, x.1 ≠ ⟨(search_chunk pool).1, si⟩ := by
    intro x hx he
    have h1 := hch.slot x hx
    rw [he] at h1
    exact hlive x hx (hfree _ h1)
  have hadd : add_binding fuel pool head target keycode =
      (match endPlace .head ps with
       | .head => .ok (some ⟨(search_chunk pool).1, si⟩,
            addRemaining (setSlot (search_chunk pool).2 ⟨(search_chunk pool).1, si⟩
              { target := target, keycode := keycode, next := none }) (search_chunk pool).1 (-1))
       | .nextOf p => .ok (head,
            addRemaining (setNext (setSlot (search_chunk pool).2 ⟨(search_chunk pool).1, si⟩
              { target := target, keycode := keycode, next := none }) p
              (some ⟨(search_chunk pool).1, si⟩)) (search_chunk pool).1 (-1))) := by
    simp only [add_binding, hscan]
    subst hpc
    simp only [hc, hfind]
  have hok : ∀ p, target ≠ 0 →
      PoolOK (addRemaining (setNext (setSlot (search_chunk pool).2 ⟨(search_chunk pool).1, si⟩
        { target := target, keycode := keycode, next := none }) p
        (some ⟨(search_chunk pool).1, si⟩)) (search_chunk pool).1 (-1)) := by
    intro p ht
    have h1 := (hpool1.off (search_chunk pool).1).setSlot_fill
      (p := ⟨(search_chunk pool).1, si⟩) (b := { target := target, keycode := keycode, next := none })
      hnb hb0t ht
    exact (h1.setNext p _).addRemaining
  refine ⟨⟨(search_chunk pool).1, si⟩, ?_⟩
  cases hps : ps with
  | nil =>
    subst hps
    have hhead : head = none := by cases hch; rfl
    refine ⟨_, _, by rw [hadd]; rfl, hfree, ?_, ?_, ?_⟩
    · simp only [relink, List.nil_append]
      refine Chain.cons ?_ Chain.nil
      rw [slotAt_addRemaining]
      exact slotAt_setSlot_self hnb _
    · intro q b hq hne _
      rw [slotAt_addRemaining, slotAt_setSlot_ne hne]
      exact slotAt_search_chunk hq
    · intro ht
      have h1 := (hpool1.off (search_chunk pool).1).setSlot_fill
        (p := ⟨(search_chunk pool).1, si⟩)
        (b := { target := target, keycode := keycode, next := none }) hnb hb0t ht
      exact h1.addRemaining
  | cons y l =>
    have hne : ps ≠ [] := by rw [hps]; simp
    obtain ⟨x, hx, hend, hxn⟩ := hch.endPlace_last .head hne
    rw [← hps]
    have hxs := hch.slot x hx
    have hxnb : x.1 ≠ ⟨(search_chunk pool).1, si⟩ := hfresh x hx
    have hx2 : slotAt (setSlot (search_chunk pool).2 ⟨(search_chunk pool).1, si⟩
        { target := target, keycode := keycode, next := none }) x.1 = .ok x.2 := by
      rw [slotAt_setSlot_ne hxnb]
      exact slotAt_search_chunk hxs
    refine ⟨head, _, by rw [hadd, hend], hfree, ?_, ?_, hok x.1⟩
    · refine hch.snoc _ x.1 x.2 _ hxs hxn ?_ rfl hfresh ?_ ?_ .head hend hne
      · rw [slotAt_addRemaining, slotAt_setNext_ne (Ne.symm hxnb)]
        exact slotAt_setSlot_self hnb _
      · intro z hz hzl
        rw [slotAt_addRemaining, slotAt_setNext_ne hzl, slotAt_setSlot_ne (hfresh z hz)]
        exact slotAt_search_chunk (hch.slot z hz)
      · rw [slotAt_addRemaining]
        exact slotAt_setNext_self hx2 _
    · intro q b hq hqnb hqps
      rw [slotAt_addRemaining, slotAt_setNext_ne (Ne.symm (hqps x hx)), slotAt_setSlot_ne hqnb]
      exact slotAt_search_chunk hq

/-! ## Reading and assigning chain head cells -/

theorem readCell_pool (s : Store) (pool : List keypool) (c : Cell) :
    readCell { s with pool := pool } c = readCell s c := by
  cases c <;> rfl

theorem getElem?_lt_of_eq_some {α : Type} {l : List α} {i : Nat} {a : α}
    (h : l[i]? = some a) : i < l.length := by
  by_contra hge
  rw [List.getElem?_eq_none (not_lt.mp hge)] at h
  cases h

theorem readCell_writeCell_self {s : Store} {c : Cell} {h : Option Ptr}
    (hc : readCell s c = .ok h) (v : Option Ptr) : readCell (writeCell s c v) c = .ok v := by
  cases c with
  | bucket i =>
    simp only [readCell] at hc ⊢
    cases hb : s.bindings[i]? with
    | none => rw [hb] at hc; cases hc
    | some x =>
      simp [writeCell, List.getElem?_set_self (getElem?_lt_of_eq_some hb), Res.ofOption]
  | axis port a positive =>
    simp only [readCell] at hc
    cases hj : s.joysticks[port]? with
    | none => rw [hj] at hc; cases hc
    | some j =>
      rw [hj] at hc
      simp only at hc
      cases hx : j.axes[a]? with
      | none => rw [hx] at hc; cases hc
      | some x =>
        simp only [writeCell, hj, hx, readCell,
          List.getElem?_set_self (getElem?_lt_of_eq_some hj),
          List.getElem?_set_self (getElem?_lt_of_eq_some hx)]
        cases positive <;> simp
  | button port b =>
    simp only [readCell] at hc
    cases hj : s.joysticks[port]? with
    | none => rw [hj] at hc; cases hc
    | some j =>
      rw [hj] at hc
      simp only at hc
      cases hx : j.buttons[b]? with
      | none => rw [hx] at hc; cases hc
      | some x =>
        simp only [writeCell, hj, readCell,
          List.getElem?_set_self (getElem?_lt_of_eq_some hj),
          List.getElem?_set_self (getElem?_lt_of_eq_some hx), Res.ofOption]
  | hat port h d =>
    simp only [readCell] at hc
    cases hj : s.joysticks[port]? with
    | none => rw [hj] at hc; cases hc
    | some j =>
      rw [hj] at hc
      simp only at hc
      cases hx : j.hats[h]? with
      | none => rw [hx] at hc; cases hc
      | some x =>
        simp only [writeCell, hj, hx, readCell,
          List.getElem?_set_self (getElem?_lt_of_eq_some hj),
          List.getElem?_set_self (getElem?_lt_of_eq_some hx)]
        cases d <;> rfl

theorem joysticks_set_getElem? (js : List joystick) (port port' : Nat) (j j1 : joystick)
    (hj : js[port]? = some j) :
    (js.set port j1)[port']? = if port' = port then some j1 else js[port']? := by
  by_cases h : port' = port
  · subst h
    simp [List.getElem?_set_self (getElem?_lt_of_eq_some hj)]
  · simp [h, List.getElem?_set_ne (fun e => h e.symm)]

theorem readCell_writeCell_ne {s : Store} {c c' : Cell} (hne : c' ≠ c) (v : Option Ptr) :
    readCell (writeCell s c v) c' = readCell s c' := by
  cases c with
  | bucket i =>
    cases c' with
    | bucket i' =>
      have : i ≠ i' := fun e => hne (by rw [e])
      simp [readCell, writeCell, List.getElem?_set_ne this]
    | axis port' a' positive' => rfl
    | button port' b' => rfl
    | hat port' h' d' => rfl
  | axis port a positive =>
    cases hj : s.joysticks[port]? with
    | none => simp [writeCell, hj]
    | some j =>
      cases hx : j.axes[a]? with
      | none => simp [writeCell, hj, hx]
      | some x =>
        cases c' with
        | bucket i' => simp [readCell, writeCell, hj, hx]
        | axis port' a' positive' =>
          simp only [readCell, writeCell, hj, hx, joysticks_set_getElem? _ _ _ _ _ hj]
          by_cases hp : port' = port
          · subst hp
            simp only [if_true, hj]
            by_cases ha : a' = a
            · subst ha
              simp only [List.getElem?_set_self (getElem?_lt_of_eq_some hx), hx]
              have hpp : positive' ≠ positive := fun e => hne (by rw [e])
              cases positive <;> cases positive' <;> simp at hpp ⊢
            · simp only [List.getElem?_set_ne (fun e => ha e.symm)]
          · simp only [hp, if_false]
        | button port' b' =>
          simp only [readCell, writeCell, hj, hx, joysticks_set_getElem? _ _ _ _ _ hj]
          by_cases hp : port' = port
          · subst hp; simp only [if_true, hj]
          · simp only [hp, if_false]
        | hat port' h' d' =>
          simp only [readCell, writeCell, hj, hx, joysticks_set_getElem? _ _ _ _ _ hj]
          by_cases hp : port' = port
          · subst hp; simp only [if_true, hj]
          · simp only [hp, if_false]
  | button port b =>
    cases hj : s.joysticks[port]? with
    | none => simp [writeCell, hj]
    | some j =>
      cases c' with
      | bucket i' => simp [readCell, writeCell, hj]
      | axis port' a' positive' =>
        simp only [readCell, writeCell, hj, joysticks_set_getElem? _ _ _ _ _ hj]
        by_cases hp : port' = port
        · subst hp; simp only [if_true, hj]
        · simp only [hp, if_false]
      | button port' b' =>
        simp only [readCell, writeCell, hj, joysticks_set_getElem? _ _ _ _ _ hj]
        by_cases hp : port' = port
        · subst hp
          simp only [if_true, hj]
          have hb : b ≠ b' := fun e => hne (by rw [e])
          simp only [List.getElem?_set_ne hb]
        · simp only [hp, if_false]
      | hat port' h' d' =>
        simp only [readCell, writeCell, hj, joysticks_set_getElem? _ _ _ _ _ hj]
        by_cases hp : port' = port
        · subst hp; simp only [if_true, hj]
        · simp only [hp, if_false]
  | hat port h d =>
    cases hj : s.joysticks[port]? with
    | none => simp [writeCell, hj]
    | some j =>
      cases hx : j.hats[h]? with
      | none => simp [writeCell, hj, hx]
      | some x =>
        cases c' with
        | bucket i' => simp [readCell, writeCell, hj, hx]
        | axis port' a' positive' =>
          simp only [readCell, writeCell, hj, hx, joysticks_set_getElem? _ _ _ _ _ hj]
          by_cases hp : port' = port
          · subst hp; simp only [if_true, hj]
          · simp only [hp, if_false]
        | button port' b' =>
          simp only [readCell, writeCell, hj, hx, joysticks_set_getElem? _ _ _ _ _ hj]
          by_cases hp : port' = port
          · subst hp; simp only [if_true, hj]
          · simp only [hp, if_false]
        | hat port' h' d' =>
          simp only [readCell, writeCell, hj, hx, joysticks_set_getElem? _ _ _ _ _ hj]
          by_cases hp : port' = port
          · subst hp
            simp only [if_true, hj]
            by_cases hh : h' = h
            · subst hh
              simp only [List.getElem?_set_self (getElem?_lt_of_eq_some hx), hx]
              have hdd : d' ≠ d := fun e => hne (by rw [e])
              cases d <;> cases d' <;> simp [hat.setChain, hat.chain] at hdd ⊢
            · simp only [List.getElem?_set_ne (fun e => hh e.symm)]
          · simp only [hp, if_false]

/-! ## add_binding on a cell of a store that satisfies the invariant -/

theorem list_set_of_getElem? {α : Type} {l : List α} {i : Nat} {a : α} (h : l[i]? = some a) :
    l.set i a = l := by
  apply List.ext_getElem?
  intro j
  by_cases hj : i = j
  · subst hj; rw [List.getElem?_set_self (getElem?_lt_of_eq_some h), h]
  · rw [List.getElem?_set_ne hj]

theorem writeCell_self {s : Store} {c : Cell} {h : Option Ptr} (hc : readCell s c = .ok h) :
    writeCell s c h = s := by
  cases c with
  | bucket i =>
    simp only [readCell] at hc
    cases hb : s.bindings[i]? with
    | none => rw [hb] at hc; cases hc
    | some x =>
      rw [hb] at hc
      cases hc
      simp [writeCell, list_set_of_getElem? hb]
  | axis port a positive =>
    simp only [readCell] at hc
    cases hj : s.joysticks[port]? with
    | none => rw [hj] at hc; cases hc
    | some j =>
      rw [hj] at hc
      simp only at hc
      cases hx : j.axes[a]? with
      | none => rw [hx] at hc; cases hc
      | some x =>
        rw [hx] at hc
        cases hc
        have h1 : (if positive = true then { x with pos := if positive = true then x.pos else x.neg }
            else { x with neg := if positive = true then x.pos else x.neg }) = x := by
          cases positive <;> simp
        simp only [writeCell, hj, hx, h1, list_set_of_getElem? hx, list_set_of_getElem? hj]
  | button port b =>
    simp only [readCell] at hc
    cases hj : s.joysticks[port]? with
    | none => rw [hj] at hc; cases hc
    | some j =>
      rw [hj] at hc
      simp only at hc
      cases hx : j.buttons[b]? with
      | none => rw [hx] at hc; cases hc
      | some x =>
        rw [hx] at hc
        cases hc
        simp only [writeCell, hj, list_set_of_getElem? hx, list_set_of_getElem? hj]
  | hat port h' d =>
    simp only [readCell] at hc
    cases hj : s.joysticks[port]? with
    | none => rw [hj] at hc; cases hc
    | some j =>
      rw [hj] at hc
      simp only at hc
      cases hx : j.hats[h']? with
      | none => rw [hx] at hc; cases hc
      | some x =>
        rw [hx] at hc
        cases hc
        have h1 : x.setChain d (x.chain d) = x := by cases d <;> rfl
        simp only [writeCell, hj, hx, h1, list_set_of_getElem? hx, list_set_of_getElem? hj]

theorem HoldsChain.unique_pairs {s : Store} {c : Cell} {l l' : List (Nat × Int)}
    (h : HoldsChain s c l) (h' : HoldsChain s c l') : l = l' := by
  obtain ⟨head, hc, ps, hch, hl, _⟩ := h
  obtain ⟨head', hc', ps', hch', hl', _⟩ := h'
  rw [hc] at hc'
  cases hc'
  rw [← hl, ← hl', hch.unique_list hch']

/-- The store after `add_binding (&cell, target, keycode)`, a store that
satisfies the invariant: the call returns; the chain of the cell holds the new
pair at its end unless it held it already; the other chains hold what they
held; the invariant is kept. -/
theorem add_at_spec {s : Store} (hinv : Inv s) {c : Cell} {l : List (Nat × Int)}
    (hc : HoldsChain s c l) (target : Nat) (ht : target ≠ 0) (keycode : Int) :
    ∃ v pool1, Returns (fun fuel => add_at fuel s c target keycode)
        { writeCell s c v with pool := pool1 } ∧
      HoldsChain { writeCell s c v with pool := pool1 } c
        (if (target, keycode) ∈ l then l else l ++ [(target, keycode)]) ∧
      (∀ c' l', c' ≠ c → HoldsChain s c' l' →
        HoldsChain { writeCell s c v with pool := pool1 } c' l') ∧
      Inv { writeCell s c v with pool := pool1 } := by
  have hc0 := hc
  obtain ⟨head, hrc, ps, hch, hl, hlive⟩ := hc
  have hlive' : ∀ x ∈ ps, x.2.target ≠ 0 := by
    intro x hx
    exact hlive x.2.pair (by rw [← hl]; exact List.mem_map_of_mem (fun x => x.2.pair) hx)
  by_cases hmem : (target, keycode) ∈ l
  · -- the pair is present: nothing changes
    have hsame : ({ writeCell s c head with pool := s.pool } : Store) = s := by
      rw [writeCell_self hrc]
    refine ⟨head, s.pool, ?_, ?_, ?_, ?_⟩
    · refine ⟨ps.length, fun fuel hf => ?_⟩
      simp only [add_at, hrc,
        add_binding_present hch target keycode (by rw [hl]; exact hmem) fuel hf]
    · rw [hsame, if_pos hmem]; exact ⟨head, hrc, ps, hch, hl, hlive⟩
    · intro c' l' _ h; rw [hsame]; exact h
    · rw [hsame]; exact hinv
  · -- the pair is absent: a free slot is linked at the end
    have habs : (target, keycode) ∉ ps.map (fun x => x.2.pair) := by rw [hl]; exact hmem
    obtain ⟨nb, head1, pool1, _, hfree, hch1, hframe, hpok⟩ :=
      add_binding_absent hinv.pool hch hlive' target keycode habs ps.length (le_refl _)
    have hrun : ∀ fuel, ps.length ≤ fuel →
        add_binding fuel s.pool head target keycode = .ok (head1, pool1) := by
      intro fuel hf
      obtain ⟨nb', head', pool', h1, _⟩ :=
        add_binding_absent hinv.pool hch hlive' target keycode habs ps.length (le_refl _)
      have := add_binding_mono s.pool head target keycode ps.length fuel _ h1 hf
      have h2 := add_binding_mono s.pool head target keycode ps.length fuel _
        (by assumption : add_binding ps.length s.pool head target keycode = .ok (head1, pool1)) hf
      exact h2
    -- the new chain of the cell
    have hnew : HoldsChain { writeCell s c head1 with pool := pool1 } c
        (l ++ [(target, keycode)]) := by
      refine ⟨head1, ?_, _, hch1, ?_, ?_⟩
      · rw [readCell_pool]; exact readCell_writeCell_self hrc _
      · rw [List.map_append, relink_pairs, hl]; rfl
      · intro b hb
        rcases List.mem_append.mp hb with hb | hb
        · exact hlive b hb
        · rw [List.mem_singleton.mp hb]; exact ht
    -- the chains of the other cells
    have hold : ∀ c' h' ps', c' ≠ c → readCell s c' = .ok h' → Chain s.pool h' ps' →
        (∀ x ∈ ps', x.2.target ≠ 0) → Chain pool1 h' ps' := by
      intro c' h' ps' hne hrc' hch' hl'
      refine hch'.congr (fun x hx => ?_)
      refine hframe x.1 x.2 (hch'.slot x hx) ?_ ?_
      · intro he
        exact hl' x hx (hfree _ (by rw [← he]; exact hch'.slot x hx))
      · intro y hy he
        exact hinv.disjoint c c' head h' ps ps' (Ne.symm hne) hrc hrc' hch hch' y hy x hx he
    have hothers : ∀ c' l', c' ≠ c → HoldsChain s c' l' →
        HoldsChain { writeCell s c head1 with pool := pool1 } c' l' := by
      intro c' l' hne ⟨h', hrc', ps', hch', hl', hlv'⟩
      refine ⟨h', ?_, ps', ?_, hl', hlv'⟩
      · rw [readCell_pool, readCell_writeCell_ne hne]; exact hrc'
      · refine hold c' h' ps' hne hrc' hch' (fun x hx => ?_)
        exact hlv' x.2.pair (by rw [← hl']; exact List.mem_map_of_mem (fun x => x.2.pair) hx)
    refine ⟨head1, pool1, ⟨ps.length, fun fuel hf => ?_⟩, ?_, hothers, ?_⟩
    · simp only [add_at, hrc, hrun fuel hf]
    · rw [if_neg hmem]; exact hnew
    · -- the invariant
      have hcases : ∀ c' h', readCell { writeCell s c head1 with pool := pool1 } c' = .ok h' →
          (c' = c ∧ h' = head1) ∨ (c' ≠ c ∧ readCell s c' = .ok h') := by
        intro c' h' hr
        by_cases hcc : c' = c
        · subst hcc
          rw [readCell_pool, readCell_writeCell_self hrc] at hr
          cases hr
          exact Or.inl ⟨rfl, rfl⟩
        · rw [readCell_pool, readCell_writeCell_ne hcc] at hr
          exact Or.inr ⟨hcc, hr⟩
      have haddr : ∀ x ∈ relink nb ps ++ [(nb, keybinding.mk target keycode none)],
          x.1 = nb ∨ ∃ y ∈ ps, y.1 = x.1 := by
        intro x hx
        rcases List.mem_append.mp hx with hx | hx
        · right
          have : x.1 ∈ (relink nb ps).map Prod.fst := List.mem_map_of_mem _ hx
          rw [relink_fst] at this
          obtain ⟨y, hy, hyx⟩ := List.mem_map.mp this
          exact ⟨y, hy, hyx⟩
        · left; rw [List.mem_singleton.mp hx]
      refine ⟨hpok ht, ?_, ?_, ?_⟩
      · intro c' h' hr
        rcases hcases c' h' hr with ⟨rfl, rfl⟩ | ⟨hne, hr'⟩
        · obtain ⟨hd, hrd, hx⟩ := hnew
          rw [hr] at hrd
          cases hrd
          exact ⟨_, hx⟩
        · obtain ⟨bs, ps', hch', hl', hlv'⟩ := hinv.chains c' h' hr'
          refine ⟨bs, ps', ?_, hl', hlv'⟩
          refine hold c' h' ps' hne hr' hch' (fun x hx => ?_)
          exact hlv' x.2.pair (by rw [← hl']; exact List.mem_map_of_mem (fun x => x.2.pair) hx)
      · intro c1 c2 h1 h2 ps1 ps2 hne hr1 hr2 hch1' hch2' x hx y hy he
        have key : ∀ c' h' ps' , c' ≠ c → readCell s c' = .ok h' → Chain pool1 h' ps' →
            ∀ z ∈ ps', z.1 ≠ nb ∧ (∀ w ∈ ps, w.1 ≠ z.1) ∧ Chain s.pool h' ps' := by
          intro c' h' ps' hne' hr' hc' z hz
          obtain ⟨bs, ps0, hch0, hl0, hlv0⟩ := hinv.chains c' h' hr'
          have hlv0' : ∀ x ∈ ps0, x.2.target ≠ 0 := fun x hx =>
            hlv0 x.2.pair (by rw [← hl0]; exact List.mem_map_of_mem (fun x => x.2.pair) hx)
          have heq : ps' = ps0 := hc'.unique_list (hold c' h' ps0 hne' hr' hch0 hlv0')
          subst heq
          refine ⟨?_, ?_, hch0⟩
          · intro he'
            exact hlv0' z hz (hfree _ (by rw [← he']; exact hch0.slot z hz))
          · intro w hw he'
            exact hinv.disjoint c c' head h' ps ps' (Ne.symm hne') hrc hr' hch hch0 w hw z hz he'
        rcases hcases c1 h1 hr1 with ⟨rfl, rfl⟩ | ⟨hne1, hr1'⟩
        · rcases hcases c2 h2 hr2 with ⟨rfl, _⟩ | ⟨hne2, hr2'⟩
          · exact hne rfl
          · have hps1 := hch1'.unique_list hch1
            subst hps1
            obtain ⟨k1, k2, _⟩ := key c2 h2 ps2 hne2 hr2' hch2' y hy
            rcases haddr x hx with hxn | ⟨w, hw, hwx⟩
            · exact k1 (by rw [← he, hxn])
            · exact k2 w hw (by rw [hwx, he])
        · rcases hcases c2 h2 hr2 with ⟨rfl, rfl⟩ | ⟨hne2, hr2'⟩
          · have hps2 := hch2'.unique_list hch1
            subst hps2
            obtain ⟨k1, k2, _⟩ := key c1 h1 ps1 hne1 hr1' hch1' x hx
            rcases haddr y hy with hyn | ⟨w, hw, hwy⟩
            · exact k1 (by rw [he, hyn])
            · exact k2 w hw (by rw [hwy, he])
          · obtain ⟨_, _, k1⟩ := key c1 h1 ps1 hne1 hr1' hch1' x hx
            obtain ⟨_, _, k2⟩ := key c2 h2 ps2 hne2 hr2' hch2' y hy
            exact hinv.disjoint c1 c2 h1 h2 ps1 ps2 hne hr1' hr2' k1 k2 x hx y hy he
      · intro c' l' hh
        by_cases hcc : c' = c
        · subst hcc
          rw [hh.unique_pairs hnew]
          have hnd : l.Nodup := hinv.unique c' l hc0
          exact List.Nodup.append hnd (List.nodup_singleton _)
            (by simpa [List.disjoint_singleton] using hmem)
        · obtain ⟨h', hr', ps', hch', hl', hlv'⟩ := hh
          rw [readCell_pool, readCell_writeCell_ne hcc] at hr'
          obtain ⟨bs, ps0, hch0, hl0, hlv0⟩ := hinv.chains c' h' hr'
          have hlv0' : ∀ x ∈ ps0, x.2.target ≠ 0 := fun x hx =>
            hlv0 x.2.pair (by rw [← hl0]; exact List.mem_map_of_mem (fun x => x.2.pair) hx)
          have heq : ps' = ps0 := hch'.unique_list (hold c' h' ps0 hcc hr' hch0 hlv0')
          subst heq
          exact hinv.unique c' l' ⟨h', hr', ps', hch0, hl', hlv'⟩

/-! ## The invariant holds initially -/

theorem key_init_cell {host : Host} {nt : Option (List VControl_NameBinding)} {c : Cell}
    {h : Option Ptr} (hr : readCell (key_init host nt) c = .ok h) : h = none := by
  cases c with
  | bucket i =>
    simp only [readCell, key_init, List.getElem?_replicate] at hr
    split at hr
    · cases hr; rfl
    · cases hr
  | axis port a positive =>
    simp only [readCell, key_init, List.getElem?_map] at hr
    cases hp : (List.range host.numJoysticks)[port]? with
    | none => rw [hp] at hr; cases hr
    | some x => rw [hp] at hr; simp at hr
  | button port b =>
    simp only [readCell, key_init, List.getElem?_map] at hr
    cases hp : (List.range host.numJoysticks)[port]? with
    | none => rw [hp] at hr; cases hr
    | some x => rw [hp] at hr; simp [Res.ofOption] at hr
  | hat port h' d =>
    simp only [readCell, key_init, List.getElem?_map] at hr
    cases hp : (List.range host.numJoysticks)[port]? with
    | none => rw [hp] at hr; cases hr
    | some x => rw [hp] at hr; simp at hr

/-- A store all of whose chains are empty satisfies the invariant when its
pool does. -/
theorem Inv.of_empty {s : Store} (hp : PoolOK s.pool)
    (he : ∀ c h, readCell s c = .ok h → h = none) : Inv s := by
  refine ⟨hp, ?_, ?_, ?_⟩
  · intro c h hr
    rw [he c h hr]
    exact ⟨[], [], Chain.nil, rfl, fun b hb => by cases hb⟩
  · intro c1 c2 h1 h2 ps1 ps2 _ hr1 _ hc1 _ x hx
    rw [he c1 h1 hr1] at hc1
    rw [hc1.head_none] at hx
    cases hx
  · intro c l ⟨h, hr, ps, hc, hl, _⟩
    rw [he c h hr] at hc
    rw [hc.head_none] at hl
    rw [← hl]
    exact List.nodup_nil

theorem key_init_inv (host : Host) (nt : Option (List VControl_NameBinding)) :
    Inv (key_init host nt) :=
  Inv.of_empty ⟨by simp [key_init], fun c hc => by
    simp only [key_init, List.mem_singleton] at hc
    rw [hc]; exact allocate_key_chunk_ok⟩ (fun _ _ hr => key_init_cell hr)

theorem VControl_Init_inv (host : Host) : Inv (VControl_Init host) :=
  key_init_inv host none

/-! ## VControl_AddKeyBinding on a store that satisfies the invariant -/

theorem bucketIndex_lt (symbol : Int) : bucketIndex symbol < KEYBOARD_INPUT_BUCKETS := by
  unfold bucketIndex KEYBOARD_INPUT_BUCKETS
  exact Int.tmod_lt_of_pos symbol (by norm_num)

theorem bucket_toNat_lt {symbol : Int} (h0 : 0 ≤ bucketIndex symbol) :
    (bucketIndex symbol).toNat < KEYBOARD_INPUT_BUCKETS := by
  have := bucketIndex_lt symbol
  omega

theorem Inv.holds_bucket {s : Store} (hinv : Inv s) {i : Nat} (hi : i < s.bindings.length) :
    ∃ l, HoldsChain s (.bucket i) l := by
  obtain ⟨head, bs, hh, hbs⟩ := hinv.chains.bucket hi
  exact ⟨bs, head, by simp [readCell, hh, Res.ofOption], hbs⟩

/-- The store after `VControl_AddKeyBinding (symbol, target)`. -/
theorem add_key_spec {s : Store} (hinv : Inv s) (hlen : s.bindings.length = KEYBOARD_INPUT_BUCKETS)
    (symbol : Int) (h0 : 0 ≤ bucketIndex symbol) (target : Nat) (ht : target ≠ 0)
    {l : List (Nat × Int)} (hl : HoldsChain s (.bucket (bucketIndex symbol).toNat) l) :
    ∃ s1, Returns (fun fuel => VControl_AddKeyBinding fuel s symbol target) (s1, 0) ∧
      HoldsChain s1 (.bucket (bucketIndex symbol).toNat)
        (if (target, symbol) ∈ l then l else l ++ [(target, symbol)]) ∧
      (∀ c' l', c' ≠ .bucket (bucketIndex symbol).toNat → HoldsChain s c' l' →
        HoldsChain s1 c' l') ∧
      Inv s1 ∧ s1.bindings.length = KEYBOARD_INPUT_BUCKETS ∧ s1.joysticks = s.joysticks ∧
      s1.joycount = s.joycount ∧ s1.nametable = s.nametable := by
  obtain ⟨v, pool1, ⟨n, hn⟩, h2, h3, h4⟩ := add_at_spec hinv hl target ht symbol
  refine ⟨_, ⟨n, fun fuel hf => ?_⟩, h2, h3, h4, ?_, rfl, rfl, rfl⟩
  · simp only [VControl_AddKeyBinding, not_lt.mpr h0, if_false, hn fuel hf]
  · simp [writeCell, hlen]

theorem add_key_inv {s s1 : Store} (hinv : Inv s)
    (hlen : s.bindings.length = KEYBOARD_INPUT_BUCKETS) {symbol : Int} {target : Nat}
    (ht : target ≠ 0) {n : Nat} {r : Int}
    (h : VControl_AddKeyBinding n s symbol target = .ok (s1, r)) :
    Inv s1 ∧ s1.bindings.length = KEYBOARD_INPUT_BUCKETS := by
  have h0 : 0 ≤ bucketIndex symbol := by
    by_contra hneg
    simp [VControl_AddKeyBinding, not_le.mp hneg] at h
  obtain ⟨l, hl⟩ := hinv.holds_bucket (i := (bucketIndex symbol).toNat)
    (by rw [hlen]; exact bucket_toNat_lt h0)
  obtain ⟨s2, hret, _, _, hinv2, hlen2, _⟩ := add_key_spec hinv hlen symbol h0 target ht hl
  have := Returns.unique_result ((VControl_AddKeyBinding_mono s symbol target).returns h) hret
  cases this
  exact ⟨hinv2, hlen2⟩

theorem bind_keys_inv : ∀ (ks : List (Int × Nat)) (s s1 : Store) (n : Nat), Inv s →
    s.bindings.length = KEYBOARD_INPUT_BUCKETS → (∀ k ∈ ks, k.2 ≠ 0) →
    bind_keys n s ks = .ok s1 → Inv s1 ∧ s1.bindings.length = KEYBOARD_INPUT_BUCKETS := by
  intro ks
  induction ks with
  | nil => intro s s1 n hinv hlen _ h; simp only [bind_keys] at h; cases h; exact ⟨hinv, hlen⟩
  | cons k ks ih =>
    intro s s1 n hinv hlen hk h
    obtain ⟨symbol, target⟩ := k
    simp only [bind_keys] at h
    cases ha : VControl_AddKeyBinding n s symbol target with
    | fuel => rw [ha] at h; cases h
    | fault => rw [ha] at h; cases h
    | ok r =>
      rw [ha] at h
      obtain ⟨s2, r2⟩ := r
      have := add_key_inv hinv hlen (hk (symbol, target) (List.mem_cons_self _ _)) ha
      exact ih s2 s1 n this.1 this.2 (fun k hk' => hk k (List.mem_cons_of_mem _ hk')) h

set_option maxRecDepth 100000 in
theorem twoKeys_inv : Inv twoKeys ∧ twoKeys.bindings.length = KEYBOARD_INPUT_BUCKETS :=
  bind_keys_inv [(1, 100), (513, 200)] (VControl_Init noJoyHost) twoKeys 2
    (VControl_Init_inv noJoyHost) (by simp [VControl_Init, key_init]) (by decide) (by decide)

/-! ## Adding a binding twice -/

theorem add_at_present {s : Store} {c : Cell} {l : List (Nat × Int)} (hc : HoldsChain s c l)
    (target : Nat) (keycode : Int) (hmem : (target, keycode) ∈ l) :
    Returns (fun fuel => add_at fuel s c target keycode) s := by
  obtain ⟨head, hrc, ps, hch, hl, _⟩ := hc
  refine ⟨ps.length, fun fuel hf => ?_⟩
  simp only [add_at, hrc,
    add_binding_present hch target keycode (by rw [hl]; exact hmem) fuel hf]
  rw [writeCell_self hrc]

theorem bound_count_eq_zero {keycode : Int} {a : Nat} :
    ∀ {l : List (Nat × Int)}, (a, keycode) ∉ l → bound_count keycode l a = 0 := by
  intro l
  induction l with
  | nil => intro _; rfl
  | cons b l ih =>
    intro h
    rw [bound_count_cons, ih (fun hm => h (List.mem_cons_of_mem _ hm))]
    have hb : ¬(b.2 = keycode ∧ b.1 = a) := by
      rintro ⟨h1, h2⟩
      exact h (by rw [← h1, ← h2]; exact List.mem_cons_self _ _)
    simp [hb]

theorem bound_count_eq_one {keycode : Int} {a : Nat} :
    ∀ {l : List (Nat × Int)}, l.Nodup → (a, keycode) ∈ l → bound_count keycode l a = 1 := by
  intro l
  induction l with
  | nil => intro _ h; cases h
  | cons b l ih =>
    intro hnd hm
    rw [bound_count_cons]
    obtain ⟨hbl, hnd'⟩ := List.nodup_cons.mp hnd
    by_cases hb : b.2 = keycode ∧ b.1 = a
    · have hbe : b = (a, keycode) := by rw [← hb.1, ← hb.2]
      rw [bound_count_eq_zero (by rw [← hbe]; exact hbl)]
      simp [hb]
    · have hm' : (a, keycode) ∈ l := by
        rcases List.mem_cons.mp hm with he | hm'
        · exact absurd ⟨by rw [← he], by rw [← he]⟩ hb
        · exact hm'
      rw [ih hnd' hm']
      simp [hb]

/-- C5: adding a key binding is idempotent.  On a store that satisfies the
invariant, `VControl_AddKeyBinding (code, t)` returns 0 with a store on which
the same call returns 0 again and changes nothing (chains, pool slots and
free counts); the bucket chain then holds the pair `(t, code)` exactly once. -/
theorem add_key_binding_idempotent (s : Store) (hinv : Inv s)
    (hlen : s.bindings.length = KEYBOARD_INPUT_BUCKETS) (code : Int)
    (h0 : 0 ≤ bucketIndex code) (t : Nat) (ht : t ≠ 0) :
    ∃ s1, Returns (fun fuel => VControl_AddKeyBinding fuel s code t) (s1, 0) ∧
      Returns (fun fuel => VControl_AddKeyBinding fuel s1 code t) (s1, 0) ∧
      ∃ l, HoldsChain s1 (.bucket (bucketIndex code).toNat) l ∧ bound_count code l t = 1 := by
  obtain ⟨l, hl⟩ := hinv.holds_bucket (i := (bucketIndex code).toNat)
    (by rw [hlen]; exact bucket_toNat_lt h0)
  obtain ⟨s1, hret, hl1, _, hinv1, _⟩ := add_key_spec hinv hlen code h0 t ht hl
  have hmem : (t, code) ∈ (if (t, code) ∈ l then l else l ++ [(t, code)]) := by
    by_cases h : (t, code) ∈ l
    · rw [if_pos h]; exact h
    · rw [if_neg h]; simp
  refine ⟨s1, hret, ?_, _, hl1, bound_count_eq_one (hinv1.unique _ _ hl1) hmem⟩
  obtain ⟨n, hn⟩ := add_at_present hl1 t code hmem
  exact ⟨n, fun fuel hf => by
    simp only [VControl_AddKeyBinding, not_lt.mpr h0, if_false, hn fuel hf]⟩

/-- C5 at the store `twoKeys`, key 1025 and target 300. -/
theorem add_key_binding_idempotent_witness :
    ∃ s1, Returns (fun fuel => VControl_AddKeyBinding fuel twoKeys 1025 300) (s1, 0) ∧
      Returns (fun fuel => VControl_AddKeyBinding fuel s1 1025 300) (s1, 0) ∧
      ∃ l, HoldsChain s1 (.bucket (bucketIndex 1025).toNat) l ∧ bound_count 1025 l 300 = 1 :=
  add_key_binding_idempotent twoKeys twoKeys_inv.1 twoKeys_inv.2 1025 (by decide) 300
    (by decide)

/-! ## No event makes a counter negative -/

theorem Returns.ite {α : Type} (c : Prop) [Decidable c] {f g : Nat → Res α} {a b : α}
    (hf : Returns f a) (hg : Returns g b) :
    Returns (fun n => if c then f n else g n) (if c then a else b) := by
  by_cases hc : c
  · simpa only [hc, if_true] using hf
  · simpa only [hc, if_false] using hg

/-- What one call of `VControl_ProcessJoyAxis` returns on an opened device
whose two chains of the axis have no cycle; `bn` and `bp` are the pairs of the
negative and of the positive chain. -/
theorem axis_step {s : Store} (m : Mem) {port a : Int} (value : Int) {j : joystick} {x : axis}
    {bn bp : List (Nat × Int)} (h0 : 0 ≤ port) (hj : s.joysticks[port.toNat]? = some j)
    (hopen : j.stick = true) (ha : 0 ≤ a) (hx : j.axes[a.toNat]? = some x)
    (hn : LiveChain s.pool x.neg bn) (hp : LiveChain s.pool x.pos bp) :
    Returns (fun fuel => VControl_ProcessJoyAxis fuel s m port a value)
      (if value > j.threshold then
        if x.polarity ≠ 1 then
          (setPolarity s port.toNat a.toNat 1,
            activate_list SDLK_UNKNOWN bp
              (if x.polarity = -1 then deactivate_list SDLK_UNKNOWN bn m else m))
        else (s, m)
      else if value < -j.threshold then
        if x.polarity ≠ -1 then
          (setPolarity s port.toNat a.toNat (-1),
            activate_list SDLK_UNKNOWN bn
              (if x.polarity = 1 then deactivate_list SDLK_UNKNOWN bp m else m))
        else (s, m)
      else
        (setPolarity s port.toNat a.toNat 0,
          if x.polarity = -1 then deactivate_list SDLK_UNKNOWN bn m
          else if x.polarity = 1 then deactivate_list SDLK_UNKNOWN bp m else m)) := by
  have hja : joystickAt s port = .ok j := by
    simp [joystickAt, not_lt.mpr h0, hj, Res.ofOption]
  simp only [VControl_ProcessJoyAxis, hja, hopen, Bool.not_true, Bool.false_eq_true, if_false,
    not_lt.mpr ha, hx]
  by_cases h1 : value > j.threshold
  · simp only [h1, if_true]
    by_cases hp1 : x.polarity = 1
    · simp only [hp1, ne_eq, not_true_eq_false, if_false]
      exact Returns.pure _
    · simp only [hp1, ne_eq, not_false_eq_true, if_true]
      refine Returns.bind (Returns.bind
        (Returns.ite (x.polarity = -1) (hn.deactivate_returns SDLK_UNKNOWN m) (Returns.pure m)) ?_)
        (Returns.pure _)
      exact hp.activate_returns SDLK_UNKNOWN _
  · simp only [h1, if_false]
    by_cases h2 : value < -j.threshold
    · simp only [h2, if_true]
      by_cases hp1 : x.polarity = -1
      · simp only [hp1, ne_eq, not_true_eq_false, if_false]
        exact Returns.pure _
      · simp only [hp1, ne_eq, not_false_eq_true, if_true]
        refine Returns.bind (Returns.bind
          (Returns.ite (x.polarity = 1) (hp.deactivate_returns SDLK_UNKNOWN m) (Returns.pure m)) ?_)
          (Returns.pure _)
        exact hn.activate_returns SDLK_UNKNOWN _
    · simp only [h2, if_false]
      refine Returns.bind
        (Returns.ite (x.polarity = -1) (hn.deactivate_returns SDLK_UNKNOWN m)
          (Returns.ite (x.polarity = 1) (hp.deactivate_returns SDLK_UNKNOWN m) (Returns.pure m))) ?_
      exact Returns.pure _

/-- C8: the axis transition function.  For an opened device with threshold
`t >= 0` and an axis whose chains have no cycle (`bn`, `bp` the pairs of the
negative and positive chain), `VControl_ProcessJoyAxis (port, a, value)`
returns, and: if `value > t` and the polarity is not 1, the negative chain is
deactivated exactly when the polarity was -1, then the positive chain is
activated once and the polarity becomes 1; if `value > t` and the polarity is
1 nothing changes; symmetrically for `value < -t`; if `-t <= value <= t` the
chain of the current polarity, if any, is deactivated once and the polarity
becomes 0. -/
theorem axis_transition (s : Store) (m : Mem) (port a value : Int) (j : joystick) (x : axis)
    (bn bp : List (Nat × Int)) (h0 : 0 ≤ port) (hj : s.joysticks[port.toNat]? = some j)
    (hopen : j.stick = true) (ht : 0 ≤ j.threshold) (ha : 0 ≤ a)
    (hx : j.axes[a.toNat]? = some x) (hn : LiveChain s.pool x.neg bn)
    (hp : LiveChain s.pool x.pos bp) :
    (value > j.threshold → x.polarity ≠ 1 →
      Returns (fun fuel => VControl_ProcessJoyAxis fuel s m port a value)
        (setPolarity s port.toNat a.toNat 1,
          activate_list SDLK_UNKNOWN bp
            (if x.polarity = -1 then deactivate_list SDLK_UNKNOWN bn m else m))) ∧
    (value > j.threshold → x.polarity = 1 →
      Returns (fun fuel => VControl_ProcessJoyAxis fuel s m port a value) (s, m)) ∧
    (value < -j.threshold → x.polarity ≠ -1 →
      Returns (fun fuel => VControl_ProcessJoyAxis fuel s m port a value)
        (setPolarity s port.toNat a.toNat (-1),
          activate_list SDLK_UNKNOWN bn
            (if x.polarity = 1 then deactivate_list SDLK_UNKNOWN bp m else m))) ∧
    (value < -j.threshold → x.polarity = -1 →
      Returns (fun fuel => VControl_ProcessJoyAxis fuel s m port a value) (s, m)) ∧
    (-j.threshold ≤ value → value ≤ j.threshold →
      Returns (fun fuel => VControl_ProcessJoyAxis fuel s m port a value)
        (setPolarity s port.toNat a.toNat 0,
          if x.polarity = -1 then deactivate_list SDLK_UNKNOWN bn m
          else if x.polarity = 1 then deactivate_list SDLK_UNKNOWN bp m else m)) := by
  have h := axis_step m value h0 hj hopen ha hx hn hp
  refine ⟨?_, ?_, ?_, ?_, ?_⟩
  · intro h1 h2
    simpa only [h1, h2, if_true, ne_eq, not_false_eq_true] using h
  · intro h1 h2
    simpa only [h1, h2, if_true, ne_eq, not_true_eq_false, if_false] using h
  · intro h1 h2
    have h3 : ¬ value > j.threshold := by omega
    simpa only [h1, h2, h3, if_true, if_false, ne_eq, not_false_eq_true] using h
  · intro h1 h2
    have h3 : ¬ value > j.threshold := by omega
    simpa only [h1, h2, h3, if_true, if_false, ne_eq, not_true_eq_false] using h
  · intro h1 h2
    have h3 : ¬ value > j.threshold := by omega
    have h4 : ¬ value < -j.threshold := by omega
    simpa only [h3, h4, if_false] using h

/-! ## The pad store -/

set_option maxRecDepth 100000 in
theorem padStore_device : padStore.joysticks[(0 : Int).toNat]? = some padDevice := by decide

set_option maxRecDepth 100000 in
theorem padDevice_axis : padDevice.axes[(0 : Int).toNat]? = some padAxis := by decide

set_option maxRecDepth 100000 in
theorem padDevice_hat : padDevice.hats[(0 : Int).toNat]? = some padHat := by decide

set_option maxRecDepth 100000 in
theorem padAxis_neg : LiveChain padStore.pool padAxis.neg [(200, 0)] :=
  ⟨[(⟨0, 1⟩, { target := 200, keycode := 0, next := none })],
    Chain.cons (by decide) Chain.nil, rfl, by decide⟩

set_option maxRecDepth 100000 in
theorem padAxis_pos : LiveChain padStore.pool padAxis.pos [(100, 0)] :=
  ⟨[(⟨0, 0⟩, { target := 100, keycode := 0, next := none })],
    Chain.cons (by decide) Chain.nil, rfl, by decide⟩

set_option maxRecDepth 100000 in
theorem padHat_left : LiveChain padStore.pool padHat.left [(300, 0)] :=
  ⟨[(⟨0, 2⟩, { target := 300, keycode := 0, next := none })],
    Chain.cons (by decide) Chain.nil, rfl, by decide⟩

set_option maxRecDepth 100000 in
theorem padHat_right : LiveChain padStore.pool padHat.right [(400, 0)] :=
  ⟨[(⟨0, 3⟩, { target := 400, keycode := 0, next := none })],
    Chain.cons (by decide) Chain.nil, rfl, by decide⟩

set_option maxRecDepth 100000 in
theorem padHat_up : LiveChain padStore.pool padHat.up [(500, 0)] :=
  ⟨[(⟨0, 4⟩, { target := 500, keycode := 0, next := none })],
    Chain.cons (by decide) Chain.nil, rfl, by decide⟩

set_option maxRecDepth 100000 in
theorem padHat_down : LiveChain padStore.pool padHat.down [(600, 0)] :=
  ⟨[(⟨0, 5⟩, { target := 600, keycode := 0, next := none })],
    Chain.cons (by decide) Chain.nil, rfl, by decide⟩

/-- C8 at the store `padStore` (threshold 10, polarity 0), axis 0, value 15
and counters all 0. -/
theorem axis_transition_witness :
    Returns (fun fuel => VControl_ProcessJoyAxis fuel padStore (fun _ => 0) 0 0 15)
      (setPolarity padStore (0 : Int).toNat (0 : Int).toNat 1,
        activate_list SDLK_UNKNOWN [(100, 0)]
          (if padAxis.polarity = -1 then deactivate_list SDLK_UNKNOWN [(200, 0)] (fun _ => 0)
           else fun _ => 0)) :=
  (axis_transition padStore (fun _ => 0) 0 0 15 padDevice padAxis [(200, 0)] [(100, 0)]
    (by decide) padStore_device (by decide) (by decide) (by decide) padDevice_axis
    padAxis_neg padAxis_pos).1 (by decide) (by decide)

/-! ## The hat transition -/

theorem hat_press_returns {pool : List keypool} {chain : Option Ptr} {bs : List (Nat × Int)}
    (h : LiveChain pool chain bs) (old value bit : Nat) (m : Mem) :
    Returns (fun n => hat_press pool n old value bit chain m)
      (hat_press_list old value bit bs m) := by
  unfold hat_press hat_press_list
  exact Returns.ite _ (h.activate_returns SDLK_UNKNOWN m) (Returns.pure m)

theorem hat_release_returns {pool : List keypool} {chain : Option Ptr} {bs : List (Nat × Int)}
    (h : LiveChain pool chain bs) (old value bit : Nat) (m : Mem) :
    Returns (fun n => hat_release pool n old value bit chain m)
      (hat_release_list old value bit bs m) := by
  unfold hat_release hat_release_list
  exact Returns.ite _ (h.deactivate_returns SDLK_UNKNOWN m) (Returns.pure m)

/-- What one call of `VControl_ProcessJoyHat` returns on an opened device
whose four chains of the hat have no cycle. -/
theorem hat_step {s : Store} (m : Mem) {port which : Int} (value : Nat) {j : joystick} {x : hat}
    {bl br bu bd : List (Nat × Int)} (h0 : 0 ≤ port)
    (hj : s.joysticks[port.toNat]? = some j) (hopen : j.stick = true) (hw : 0 ≤ which)
    (hx : j.hats[which.toNat]? = some x) (hl : LiveChain s.pool x.left bl)
    (hr : LiveChain s.pool x.right br) (hu : LiveChain s.pool x.up bu)
    (hd : LiveChain s.pool x.down bd) :
    Returns (fun fuel => VControl_ProcessJoyHat fuel s m port which value)
      (setLast s port.toNat which.toNat value,
        hat_release_list x.last value SDL_HAT_DOWN bd
          (hat_release_list x.last value SDL_HAT_UP bu
            (hat_release_list x.last value SDL_HAT_RIGHT br
              (hat_release_list x.last value SDL_HAT_LEFT bl
                (hat_press_list x.last value SDL_HAT_DOWN bd
                  (hat_press_list x.last value SDL_HAT_UP bu
                    (hat_press_list x.last value SDL_HAT_RIGHT br
                      (hat_press_list x.last value SDL_HAT_LEFT bl m)))))))) := by
  have hja : joystickAt s port = .ok j := by
    simp [joystickAt, not_lt.mpr h0, hj, Res.ofOption]
  simp only [VControl_ProcessJoyHat, hja, hopen, Bool.not_true, Bool.false_eq_true, if_false,
    not_lt.mpr hw, hx]
  have b1 := Returns.bind (hat_press_returns hl x.last value SDL_HAT_LEFT m)
    (hat_press_returns hr x.last value SDL_HAT_RIGHT _)
  have b2 := Returns.bind b1 (hat_press_returns hu x.last value SDL_HAT_UP _)
  have b3 := Returns.bind b2 (hat_press_returns hd x.last value SDL_HAT_DOWN _)
  have b4 := Returns.bind b3 (hat_release_returns hl x.last value SDL_HAT_LEFT _)
  have b5 := Returns.bind b4 (hat_release_returns hr x.last value SDL_HAT_RIGHT _)
  have b6 := Returns.bind b5 (hat_release_returns hu x.last value SDL_HAT_UP _)
  have b7 := Returns.bind b6 (hat_release_returns hd x.last value SDL_HAT_DOWN _)
  exact Returns.bind b7 (Returns.pure _)

theorem hat_press_list_same (v bit : Nat) (bs : List (Nat × Int)) (m : Mem) :
    hat_press_list v v bit bs m = m := by
  unfold hat_press_list
  cases hatBit v bit <;> rfl

theorem hat_release_list_same (v bit : Nat) (bs : List (Nat × Int)) (m : Mem) :
    hat_release_list v v bit bs m = m := by
  unfold hat_release_list
  cases hatBit v bit <;> rfl

theorem setLast_joystick {s : Store} {port h : Nat} {j : joystick} {x : hat}
    (hj : s.joysticks[port]? = some j) (hx : j.hats[h]? = some x) (v : Nat) :
    (setLast s port h v).joysticks[port]? =
      some { j with hats := j.hats.set h { x with last := v } } := by
  simp [setLast, hj, hx, List.getElem?_set_self (getElem?_lt_of_eq_some hj)]

theorem setLast_setLast {s : Store} {port h : Nat} {j : joystick} {x : hat}
    (hj : s.joysticks[port]? = some j) (hx : j.hats[h]? = some x) (v w : Nat) :
    setLast (setLast s port h v) port h w = setLast s port h w := by
  simp [setLast, hj, hx, List.getElem?_set_self (getElem?_lt_of_eq_some hj),
    List.getElem?_set_self (getElem?_lt_of_eq_some hx), List.set_set]

/-- C10: hat edge triggering, per call.  For an opened device and a hat whose
four chains have no cycle, `VControl_ProcessJoyHat (port, which, value)`
returns; the chain of each direction is activated once exactly when its bit
is clear in the stored last mask and set in `value`, deactivated once exactly
when its bit is set in the last mask and clear in `value`, and otherwise left
alone; `value` is stored as the last mask; and a second call with the same
mask changes no counter (and nothing in the store). -/
theorem hat_edge_triggered (s : Store) (m : Mem) (port which : Int) (value : Nat) (j : joystick)
    (x : hat) (bl br bu bd : List (Nat × Int)) (h0 : 0 ≤ port)
    (hj : s.joysticks[port.toNat]? = some j) (hopen : j.stick = true) (hw : 0 ≤ which)
    (hx : j.hats[which.toNat]? = some x) (hl : LiveChain s.pool x.left bl)
    (hr : LiveChain s.pool x.right br) (hu : LiveChain s.pool x.up bu)
    (hd : LiveChain s.pool x.down bd) :
    ∃ m1, m1 = hat_release_list x.last value SDL_HAT_DOWN bd
          (hat_release_list x.last value SDL_HAT_UP bu
            (hat_release_list x.last value SDL_HAT_RIGHT br
              (hat_release_list x.last value SDL_HAT_LEFT bl
                (hat_press_list x.last value SDL_HAT_DOWN bd
                  (hat_press_list x.last value SDL_HAT_UP bu
                    (hat_press_list x.last value SDL_HAT_RIGHT br
                      (hat_press_list x.last value SDL_HAT_LEFT bl m))))))) ∧
      Returns (fun fuel => VControl_ProcessJoyHat fuel s m port which value)
        (setLast s port.toNat which.toNat value, m1) ∧
      Returns (fun fuel => VControl_ProcessJoyHat fuel (setLast s port.toNat which.toNat value)
        m1 port which value) (setLast s port.toNat which.toNat value, m1) := by
  refine ⟨_, rfl, hat_step m value h0 hj hopen hw hx hl hr hu hd, ?_⟩
  have hj' := setLast_joystick hj hx value
  have hx' : ({ j with hats := j.hats.set which.toNat { x with last := value } } :
      joystick).hats[which.toNat]? = some { x with last := value } := by
    simp [List.getElem?_set_self (getElem?_lt_of_eq_some hx)]
  have hpool : (setLast s port.toNat which.toNat value).pool = s.pool := by
    simp [setLast, hj, hx]
  have h := hat_step
    (hat_release_list x.last value SDL_HAT_DOWN bd
          (hat_release_list x.last value SDL_HAT_UP bu
            (hat_release_list x.last value SDL_HAT_RIGHT br
              (hat_release_list x.last value SDL_HAT_LEFT bl
                (hat_press_list x.last value SDL_HAT_DOWN bd
                  (hat_press_list x.last value SDL_HAT_UP bu
                    (hat_press_list x.last value SDL_HAT_RIGHT br
                      (hat_press_list x.last value SDL_HAT_LEFT bl m))))))))
    value h0 hj' hopen hw hx' (by rw [hpool]; exact hl) (by rw [hpool]; exact hr)
    (by rw [hpool]; exact hu) (by rw [hpool]; exact hd)
  simpa only [hat_press_list_same, hat_release_list_same, setLast_setLast hj hx] using h

/-- C10 at the store `padStore` (last mask centred), hat 0, the mask left+up
and counters all 0. -/
theorem hat_edge_triggered_witness :
    ∃ m1, m1 = hat_release_list padHat.last 9 SDL_HAT_DOWN [(600, 0)]
          (hat_release_list padHat.last 9 SDL_HAT_UP [(500, 0)]
            (hat_release_list padHat.last 9 SDL_HAT_RIGHT [(400, 0)]
              (hat_release_list padHat.last 9 SDL_HAT_LEFT [(300, 0)]
                (hat_press_list padHat.last 9 SDL_HAT_DOWN [(600, 0)]
                  (hat_press_list padHat.last 9 SDL_HAT_UP [(500, 0)]
                    (hat_press_list padHat.last 9 SDL_HAT_RIGHT [(400, 0)]
                      (hat_press_list padHat.last 9 SDL_HAT_LEFT [(300, 0)]
                        (fun _ => 0)))))))) ∧
      Returns (fun fuel => VControl_ProcessJoyHat fuel padStore (fun _ => 0) 0 0 9)
        (setLast padStore (0 : Int).toNat (0 : Int).toNat 9, m1) ∧
      Returns (fun fuel => VControl_ProcessJoyHat fuel
        (setLast padStore (0 : Int).toNat (0 : Int).toNat 9) m1 0 0 9)
        (setLast padStore (0 : Int).toNat (0 : Int).toNat 9, m1) :=
  hat_edge_triggered padStore (fun _ => 0) 0 0 9 padDevice padHat [(300, 0)] [(400, 0)]
    [(500, 0)] [(600, 0)] (by decide) padStore_device (by decide) (by decide) padDevice_hat
    padHat_left padHat_right padHat_up padHat_down

/-! ## Sequences of axis values -/

theorem deactivate_list_at (keycode : Int) (bs : List (Nat × Int)) :
    ∀ (m : Mem) (a : Nat), bound_count keycode bs a = 0 ∨ bound_count keycode bs a ≤ m a →
      deactivate_list keycode bs m a = m a - bound_count keycode bs a := by
  induction bs with
  | nil => intro m a _; simp [deactivate_list, bound_count]
  | cons b bs ih =>
    intro m a h
    rw [deactivate_list, bound_count_cons]
    rw [bound_count_cons] at h
    have hnn := bound_count_nonneg keycode bs a
    by_cases hb : b.2 = keycode ∧ b.1 = a
    · obtain ⟨hk, hba⟩ := hb
      subst hba
      simp only [hk, and_self, if_true] at h ⊢
      have hle : 1 + bound_count keycode bs b.1 ≤ m b.1 := by
        rcases h with h | h
        · omega
        · exact h
      have hpos : 0 < m b.1 := by omega
      simp only [hpos, and_self, if_true]
      rw [ih _ _ (Or.inr (by simp; omega))]
      simp
      ring
    · simp only [hb, if_false, zero_add] at h ⊢
      have hm : (if b.2 = keycode ∧ 0 < m b.1 then Function.update m b.1 (m b.1 - 1) else m) a
          = m a := by
        by_cases hc : b.2 = keycode ∧ 0 < m b.1
        · have hne : a ≠ b.1 := fun e => hb ⟨hc.1, e.symm⟩
          simp only [hc, and_self, if_true, Function.update_noteq hne]
        · simp only [hc, if_false]
      rw [ih _ _ (by rw [hm]; exact h), hm]

theorem AxisIs.setPolarity {s : Store} {port a : Nat} {pool : List keypool} {t : Int}
    {neg pos : Option Ptr} {pol : Int} (h : AxisIs s port a pool t neg pos pol) (v : Int) :
    AxisIs (VControl.setPolarity s port a v) port a pool t neg pos v := by
  obtain ⟨j, x, hj, hst, hth, hx, hneg, hpos, _, hpool⟩ := h
  refine ⟨{ j with axes := j.axes.set a { x with polarity := v } }, { x with polarity := v },
    ?_, hst, hth, ?_, hneg, hpos, rfl, ?_⟩
  · simp [VControl.setPolarity, hj, hx, List.getElem?_set_self (getElem?_lt_of_eq_some hj)]
  · simp [List.getElem?_set_self (getElem?_lt_of_eq_some hx)]
  · simp [VControl.setPolarity, hj, hx, hpool]

/-- One call of `VControl_ProcessJoyAxis` keeps the counters of a target `P`
bound once to the positive chain only and of a target `N` bound once to the
negative chain only in step with the polarity. -/
theorem axis_step_exclusive {s : Store} {port a : Int} {pool : List keypool} {t : Int}
    {neg pos : Option Ptr} {pol : Int} {bn bp : List (Nat × Int)} {P N : Nat}
    (h0 : 0 ≤ port) (ha : 0 ≤ a) (hs : AxisIs s port.toNat a.toNat pool t neg pos pol)
    (hn : LiveChain pool neg bn) (hp : LiveChain pool pos bp)
    (hP : bound_count SDLK_UNKNOWN bp P = 1) (hPn : bound_count SDLK_UNKNOWN bn P = 0)
    (hN : bound_count SDLK_UNKNOWN bn N = 1) (hNp : bound_count SDLK_UNKNOWN bp N = 0)
    (hpol : pol = 1 ∨ pol = -1 ∨ pol = 0) (m : Mem)
    (hmP : m P = if pol = 1 then 1 else 0) (hmN : m N = if pol = -1 then 1 else 0)
    (v : Int) :
    ∃ r : Store × Mem, Returns (fun fuel => VControl_ProcessJoyAxis fuel s m port a v) r ∧
      AxisIs r.1 port.toNat a.toNat pool t neg pos (polarityOf t v) ∧
      r.2 P = (if polarityOf t v = 1 then 1 else 0) ∧
      r.2 N = (if polarityOf t v = -1 then 1 else 0) := by
  have hs0 := hs
  obtain ⟨j, x, hj, hst, hth, hx, hneg, hpos, hxp, hpool⟩ := hs
  subst hneg hpos hth hxp
  rw [← hpool] at hn hp
  have hstep := axis_step m v h0 hj hst ha hx hn hp
  refine ⟨_, hstep, ?_⟩
  have dP : ∀ m' : Mem, m' P = 1 → deactivate_list SDLK_UNKNOWN bp m' P = 0 := by
    intro m' h; rw [deactivate_list_at _ _ _ _ (Or.inr (by rw [hP, h])), hP, h]; rfl
  have dPn : ∀ m' : Mem, deactivate_list SDLK_UNKNOWN bn m' P = m' P := by
    intro m'; rw [deactivate_list_at _ _ _ _ (Or.inl hPn), hPn]; simp
  have dN : ∀ m' : Mem, m' N = 1 → deactivate_list SDLK_UNKNOWN bn m' N = 0 := by
    intro m' h; rw [deactivate_list_at _ _ _ _ (Or.inr (by rw [hN, h])), hN, h]; rfl
  have dNp : ∀ m' : Mem, deactivate_list SDLK_UNKNOWN bp m' N = m' N := by
    intro m'; rw [deactivate_list_at _ _ _ _ (Or.inl hNp), hNp]; simp
  have aP : ∀ m' : Mem, activate_list SDLK_UNKNOWN bp m' P = m' P + 1 := by
    intro m'; rw [activate_list_apply, hP]
  have aPn : ∀ m' : Mem, activate_list SDLK_UNKNOWN bn m' P = m' P := by
    intro m'; rw [activate_list_apply, hPn]; simp
  have aN : ∀ m' : Mem, activate_list SDLK_UNKNOWN bn m' N = m' N + 1 := by
    intro m'; rw [activate_list_apply, hN]
  have aNp : ∀ m' : Mem, activate_list SDLK_UNKNOWN bp m' N = m' N := by
    intro m'; rw [activate_list_apply, hNp]; simp
  unfold polarityOf
  by_cases h1 : v > j.threshold
  · simp only [h1, if_true]
    rcases hpol with hp1 | hp1 | hp1
    · simp only [hp1, ne_eq, not_true_eq_false, if_false]
      refine ⟨by rw [← hp1]; exact hs0, by simpa [hp1] using hmP, by simpa [hp1] using hmN⟩
    · simp only [hp1, ne_eq, if_true]
      simp only [hp1] at hmP hmN
      norm_num at hmP hmN ⊢
      refine ⟨hs0.setPolarity 1, ?_, ?_⟩
      · rw [aP, dPn, hmP]; rfl
      · rw [aNp, dN _ hmN]
    · simp only [hp1, ne_eq, if_true]
      simp only [hp1] at hmP hmN
      norm_num at hmP hmN ⊢
      refine ⟨hs0.setPolarity 1, ?_, ?_⟩
      · rw [aP, hmP]; rfl
      · rw [aNp, hmN]
  · simp only [h1, if_false]
    by_cases h2 : v < -j.threshold
    · simp only [h2, if_true]
      rcases hpol with hp1 | hp1 | hp1
      · simp only [hp1, ne_eq, if_true]
        simp only [hp1] at hmP hmN
        norm_num at hmP hmN ⊢
        refine ⟨hs0.setPolarity (-1), ?_, ?_⟩
        · rw [aPn, dP _ hmP]
        · rw [aN, dNp, hmN]; rfl
      · simp only [hp1, ne_eq, not_true_eq_false, if_false]
        refine ⟨by rw [← hp1]; exact hs0, by simpa [hp1] using hmP, by simpa [hp1] using hmN⟩
      · simp only [hp1, ne_eq, if_true]
        simp only [hp1] at hmP hmN
        norm_num at hmP hmN ⊢
        refine ⟨hs0.setPolarity (-1), ?_, ?_⟩
        · rw [aPn, hmP]
        · rw [aN, hmN]; rfl
    · simp only [h2, if_false]
      rcases hpol with hp1 | hp1 | hp1
      · simp only [hp1] at hmP hmN ⊢
        norm_num at hmP hmN ⊢
        exact ⟨hs0.setPolarity 0, dP _ hmP, by rw [dNp, hmN]⟩
      · simp only [hp1] at hmP hmN ⊢
        norm_num at hmP hmN ⊢
        exact ⟨hs0.setPolarity 0, by rw [dPn, hmP], dN _ hmN⟩
      · simp only [hp1] at hmP hmN ⊢
        norm_num at hmP hmN ⊢
        exact ⟨hs0.setPolarity 0, hmP, hmN⟩

theorem polarityOf_cases (t v : Int) :
    polarityOf t v = 1 ∨ polarityOf t v = -1 ∨ polarityOf t v = 0 := by
  unfold polarityOf
  by_cases h1 : v > t
  · simp [h1]
  · by_cases h2 : v < -t
    · simp [h1, h2]
    · simp [h1, h2]

theorem axis_run_exclusive {port a : Int} {pool : List keypool} {t : Int}
    {neg pos : Option Ptr} {bn bp : List (Nat × Int)} {P N : Nat}
    (h0 : 0 ≤ port) (ha : 0 ≤ a)
    (hn : LiveChain pool neg bn) (hp : LiveChain pool pos bp)
    (hP : bound_count SDLK_UNKNOWN bp P = 1) (hPn : bound_count SDLK_UNKNOWN bn P = 0)
    (hN : bound_count SDLK_UNKNOWN bn N = 1) (hNp : bound_count SDLK_UNKNOWN bp N = 0) :
    ∀ (vs : List Int) (v0 : Int) (s : Store) (m : Mem) (pol : Int),
      AxisIs s port.toNat a.toNat pool t neg pos pol → (pol = 1 ∨ pol = -1 ∨ pol = 0) →
      (m P = if pol = 1 then 1 else 0) → (m N = if pol = -1 then 1 else 0) →
      ∃ r : Store × Mem, Returns (fun fuel => axis_run fuel port a (v0 :: vs) (s, m)) r ∧
        r.2 P = (if polarityOf t ((v0 :: vs).getLast (List.cons_ne_nil _ _)) = 1 then 1 else 0) ∧
        r.2 N = (if polarityOf t ((v0 :: vs).getLast (List.cons_ne_nil _ _)) = -1 then 1 else 0) := by
  intro vs
  induction vs with
  | nil =>
    intro v0 s m pol hs hpol hmP hmN
    obtain ⟨r, hr, _, h1, h2⟩ :=
      axis_step_exclusive h0 ha hs hn hp hP hPn hN hNp hpol m hmP hmN v0
    exact ⟨r, Returns.bind hr (Returns.pure r), h1, h2⟩
  | cons v1 vs ih =>
    intro v0 s m pol hs hpol hmP hmN
    obtain ⟨r, hr, hs1, h1, h2⟩ :=
      axis_step_exclusive h0 ha hs hn hp hP hPn hN hNp hpol m hmP hmN v0
    obtain ⟨r2, hr2, h3, h4⟩ := ih v1 r.1 r.2 _ hs1 (polarityOf_cases t v0) h1 h2
    refine ⟨r2, Returns.bind hr hr2, ?_, ?_⟩
    · rw [List.getLast_cons (List.cons_ne_nil _ _)]; exact h3
    · rw [List.getLast_cons (List.cons_ne_nil _ _)]; exact h4

/-- C9: axis polarity exclusivity.  For an opened device with threshold
`t >= 0` and an axis at polarity 0 whose chains have no cycle, a target `P`
bound once to the positive chain and not to the negative one, a target `N`
bound once to the negative chain and not to the positive one, both counters
0: every non-empty sequence of `VControl_ProcessJoyAxis` calls on that axis
returns, with `P` at 1 if the last value is above `t` and 0 otherwise, and `N`
at 1 if the last value is below `-t` and 0 otherwise; so the two are never 1
together and neither exceeds 1. -/
theorem axis_polarity_exclusive (s : Store) (m : Mem) (port a : Int) (j : joystick) (x : axis)
    (bn bp : List (Nat × Int)) (P N : Nat) (h0 : 0 ≤ port)
    (hj : s.joysticks[port.toNat]? = some j) (hopen : j.stick = true) (ht : 0 ≤ j.threshold)
    (ha : 0 ≤ a) (hx : j.axes[a.toNat]? = some x) (hpol : x.polarity = 0)
    (hn : LiveChain s.pool x.neg bn) (hp : LiveChain s.pool x.pos bp)
    (hP : bound_count SDLK_UNKNOWN bp P = 1) (hPn : bound_count SDLK_UNKNOWN bn P = 0)
    (hN : bound_count SDLK_UNKNOWN bn N = 1) (hNp : bound_count SDLK_UNKNOWN bp N = 0)
    (hmP : m P = 0) (hmN : m N = 0) (vs : List Int) (hne : vs ≠ []) :
    ∃ r : Store × Mem, Returns (fun fuel => axis_run fuel port a vs (s, m)) r ∧
      r.2 P = (if vs.getLast hne > j.threshold then 1 else 0) ∧
      r.2 N = (if vs.getLast hne < -j.threshold then 1 else 0) ∧
      r.2 P + r.2 N ≤ 1 := by
  cases vs with
  | nil => exact absurd rfl hne
  | cons v0 vs =>
    have hs : AxisIs s port.toNat a.toNat s.pool j.threshold x.neg x.pos 0 :=
      ⟨j, x, hj, hopen, rfl, hx, rfl, rfl, hpol, rfl⟩
    obtain ⟨r, hr, h1, h2⟩ := axis_run_exclusive h0 ha hn hp hP hPn hN hNp vs v0 s m 0 hs
      (Or.inr (Or.inr rfl)) (by simpa using hmP) (by simpa using hmN)
    refine ⟨r, hr, ?_, ?_, ?_⟩
    · rw [h1]; unfold polarityOf
      by_cases c1 : (v0 :: vs).getLast hne > j.threshold
      · simp [c1]
      · by_cases c2 : (v0 :: vs).getLast hne < -j.threshold <;> simp [c1, c2]
    · rw [h2]; unfold polarityOf
      by_cases c1 : (v0 :: vs).getLast hne > j.threshold
      · have c2 : ¬ (v0 :: vs).getLast hne < -j.threshold := by omega
        simp [c1, c2]
      · by_cases c2 : (v0 :: vs).getLast hne < -j.threshold <;> simp [c1, c2]
    · rw [h1, h2]
      rcases polarityOf_cases j.threshold ((v0 :: vs).getLast (List.cons_ne_nil _ _))
        with h | h | h <;> simp [h]

/-- C9 at the store `padStore` (threshold 10), axis 0 with target 100 on the
positive side and target 200 on the negative side, and the values 5, 15, -15,
0. -/
theorem axis_polarity_exclusive_witness :
    ∃ r : Store × Mem,
      Returns (fun fuel => axis_run fuel 0 0 [5, 15, -15, 0] (padStore, fun _ => 0)) r ∧
      r.2 100 = (if [5, 15, -15, (0 : Int)].getLast (by decide) > padDevice.threshold
        then 1 else 0) ∧
      r.2 200 = (if [5, 15, -15, (0 : Int)].getLast (by decide) < -padDevice.threshold
        then 1 else 0) ∧
      r.2 100 + r.2 200 ≤ 1 :=
  axis_polarity_exclusive padStore (fun _ => 0) 0 0 padDevice padAxis [(200, 0)] [(100, 0)]
    100 200 (by decide) padStore_device (by decide) (by decide) (by decide) padDevice_axis
    (by decide) padAxis_neg padAxis_pos (by decide) (by decide) (by decide) (by decide) rfl rfl
    [5, 15, -15, 0] (by decide)

/-! ## Dump and read back -/

/-! ## Tokens -/

theorem skip_space_word {w : List Char} (hw : IsWord w) (r : List Char) :
    skip_space (w ++ r) = w ++ r := by
  obtain ⟨hne, _, hc⟩ := hw
  cases w with
  | nil => exact absurd rfl hne
  | cons c cs =>
    have := hc c (List.mem_cons_self _ _)
    simp [skip_space, this.2]

theorem copy_word_append (w : List Char) (hc : ∀ c ∈ w, c ≠ NUL ∧ isspace c = false)
    (r : List Char) (hr : r = [] ∨ ∃ c r', r = c :: r' ∧ (c = NUL ∨ isspace c = true)) :
    ∀ n, w.length ≤ n → copy_word n (w ++ r) = w := by
  induction w with
  | nil =>
    intro n _
    rcases hr with rfl | ⟨c, r', rfl, hcr⟩
    · cases n <;> rfl
    · cases n with
      | zero => rfl
      | succ n =>
        rcases hcr with h | h
        · simp [copy_word, h]
        · simp [copy_word, h]
  | cons c cs ih =>
    intro n hn
    cases n with
    | zero => simp at hn
    | succ n =>
      have h1 := hc c (List.mem_cons_self _ _)
      simp only [List.cons_append, copy_word, h1.1, h1.2, ne_eq, not_false_eq_true,
        Bool.not_false, and_self, if_true]
      have := ih (fun c' hc' => hc c' (List.mem_cons_of_mem _ hc')) n (by simpa using hn)
      exact congrArg (c :: ·) this

theorem skip_word_append (w : List Char) (hc : ∀ c ∈ w, c ≠ NUL ∧ isspace c = false)
    (r : List Char) (hr : r = [] ∨ ∃ c r', r = c :: r' ∧ (c = NUL ∨ isspace c = true)) :
    skip_word (w ++ r) = r := by
  induction w with
  | nil =>
    rcases hr with rfl | ⟨c, r', rfl, hcr⟩
    · rfl
    · rcases hcr with h | h
      · simp [skip_word, h]
      · simp [skip_word, h]
  | cons c cs ih =>
    have h1 := hc c (List.mem_cons_self _ _)
    simp only [List.cons_append, skip_word, h1.1, h1.2, ne_eq, not_false_eq_true,
      Bool.not_false, and_self, if_true]
    exact ih (fun c' hc' => hc c' (List.mem_cons_of_mem _ hc'))

theorem spaced_head (ws : List (List Char)) :
    spaced ws = [] ∨ ∃ c r', spaced ws = c :: r' ∧ (c = NUL ∨ isspace c = true) := by
  cases ws with
  | nil => exact Or.inl rfl
  | cons w ws => exact Or.inr ⟨' ', _, rfl, Or.inr (by decide)⟩

/-- `next_token` on a line whose unscanned part is a blank, a word and more
words: the token is the word. -/
theorem next_token_spaced (line token : List Char) (error : Bool) (linenum : Nat)
    {w : List Char} (hw : IsWord w) (ws : List (List Char)) :
    next_token { line := line, token := token, rest := spaced (w :: ws), error := error,
                 linenum := linenum } =
      { line := line, token := w, rest := spaced ws, error := error, linenum := linenum } := by
  have h1 : skip_space (spaced (w :: ws)) = w ++ spaced ws := by
    simp only [spaced, skip_space]
    rw [if_pos ⟨by decide, by decide⟩]
    exact skip_space_word hw _
  simp only [next_token, h1]
  rw [copy_word_append w hw.2.2 _ (spaced_head ws) _ hw.2.1,
    skip_word_append w hw.2.2 _ (spaced_head ws)]

/-- `next_token` at the start of a line that begins with a word. -/
theorem next_token_first (line token : List Char) (error : Bool) (linenum : Nat)
    {w : List Char} (hw : IsWord w) (ws : List (List Char)) :
    next_token { line := line, token := token, rest := w ++ spaced ws, error := error,
                 linenum := linenum } =
      { line := line, token := w, rest := spaced ws, error := error, linenum := linenum } := by
  simp only [next_token, skip_space_word hw]
  rw [copy_word_append w hw.2.2 _ (spaced_head ws) _ hw.2.1,
    skip_word_append w hw.2.2 _ (spaced_head ws)]

/-- `next_token` at the end of the line: the token is empty. -/
theorem next_token_end (line token : List Char) (error : Bool) (linenum : Nat) :
    next_token { line := line, token := token, rest := spaced [], error := error,
                 linenum := linenum } =
      { line := line, token := [], rest := spaced [], error := error, linenum := linenum } := by
  rfl

/-! ## Numbers: `%d` and `strtol` -/

theorem digitChar_spec : ∀ d : Fin 10,
    (digitChar d).toNat - 48 = d ∧ (digitChar d).isDigit = true ∧ digitChar d ≠ NUL ∧
      isspace (digitChar d) = false ∧ digitChar d ≠ '#' ∧ digitChar d ≠ '-' ∧
      digitChar d ≠ '+' := by
  decide

theorem digitsValue_append (a b : List Char) :
    ∀ v, digitsValue (a ++ b) v = digitsValue b (digitsValue a v) := by
  induction a with
  | nil => intro v; rfl
  | cons c cs ih => intro v; exact ih _

theorem natDigits_spec : ∀ (k n : Nat) (acc : List Char), n < k →
    ∃ ds, natDigits k n acc = ds ++ acc ∧ ds ≠ [] ∧ (∀ c ∈ ds, ∃ d : Fin 10, c = digitChar d) ∧
      (∀ v0, digitsValue ds v0 = v0 * 10 ^ ds.length + n) ∧
      (∀ L, 0 < L → n < 10 ^ L → ds.length ≤ L) := by
  intro k
  induction k with
  | zero => intro n acc h; omega
  | succ k ih =>
    intro n acc hn
    have hd : n % 10 < 10 := Nat.mod_lt _ (by norm_num)
    have hv := (digitChar_spec ⟨n % 10, hd⟩).1
    simp only at hv
    by_cases h0 : n / 10 = 0
    · refine ⟨[digitChar (n % 10)], by simp [natDigits, h0], by simp,
        fun c hc => ⟨⟨n % 10, hd⟩, by simpa using hc⟩, ?_, ?_⟩
      · intro v0
        simp only [digitsValue, hv, List.length_singleton, pow_one]
        have : n % 10 = n := by omega
        omega
      · intro L hL _
        simpa using hL
    · have hlt : n / 10 < k := by omega
      obtain ⟨ds, h1, h2, h3, h4, h5⟩ := ih (n / 10) (digitChar (n % 10) :: acc) hlt
      refine ⟨ds ++ [digitChar (n % 10)], by simp [natDigits, h0, h1], by simp, ?_, ?_, ?_⟩
      · intro c hc
        rcases List.mem_append.mp hc with hc | hc
        · exact h3 c hc
        · exact ⟨⟨n % 10, hd⟩, by simpa using hc⟩
      · intro v0
        rw [digitsValue_append, h4]
        simp only [digitsValue, hv, List.length_append, List.length_singleton, pow_succ]
        have := Nat.div_add_mod n 10
        nlinarith [Nat.div_add_mod n 10]
      · intro L hL hnL
        cases L with
        | zero => omega
        | succ L =>
          have hL0 : 0 < L := by
            by_contra hc
            have : L = 0 := by omega
            subst this
            simp at hnL
            omega
          have := h5 L hL0 (by rw [pow_succ] at hnL; omega)
          simp
          omega

theorem toInt32_of_int32 {v : Int} (h : IsInt32 v) : toInt32 v = v := by
  obtain ⟨h1, h2⟩ := h
  unfold toInt32
  rw [Int.emod_eq_of_lt (by omega) (by omega)]
  omega




theorem fmt_d_digits (v : Int) :
    ∃ ds, natDigits (v.natAbs + 1) v.natAbs [] = ds ∧ ds ≠ [] ∧
      (∀ c ∈ ds, ∃ d : Fin 10, c = digitChar d) ∧ digitsValue ds 0 = v.natAbs ∧
      (v.natAbs < 10 ^ 10 → ds.length ≤ 10) := by
  obtain ⟨ds, h1, h2, h3, h4, h5⟩ := natDigits_spec (v.natAbs + 1) v.natAbs [] (by omega)
  refine ⟨ds, by simpa using h1, h2, h3, by simpa using h4 0, fun h => h5 10 (by norm_num) h⟩

theorem digits_takeWhile {ds : List Char} (h : ∀ c ∈ ds, ∃ d : Fin 10, c = digitChar d) :
    ds.takeWhile Char.isDigit = ds ∧ ds.dropWhile Char.isDigit = [] := by
  constructor
  · rw [List.takeWhile_eq_self_iff]
    intro c hc
    obtain ⟨d, rfl⟩ := h c hc
    exact (digitChar_spec d).2.1
  · rw [List.dropWhile_eq_nil_iff]
    intro c hc
    obtain ⟨d, rfl⟩ := h c hc
    exact (digitChar_spec d).2.1

/-- Reading back what `%d` writes for an `int` gives the `int`, with nothing
left over. -/
theorem strtol_fmt_d {v : Int} (hv : IsInt32 v) : strtol (fmt_d v) = (v, []) := by
  obtain ⟨ds, h1, h2, h3, h4, _⟩ := fmt_d_digits v
  obtain ⟨c0, cs, hds⟩ : ∃ c0 cs, ds = c0 :: cs := by
    cases ds with
    | nil => exact absurd rfl h2
    | cons c0 cs => exact ⟨c0, cs, rfl⟩
  obtain ⟨d0, hd0⟩ := h3 c0 (by rw [hds]; exact List.mem_cons_self _ _)
  have hs0 := digitChar_spec d0
  rw [← hd0] at hs0
  obtain ⟨htw, hdw⟩ := digits_takeWhile h3
  obtain ⟨hlo, hhi⟩ := hv
  by_cases hneg : v < 0
  · have hf : fmt_d v = '-' :: ds := by simp [fmt_d, hneg, h1]
    have hval : -((digitsValue ds 0 : Nat) : Int) = v := by rw [h4]; omega
    rw [hf]
    simp only [strtol, List.dropWhile_cons_of_neg (show ¬ isspace '-' = true by decide),
      List.head?_cons, true_or, if_true, List.tail_cons, htw, hdw, h2, if_false, hval,
      Prod.mk.injEq, and_true]
    omega
  · have hf : fmt_d v = ds := by simp [fmt_d, hneg, h1]
    have hval : ((digitsValue ds 0 : Nat) : Int) = v := by rw [h4]; omega
    have hsp : ¬ isspace c0 = true := by simp [hs0.2.2.2.1]
    have hm : ¬ (some c0 = some '-' ∨ some c0 = some '+') := by
      simp only [Option.some.injEq, not_or]
      exact ⟨hs0.2.2.2.2.2.1, hs0.2.2.2.2.2.2⟩
    have hm1 : ¬ (some c0 = some '-') := fun h => hm (Or.inl h)
    rw [hf, hds]
    simp only [strtol, List.dropWhile_cons_of_neg hsp, List.head?_cons, hm, hm1, if_false]
    rw [← hds]
    have hp1 : ¬ (some c0 = some '+') := fun h => hm (Or.inr h)
    simp only [false_or, hp1, if_false, htw, hdw, h2, hval, Prod.mk.injEq, and_true]
    rw [min_eq_right (by omega), max_eq_right (by omega)]

/-- What `%d` writes for an `int` is one token, without a `#`. -/
theorem fmt_d_word {v : Int} (hv : IsInt32 v) :
    IsWord (fmt_d v) ∧ ∀ c ∈ fmt_d v, c ≠ '#' ∧ c ≠ '\n' := by
  obtain ⟨ds, h1, h2, h3, _, h5⟩ := fmt_d_digits v
  obtain ⟨hlo, hhi⟩ := hv
  have hlen : ds.length ≤ 10 := h5 (by omega)
  have hch : ∀ c ∈ ds, c ≠ NUL ∧ isspace c = false ∧ c ≠ '#' := by
    intro c hc
    obtain ⟨d, rfl⟩ := h3 c hc
    have := digitChar_spec d
    exact ⟨this.2.2.1, this.2.2.2.1, this.2.2.2.2.1⟩
  have hnl : ∀ c : Char, isspace c = false → c ≠ '\n' := by
    intro c h e
    rw [e] at h
    exact absurd h (by decide)
  by_cases hneg : v < 0
  · have hf : fmt_d v = '-' :: ds := by simp [fmt_d, hneg, h1]
    rw [hf]
    refine ⟨⟨by simp, by simp [TOKEN_SIZE]; omega, ?_⟩, ?_⟩
    · intro c hc
      rcases List.mem_cons.mp hc with rfl | hc
      · exact ⟨by decide, by decide⟩
      · exact ⟨(hch c hc).1, (hch c hc).2.1⟩
    · intro c hc
      rcases List.mem_cons.mp hc with rfl | hc
      · exact ⟨by decide, by decide⟩
      · exact ⟨(hch c hc).2.2, hnl c (hch c hc).2.1⟩
  · have hf : fmt_d v = ds := by simp [fmt_d, hneg, h1]
    rw [hf]
    exact ⟨⟨h2, by simp [TOKEN_SIZE]; omega, fun c hc => ⟨(hch c hc).1, (hch c hc).2.1⟩⟩,
      fun c hc => ⟨(hch c hc).2.2, hnl c (hch c hc).2.1⟩⟩

/-! ## Parsing the lines that VControl_Dump writes -/

theorem strcaseeq_snoc_colon (nm : List Char) (kw : List Char) (hkw : kw.getLast? ≠ some ':')
    (hlow : kw.map Char.toLower = kw) : strcaseeq kw (nm ++ [':']) = false := by
  unfold strcaseeq
  rw [hlow]
  simp only [decide_eq_false_iff_not]
  intro h
  apply hkw
  rw [h, List.map_append]
  simp

theorem PlainChars.word_colon {nm : List Char} (h : PlainChars nm)
    (hlen : nm.length ≤ TOKEN_SIZE - 2) : IsWord (nm ++ [':']) := by
  refine ⟨by simp, by simp [TOKEN_SIZE] at hlen ⊢; omega, ?_⟩
  intro c hc
  rcases List.mem_append.mp hc with hc | hc
  · exact ⟨(h c hc).1, (h c hc).2.1⟩
  · rw [List.mem_singleton.mp hc]; exact ⟨by decide, by decide⟩

theorem PlainChars.word {w : List Char} (h : PlainChars w) (hne : w ≠ [])
    (hlen : w.length ≤ TOKEN_SIZE - 1) : IsWord w :=
  ⟨hne, hlen, fun c hc => ⟨(h c hc).1, (h c hc).2.1⟩⟩

theorem consume_idname_colon {s : Store} {table : List VControl_NameBinding}
    (ht : s.nametable = some table) (line : List Char) (linenum : Nat) (nm : List Char)
    {w : List Char} (hw : IsWord w) (ws : List (List Char))
    (hn : name2target_loop table nm ≠ 0) :
    consume_idname s
        { line := line, token := nm ++ [':'], rest := spaced (w :: ws), error := false,
          linenum := linenum } =
      .ok ({ line := line, token := w, rest := spaced ws, error := false, linenum := linenum },
        name2target_loop table nm) := by
  have hl : (nm ++ [':']).getLast? = some ':' := by simp
  simp only [consume_idname, hl, ne_eq, not_true_eq_false, if_false, List.dropLast_concat,
    name2target, ht, Res.bind, next_token_spaced _ _ _ _ hw, hn]




theorem next_token_tok (line : List Char) (linenum : Nat) (w : List Char)
    (ws : List (List Char)) (hws : ∀ w' ∈ ws, IsWord w') :
    next_token (tokState line linenum (w :: ws)) = tokState line linenum ws := by
  cases ws with
  | nil => rfl
  | cons w' ws' => exact next_token_spaced _ _ _ _ (hws w' (List.mem_cons_self _ _)) ws'

theorem next_token_line (line0 : List Char) (linenum : Nat) (w : List Char) (hw : IsWord w)
    (ws : List (List Char)) :
    next_token { lineState line0 linenum with rest := w ++ spaced ws, error := false } =
      tokState line0 linenum (w :: ws) :=
  next_token_first _ _ _ _ hw ws

theorem consume_tok (line : List Char) (linenum : Nat) (kw w : List Char)
    (ws : List (List Char)) (hws : ∀ w' ∈ ws, IsWord w') (hkw : strcaseeq kw w = true) :
    consume (tokState line linenum (w :: ws)) kw = tokState line linenum ws := by
  have h : (tokState line linenum (w :: ws)).token = w := rfl
  simp only [consume, h, hkw, if_true]
  exact next_token_tok line linenum w ws hws

theorem consume_num_tok (line : List Char) (linenum : Nat) {v : Int} (hv : IsInt32 v)
    (ws : List (List Char)) (hws : ∀ w' ∈ ws, IsWord w') :
    consume_num (tokState line linenum (fmt_d v :: ws)) = (tokState line linenum ws, v) := by
  have h : (tokState line linenum (fmt_d v :: ws)).token = fmt_d v := rfl
  simp only [consume_num, h, strtol_fmt_d hv, ne_eq, not_true_eq_false, if_false,
    toInt32_of_int32 hv]
  rw [next_token_tok line linenum _ ws hws]

theorem consume_keyname_tok (keys : KeyNames) (line : List Char) (linenum : Nat)
    (kn : List Char) (ws : List (List Char)) (hws : ∀ w' ∈ ws, IsWord w')
    (hk : keys.name2code kn ≠ 0) :
    consume_keyname keys (tokState line linenum (kn :: ws)) =
      (tokState line linenum ws, keys.name2code kn) := by
  have h : (tokState line linenum (kn :: ws)).token = kn := rfl
  simp only [consume_keyname, h, hk, if_false]
  rw [next_token_tok line linenum _ ws hws]

theorem consume_idname_tok {s : Store} {table : List VControl_NameBinding}
    (ht : s.nametable = some table) (line : List Char) (linenum : Nat) (nm : List Char)
    (ws : List (List Char)) (hws : ∀ w' ∈ ws, IsWord w')
    (hn : name2target_loop table nm ≠ 0) :
    consume_idname s (tokState line linenum ((nm ++ [':']) :: ws)) =
      .ok (tokState line linenum ws, name2target_loop table nm) := by
  have hl : (nm ++ [':']).getLast? = some ':' := by simp
  have h : (tokState line linenum ((nm ++ [':']) :: ws)).token = nm ++ [':'] := rfl
  have h2 : next_token { tokState line linenum ((nm ++ [':']) :: ws) with token := nm } =
      tokState line linenum ws := next_token_tok line linenum nm ws hws
  simp only [consume_idname, h, hl, ne_eq, not_true_eq_false, if_false, List.dropLast_concat,
    name2target, ht, Res.bind, h2, hn]

theorem tokState_error (line : List Char) (linenum : Nat) (ws : List (List Char)) :
    (tokState line linenum ws).error = false := by
  cases ws <;> rfl

theorem tokState_token (line : List Char) (linenum : Nat) (w : List Char)
    (ws : List (List Char)) : (tokState line linenum (w :: ws)).token = w := rfl

theorem tokState_nil (line : List Char) (linenum : Nat) :
    tokState line linenum [] = doneState line linenum := rfl

/-! ## Sequences of hat masks -/

theorem hat_press_list_at (old value bit : Nat) (bs : List (Nat × Int)) (m : Mem) (a : Nat) :
    hat_press_list old value bit bs m a =
      m a + (if (!hatBit old bit && hatBit value bit) = true
        then bound_count SDLK_UNKNOWN bs a else 0) := by
  unfold hat_press_list
  by_cases h : (!hatBit old bit && hatBit value bit) = true
  · simp only [h, if_true]; exact activate_list_apply _ _ _ _
  · simp [h]

theorem hat_release_list_at (old value bit : Nat) (bs : List (Nat × Int)) (m : Mem) (a : Nat)
    (h : bound_count SDLK_UNKNOWN bs a = 0 ∨ bound_count SDLK_UNKNOWN bs a ≤ m a) :
    hat_release_list old value bit bs m a =
      m a - (if (hatBit old bit && !hatBit value bit) = true
        then bound_count SDLK_UNKNOWN bs a else 0) := by
  unfold hat_release_list
  by_cases hc : (hatBit old bit && !hatBit value bit) = true
  · simp only [hc, if_true]; exact deactivate_list_at _ _ _ _ h
  · simp [hc]


theorem hat_press_list_skip {bs : List (Nat × Int)} {a : Nat}
    (h : bound_count SDLK_UNKNOWN bs a = 0) (old value bit : Nat) (m : Mem) :
    hat_press_list old value bit bs m a = m a := by
  rw [hat_press_list_at, h]; simp

theorem hat_release_list_skip {bs : List (Nat × Int)} {a : Nat}
    (h : bound_count SDLK_UNKNOWN bs a = 0) (old value bit : Nat) (m : Mem) :
    hat_release_list old value bit bs m a = m a := by
  rw [hat_release_list_at _ _ _ _ _ _ (Or.inl h), h]; simp

/-- The counter of a target bound once to the chain of one direction, after
that direction's two `if` statements of `VControl_ProcessJoyHat`. -/
theorem hat_own_counter {bs : List (Nat × Int)} {a : Nat}
    (h : bound_count SDLK_UNKNOWN bs a = 1) (old value bit : Nat) (m n : Mem)
    (hm : m a = if hatBit old bit = true then 1 else 0)
    (hn : n a = hat_press_list old value bit bs m a) :
    hat_release_list old value bit bs n a = if hatBit value bit = true then 1 else 0 := by
  have hp : n a = m a + (if (!hatBit old bit && hatBit value bit) = true then 1 else 0) := by
    rw [hn, hat_press_list_at, h]
  have side : bound_count SDLK_UNKNOWN bs a = 0 ∨ bound_count SDLK_UNKNOWN bs a ≤ n a ∨
      (hatBit old bit && !hatBit value bit) = false := by
    rw [h, hp, hm]
    cases hatBit old bit <;> cases hatBit value bit <;> simp
  rcases side with s0 | s1 | s2
  · rw [h] at s0; exact absurd s0 (by decide)
  · rw [hat_release_list_at _ _ _ _ _ _ (Or.inr s1), h, hp, hm]
    cases hatBit old bit <;> cases hatBit value bit <;> simp
  · unfold hat_release_list
    rw [s2]
    simp only [Bool.false_eq_true, if_false]
    rw [hp, hm]
    revert s2
    cases hatBit old bit <;> cases hatBit value bit <;> simp

theorem hat_step_counter {s : Store} {port which : Int} {j : joystick} {x : hat}
    {bs : HatDir → List (Nat × Int)} {T : Nat} (d : HatDir) (h0 : 0 ≤ port)
    (hj : s.joysticks[port.toNat]? = some j) (hopen : j.stick = true) (hw : 0 ≤ which)
    (hx : j.hats[which.toNat]? = some x)
    (hl : ∀ e, LiveChain s.pool (x.chain e) (bs e))
    (hT : ∀ e, bound_count SDLK_UNKNOWN (bs e) T = if e = d then 1 else 0)
    (m : Mem) (hm : m T = if hatBit x.last (dirBit d) = true then 1 else 0) (value : Nat) :
    ∃ r : Store × Mem, Returns (fun fuel => VControl_ProcessJoyHat fuel s m port which value) r ∧
      r.1 = setLast s port.toNat which.toNat value ∧
      r.2 T = (if hatBit value (dirBit d) = true then 1 else 0) := by
  have hstep := hat_step m value h0 hj hopen hw hx (hl .left) (hl .right) (hl .up) (hl .down)
  refine ⟨_, hstep, rfl, ?_⟩
  have hL := hT .left
  have hR := hT .right
  have hU := hT .up
  have hD := hT .down
  cases d <;> simp only [reduceCtorEq, if_true, if_false] at hL hR hU hD <;>
    simp only [dirBit] at hm ⊢
  · rw [hat_release_list_skip hD, hat_release_list_skip hU, hat_release_list_skip hR]
    refine hat_own_counter hL _ _ _ m _ hm ?_
    rw [hat_press_list_skip hD, hat_press_list_skip hU, hat_press_list_skip hR]
  · rw [hat_release_list_skip hD, hat_release_list_skip hU]
    refine hat_own_counter hR _ _ _ (hat_press_list x.last value SDL_HAT_LEFT (bs .left) m) _
      (by rw [hat_press_list_skip hL]; exact hm) ?_
    rw [hat_release_list_skip hL, hat_press_list_skip hD, hat_press_list_skip hU]
  · rw [hat_release_list_skip hD]
    refine hat_own_counter hU _ _ _ (hat_press_list x.last value SDL_HAT_RIGHT (bs .right)
      (hat_press_list x.last value SDL_HAT_LEFT (bs .left) m)) _
      (by rw [hat_press_list_skip hR, hat_press_list_skip hL]; exact hm) ?_
    rw [hat_release_list_skip hR, hat_release_list_skip hL, hat_press_list_skip hD]
  · refine hat_own_counter hD _ _ _ (hat_press_list x.last value SDL_HAT_UP (bs .up)
      (hat_press_list x.last value SDL_HAT_RIGHT (bs .right)
        (hat_press_list x.last value SDL_HAT_LEFT (bs .left) m))) _
      (by rw [hat_press_list_skip hU, hat_press_list_skip hR, hat_press_list_skip hL]; exact hm)
      ?_
    rw [hat_release_list_skip hU, hat_release_list_skip hR, hat_release_list_skip hL]




theorem hat_run_counter {port which : Int} {bs : HatDir → List (Nat × Int)} {T : Nat}
    (d : HatDir) (h0 : 0 ≤ port) (hw : 0 ≤ which)
    (hT : ∀ e, bound_count SDLK_UNKNOWN (bs e) T = if e = d then 1 else 0) :
    ∀ (vs : List Nat) (s : Store) (m : Mem) (j : joystick) (x : hat),
      s.joysticks[port.toNat]? = some j → j.stick = true → j.hats[which.toNat]? = some x →
      (∀ e, LiveChain s.pool (x.chain e) (bs e)) →
      (m T = if hatBit x.last (dirBit d) = true then 1 else 0) →
      ∃ r : Store × Mem, Returns (fun fuel => hat_run fuel port which vs (s, m)) r ∧
        r.2 T = (if hatBit ((x.last :: vs).getLast (List.cons_ne_nil _ _)) (dirBit d) = true
          then 1 else 0) := by
  intro vs
  induction vs with
  | nil =>
    intro s m j x _ _ _ _ hm
    exact ⟨(s, m), Returns.pure _, hm⟩
  | cons v vs ih =>
    intro s m j x hj hopen hx hl hm
    obtain ⟨r, hr, hs1, hT1⟩ := hat_step_counter d h0 hj hopen hw hx hl hT m hm v
    have hj' := setLast_joystick hj hx v
    have hx' : ({ j with hats := j.hats.set which.toNat { x with last := v } } :
        joystick).hats[which.toNat]? = some { x with last := v } := by
      simp [List.getElem?_set_self (getElem?_lt_of_eq_some hx)]
    have hpool : (setLast s port.toNat which.toNat v).pool = s.pool := by
      simp [setLast, hj, hx]
    rw [← hs1] at hj' hpool
    have hl' : ∀ e, LiveChain r.1.pool (({ x with last := v } : hat).chain e) (bs e) := by
      intro e; rw [hpool]
      have := hl e
      cases e <;> exact this
    obtain ⟨r2, hr2, h2⟩ := ih r.1 r.2 _ _ hj' hopen hx' hl' hT1
    refine ⟨r2, Returns.bind hr hr2, ?_⟩
    rw [List.getLast_cons (List.cons_ne_nil _ _)]
    exact h2

/-- C11: the hat invariant.  For an opened device and a hat whose last mask
is centred and whose four chains have no cycle, a target `T` bound once to
the chain of direction `d` and not to the other three chains, with counter 0:
every sequence of `VControl_ProcessJoyHat` calls on that hat returns, and then
the counter of `T` is 1 if the bit of `d` is set in the last observed mask (the
last of the sequence, or the centred mask when the sequence is empty) and 0
otherwise. -/
theorem hat_counter_follows_mask (s : Store) (m : Mem) (port which : Int) (j : joystick)
    (x : hat) (bs : HatDir → List (Nat × Int)) (T : Nat) (d : HatDir) (h0 : 0 ≤ port)
    (hj : s.joysticks[port.toNat]? = some j) (hopen : j.stick = true) (hw : 0 ≤ which)
    (hx : j.hats[which.toNat]? = some x) (hlast : x.last = SDL_HAT_CENTERED)
    (hl : ∀ e, LiveChain s.pool (x.chain e) (bs e))
    (hT : ∀ e, bound_count SDLK_UNKNOWN (bs e) T = if e = d then 1 else 0)
    (hm : m T = 0) (vs : List Nat) :
    ∃ r : Store × Mem, Returns (fun fuel => hat_run fuel port which vs (s, m)) r ∧
      r.2 T = (if hatBit ((SDL_HAT_CENTERED :: vs).getLast (List.cons_ne_nil _ _)) (dirBit d) = true
        then 1 else 0) := by
  have hm' : m T = if hatBit x.last (dirBit d) = true then 1 else 0 := by
    rw [hm, hlast]; cases d <;> rfl
  have h := hat_run_counter d h0 hw hT vs s m j x hj hopen hx hl hm'
  rw [hlast] at h
  exact h

theorem padHat_chains : ∀ e, LiveChain padStore.pool (padHat.chain e) (padHatPairs e) := by
  intro e
  cases e
  · exact padHat_left
  · exact padHat_right
  · exact padHat_up
  · exact padHat_down

set_option maxRecDepth 100000 in
/-- C11 at the store `padStore`, hat 0, the target 500 of direction up and the
masks up, up+left, left, centred, up+right. -/
theorem hat_counter_follows_mask_witness :
    ∃ r : Store × Mem,
      Returns (fun fuel => hat_run fuel 0 0 [1, 9, 8, 0, 3] (padStore, fun _ => 0)) r ∧
      r.2 500 = (if hatBit ((SDL_HAT_CENTERED :: [1, 9, 8, 0, 3]).getLast
          (List.cons_ne_nil _ _)) (dirBit .up) = true then 1 else 0) :=
  hat_counter_follows_mask padStore (fun _ => 0) 0 0 padDevice padHat padHatPairs 500 .up
    (by decide) padStore_device (by decide) (by decide) padDevice_hat (by decide) padHat_chains
    (by intro e; cases e <;> decide) rfl [1, 9, 8, 0, 3]

/-! ## Dispatch by exact key code -/

/-- C12: dispatch filters by exact key code.  In a store that satisfies the
invariant, for two key codes `K` and `K'` of the same bucket and a target `a`
bound to `K'` and not to `K` (so the two codes differ):
`VControl_ProcessKeyDown (K)` and `VControl_ProcessKeyUp (K)` return and leave
the counter of `a` as it was, `VControl_ProcessKeyDown (K)` adds exactly one to
the counter of every target bound to `K`, and `VControl_ProcessKeyDown (K')`
adds exactly one to the counter of `a`. -/
theorem dispatch_filters_key_code (s : Store) (hinv : Inv s) (m : Mem) (K K' : Int)
    (hK : 0 ≤ bucketIndex K) (hsame : bucketIndex K = bucketIndex K')
    (l : List (Nat × Int)) (hchain : HoldsChain s (.bucket (bucketIndex K).toNat) l)
    (a : Nat) (hbound : (a, K') ∈ l) (hnot : (a, K) ∉ l) :
    K ≠ K' ∧
    ∃ m1 m2 m3, Returns (fun fuel => VControl_ProcessKeyDown fuel s m K) m1 ∧
      Returns (fun fuel => VControl_ProcessKeyUp fuel s m K) m2 ∧
      Returns (fun fuel => VControl_ProcessKeyDown fuel s m K') m3 ∧
      m1 a = m a ∧ m2 a = m a ∧ (∀ b, (b, K) ∈ l → m1 b = m b + 1) ∧ m3 a = m a + 1 := by
  have hK' : 0 ≤ bucketIndex K' := hsame ▸ hK
  have hchain' : HoldsChain s (.bucket (bucketIndex K').toNat) l := hsame ▸ hchain
  refine ⟨fun e => hnot (e ▸ hbound), activate_list K l m, deactivate_list K l m,
    activate_list K' l m, hchain.keyDown hK m, hchain.keyUp hK m, hchain'.keyDown hK' m,
    ?_, ?_, ?_, ?_⟩
  · rw [activate_list_apply, bound_count_eq_zero hnot, add_zero]
  · rw [deactivate_list_at K l m a (Or.inl (bound_count_eq_zero hnot)),
      bound_count_eq_zero hnot, sub_zero]
  · intro b hb
    rw [activate_list_apply, bound_count_eq_one (hinv.unique _ _ hchain) hb]
  · rw [activate_list_apply, bound_count_eq_one (hinv.unique _ _ hchain) hbound]

/-- C12 at the store `twoKeys`, whose bucket 1 holds key 1 for target 100 and
key 513 for target 200: the keys 1 and 513 and the target 200. -/
theorem dispatch_filters_key_code_witness :
    (1 : Int) ≠ 513 ∧
    ∃ m1 m2 m3, Returns (fun fuel => VControl_ProcessKeyDown fuel twoKeys (fun _ => 0) 1) m1 ∧
      Returns (fun fuel => VControl_ProcessKeyUp fuel twoKeys (fun _ => 0) 1) m2 ∧
      Returns (fun fuel => VControl_ProcessKeyDown fuel twoKeys (fun _ => 0) 513) m3 ∧
      m1 200 = (fun _ => (0 : Int)) 200 ∧ m2 200 = (fun _ => (0 : Int)) 200 ∧
      (∀ b, (b, (1 : Int)) ∈ [((100 : Nat), (1 : Int)), (200, 513)] →
        m1 b = (fun _ => (0 : Int)) b + 1) ∧ m3 200 = (fun _ => (0 : Int)) 200 + 1 :=
  dispatch_filters_key_code twoKeys twoKeys_inv.1 (fun _ => 0) 1 513 (by decide)
    (by decide) [(100, 1), (200, 513)] twoKeys_bucket1 200 (by decide) (by decide)

/-! ## Dispatch to a device that is not opened -/

/-- C15: an unopened device never dispatches.  For a port of the device array
whose record has a `NULL` handle, `VControl_ProcessJoyButtonDown`,
`VControl_ProcessJoyButtonUp`, `VControl_ProcessJoyAxis` and
`VControl_ProcessJoyHat` return under every budget, whatever index, value or
mask is passed, with every counter and the whole store as before. -/
theorem unopened_device_never_dispatches (s : Store) (m : Mem) (port : Int) (j : joystick)
    (h0 : 0 ≤ port) (hj : s.joysticks[port.toNat]? = some j) (hclosed : j.stick = false)
    (index value : Int) (mask : Nat) (fuel : Nat) :
    VControl_ProcessJoyButtonDown fuel s m port index = .ok m ∧
      VControl_ProcessJoyButtonUp fuel s m port index = .ok m ∧
      VControl_ProcessJoyAxis fuel s m port index value = .ok (s, m) ∧
      VControl_ProcessJoyHat fuel s m port index mask = .ok (s, m) := by
  have hja : joystickAt s port = .ok j := by
    simp [joystickAt, not_lt.mpr h0, hj, Res.ofOption]
  simp [VControl_ProcessJoyButtonDown, VControl_ProcessJoyButtonUp, VControl_ProcessJoyAxis,
    VControl_ProcessJoyHat, hja, hclosed]

/-- C15 at the store of `VControl_Init` for the host `padHost`, port 0, with
an index and a value that no device has. -/
theorem unopened_device_never_dispatches_witness :
    VControl_ProcessJoyButtonDown 0 (VControl_Init padHost) (fun _ => 7) 0 99 = .ok (fun _ => 7) ∧
      VControl_ProcessJoyButtonUp 0 (VControl_Init padHost) (fun _ => 7) 0 99 = .ok (fun _ => 7) ∧
      VControl_ProcessJoyAxis 0 (VControl_Init padHost) (fun _ => 7) 0 99 (-32768) =
        .ok (VControl_Init padHost, fun _ => 7) ∧
      VControl_ProcessJoyHat 0 (VControl_Init padHost) (fun _ => 7) 0 99 15 =
        .ok (VControl_Init padHost, fun _ => 7) :=
  unopened_device_never_dispatches (VControl_Init padHost) (fun _ => 7) 0
    { stick := false, numaxes := 0, numbuttons := 0, numhats := 0, threshold := 0,
      axes := [], buttons := [], hats := [] } (by decide) (by decide) rfl 99 (-32768) 15 0

/-! ## VControl_RemoveAllBindings -/

/-- C20: `VControl_RemoveAllBindings` resets the store.  From any store, the
store after the call has the buckets, the pool and the device count of the
store `VControl_Init` produces for the same host, and as many device records:
all 512 buckets are empty, the pool is one chunk of 64 free slots with
free-count 64, and every device record is unopened, with no axis, button or
hat record, so that no chain head cell holds a binding.  The registered name
table stays (`name_init` is not called); the threshold and hat count of a
device record are assigned neither by `VControl_Init` nor by this call. -/
theorem remove_all_bindings_resets (host : Host) (s : Store) :
    (VControl_RemoveAllBindings host s).bindings = (VControl_Init host).bindings ∧
      (VControl_RemoveAllBindings host s).pool = (VControl_Init host).pool ∧
      (VControl_RemoveAllBindings host s).joycount = (VControl_Init host).joycount ∧
      (VControl_RemoveAllBindings host s).joysticks.length =
        (VControl_Init host).joysticks.length ∧
      (VControl_RemoveAllBindings host s).nametable = s.nametable ∧
      (VControl_RemoveAllBindings host s).bindings = List.replicate 512 none ∧
      (VControl_RemoveAllBindings host s).pool =
        [{ pool := List.replicate 64 { target := 0, keycode := 0, next := none },
           remaining := 64 }] ∧
      (VControl_RemoveAllBindings host s).joysticks.length = host.numJoysticks ∧
      (∀ j ∈ (VControl_RemoveAllBindings host s).joysticks,
        j.stick = false ∧ j.numaxes = 0 ∧ j.numbuttons = 0 ∧ j.axes = [] ∧ j.buttons = [] ∧
          j.hats = []) ∧
      ∀ c head, readCell (VControl_RemoveAllBindings host s) c = .ok head → head = none := by
  refine ⟨rfl, rfl, rfl, rfl, rfl, rfl, rfl, ?_, ?_, ?_⟩
  · simp [VControl_RemoveAllBindings, key_init]
  · intro j hj
    simp only [VControl_RemoveAllBindings, key_init, List.mem_map] at hj
    obtain ⟨i, _, rfl⟩ := hj
    exact ⟨rfl, rfl, rfl, rfl, rfl, rfl⟩
  · intro c head h
    exact key_init_cell h

/-! ## VControl_ResetInput -/

theorem reset_chunk_zero (a : Nat) :
    ∀ (bs : List keybinding) (i : Nat) (m : Mem), m a = 0 → reset_chunk bs i m a = 0 := by
  intro bs
  induction bs with
  | nil => intro i m h; exact h
  | cons b bs ih =>
    intro i m h
    rw [reset_chunk]
    split
    · exact h
    · apply ih
      split
      · exact h
      · by_cases e : a = b.target
        · rw [e, Function.update_same]
        · rw [Function.update_noteq e, h]

theorem reset_chunk_hit :
    ∀ (bs : List keybinding) (i : Nat) (m : Mem) (k : Nat) (b : keybinding),
      bs[k]? = some b → i + k < POOL_CHUNK_SIZE → b.target ≠ 0 →
      reset_chunk bs i m b.target = 0 := by
  intro bs
  induction bs with
  | nil => intro i m k b h; simp at h
  | cons b0 bs ih =>
    intro i m k b h hk ht
    rw [reset_chunk, if_neg (by omega)]
    cases k with
    | zero =>
      simp only [List.getElem?_cons_zero, Option.some.injEq] at h
      subst h
      apply reset_chunk_zero
      rw [if_neg ht, Function.update_same]
    | succ k =>
      simp only [List.getElem?_cons_succ] at h
      exact ih (i + 1) _ k b h (by omega) ht

theorem reset_chunk_miss (a : Nat) :
    ∀ (bs : List keybinding) (i : Nat) (m : Mem), (∀ b ∈ bs, b.target = 0 ∨ b.target ≠ a) →
      reset_chunk bs i m a = m a := by
  intro bs
  induction bs with
  | nil => intro i m _; rfl
  | cons b bs ih =>
    intro i m h
    rw [reset_chunk]
    split
    · rfl
    · rw [ih _ _ (fun b' hb' => h b' (List.mem_cons_of_mem _ hb'))]
      rcases h b (List.mem_cons_self _ _) with h0 | hne
      · rw [if_pos h0]
      · split
        · rfl
        · rw [Function.update_noteq (Ne.symm hne)]

theorem reset_pool_zero (a : Nat) :
    ∀ (pool : List keypool) (m : Mem), m a = 0 →
      pool.foldl (fun acc c => reset_chunk c.pool 0 acc) m a = 0 := by
  intro pool
  induction pool with
  | nil => intro m h; exact h
  | cons c pool ih =>
    intro m h
    rw [List.foldl_cons]
    exact ih _ (reset_chunk_zero a _ _ _ h)

theorem reset_pool_hit :
    ∀ (pool : List keypool) (m : Mem) (ci : Nat) (c : keypool) (k : Nat) (b : keybinding),
      pool[ci]? = some c → c.pool[k]? = some b → k < POOL_CHUNK_SIZE → b.target ≠ 0 →
      pool.foldl (fun acc c => reset_chunk c.pool 0 acc) m b.target = 0 := by
  intro pool
  induction pool with
  | nil => intro m ci c k b h; simp at h
  | cons c0 pool ih =>
    intro m ci c k b h hb hk ht
    rw [List.foldl_cons]
    cases ci with
    | zero =>
      simp only [List.getElem?_cons_zero, Option.some.injEq] at h
      subst h
      exact reset_pool_zero _ _ _ (reset_chunk_hit _ 0 m k b hb (by omega) ht)
    | succ ci =>
      simp only [List.getElem?_cons_succ] at h
      exact ih _ ci c k b h hb hk ht

theorem reset_pool_miss (a : Nat) :
    ∀ (pool : List keypool) (m : Mem),
      (∀ c ∈ pool, ∀ b ∈ c.pool, b.target = 0 ∨ b.target ≠ a) →
      pool.foldl (fun acc c => reset_chunk c.pool 0 acc) m a = m a := by
  intro pool
  induction pool with
  | nil => intro m _; rfl
  | cons c pool ih =>
    intro m h
    rw [List.foldl_cons, ih _ (fun c' hc' => h c' (List.mem_cons_of_mem _ hc')),
      reset_chunk_miss a _ _ _ (h c (List.mem_cons_self _ _))]

theorem slotAt_of_mem {pool : List keypool} {c : keypool} {b : keybinding}
    (hc : c ∈ pool) (hb : b ∈ c.pool) : ∃ p, slotAt pool p = .ok b := by
  obtain ⟨ci, hci⟩ := List.getElem?_of_mem hc
  obtain ⟨k, hk⟩ := List.getElem?_of_mem hb
  exact ⟨⟨ci, k⟩, by simp [slotAt, hci, hk]⟩

/-- C16: `VControl_ResetInput` zeroes every bound target.  In a store whose
pool satisfies the free-count invariant, after the call the counter of the
target of every live binding is 0 whatever it was: of every pair of every
chain (keyboard bucket, axis, button or hat chain) and of every pool slot
with a non-`NULL` target; a counter that no slot refers to keeps its value;
and with no binding in the pool the counters are left as they are.  The call
does not assign the store, so the bindings are as before. -/
theorem reset_input_zeroes_bound (s : Store) (hpool : PoolOK s.pool) (m : Mem) :
    (∀ c l t k, HoldsChain s c l → (t, k) ∈ l → VControl_ResetInput s m t = 0) ∧
      (∀ p b, slotAt s.pool p = .ok b → b.target ≠ 0 → VControl_ResetInput s m b.target = 0) ∧
      (∀ a, (∀ p b, slotAt s.pool p = .ok b → b.target ≠ a) → VControl_ResetInput s m a = m a) ∧
      ((∀ p b, slotAt s.pool p = .ok b → b.target = 0) → VControl_ResetInput s m = m) := by
  have hslot : ∀ p b, slotAt s.pool p = .ok b → b.target ≠ 0 →
      VControl_ResetInput s m b.target = 0 := by
    intro p b hs ht
    obtain ⟨c, hc, hb⟩ := slotAt_eq_ok.mp hs
    have hlen := (hpool.2 c (List.getElem?_mem hc)).1
    have hk : p.slot < POOL_CHUNK_SIZE := by
      rw [← hlen]; exact getElem?_lt_of_eq_some hb
    exact reset_pool_hit s.pool m p.chunk c p.slot b hc hb hk ht
  refine ⟨?_, hslot, ?_, ?_⟩
  · intro c l t k ⟨head, _, ps, hch, hl, hlive⟩ hmem
    rw [← hl] at hmem
    obtain ⟨x, hx, hxe⟩ := List.mem_map.mp hmem
    have ht : x.2.target = t := congrArg Prod.fst hxe
    have hne : x.2.target ≠ 0 := by
      rw [ht]; exact hlive (t, k) (by rw [← hl]; exact hmem)
    rw [← ht]
    exact hslot x.1 x.2 (hch.slot x hx) hne
  · intro a ha
    refine reset_pool_miss a s.pool m (fun c hc b hb => ?_)
    obtain ⟨p, hp⟩ := slotAt_of_mem hc hb
    exact Or.inr (ha p b hp)
  · intro h0
    funext a
    refine reset_pool_miss a s.pool m (fun c hc b hb => ?_)
    obtain ⟨p, hp⟩ := slotAt_of_mem hc hb
    exact Or.inl (h0 p b hp)

/-- C16 at the store `twoKeys`, which binds the targets 100 and 200, with
counters all 5. -/
theorem reset_input_zeroes_bound_witness :
    (∀ c l t k, HoldsChain twoKeys c l → (t, k) ∈ l →
        VControl_ResetInput twoKeys (fun _ => 5) t = 0) ∧
      (∀ p b, slotAt twoKeys.pool p = .ok b → b.target ≠ 0 →
        VControl_ResetInput twoKeys (fun _ => 5) b.target = 0) ∧
      (∀ a, (∀ p b, slotAt twoKeys.pool p = .ok b → b.target ≠ a) →
        VControl_ResetInput twoKeys (fun _ => 5) a = (fun _ => (5 : Int)) a) ∧
      ((∀ p b, slotAt twoKeys.pool p = .ok b → b.target = 0) →
        VControl_ResetInput twoKeys (fun _ => 5) = fun _ => 5) :=
  reset_input_zeroes_bound twoKeys twoKeys_inv.1.pool (fun _ => 5)

/-! ## Lines outside the grammar that are read without error -/

set_option maxRecDepth 1000000 in
/-- C18 fails for an extra token after a complete command and for a missing
number: the line `fire: key a extra` is read with 0 errors and installs the
binding of key `a` to the target of `fire`, exactly as the line `fire: key a`
does; the line `joystick 0 threshold`, which lacks its second number, is read
with 0 errors and sets the threshold of joystick 0 to 0. -/
theorem ungrammatical_lines_accepted :
    VControl_ReadConfiguration noJoyHost aKeys 3 fireFresh
        { data := "fire: key a extra\n".toList, eof := false } =
      .ok ((VControl_AddKeyBinding 1 fireFresh 97 100).storeD fireFresh, 0) ∧
    VControl_ReadConfiguration noJoyHost aKeys 3 fireFresh
        { data := "fire: key a\n".toList, eof := false } =
      .ok ((VControl_AddKeyBinding 1 fireFresh 97 100).storeD fireFresh, 0) ∧
    cell_bindings ((VControl_AddKeyBinding 1 fireFresh 97 100).storeD fireFresh) (.bucket 97) =
      [(100, 97)] ∧
    VControl_ReadConfiguration padHost aKeys 3
        ((VControl_SetJoyThreshold (VControl_Init padHost) 0 7).storeD (VControl_Init padHost))
        { data := "joystick 0 threshold\n".toList, eof := false } =
      .ok ((VControl_SetJoyThreshold (VControl_Init padHost) 0 0).storeD
        (VControl_Init padHost), 0) := by
  decide

set_option maxRecDepth 1000000 in
/-- C19 fails for a sign character and for the empty token: `consume_num`
returns -5 for the token `-5`, 5 for `+5` and 0 for the empty token, each
without setting the error flag; and the line `joystick 0 threshold -5` is read
with 0 errors and sets the threshold of joystick 0 to -5. -/
theorem signed_and_empty_num_accepted :
    consume_num { line := [], token := "-5".toList, rest := [], error := false, linenum := 1 } =
      ({ line := [], token := [], rest := [], error := false, linenum := 1 }, -5) ∧
    consume_num { line := [], token := "+5".toList, rest := [], error := false, linenum := 1 } =
      ({ line := [], token := [], rest := [], error := false, linenum := 1 }, 5) ∧
    consume_num { line := [], token := [], rest := [], error := false, linenum := 1 } =
      ({ line := [], token := [], rest := [], error := false, linenum := 1 }, 0) ∧
    VControl_ReadConfiguration padHost aKeys 3 (VControl_Init padHost)
        { data := "joystick 0 threshold -5\n".toList, eof := false } =
      .ok ((VControl_SetJoyThreshold (VControl_Init padHost) 0 (-5)).storeD
        (VControl_Init padHost), 0) ∧
    ((VControl_SetJoyThreshold (VControl_Init padHost) 0 (-5)).storeD
      (VControl_Init padHost)).joysticks.map (fun j => j.threshold) = [-5] := by
  decide

/-! ## Opening a device -/

theorem create_joystick_cases (host : Host) (s : Store) (p : Nat) :
    create_joystick host s p = s ∨
      ∃ x caps, s.joysticks[p]? = some x ∧ x.stick = false ∧ host.joystickOpen p = some caps ∧
        create_joystick host s p =
          { s with joysticks := s.joysticks.set p (opened_joystick host p x caps) } := by
  unfold create_joystick
  by_cases h1 : s.joycount ≤ (p : Int)
  · simp [h1]
  · simp only [h1, if_false]
    cases hx : s.joysticks[p]? with
    | none => simp
    | some x =>
      cases hs : x.stick with
      | true => simp [hs]
      | false =>
        cases hc : host.joystickOpen p with
        | none => simp [hs, hc]
        | some caps => exact Or.inr ⟨x, caps, rfl, hs, rfl, by simp [hs]⟩

theorem open_port_eq {host : Host} {s s1 : Store} {p : Nat} {j : joystick}
    (h : open_port host s p = .ok (s1, j)) :
    s1 = create_joystick host s p ∧ s1.joysticks[p]? = some j := by
  unfold open_port at h
  cases hx : s.joysticks[p]? with
  | none => rw [hx] at h; cases h
  | some j0 =>
    rw [hx] at h
    simp only at h
    have hs1 : (if j0.stick = true then s else create_joystick host s p) =
        create_joystick host s p := by
      by_cases hst : j0.stick = true
      · rw [if_pos hst]
        unfold create_joystick
        by_cases h1 : s.joycount ≤ (p : Int)
        · simp [h1]
        · simp [h1, hx, hst]
      · rw [if_neg hst]
    rw [hs1] at h
    cases hy : (create_joystick host s p).joysticks[p]? with
    | none => rw [hy] at h; cases h
    | some j1 =>
      rw [hy] at h
      cases h
      exact ⟨rfl, hy⟩

theorem status0_ne_fail {r : Res Store} {s1 : Store} : status0 r ≠ .ok (s1, -1) := by
  cases r <;> simp [status0]




theorem failed_axis_store {host : Host} {fuel : Nat} {s s1 : Store} {port a pol : Int}
    {target : Nat} (h : VControl_AddJoyAxisBinding host fuel s port a pol target = .ok (s1, -1)) :
    s1 = s ∨ (0 ≤ port ∧ s1 = create_joystick host s port.toNat) := by
  unfold VControl_AddJoyAxisBinding at h
  by_cases hp : 0 ≤ port ∧ port < s.joycount
  · rw [if_pos hp] at h
    cases ho : open_port host s port.toNat with
    | fuel => rw [ho] at h; cases h
    | fault => rw [ho] at h; cases h
    | ok r =>
      obtain ⟨s2, j⟩ := r
      rw [ho] at h
      simp only at h
      have hs2 := (open_port_eq ho).1
      have key : s1 = s2 := by
        by_cases ha : 0 ≤ a ∧ a < j.numaxes
        · rw [if_pos ha] at h
          by_cases h1 : pol < 0
          · rw [if_pos h1] at h; exact absurd h status0_ne_fail
          · rw [if_neg h1] at h
            by_cases h2 : pol > 0
            · rw [if_pos h2] at h; exact absurd h status0_ne_fail
            · rw [if_neg h2] at h; cases h; rfl
        · rw [if_neg ha] at h; cases h; rfl
      exact Or.inr ⟨hp.1, key.trans hs2⟩
  · rw [if_neg hp] at h; cases h; exact Or.inl rfl

theorem failed_button_store {host : Host} {fuel : Nat} {s s1 : Store} {port b : Int}
    {target : Nat} (h : VControl_AddJoyButtonBinding host fuel s port b target = .ok (s1, -1)) :
    s1 = s ∨ (0 ≤ port ∧ s1 = create_joystick host s port.toNat) := by
  unfold VControl_AddJoyButtonBinding at h
  by_cases hp : 0 ≤ port ∧ port < s.joycount
  · rw [if_pos hp] at h
    cases ho : open_port host s port.toNat with
    | fuel => rw [ho] at h; cases h
    | fault => rw [ho] at h; cases h
    | ok r =>
      obtain ⟨s2, j⟩ := r
      rw [ho] at h
      simp only at h
      have hs2 := (open_port_eq ho).1
      have key : s1 = s2 := by
        by_cases ha : 0 ≤ b ∧ b < j.numbuttons
        · rw [if_pos ha] at h; exact absurd h status0_ne_fail
        · rw [if_neg ha] at h; cases h; rfl
      exact Or.inr ⟨hp.1, key.trans hs2⟩
  · rw [if_neg hp] at h; cases h; exact Or.inl rfl

theorem failed_hat_store {host : Host} {fuel : Nat} {s s1 : Store} {port which : Int}
    {dir target : Nat}
    (h : VControl_AddJoyHatBinding host fuel s port which dir target = .ok (s1, -1)) :
    s1 = s ∨ (0 ≤ port ∧ s1 = create_joystick host s port.toNat) := by
  unfold VControl_AddJoyHatBinding at h
  by_cases hp : 0 ≤ port ∧ port < s.joycount
  · rw [if_pos hp] at h
    cases ho : open_port host s port.toNat with
    | fuel => rw [ho] at h; cases h
    | fault => rw [ho] at h; cases h
    | ok r =>
      obtain ⟨s2, j⟩ := r
      rw [ho] at h
      simp only at h
      have hs2 := (open_port_eq ho).1
      have key : s1 = s2 := by
        by_cases ha : 0 ≤ which ∧ which < j.numhats
        · rw [if_pos ha] at h
          cases hd : hatDirOf dir with
          | none => rw [hd] at h; cases h; rfl
          | some d => rw [hd] at h; exact absurd h status0_ne_fail
        · rw [if_neg ha] at h; cases h; rfl
      exact Or.inr ⟨hp.1, key.trans hs2⟩
  · rw [if_neg hp] at h; cases h; exact Or.inl rfl

theorem failed_threshold_store {s s1 : Store} {port t : Int}
    (h : VControl_SetJoyThreshold s port t = .ok (s1, -1)) : s1 = s := by
  unfold VControl_SetJoyThreshold at h
  by_cases hp : 0 ≤ port ∧ port < s.joycount
  · rw [if_pos hp] at h
    cases hj : s.joysticks[port.toNat]? with
    | none => rw [hj] at h; cases h
    | some j => rw [hj] at h; simp at h
  · rw [if_neg hp] at h; cases h; rfl

set_option maxRecDepth 100000 in
/-- C14 fails for a call that is rejected after the device is opened: on the
store of `VControl_Init` for the host `padHost`, whose joystick 0 has two
axes, `VControl_AddJoyAxisBinding (0, 99, 1, target)` returns -1 and leaves
joystick 0 opened, which it was not before. -/
theorem failed_bind_opens_device :
    ((VControl_Init padHost).joysticks.map fun j => j.stick) = [false] ∧
      VControl_AddJoyAxisBinding padHost 1 (VControl_Init padHost) 0 99 1 100 =
        .ok (create_joystick padHost (VControl_Init padHost) 0, -1) ∧
      ((create_joystick padHost (VControl_Init padHost) 0).joysticks.map fun j => j.stick) =
        [true] ∧
      create_joystick padHost (VControl_Init padHost) 0 ≠ VControl_Init padHost := by
  decide

theorem opened_store_frame (host : Host) (s : Store) (p : Nat) (j : joystick)
    (caps : DeviceCaps) (hj : s.joysticks[p]? = some j) (hst : j.stick = false) :
    (({ s with joysticks := s.joysticks.set p (opened_joystick host p j caps) } :
        Store).joysticks.map fun x => x.threshold) = s.joysticks.map (fun x => x.threshold) ∧
      ∀ (q : Nat) (x : joystick), s.joysticks[q]? = some x → x.stick = true →
        ({ s with joysticks := s.joysticks.set p (opened_joystick host p j caps) } :
          Store).joysticks[q]? = some x := by
  constructor
  · apply List.ext_getElem?
    intro q
    simp only [List.getElem?_map, List.getElem?_set]
    by_cases hq : p = q
    · subst hq
      simp [hj, getElem?_lt_of_eq_some hj, opened_joystick]
    · simp [hq]
  · intro q x hx hxs
    have hq : p ≠ q := by
      intro e; subst e; rw [hj] at hx; cases hx; rw [hst] at hxs; cases hxs
    simp [List.getElem?_set, hq, hx]

/-- C14, amended: a failed mutating call may open the addressed device and
does nothing else.  When `VControl_AddJoyAxisBinding`,
`VControl_AddJoyButtonBinding`, `VControl_AddJoyHatBinding` or
`VControl_SetJoyThreshold` returns -1, the store after the call is the store
before it, or differs from it only in the record of the addressed port, which
was unopened and now is the record `create_joystick` fills in on opening the
device (empty chains, same threshold): the buckets, the pool, the device
count, the name table, every threshold and the record of every opened device
are as before.  After a failed `VControl_SetJoyThreshold` the store is the
store before. -/
theorem failed_call_only_opens (host : Host) (fuel : Nat) (s s1 : Store)
    (port index polarity threshold : Int) (dir target : Nat)
    (hfail : VControl_AddJoyAxisBinding host fuel s port index polarity target = .ok (s1, -1) ∨
      VControl_AddJoyButtonBinding host fuel s port index target = .ok (s1, -1) ∨
      VControl_AddJoyHatBinding host fuel s port index dir target = .ok (s1, -1) ∨
      VControl_SetJoyThreshold s port threshold = .ok (s1, -1)) :
    (s1 = s ∨ ∃ j caps, 0 ≤ port ∧ s.joysticks[port.toNat]? = some j ∧ j.stick = false ∧
        host.joystickOpen port.toNat = some caps ∧
        s1 = { s with joysticks :=
          s.joysticks.set port.toNat (opened_joystick host port.toNat j caps) }) ∧
      s1.bindings = s.bindings ∧ s1.pool = s.pool ∧ s1.joycount = s.joycount ∧
      s1.nametable = s.nametable ∧
      (s1.joysticks.map fun x => x.threshold) = s.joysticks.map (fun x => x.threshold) ∧
      (∀ (q : Nat) (x : joystick), s.joysticks[q]? = some x → x.stick = true → s1.joysticks[q]? = some x) ∧
      (VControl_SetJoyThreshold s port threshold = .ok (s1, -1) → s1 = s) := by
  have hcases : s1 = s ∨ (0 ≤ port ∧ s1 = create_joystick host s port.toNat) := by
    rcases hfail with h | h | h | h
    · exact failed_axis_store h
    · exact failed_button_store h
    · exact failed_hat_store h
    · exact Or.inl (failed_threshold_store h)
  have hshape : s1 = s ∨ ∃ j caps, 0 ≤ port ∧ s.joysticks[port.toNat]? = some j ∧
      j.stick = false ∧ host.joystickOpen port.toNat = some caps ∧
      s1 = { s with joysticks :=
        s.joysticks.set port.toNat (opened_joystick host port.toNat j caps) } := by
    rcases hcases with h | ⟨h0, h⟩
    · exact Or.inl h
    · rcases create_joystick_cases host s port.toNat with hc | ⟨x, caps, hx, hxs, hcap, hc⟩
      · exact Or.inl (h.trans hc)
      · exact Or.inr ⟨x, caps, h0, hx, hxs, hcap, h.trans hc⟩
  refine ⟨hshape, ?_⟩
  rcases hshape with h | ⟨j, caps, _, hj, hst, _, h⟩
  · subst h
    exact ⟨rfl, rfl, rfl, rfl, rfl, fun _ _ hx _ => hx, fun _ => rfl⟩
  · have hf := opened_store_frame host s port.toNat j caps hj hst
    subst h
    exact ⟨rfl, rfl, rfl, rfl, hf.1, hf.2, failed_threshold_store⟩

set_option maxRecDepth 100000 in
/-- C14, amended, at the store of `VControl_Init` for the host `padHost` and
the rejected call `VControl_AddJoyAxisBinding (0, 99, 1, target)`. -/
theorem failed_call_only_opens_witness :
    (create_joystick padHost (VControl_Init padHost) 0 = VControl_Init padHost ∨
        ∃ j caps, (0 : Int) ≤ 0 ∧ (VControl_Init padHost).joysticks[0]? = some j ∧
          j.stick = false ∧ padHost.joystickOpen 0 = some caps ∧
          create_joystick padHost (VControl_Init padHost) 0 =
            { VControl_Init padHost with
              joysticks := [opened_joystick padHost 0 j caps] }) ∧
      (create_joystick padHost (VControl_Init padHost) 0).bindings =
        (VControl_Init padHost).bindings ∧
      (create_joystick padHost (VControl_Init padHost) 0).pool = (VControl_Init padHost).pool ∧
      (create_joystick padHost (VControl_Init padHost) 0).joycount =
        (VControl_Init padHost).joycount ∧
      (create_joystick padHost (VControl_Init padHost) 0).nametable =
        (VControl_Init padHost).nametable ∧
      ((create_joystick padHost (VControl_Init padHost) 0).joysticks.map fun x => x.threshold) =
        (VControl_Init padHost).joysticks.map (fun x => x.threshold) ∧
      (∀ (q : Nat) (x : joystick), (VControl_Init padHost).joysticks[q]? = some x →
        x.stick = true →
        (create_joystick padHost (VControl_Init padHost) 0).joysticks[q]? = some x) ∧
      (VControl_SetJoyThreshold (VControl_Init padHost) 0 0 =
        .ok (create_joystick padHost (VControl_Init padHost) 0, -1) →
        create_joystick padHost (VControl_Init padHost) 0 = VControl_Init padHost) :=
  failed_call_only_opens padHost 1 (VControl_Init padHost)
    (create_joystick padHost (VControl_Init padHost) 0) 0 99 1 0 0 100 (Or.inl (by decide))

/-! ## The invariant and the device records when a device is opened -/

theorem opened_joystick_axes (host : Host) (p : Nat) (x : joystick) (caps : DeviceCaps)
    (a : Nat) (y : axis) (h : (opened_joystick host p x caps).axes[a]? = some y) :
    y.neg = none ∧ y.pos = none := by
  simp only [opened_joystick, List.getElem?_map] at h
  cases hr : (List.range caps.axes)[a]? with
  | none => rw [hr] at h; cases h
  | some i => rw [hr] at h; cases h; exact ⟨rfl, rfl⟩

theorem opened_joystick_buttons (host : Host) (p : Nat) (x : joystick) (caps : DeviceCaps)
    (b : Nat) (y : Option Ptr) (h : (opened_joystick host p x caps).buttons[b]? = some y) :
    y = none := by
  simp only [opened_joystick, List.getElem?_replicate] at h
  split at h
  · cases h; rfl
  · cases h

theorem opened_joystick_hats (host : Host) (p : Nat) (x : joystick) (caps : DeviceCaps)
    (k : Nat) (y : hat) (h : (opened_joystick host p x caps).hats[k]? = some y) :
    ∀ d, y.chain d = none := by
  simp only [opened_joystick, List.getElem?_replicate] at h
  split at h
  · cases h; intro d; cases d <;> rfl
  · cases h

/-- A cell of the store in which the device `p` has just been opened is empty
or reads as before. -/
theorem readCell_opened {host : Host} {s : Store} {p : Nat} {x : joystick} {caps : DeviceCaps}
    (hx : s.joysticks[p]? = some x) {c : Cell} {head : Option Ptr}
    (h : readCell { s with joysticks := s.joysticks.set p (opened_joystick host p x caps) } c =
      .ok head) :
    head = none ∨ readCell s c = .ok head := by
  cases c with
  | bucket i => exact Or.inr h
  | axis port a positive =>
    simp only [readCell, joysticks_set_getElem? _ _ _ _ _ hx] at h
    by_cases hp : port = p
    · simp only [hp, if_true] at h
      cases ha : (opened_joystick host p x caps).axes[a]? with
      | none => rw [ha] at h; cases h
      | some y =>
        rw [ha] at h
        have := opened_joystick_axes host p x caps a y ha
        cases h
        cases positive <;> simp [this.1, this.2]
    · simp only [hp, if_false] at h
      exact Or.inr h
  | button port b =>
    simp only [readCell, joysticks_set_getElem? _ _ _ _ _ hx] at h
    by_cases hp : port = p
    · simp only [hp, if_true] at h
      cases hb : (opened_joystick host p x caps).buttons[b]? with
      | none => rw [hb] at h; cases h
      | some y =>
        rw [hb] at h
        have := opened_joystick_buttons host p x caps b y hb
        cases h
        exact Or.inl this
    · simp only [hp, if_false] at h
      exact Or.inr h
  | hat port k d =>
    simp only [readCell, joysticks_set_getElem? _ _ _ _ _ hx] at h
    by_cases hp : port = p
    · simp only [hp, if_true] at h
      cases hb : (opened_joystick host p x caps).hats[k]? with
      | none => rw [hb] at h; cases h
      | some y =>
        rw [hb] at h
        have := opened_joystick_hats host p x caps k y hb d
        cases h
        exact Or.inl this
    · simp only [hp, if_false] at h
      exact Or.inr h

theorem LiveChain.of_none {pool : List keypool} {l : List (Nat × Int)}
    (h : LiveChain pool none l) : l = [] := by
  obtain ⟨ps, hch, hl, _⟩ := h
  rw [hch.head_none] at hl
  exact hl.symm

theorem LiveChain.none (pool : List keypool) : LiveChain pool none [] :=
  ⟨[], Chain.nil, rfl, fun b hb => by cases hb⟩

/-- Opening a device keeps the invariant, and a chain of the store after it is
empty or a chain of the store before. -/
theorem Inv.device_opened {host : Host} {s : Store} (hinv : Inv s) {p : Nat} {x : joystick}
    (caps : DeviceCaps) (hx : s.joysticks[p]? = some x) :
    Inv { s with joysticks := s.joysticks.set p (opened_joystick host p x caps) } ∧
      ∀ c l, HoldsChain { s with joysticks := s.joysticks.set p (opened_joystick host p x caps) }
        c l → l = [] ∨ HoldsChain s c l := by
  have hold : ∀ c l,
      HoldsChain { s with joysticks := s.joysticks.set p (opened_joystick host p x caps) } c l →
      l = [] ∨ HoldsChain s c l := by
    intro c l ⟨head, hr, hl⟩
    rcases readCell_opened hx hr with h0 | h1
    · subst h0; exact Or.inl hl.of_none
    · exact Or.inr ⟨head, h1, hl⟩
  refine ⟨⟨hinv.pool, ?_, ?_, ?_⟩, hold⟩
  · intro c head hr
    rcases readCell_opened hx hr with h0 | h1
    · subst h0; exact ⟨[], LiveChain.none _⟩
    · exact hinv.chains c head h1
  · intro c1 c2 h1 h2 ps1 ps2 hne hr1 hr2 hc1 hc2 a ha b hb
    rcases readCell_opened hx hr1 with e1 | e1
    · subst e1; rw [hc1.head_none] at ha; cases ha
    · rcases readCell_opened hx hr2 with e2 | e2
      · subst e2; rw [hc2.head_none] at hb; cases hb
      · exact hinv.disjoint c1 c2 h1 h2 ps1 ps2 hne e1 e2 hc1 hc2 a ha b hb
  · intro c l hl
    rcases hold c l hl with h0 | h1
    · subst h0; exact List.nodup_nil
    · exact hinv.unique c l h1

theorem Inv.after_create {s : Store} (hinv : Inv s) (host : Host) (p : Nat) :
    Inv (VControl.create_joystick host s p) ∧
      ∀ c l, HoldsChain (VControl.create_joystick host s p) c l → l = [] ∨ HoldsChain s c l := by
  rcases create_joystick_cases host s p with h | ⟨x, caps, hx, _, _, h⟩
  · rw [h]; exact ⟨hinv, fun c l hl => Or.inr hl⟩
  · rw [h]; exact hinv.device_opened caps hx

theorem create_joystick_opened {host : Host} {s : Store} {p : Nat} {x : joystick}
    (hp : (p : Int) < s.joycount) (hx : s.joysticks[p]? = some x) :
    (x.stick = true → create_joystick host s p = s) ∧
    (x.stick = false → ∀ caps, host.joystickOpen p = some caps →
      create_joystick host s p =
        { s with joysticks := s.joysticks.set p (opened_joystick host p x caps) }) ∧
    (x.stick = false → host.joystickOpen p = none → create_joystick host s p = s) := by
  refine ⟨fun hs => ?_, fun hs caps hc => ?_, fun hs hc => ?_⟩
  · simp [create_joystick, not_le.mpr hp, hx, hs]
  · simp [create_joystick, not_le.mpr hp, hx, hs, hc]
  · simp [create_joystick, not_le.mpr hp, hx, hs, hc]

theorem key_init_devices (host : Host) (nt : Option (List VControl_NameBinding)) :
    DevicesOK host (key_init host nt) := by
  refine ⟨by simp [key_init], fun p j hj => ?_⟩
  simp only [key_init, List.getElem?_map] at hj
  cases hr : (List.range host.numJoysticks)[p]? with
  | none => rw [hr] at hj; cases hj
  | some i =>
    rw [hr] at hj
    cases hj
    exact ⟨fun _ => ⟨rfl, rfl, rfl, rfl, rfl⟩, fun h => by cases h⟩

theorem DevicesOK.record_opened {host : Host} {s : Store} (hdev : DevicesOK host s) {p : Nat}
    {x : joystick} {caps : DeviceCaps} (hx : s.joysticks[p]? = some x)
    (hc : host.joystickOpen p = some caps) :
    DevicesOK host { s with joysticks := s.joysticks.set p (opened_joystick host p x caps) } := by
  refine ⟨by simpa using hdev.1, fun q j hj => ?_⟩
  simp only [joysticks_set_getElem? _ _ _ _ _ hx] at hj
  by_cases hq : q = p
  · subst hq
    simp only [if_true, Option.some.injEq] at hj
    subst hj
    refine ⟨fun h => by simp [opened_joystick] at h, fun _ => ⟨caps, hc, ?_⟩⟩
    simp [opened_joystick]
  · simp only [hq, if_false] at hj
    exact hdev.2 q j hj

theorem DevicesOK.create_shape {host : Host} {s : Store} (hdev : DevicesOK host s) (p : Nat) :
    DevicesOK host (VControl.create_joystick host s p) := by
  rcases create_joystick_cases host s p with h | ⟨x, caps, hx, _, hc, h⟩
  · rw [h]; exact hdev
  · rw [h]; exact hdev.record_opened hx hc

/-- The prologue of the joystick binding functions on a port in range whose
device the host opens: the store is the one `create_joystick` leaves, and the
record of the port is opened with the counts the host reports. -/
theorem open_port_spec {host : Host} {s : Store} (hdev : DevicesOK host s) {port : Int}
    (h0 : 0 ≤ port) (hp : port < s.joycount) {caps : DeviceCaps}
    (hc : host.joystickOpen port.toNat = some caps) :
    ∃ j, open_port host s port.toNat = .ok (create_joystick host s port.toNat, j) ∧
      (create_joystick host s port.toNat).joysticks[port.toNat]? = some j ∧
      j.stick = true ∧ j.numaxes = caps.axes ∧ j.axes.length = caps.axes ∧
      j.numbuttons = caps.buttons ∧ j.buttons.length = caps.buttons ∧
      j.numhats = caps.hats ∧ j.hats.length = caps.hats := by
  have hlt : port.toNat < s.joysticks.length := by
    have := hdev.1; omega
  have hpn : ((port.toNat : Nat) : Int) < s.joycount := by omega
  obtain ⟨x, hx⟩ : ∃ x, s.joysticks[port.toNat]? = some x :=
    ⟨s.joysticks[port.toNat], List.getElem?_eq_getElem hlt⟩
  have hcj := @create_joystick_opened host s port.toNat x hpn hx
  cases hs : x.stick with
  | true =>
    have e := hcj.1 hs
    obtain ⟨caps', hc', h1, h2, h3, h4, h5, h6⟩ := (hdev.2 _ _ hx).2 hs
    rw [hc] at hc'; cases hc'
    refine ⟨x, ?_, by rw [e]; exact hx, hs, h1, h2, h3, h4, h5, h6⟩
    simp [open_port, hx, hs]
    exact e.symm
  | false =>
    have e := hcj.2.1 hs caps hc
    have hj : (create_joystick host s port.toNat).joysticks[port.toNat]? =
        some (opened_joystick host port.toNat x caps) := by
      rw [e]; simp [List.getElem?_set_self hlt]
    refine ⟨opened_joystick host port.toNat x caps, ?_, hj, ?_⟩
    · simp [open_port, hx, hs, hj]
    · simp [opened_joystick]

theorem DevicesOK.writeCell {host : Host} {s : Store} (hdev : DevicesOK host s) (c : Cell)
    (v : Option Ptr) (pool1 : List keypool) :
    DevicesOK host { VControl.writeCell s c v with pool := pool1 } := by
  cases c with
  | bucket i => exact hdev
  | axis port a positive =>
    cases hj : s.joysticks[port]? with
    | none => simpa [VControl.writeCell, hj] using hdev
    | some j =>
      cases hx : j.axes[a]? with
      | none => simpa [VControl.writeCell, hj, hx] using hdev
      | some x =>
        refine ⟨by simpa [VControl.writeCell, hj, hx] using hdev.1, fun q j' hj' => ?_⟩
        simp only [VControl.writeCell, hj, hx, joysticks_set_getElem? _ _ _ _ _ hj] at hj'
        by_cases hq : q = port
        · subst hq
          simp only [if_true, Option.some.injEq] at hj'
          subst hj'
          simpa using hdev.2 q j hj
        · simp only [hq, if_false] at hj'
          exact hdev.2 q j' hj'
  | button port b =>
    cases hj : s.joysticks[port]? with
    | none => simpa [VControl.writeCell, hj] using hdev
    | some j =>
      refine ⟨by simpa [VControl.writeCell, hj] using hdev.1, fun q j' hj' => ?_⟩
      simp only [VControl.writeCell, hj, joysticks_set_getElem? _ _ _ _ _ hj] at hj'
      by_cases hq : q = port
      · subst hq
        simp only [if_true, Option.some.injEq] at hj'
        subst hj'
        have := hdev.2 q j hj
        refine ⟨fun hs => ?_, fun hs => ?_⟩
        · have h := this.1 hs
          simp only [h.2.2.2.1, List.set_nil]
          exact ⟨h.1, h.2.1, h.2.2.1, trivial, h.2.2.2.2⟩
        · simpa using this.2 hs
      · simp only [hq, if_false] at hj'
        exact hdev.2 q j' hj'
  | hat port k d =>
    cases hj : s.joysticks[port]? with
    | none => simpa [VControl.writeCell, hj] using hdev
    | some j =>
      cases hx : j.hats[k]? with
      | none => simpa [VControl.writeCell, hj, hx] using hdev
      | some x =>
        refine ⟨by simpa [VControl.writeCell, hj, hx] using hdev.1, fun q j' hj' => ?_⟩
        simp only [VControl.writeCell, hj, hx, joysticks_set_getElem? _ _ _ _ _ hj] at hj'
        by_cases hq : q = port
        · subst hq
          simp only [if_true, Option.some.injEq] at hj'
          subst hj'
          simpa using hdev.2 q j hj
        · simp only [hq, if_false] at hj'
          exact hdev.2 q j' hj'

/-! ## Binding at a cell of a store that satisfies the invariant -/

theorem writeCell_fields (s : Store) (c : Cell) (v : Option Ptr) :
    (writeCell s c v).nametable = s.nametable ∧ (writeCell s c v).joycount = s.joycount ∧
      (writeCell s c v).bindings.length = s.bindings.length ∧
      (writeCell s c v).pool = s.pool := by
  cases c with
  | bucket i => simp [writeCell]
  | axis port a positive =>
    cases hj : s.joysticks[port]? with
    | none => simp [writeCell, hj]
    | some j =>
      cases hx : j.axes[a]? with
      | none => simp [writeCell, hj, hx]
      | some x => simp [writeCell, hj, hx]
  | button port b =>
    cases hj : s.joysticks[port]? with
    | none => simp [writeCell, hj]
    | some j => simp [writeCell, hj]
  | hat port k d =>
    cases hj : s.joysticks[port]? with
    | none => simp [writeCell, hj]
    | some j =>
      cases hx : j.hats[k]? with
      | none => simp [writeCell, hj, hx]
      | some x => simp [writeCell, hj, hx]

/-- The call `add_binding (&cell, target, keycode)` on a readable cell of a
store that satisfies the invariant: it returns; the chain of the cell gets the
pair at its end unless it holds it; the chains of the other cells are the
same before and after; the invariant and the shape of the device records are
kept. -/
theorem add_cell_spec {host : Host} {s : Store} (hinv : Inv s) (hdev : DevicesOK host s)
    {c : Cell} {head : Option Ptr} (hr : readCell s c = .ok head) (target : Nat)
    (ht : target ≠ 0) (keycode : Int) :
    ∃ l s1, HoldsChain s c l ∧ Returns (fun fuel => add_at fuel s c target keycode) s1 ∧
      HoldsChain s1 c (if (target, keycode) ∈ l then l else l ++ [(target, keycode)]) ∧
      (∀ c' l', c' ≠ c → (HoldsChain s1 c' l' ↔ HoldsChain s c' l')) ∧
      Inv s1 ∧ DevicesOK host s1 ∧ s1.nametable = s.nametable ∧
      s1.bindings.length = s.bindings.length ∧ s1.joycount = s.joycount := by
  obtain ⟨l, hl⟩ := hinv.chains c head hr
  have hc : HoldsChain s c l := ⟨head, hr, hl⟩
  obtain ⟨v, pool1, hret, h2, h3, h4⟩ := add_at_spec hinv hc target ht keycode
  have hf := writeCell_fields s c v
  refine ⟨l, _, hc, hret, h2, ?_, h4, hdev.writeCell c v pool1, hf.1, hf.2.2.1, hf.2.1⟩
  intro c' l' hne
  constructor
  · intro h
    obtain ⟨head', hr', hl'⟩ := h
    have hr0 : readCell s c' = .ok head' := by
      rw [readCell_pool, readCell_writeCell_ne hne] at hr'
      exact hr'
    obtain ⟨l0, hl0⟩ := hinv.chains c' head' hr0
    have h0 : HoldsChain s c' l0 := ⟨head', hr0, hl0⟩
    have := (h3 c' l0 hne h0).unique_pairs ⟨head', hr', hl'⟩
    rw [← this]
    exact h0
  · exact h3 c' l' hne




/-! ## The joystick binding functions on a port whose device opens -/

theorem AddJoyAxisBinding_eq {host : Host} {s : Store} (hdev : DevicesOK host s) {port : Int}
    (h0 : 0 ≤ port) (hp : port < s.joycount) {caps : DeviceCaps}
    (hc : host.joystickOpen port.toNat = some caps) (a pol : Int) (target fuel : Nat) :
    VControl_AddJoyAxisBinding host fuel s port a pol target =
      if 0 ≤ a ∧ a < caps.axes then
        if pol < 0 then
          status0 (add_at fuel (create_joystick host s port.toNat)
            (.axis port.toNat a.toNat false) target SDLK_UNKNOWN)
        else if pol > 0 then
          status0 (add_at fuel (create_joystick host s port.toNat)
            (.axis port.toNat a.toNat true) target SDLK_UNKNOWN)
        else .ok (create_joystick host s port.toNat, -1)
      else .ok (create_joystick host s port.toNat, -1) := by
  obtain ⟨j, ho, _, _, hn, _⟩ := open_port_spec hdev h0 hp hc
  simp only [VControl_AddJoyAxisBinding, h0, hp, and_self, if_true, ho, hn]

theorem AddJoyButtonBinding_eq {host : Host} {s : Store} (hdev : DevicesOK host s) {port : Int}
    (h0 : 0 ≤ port) (hp : port < s.joycount) {caps : DeviceCaps}
    (hc : host.joystickOpen port.toNat = some caps) (b : Int) (target fuel : Nat) :
    VControl_AddJoyButtonBinding host fuel s port b target =
      if 0 ≤ b ∧ b < caps.buttons then
        status0 (add_at fuel (create_joystick host s port.toNat)
          (.button port.toNat b.toNat) target SDLK_UNKNOWN)
      else .ok (create_joystick host s port.toNat, -1) := by
  obtain ⟨j, ho, _, _, _, _, hn, _⟩ := open_port_spec hdev h0 hp hc
  simp only [VControl_AddJoyButtonBinding, h0, hp, and_self, if_true, ho, hn]

theorem AddJoyHatBinding_eq {host : Host} {s : Store} (hdev : DevicesOK host s) {port : Int}
    (h0 : 0 ≤ port) (hp : port < s.joycount) {caps : DeviceCaps}
    (hc : host.joystickOpen port.toNat = some caps) (which : Int) (dir target fuel : Nat) :
    VControl_AddJoyHatBinding host fuel s port which dir target =
      if 0 ≤ which ∧ which < caps.hats then
        match hatDirOf dir with
        | some d => status0 (add_at fuel (create_joystick host s port.toNat)
            (.hat port.toNat which.toNat d) target SDLK_UNKNOWN)
        | none => .ok (create_joystick host s port.toNat, -1)
      else .ok (create_joystick host s port.toNat, -1) := by
  obtain ⟨j, ho, _, _, _, _, _, _, hn, _⟩ := open_port_spec hdev h0 hp hc
  unfold VControl_AddJoyHatBinding
  rw [if_pos ⟨h0, hp⟩, ho]
  by_cases hw : 0 ≤ which ∧ which < caps.hats
  · have hw' : 0 ≤ which ∧ which < j.numhats := by rw [hn]; exact hw
    simp only [hw, hw', and_self, if_true]
  · have hw' : ¬(0 ≤ which ∧ which < j.numhats) := by rw [hn]; exact hw
    simp only [hw, hw', if_false]

/-- The cells of an opened device that its counts admit can be read. -/
theorem readCell_device {s : Store} {p : Nat} {j : joystick} (hj : s.joysticks[p]? = some j) :
    (∀ a positive, a < j.axes.length → ∃ head, readCell s (.axis p a positive) = .ok head) ∧
    (∀ b, b < j.buttons.length → ∃ head, readCell s (.button p b) = .ok head) ∧
    (∀ k d, k < j.hats.length → ∃ head, readCell s (.hat p k d) = .ok head) := by
  refine ⟨fun a positive ha => ?_, fun b hb => ?_, fun k d hk => ?_⟩
  · exact ⟨if positive then j.axes[a].pos else j.axes[a].neg,
      by simp [readCell, hj, List.getElem?_eq_getElem ha]⟩
  · exact ⟨j.buttons[b], by simp [readCell, hj, List.getElem?_eq_getElem hb, Res.ofOption]⟩
  · exact ⟨j.hats[k].chain d, by simp [readCell, hj, List.getElem?_eq_getElem hk]⟩

theorem Returns.status0 {f : Nat → Res Store} {s1 : Store} (h : Returns f s1) :
    Returns (fun fuel => VControl.status0 (f fuel)) (s1, 0) := by
  obtain ⟨n, hn⟩ := h
  exact ⟨n, fun fuel hf => by simp only [hn fuel hf, VControl.status0]⟩

/-- A joystick binding call that passes its checks: the device is opened,
then `add_binding` runs on the addressed cell. -/
theorem add_joy_cell_spec {host : Host} {s : Store} (hinv : Inv s) (hdev : DevicesOK host s)
    (p : Nat) {c : Cell} {head : Option Ptr}
    (hr : readCell (create_joystick host s p) c = .ok head) (target : Nat) (ht : target ≠ 0) :
    ∃ l s1, HoldsChain (create_joystick host s p) c l ∧
      Returns (fun fuel => status0 (add_at fuel (create_joystick host s p) c target SDLK_UNKNOWN))
        (s1, 0) ∧
      HoldsChain s1 c (if (target, SDLK_UNKNOWN) ∈ l then l else l ++ [(target, SDLK_UNKNOWN)]) ∧
      (∀ c' l', c' ≠ c → (HoldsChain s1 c' l' ↔ HoldsChain (create_joystick host s p) c' l')) ∧
      Inv s1 ∧ DevicesOK host s1 ∧ s1.nametable = s.nametable ∧
      s1.bindings.length = s.bindings.length ∧ s1.joycount = s.joycount := by
  obtain ⟨l, s1, h1, h2, h3, h4, h5, h6, h7, h8, h9⟩ :=
    add_cell_spec (hinv.after_create host p).1 (hdev.create_shape p) hr target ht
      SDLK_UNKNOWN
  have hf : (create_joystick host s p).nametable = s.nametable ∧
      (create_joystick host s p).bindings = s.bindings ∧
      (create_joystick host s p).joycount = s.joycount := by
    rcases create_joystick_cases host s p with h | ⟨x, caps, _, _, _, h⟩ <;> rw [h] <;>
      exact ⟨rfl, rfl, rfl⟩
  exact ⟨l, s1, h1, h2.status0, h3, h4, h5, h6, h7.trans hf.1, by rw [h8, hf.2.1],
    h9.trans hf.2.2⟩




theorem fails_iff {F : Nat → Res (Store × Int)} {Bad : Prop}
    (hbad : Bad → ∃ s1, Returns F (s1, -1)) (hgood : ¬Bad → ∃ s1, Returns F (s1, 0)) :
    (∃ s1, Returns F (s1, -1)) ↔ Bad := by
  constructor
  · intro ⟨s1, h1⟩
    by_contra hb
    obtain ⟨s2, h2⟩ := hgood hb
    have := h1.unique_result h2
    simp at this
  · exact hbad

theorem mem_added {l : List (Nat × Int)} {x : Nat × Int} :
    x ∈ (if x ∈ l then l else l ++ [x]) := by
  by_cases h : x ∈ l
  · rw [if_pos h]; exact h
  · rw [if_neg h]; simp

theorem axis_binding_validation {host : Host} {s : Store} (hinv : Inv s)
    (hdev : DevicesOK host s) (port a pol : Int) (target : Nat) (ht : target ≠ 0)
    (caps : DeviceCaps)
    (hcaps : 0 ≤ port → port < s.joycount → host.joystickOpen port.toNat = some caps) :
    ((∃ s1, Returns (fun fuel => VControl_AddJoyAxisBinding host fuel s port a pol target)
        (s1, -1)) ↔
      (¬(0 ≤ port ∧ port < s.joycount) ∨ ¬(0 ≤ a ∧ a < caps.axes) ∨ pol = 0)) ∧
    (¬(¬(0 ≤ port ∧ port < s.joycount) ∨ ¬(0 ≤ a ∧ a < caps.axes) ∨ pol = 0) →
      ∃ s1 l, Returns (fun fuel => VControl_AddJoyAxisBinding host fuel s port a pol target)
          (s1, 0) ∧
        HoldsChain s1 (.axis port.toNat a.toNat (decide (0 < pol))) l ∧
        (target, SDLK_UNKNOWN) ∈ l) := by
  have hgood : ¬(¬(0 ≤ port ∧ port < s.joycount) ∨ ¬(0 ≤ a ∧ a < caps.axes) ∨ pol = 0) →
      ∃ s1 l, Returns (fun fuel => VControl_AddJoyAxisBinding host fuel s port a pol target)
          (s1, 0) ∧
        HoldsChain s1 (.axis port.toNat a.toNat (decide (0 < pol))) l ∧
        (target, SDLK_UNKNOWN) ∈ l := by
    intro hnb
    simp only [not_or, not_not] at hnb
    obtain ⟨⟨h0, hp⟩, ha, hpol⟩ := hnb
    have hc := hcaps h0 hp
    obtain ⟨j, _, hj, _, _, hlen, _⟩ := open_port_spec hdev h0 hp hc
    obtain ⟨head, hr⟩ := (readCell_device hj).1 a.toNat (decide (0 < pol))
      (by rw [hlen]; omega)
    obtain ⟨l, s1, _, h2, h3, _⟩ := add_joy_cell_spec hinv hdev port.toNat hr target ht
    refine ⟨s1, _, ?_, h3, mem_added⟩
    have e : (fun fuel => VControl_AddJoyAxisBinding host fuel s port a pol target) =
        fun fuel => status0 (add_at fuel (create_joystick host s port.toNat)
          (.axis port.toNat a.toNat (decide (0 < pol))) target SDLK_UNKNOWN) := by
      funext fuel
      rw [AddJoyAxisBinding_eq hdev h0 hp hc, if_pos ha]
      by_cases h1 : pol < 0
      · have : ¬ 0 < pol := by omega
        simp [h1, this]
      · have : 0 < pol := by omega
        simp [h1, this]
    rw [e]; exact h2
  refine ⟨fails_iff ?_ (fun hnb => ?_), hgood⟩
  · intro hbad
    by_cases hport : 0 ≤ port ∧ port < s.joycount
    · have hc := hcaps hport.1 hport.2
      refine ⟨create_joystick host s port.toNat, 0, fun fuel _ => ?_⟩
      beta_reduce
      rw [AddJoyAxisBinding_eq hdev hport.1 hport.2 hc]
      rcases hbad with h | h | h
      · exact absurd hport h
      · rw [if_neg h]
      · subst h; simp
    · exact ⟨s, 0, fun fuel _ => by simp only [VControl_AddJoyAxisBinding, hport, if_false]⟩
  · obtain ⟨s1, l, h, _⟩ := hgood hnb
    exact ⟨s1, h⟩

theorem button_binding_validation {host : Host} {s : Store} (hinv : Inv s)
    (hdev : DevicesOK host s) (port b : Int) (target : Nat) (ht : target ≠ 0)
    (caps : DeviceCaps)
    (hcaps : 0 ≤ port → port < s.joycount → host.joystickOpen port.toNat = some caps) :
    ((∃ s1, Returns (fun fuel => VControl_AddJoyButtonBinding host fuel s port b target)
        (s1, -1)) ↔
      (¬(0 ≤ port ∧ port < s.joycount) ∨ ¬(0 ≤ b ∧ b < caps.buttons))) ∧
    (¬(¬(0 ≤ port ∧ port < s.joycount) ∨ ¬(0 ≤ b ∧ b < caps.buttons)) →
      ∃ s1 l, Returns (fun fuel => VControl_AddJoyButtonBinding host fuel s port b target)
          (s1, 0) ∧
        HoldsChain s1 (.button port.toNat b.toNat) l ∧ (target, SDLK_UNKNOWN) ∈ l) := by
  have hgood : ¬(¬(0 ≤ port ∧ port < s.joycount) ∨ ¬(0 ≤ b ∧ b < caps.buttons)) →
      ∃ s1 l, Returns (fun fuel => VControl_AddJoyButtonBinding host fuel s port b target)
          (s1, 0) ∧
        HoldsChain s1 (.button port.toNat b.toNat) l ∧ (target, SDLK_UNKNOWN) ∈ l := by
    intro hnb
    simp only [not_or, not_not] at hnb
    obtain ⟨⟨h0, hp⟩, hb⟩ := hnb
    have hc := hcaps h0 hp
    obtain ⟨j, _, hj, _, _, _, _, hlen, _⟩ := open_port_spec hdev h0 hp hc
    obtain ⟨head, hr⟩ := (readCell_device hj).2.1 b.toNat (by rw [hlen]; omega)
    obtain ⟨l, s1, _, h2, h3, _⟩ := add_joy_cell_spec hinv hdev port.toNat hr target ht
    refine ⟨s1, _, ?_, h3, mem_added⟩
    have e : (fun fuel => VControl_AddJoyButtonBinding host fuel s port b target) =
        fun fuel => status0 (add_at fuel (create_joystick host s port.toNat)
          (.button port.toNat b.toNat) target SDLK_UNKNOWN) := by
      funext fuel
      rw [AddJoyButtonBinding_eq hdev h0 hp hc, if_pos hb]
    rw [e]; exact h2
  refine ⟨fails_iff ?_ (fun hnb => ?_), hgood⟩
  · intro hbad
    by_cases hport : 0 ≤ port ∧ port < s.joycount
    · have hc := hcaps hport.1 hport.2
      refine ⟨create_joystick host s port.toNat, 0, fun fuel _ => ?_⟩
      beta_reduce
      rw [AddJoyButtonBinding_eq hdev hport.1 hport.2 hc]
      rcases hbad with h | h
      · exact absurd hport h
      · rw [if_neg h]
    · exact ⟨s, 0, fun fuel _ => by simp only [VControl_AddJoyButtonBinding, hport, if_false]⟩
  · obtain ⟨s1, l, h, _⟩ := hgood hnb
    exact ⟨s1, h⟩

theorem hat_binding_validation {host : Host} {s : Store} (hinv : Inv s)
    (hdev : DevicesOK host s) (port which : Int) (dir target : Nat) (ht : target ≠ 0)
    (caps : DeviceCaps)
    (hcaps : 0 ≤ port → port < s.joycount → host.joystickOpen port.toNat = some caps) :
    ((∃ s1, Returns (fun fuel => VControl_AddJoyHatBinding host fuel s port which dir target)
        (s1, -1)) ↔
      (¬(0 ≤ port ∧ port < s.joycount) ∨ ¬(0 ≤ which ∧ which < caps.hats) ∨
        hatDirOf dir = none)) ∧
    (∀ d, 0 ≤ port ∧ port < s.joycount → 0 ≤ which ∧ which < caps.hats → hatDirOf dir = some d →
      ∃ s1 l, Returns (fun fuel => VControl_AddJoyHatBinding host fuel s port which dir target)
          (s1, 0) ∧
        HoldsChain s1 (.hat port.toNat which.toNat d) l ∧ (target, SDLK_UNKNOWN) ∈ l) := by
  have hgood : ∀ d, 0 ≤ port ∧ port < s.joycount → 0 ≤ which ∧ which < caps.hats →
      hatDirOf dir = some d →
      ∃ s1 l, Returns (fun fuel => VControl_AddJoyHatBinding host fuel s port which dir target)
          (s1, 0) ∧
        HoldsChain s1 (.hat port.toNat which.toNat d) l ∧ (target, SDLK_UNKNOWN) ∈ l := by
    intro d ⟨h0, hp⟩ hw hd
    have hc := hcaps h0 hp
    obtain ⟨j, _, hj, _, _, _, _, _, _, hlen⟩ := open_port_spec hdev h0 hp hc
    obtain ⟨head, hr⟩ := (readCell_device hj).2.2 which.toNat d (by rw [hlen]; omega)
    obtain ⟨l, s1, _, h2, h3, _⟩ := add_joy_cell_spec hinv hdev port.toNat hr target ht
    refine ⟨s1, _, ?_, h3, mem_added⟩
    have e : (fun fuel => VControl_AddJoyHatBinding host fuel s port which dir target) =
        fun fuel => status0 (add_at fuel (create_joystick host s port.toNat)
          (.hat port.toNat which.toNat d) target SDLK_UNKNOWN) := by
      funext fuel
      rw [AddJoyHatBinding_eq hdev h0 hp hc, if_pos hw, hd]
    rw [e]; exact h2
  refine ⟨fails_iff ?_ (fun hnb => ?_), hgood⟩
  · intro hbad
    by_cases hport : 0 ≤ port ∧ port < s.joycount
    · have hc := hcaps hport.1 hport.2
      refine ⟨create_joystick host s port.toNat, 0, fun fuel _ => ?_⟩
      beta_reduce
      rw [AddJoyHatBinding_eq hdev hport.1 hport.2 hc]
      rcases hbad with h | h | h
      · exact absurd hport h
      · rw [if_neg h]
      · rw [h]; simp
    · exact ⟨s, 0, fun fuel _ => by simp only [VControl_AddJoyHatBinding, hport, if_false]⟩
  · simp only [not_or, not_not] at hnb
    obtain ⟨hport, hw, hd⟩ := hnb
    obtain ⟨d, hd'⟩ := Option.ne_none_iff_exists'.mp hd
    obtain ⟨s1, l, h, _⟩ := hgood d hport hw hd'
    exact ⟨s1, h⟩




theorem hatDirOf_eq_none (dir : Nat) :
    hatDirOf dir = none ↔
      (dir ≠ SDL_HAT_LEFT ∧ dir ≠ SDL_HAT_RIGHT ∧ dir ≠ SDL_HAT_UP ∧ dir ≠ SDL_HAT_DOWN) := by
  unfold hatDirOf
  by_cases h1 : dir = SDL_HAT_LEFT
  · simp [h1]
  · by_cases h2 : dir = SDL_HAT_RIGHT
    · rw [if_neg h1, if_pos h2]; simp [h2]
    · by_cases h3 : dir = SDL_HAT_UP
      · rw [if_neg h1, if_neg h2, if_pos h3]; simp [h3]
      · by_cases h4 : dir = SDL_HAT_DOWN
        · rw [if_neg h1, if_neg h2, if_neg h3, if_pos h4]; simp [h4]
        · simp [h1, h2, h3, h4]

/-- C13: validation of joystick bindings.  In a store that satisfies the
invariant, with device records as `key_init` and `create_joystick` leave them,
a non-`NULL` target, and a port whose device, when the port is in range,
reports the counts `caps` (it is open with them or the host opens it with
them): `VControl_AddJoyAxisBinding` returns -1 exactly when the port is
outside `0..joycount-1`, or the axis is outside `0..caps.axes-1`, or the
polarity is 0; `VControl_AddJoyButtonBinding` returns -1 exactly when the port
or the button index is out of range; `VControl_AddJoyHatBinding` returns -1
exactly when the port or the hat index is out of range or the direction is
none of left, right, up, down; otherwise each returns 0 and the pair of the
target is in the chain it addresses. -/
theorem joystick_binding_validation (host : Host) (s : Store) (hinv : Inv s)
    (hdev : DevicesOK host s) (port index polarity : Int) (dir target : Nat) (ht : target ≠ 0)
    (caps : DeviceCaps)
    (hcaps : 0 ≤ port → port < s.joycount → host.joystickOpen port.toNat = some caps) :
    ((∃ s1, Returns (fun fuel =>
          VControl_AddJoyAxisBinding host fuel s port index polarity target) (s1, -1)) ↔
      (¬(0 ≤ port ∧ port < s.joycount) ∨ ¬(0 ≤ index ∧ index < caps.axes) ∨ polarity = 0)) ∧
    (¬(¬(0 ≤ port ∧ port < s.joycount) ∨ ¬(0 ≤ index ∧ index < caps.axes) ∨ polarity = 0) →
      ∃ s1 l, Returns (fun fuel =>
          VControl_AddJoyAxisBinding host fuel s port index polarity target) (s1, 0) ∧
        HoldsChain s1 (.axis port.toNat index.toNat (decide (0 < polarity))) l ∧
        (target, SDLK_UNKNOWN) ∈ l) ∧
    ((∃ s1, Returns (fun fuel =>
          VControl_AddJoyButtonBinding host fuel s port index target) (s1, -1)) ↔
      (¬(0 ≤ port ∧ port < s.joycount) ∨ ¬(0 ≤ index ∧ index < caps.buttons))) ∧
    (¬(¬(0 ≤ port ∧ port < s.joycount) ∨ ¬(0 ≤ index ∧ index < caps.buttons)) →
      ∃ s1 l, Returns (fun fuel =>
          VControl_AddJoyButtonBinding host fuel s port index target) (s1, 0) ∧
        HoldsChain s1 (.button port.toNat index.toNat) l ∧ (target, SDLK_UNKNOWN) ∈ l) ∧
    ((∃ s1, Returns (fun fuel =>
          VControl_AddJoyHatBinding host fuel s port index dir target) (s1, -1)) ↔
      (¬(0 ≤ port ∧ port < s.joycount) ∨ ¬(0 ≤ index ∧ index < caps.hats) ∨
        (dir ≠ SDL_HAT_LEFT ∧ dir ≠ SDL_HAT_RIGHT ∧ dir ≠ SDL_HAT_UP ∧ dir ≠ SDL_HAT_DOWN))) ∧
    (∀ d, 0 ≤ port ∧ port < s.joycount → 0 ≤ index ∧ index < caps.hats → dir = dirBit d →
      ∃ s1 l, Returns (fun fuel =>
          VControl_AddJoyHatBinding host fuel s port index dir target) (s1, 0) ∧
        HoldsChain s1 (.hat port.toNat index.toNat d) l ∧ (target, SDLK_UNKNOWN) ∈ l) := by
  have hA := axis_binding_validation hinv hdev port index polarity target ht caps hcaps
  have hB := button_binding_validation hinv hdev port index target ht caps hcaps
  have hH := hat_binding_validation hinv hdev port index dir target ht caps hcaps
  refine ⟨hA.1, hA.2, hB.1, hB.2, ?_, ?_⟩
  · rw [← hatDirOf_eq_none]; exact hH.1
  · intro d hp hi hd
    refine hH.2 d hp hi ?_
    subst hd
    cases d <;> rfl




/-- C13 at the store of `VControl_Init` for the host `padHost` (two axes, two
buttons, one hat), port 0, index 1, polarity -1, direction down. -/
theorem joystick_binding_validation_witness :
    ((∃ s1, Returns (fun fuel =>
          VControl_AddJoyAxisBinding padHost fuel (VControl_Init padHost) 0 1 (-1) 100)
          (s1, -1)) ↔
      (¬((0 : Int) ≤ 0 ∧ (0 : Int) < (VControl_Init padHost).joycount) ∨
        ¬((0 : Int) ≤ 1 ∧ (1 : Int) < ((2 : Nat) : Int)) ∨ (-1 : Int) = 0)) ∧
    (¬(¬((0 : Int) ≤ 0 ∧ (0 : Int) < (VControl_Init padHost).joycount) ∨
        ¬((0 : Int) ≤ 1 ∧ (1 : Int) < ((2 : Nat) : Int)) ∨ (-1 : Int) = 0) →
      ∃ s1 l, Returns (fun fuel =>
          VControl_AddJoyAxisBinding padHost fuel (VControl_Init padHost) 0 1 (-1) 100)
          (s1, 0) ∧
        HoldsChain s1 (.axis (0 : Int).toNat (1 : Int).toNat (decide ((0 : Int) < -1))) l ∧
        (100, SDLK_UNKNOWN) ∈ l) ∧
    ((∃ s1, Returns (fun fuel =>
          VControl_AddJoyButtonBinding padHost fuel (VControl_Init padHost) 0 1 100)
          (s1, -1)) ↔
      (¬((0 : Int) ≤ 0 ∧ (0 : Int) < (VControl_Init padHost).joycount) ∨
        ¬((0 : Int) ≤ 1 ∧ (1 : Int) < ((2 : Nat) : Int)))) ∧
    (¬(¬((0 : Int) ≤ 0 ∧ (0 : Int) < (VControl_Init padHost).joycount) ∨
        ¬((0 : Int) ≤ 1 ∧ (1 : Int) < ((2 : Nat) : Int))) →
      ∃ s1 l, Returns (fun fuel =>
          VControl_AddJoyButtonBinding padHost fuel (VControl_Init padHost) 0 1 100)
          (s1, 0) ∧
        HoldsChain s1 (.button (0 : Int).toNat (1 : Int).toNat) l ∧
        (100, SDLK_UNKNOWN) ∈ l) ∧
    ((∃ s1, Returns (fun fuel =>
          VControl_AddJoyHatBinding padHost fuel (VControl_Init padHost) 0 1 4 100)
          (s1, -1)) ↔
      (¬((0 : Int) ≤ 0 ∧ (0 : Int) < (VControl_Init padHost).joycount) ∨
        ¬((0 : Int) ≤ 1 ∧ (1 : Int) < ((1 : Nat) : Int)) ∨
        (4 ≠ SDL_HAT_LEFT ∧ 4 ≠ SDL_HAT_RIGHT ∧ 4 ≠ SDL_HAT_UP ∧ 4 ≠ SDL_HAT_DOWN))) ∧
    (∀ d, (0 : Int) ≤ 0 ∧ (0 : Int) < (VControl_Init padHost).joycount →
      (0 : Int) ≤ 1 ∧ (1 : Int) < ((1 : Nat) : Int) → 4 = dirBit d →
      ∃ s1 l, Returns (fun fuel =>
          VControl_AddJoyHatBinding padHost fuel (VControl_Init padHost) 0 1 4 100)
          (s1, 0) ∧
        HoldsChain s1 (.hat (0 : Int).toNat (1 : Int).toNat d) l ∧
        (100, SDLK_UNKNOWN) ∈ l) :=
  joystick_binding_validation padHost (VControl_Init padHost) (VControl_Init_inv padHost)
    (key_init_devices padHost none) 0 1 (-1) 4 100 (by decide)
    { axes := 2, buttons := 2, hats := 1 } (fun _ _ => rfl)

/-! ## Tokens separated by runs of blanks -/

theorem isspace_ne_nul {c : Char} (h : isspace c = true) : c ≠ NUL := by
  intro e; subst e; revert h; decide

theorem skip_space_blank {sp : List Char} (hsp : IsBlank sp) (r : List Char) :
    skip_space (sp ++ r) = skip_space r := by
  induction sp with
  | nil => rfl
  | cons c cs ih =>
    have hc := hsp c (List.mem_cons_self _ _)
    simp only [List.cons_append, skip_space, isspace_ne_nul hc, hc, ne_eq, not_false_eq_true,
      and_self, if_true]
    exact ih (fun c' hc' => hsp c' (List.mem_cons_of_mem _ hc'))

theorem skip_space_blank_end {sp : List Char} (hsp : IsBlank sp) : skip_space sp = [] := by
  have := skip_space_blank hsp []
  simpa [skip_space] using this

/-- What follows a token on a line of separated tokens and trailing blanks
is empty or starts with a blank. -/
theorem joined_head {r : List (List Char × List Char)} {tail : List Char}
    (hr : ∀ y ∈ r, y.1 ≠ [] ∧ IsBlank y.1 ∧ IsWord y.2) (ht : IsBlank tail) :
    joined r ++ tail = [] ∨
      ∃ c r', joined r ++ tail = c :: r' ∧ (c = NUL ∨ isspace c = true) := by
  cases r with
  | nil =>
    cases tail with
    | nil => exact Or.inl rfl
    | cons c cs => exact Or.inr ⟨c, cs, rfl, Or.inr (ht c (List.mem_cons_self _ _))⟩
  | cons y r =>
    obtain ⟨hne, hb, _⟩ := hr y (List.mem_cons_self _ _)
    cases hy : y.1 with
    | nil => exact absurd hy hne
    | cons c cs =>
      refine Or.inr ⟨c, cs ++ (y.2 ++ joined r) ++ tail, ?_, Or.inr (hb c ?_)⟩
      · simp [joined, hy]
      · rw [hy]; exact List.mem_cons_self _ _

theorem next_token_scan (line : List Char) (linenum : Nat) {tail : List Char}
    (ht : IsBlank tail) (x : List Char × List Char) {r : List (List Char × List Char)}
    (hr : ∀ y ∈ r, y.1 ≠ [] ∧ IsBlank y.1 ∧ IsWord y.2) :
    next_token (scanState line linenum tail (x :: r)) = scanState line linenum tail r := by
  cases r with
  | nil =>
    simp only [scanState, next_token, joined, List.nil_append, skip_space_blank_end ht]
    rfl
  | cons y r =>
    obtain ⟨_, hb, hw⟩ := hr y (List.mem_cons_self _ _)
    have hr' : ∀ z ∈ r, z.1 ≠ [] ∧ IsBlank z.1 ∧ IsWord z.2 :=
      fun z hz => hr z (List.mem_cons_of_mem _ hz)
    have h1 : skip_space (joined (y :: r) ++ tail) = y.2 ++ (joined r ++ tail) := by
      simp only [joined, List.append_assoc]
      rw [skip_space_blank hb, skip_space_word hw]
    simp only [scanState, next_token, h1]
    rw [copy_word_append y.2 hw.2.2 _ (joined_head hr' ht) _ hw.2.1,
      skip_word_append y.2 hw.2.2 _ (joined_head hr' ht)]

/-- The first call of `next_token` on a line of separated tokens. -/
theorem next_token_start (line0 : List Char) (linenum : Nat) {tail : List Char}
    (ht : IsBlank tail) {x : List Char × List Char} {r : List (List Char × List Char)}
    (hs : Separated (x :: r)) (token : List Char) :
    next_token { line := line0, token := token, rest := joined (x :: r) ++ tail,
                 error := false, linenum := linenum } =
      scanState line0 linenum tail (x :: r) := by
  obtain ⟨hb, hw, hr⟩ := hs
  have h1 : skip_space (joined (x :: r) ++ tail) = x.2 ++ (joined r ++ tail) := by
    simp only [joined, List.append_assoc]
    rw [skip_space_blank hb, skip_space_word hw]
  simp only [scanState, next_token, h1]
  rw [copy_word_append x.2 hw.2.2 _ (joined_head hr ht) _ hw.2.1,
    skip_word_append x.2 hw.2.2 _ (joined_head hr ht)]

theorem scanState_error (line : List Char) (linenum : Nat) (tail : List Char)
    (ts : List (List Char × List Char)) : (scanState line linenum tail ts).error = false := by
  cases ts <;> rfl




/-! ## The consuming functions on a line of separated tokens -/

theorem strtol_num {w : List Char} {v : Int} (h : IsNum w v) :
    strtol w = (v, []) ∧ toInt32 v = v := by
  obtain ⟨h2, h3, hv, hlt⟩ := h
  obtain ⟨c0, cs, hds⟩ : ∃ c0 cs, w = c0 :: cs := by
    cases w with
    | nil => exact absurd rfl h2
    | cons c0 cs => exact ⟨c0, cs, rfl⟩
  obtain ⟨d0, hd0⟩ := h3 c0 (by rw [hds]; exact List.mem_cons_self _ _)
  have hs0 := digitChar_spec d0
  rw [← hd0] at hs0
  obtain ⟨htw, hdw⟩ := digits_takeWhile h3
  have hsp : ¬ isspace c0 = true := by simp [hs0.2.2.2.1]
  have hm : ¬ (some c0 = some '-' ∨ some c0 = some '+') := by
    simp only [Option.some.injEq, not_or]
    exact ⟨hs0.2.2.2.2.2.1, hs0.2.2.2.2.2.2⟩
  have hm1 : ¬ (some c0 = some '-') := fun h => hm (Or.inl h)
  have hp1 : ¬ (some c0 = some '+') := fun h => hm (Or.inr h)
  have h0 : (0 : Int) ≤ v := by rw [hv]; exact Int.ofNat_nonneg _
  refine ⟨?_, toInt32_of_int32 ⟨by omega, hlt⟩⟩
  rw [hds]
  simp only [strtol, List.dropWhile_cons_of_neg hsp, List.head?_cons, hm, hm1, if_false]
  rw [← hds]
  simp only [false_or, hp1, if_false, htw, hdw, h2, ← hv, Prod.mk.injEq, and_true]
  rw [min_eq_right (by omega), max_eq_right (by omega)]

theorem strcaseeq_comm (a b : List Char) : strcaseeq a b = strcaseeq b a := by
  unfold strcaseeq
  by_cases h : a.map Char.toLower = b.map Char.toLower
  · simp [h]
  · have h' : ¬ b.map Char.toLower = a.map Char.toLower := fun e => h e.symm
    simp [h, h']

theorem strcaseeq_congr {a b : List Char} (h : strcaseeq a b = true) (c : List Char) :
    strcaseeq a c = strcaseeq b c := by
  unfold strcaseeq at h ⊢
  simp only [decide_eq_true_eq] at h
  rw [h]

theorem consume_scan (line : List Char) (linenum : Nat) {tail : List Char} (ht : IsBlank tail)
    (kw : List Char) (x : List Char × List Char) {r : List (List Char × List Char)}
    (hr : ∀ y ∈ r, y.1 ≠ [] ∧ IsBlank y.1 ∧ IsWord y.2) (hkw : strcaseeq x.2 kw = true) :
    consume (scanState line linenum tail (x :: r)) kw = scanState line linenum tail r := by
  have h : (scanState line linenum tail (x :: r)).token = x.2 := rfl
  rw [strcaseeq_comm] at hkw
  simp only [consume, h, hkw, if_true]
  exact next_token_scan line linenum ht x hr

theorem consume_num_scan (line : List Char) (linenum : Nat) {tail : List Char}
    (ht : IsBlank tail) (x : List Char × List Char) {r : List (List Char × List Char)}
    (hr : ∀ y ∈ r, y.1 ≠ [] ∧ IsBlank y.1 ∧ IsWord y.2) {v : Int}
    (hv : strtol x.2 = (v, []) ∧ toInt32 v = v) :
    consume_num (scanState line linenum tail (x :: r)) = (scanState line linenum tail r, v) := by
  have h : (scanState line linenum tail (x :: r)).token = x.2 := rfl
  simp only [consume_num, h, hv.1, hv.2, ne_eq, not_true_eq_false, if_false]
  rw [next_token_scan line linenum ht x hr]

theorem consume_keyname_scan (keys : KeyNames) (line : List Char) (linenum : Nat)
    {tail : List Char} (ht : IsBlank tail) (x : List Char × List Char)
    {r : List (List Char × List Char)}
    (hr : ∀ y ∈ r, y.1 ≠ [] ∧ IsBlank y.1 ∧ IsWord y.2) (hk : keys.name2code x.2 ≠ 0) :
    consume_keyname keys (scanState line linenum tail (x :: r)) =
      (scanState line linenum tail r, keys.name2code x.2) := by
  have h : (scanState line linenum tail (x :: r)).token = x.2 := rfl
  simp only [consume_keyname, h, hk, if_false]
  rw [next_token_scan line linenum ht x hr]

theorem consume_idname_scan {s : Store} {table : List VControl_NameBinding}
    (hn : s.nametable = some table) (line : List Char) (linenum : Nat) {tail : List Char}
    (ht : IsBlank tail) (sp nm : List Char) {r : List (List Char × List Char)}
    (hr : ∀ y ∈ r, y.1 ≠ [] ∧ IsBlank y.1 ∧ IsWord y.2)
    (hnm : name2target_loop table nm ≠ 0) :
    consume_idname s (scanState line linenum tail ((sp, nm ++ [':']) :: r)) =
      .ok (scanState line linenum tail r, name2target_loop table nm) := by
  have hl : (nm ++ [':']).getLast? = some ':' := by simp
  have h : (scanState line linenum tail ((sp, nm ++ [':']) :: r)).token = nm ++ [':'] := rfl
  have h2 : next_token { scanState line linenum tail ((sp, nm ++ [':']) :: r) with
      token := nm } = scanState line linenum tail r :=
    next_token_scan line linenum ht (sp, nm) hr
  simp only [consume_idname, h, hl, ne_eq, not_true_eq_false, if_false, List.dropLast_concat,
    name2target, hn, Res.bind, h2, hnm]

theorem consume_polarity_scan (line : List Char) (linenum : Nat) {tail : List Char}
    (ht : IsBlank tail) (x : List Char × List Char) {r : List (List Char × List Char)}
    (hr : ∀ y ∈ r, y.1 ≠ [] ∧ IsBlank y.1 ∧ IsWord y.2) {pol : Int}
    (hp : strcaseeq x.2 "positive".toList = true ∧ pol = 1 ∨
      strcaseeq x.2 "negative".toList = true ∧ pol = -1) :
    consume_polarity (scanState line linenum tail (x :: r)) =
      (scanState line linenum tail r, pol) := by
  have h : (scanState line linenum tail (x :: r)).token = x.2 := rfl
  have hn := next_token_scan line linenum ht x hr
  rcases hp with ⟨hk, rfl⟩ | ⟨hk, rfl⟩
  · simp only [consume_polarity, h, hk, if_true, hn]
  · have hk2 : strcaseeq x.2 "positive".toList = false := by
      rw [strcaseeq_congr hk]; decide
    simp only [consume_polarity, h, hk, hk2, if_true, hn, Bool.false_eq_true, if_false]

theorem consume_dir_scan (line : List Char) (linenum : Nat) {tail : List Char}
    (ht : IsBlank tail) (x : List Char × List Char) {r : List (List Char × List Char)}
    (hr : ∀ y ∈ r, y.1 ≠ [] ∧ IsBlank y.1 ∧ IsWord y.2) {d : HatDir}
    (hp : strcaseeq x.2 "left".toList = true ∧ d = .left ∨
        strcaseeq x.2 "right".toList = true ∧ d = .right ∨
        strcaseeq x.2 "up".toList = true ∧ d = .up ∨
        strcaseeq x.2 "down".toList = true ∧ d = .down) :
    consume_dir (scanState line linenum tail (x :: r)) =
      (scanState line linenum tail r, dirBit d) := by
  have h : (scanState line linenum tail (x :: r)).token = x.2 := rfl
  have hn := next_token_scan line linenum ht x hr
  rcases hp with ⟨hk, rfl⟩ | ⟨hk, rfl⟩ | ⟨hk, rfl⟩ | ⟨hk, rfl⟩
  · simp only [consume_dir, h, hk, if_true, hn, dirBit]
  · have hk1 : strcaseeq x.2 "left".toList = false := by rw [strcaseeq_congr hk]; decide
    simp only [consume_dir, h, hk, hk1, if_true, hn, Bool.false_eq_true, if_false, dirBit]
  · have hk1 : strcaseeq x.2 "left".toList = false := by rw [strcaseeq_congr hk]; decide
    have hk2 : strcaseeq x.2 "right".toList = false := by rw [strcaseeq_congr hk]; decide
    simp only [consume_dir, h, hk, hk1, hk2, if_true, hn, Bool.false_eq_true, if_false, dirBit]
  · have hk1 : strcaseeq x.2 "left".toList = false := by rw [strcaseeq_congr hk]; decide
    have hk2 : strcaseeq x.2 "right".toList = false := by rw [strcaseeq_congr hk]; decide
    have hk3 : strcaseeq x.2 "up".toList = false := by rw [strcaseeq_congr hk]; decide
    simp only [consume_dir, h, hk, hk1, hk2, hk3, if_true, hn, Bool.false_eq_true, if_false,
      dirBit]




/-! ## Parsing a sentence of the grammar -/

theorem idname_not_joystick (nm : List Char) :
    strcaseeq (nm ++ [':']) "joystick".toList = false := by
  rw [strcaseeq_comm]
  exact strcaseeq_snoc_colon nm _ (by decide) (by decide)

theorem Separated.tail_sep {x : List Char × List Char} {r : List (List Char × List Char)}
    (h : Separated (x :: r)) : ∀ y ∈ r, y.1 ≠ [] ∧ IsBlank y.1 ∧ IsWord y.2 :=
  h.2.2

theorem sep_tail {y : List Char × List Char} {r : List (List Char × List Char)}
    (h : ∀ z ∈ y :: r, z.1 ≠ [] ∧ IsBlank z.1 ∧ IsWord z.2) :
    ∀ z ∈ r, z.1 ≠ [] ∧ IsBlank z.1 ∧ IsWord z.2 :=
  fun z hz => h z (List.mem_cons_of_mem _ hz)

theorem joystick_not_key {kw : List Char} (h : strcaseeq kw "joystick".toList = true) :
    strcaseeq kw "key".toList = false := by
  rw [strcaseeq_congr h]; decide

theorem button_not_axis {kw : List Char} (h : strcaseeq kw "button".toList = true) :
    strcaseeq kw "axis".toList = false := by
  rw [strcaseeq_congr h]; decide

theorem hat_not_axis {kw : List Char} (h : strcaseeq kw "hat".toList = true) :
    strcaseeq kw "axis".toList = false ∧ strcaseeq kw "button".toList = false := by
  rw [strcaseeq_congr h, strcaseeq_congr h]; decide

theorem not_true_of_false {b : Bool} (h : b = false) : ¬ b = true := by
  rw [h]; exact Bool.false_ne_true

/-- The path of `parse_config_line` for a line that is not blank and does not
start with `joystick`. -/
theorem parse_config_line_binding (host : Host) (keys : KeyNames) (fuel : Nat)
    (st0 : parse_state) (s : Store) {st : parse_state}
    (h0 : next_token { st0 with error := false } = st) (h1 : st.token ≠ [])
    (h2 : strcaseeq st.token "joystick".toList = false) :
    parse_config_line host keys fuel st0 s = parse_binding host keys fuel st s := by
  subst h0
  unfold parse_config_line
  exact (if_neg h1).trans (if_neg (not_true_of_false h2))

/-- The path of `parse_binding` for a resolved name followed by `key`. -/
theorem parse_binding_key (host : Host) (keys : KeyNames) (fuel : Nat) (st : parse_state)
    (s : Store) {st1 st3 : parse_state} {target : Nat} {code : Int}
    (h0 : consume_idname s st = .ok (st1, target)) (h1 : st1.error = false)
    (h2 : strcaseeq st1.token "key".toList = true)
    (h4 : consume_keyname keys (consume st1 "key".toList) = (st3, code))
    (h5 : st3.error = false) :
    parse_binding host keys fuel st s =
      after_call st3 (VControl_AddKeyBinding fuel s code target) := by
  have e3 : (consume_keyname keys (consume st1 "key".toList)).1 = st3 := congrArg Prod.fst h4
  have e4 : (consume_keyname keys (consume st1 "key".toList)).2 = code := congrArg Prod.snd h4
  subst e3 e4
  unfold parse_binding
  rw [h0]
  exact (if_neg (not_true_of_false h1)).trans
    ((if_pos h2).trans (if_neg (not_true_of_false h5)))

/-- The path of `parse_binding` for a resolved name followed by `joystick`. -/
theorem parse_binding_joy (host : Host) (keys : KeyNames) (fuel : Nat) (st : parse_state)
    (s : Store) {st1 : parse_state} {target : Nat}
    (h0 : consume_idname s st = .ok (st1, target)) (h1 : st1.error = false)
    (h2 : strcaseeq st1.token "joystick".toList = true) :
    parse_binding host keys fuel st s = parse_joybinding host fuel st1 s target := by
  unfold parse_binding
  rw [h0]
  exact (if_neg (not_true_of_false h1)).trans
    ((if_neg (not_true_of_false (joystick_not_key h2))).trans (if_pos h2))

theorem parse_joybinding_axis (host : Host) (fuel : Nat) (st : parse_state) (s : Store)
    (target : Nat) {st2 st4 st5 : parse_state} {p a pol : Int}
    (h1 : consume_num (consume st "joystick".toList) = (st2, p))
    (h2 : st2.error = false) (h3 : strcaseeq st2.token "axis".toList = true)
    (h5 : consume_num (consume st2 "axis".toList) = (st4, a))
    (h6 : st4.error = false) (h7 : consume_polarity st4 = (st5, pol))
    (h8 : st5.error = false) :
    parse_joybinding host fuel st s target =
      after_call st5 (VControl_AddJoyAxisBinding host fuel s p a pol target) := by
  have e1 : (consume_num (consume st "joystick".toList)).1 = st2 := congrArg Prod.fst h1
  have e2 : (consume_num (consume st "joystick".toList)).2 = p := congrArg Prod.snd h1
  subst e1 e2
  have e3 : (consume_num (consume (consume_num (consume st "joystick".toList)).1
      "axis".toList)).1 = st4 := congrArg Prod.fst h5
  have e4 : (consume_num (consume (consume_num (consume st "joystick".toList)).1
      "axis".toList)).2 = a := congrArg Prod.snd h5
  subst e3 e4
  have e5 : (consume_polarity (consume_num (consume (consume_num
      (consume st "joystick".toList)).1 "axis".toList)).1).1 = st5 := congrArg Prod.fst h7
  have e6 : (consume_polarity (consume_num (consume (consume_num
      (consume st "joystick".toList)).1 "axis".toList)).1).2 = pol := congrArg Prod.snd h7
  subst e5 e6
  unfold parse_joybinding
  exact (if_neg (not_true_of_false h2)).trans
    ((if_pos h3).trans ((if_neg (not_true_of_false h6)).trans
      (if_neg (not_true_of_false h8))))

theorem parse_joybinding_button (host : Host) (fuel : Nat) (st : parse_state) (s : Store)
    (target : Nat) {st2 st4 : parse_state} {p b : Int}
    (h1 : consume_num (consume st "joystick".toList) = (st2, p))
    (h2 : st2.error = false) (h3 : strcaseeq st2.token "button".toList = true)
    (h5 : consume_num (consume st2 "button".toList) = (st4, b))
    (h6 : st4.error = false) :
    parse_joybinding host fuel st s target =
      after_call st4 (VControl_AddJoyButtonBinding host fuel s p b target) := by
  have e1 : (consume_num (consume st "joystick".toList)).1 = st2 := congrArg Prod.fst h1
  have e2 : (consume_num (consume st "joystick".toList)).2 = p := congrArg Prod.snd h1
  subst e1 e2
  have e3 : (consume_num (consume (consume_num (consume st "joystick".toList)).1
      "button".toList)).1 = st4 := congrArg Prod.fst h5
  have e4 : (consume_num (consume (consume_num (consume st "joystick".toList)).1
      "button".toList)).2 = b := congrArg Prod.snd h5
  subst e3 e4
  unfold parse_joybinding
  exact (if_neg (not_true_of_false h2)).trans
    ((if_neg (not_true_of_false (button_not_axis h3))).trans
      ((if_pos h3).trans (if_neg (not_true_of_false h6))))

theorem parse_joybinding_hat (host : Host) (fuel : Nat) (st : parse_state) (s : Store)
    (target : Nat) {st2 st4 st5 : parse_state} {p h : Int} {dir : Nat}
    (h1 : consume_num (consume st "joystick".toList) = (st2, p))
    (h2 : st2.error = false) (h3 : strcaseeq st2.token "hat".toList = true)
    (h5 : consume_num (consume st2 "hat".toList) = (st4, h))
    (h6 : st4.error = false) (h7 : consume_dir st4 = (st5, dir))
    (h8 : st5.error = false) :
    parse_joybinding host fuel st s target =
      after_call st5 (VControl_AddJoyHatBinding host fuel s p h dir target) := by
  have e1 : (consume_num (consume st "joystick".toList)).1 = st2 := congrArg Prod.fst h1
  have e2 : (consume_num (consume st "joystick".toList)).2 = p := congrArg Prod.snd h1
  subst e1 e2
  have e3 : (consume_num (consume (consume_num (consume st "joystick".toList)).1
      "hat".toList)).1 = st4 := congrArg Prod.fst h5
  have e4 : (consume_num (consume (consume_num (consume st "joystick".toList)).1
      "hat".toList)).2 = h := congrArg Prod.snd h5
  subst e3 e4
  have e5 : (consume_dir (consume_num (consume (consume_num
      (consume st "joystick".toList)).1 "hat".toList)).1).1 = st5 := congrArg Prod.fst h7
  have e6 : (consume_dir (consume_num (consume (consume_num
      (consume st "joystick".toList)).1 "hat".toList)).1).2 = dir := congrArg Prod.snd h7
  subst e5 e6
  unfold parse_joybinding
  exact (if_neg (not_true_of_false h2)).trans
    ((if_neg (not_true_of_false (hat_not_axis h3).1)).trans
      ((if_neg (not_true_of_false (hat_not_axis h3).2)).trans
        ((if_pos h3).trans ((if_neg (not_true_of_false h6)).trans
          (if_neg (not_true_of_false h8))))))

theorem parse_config_line_threshold (host : Host) (keys : KeyNames) (fuel : Nat)
    (st0 : parse_state) (s : Store) {st st2 st4 : parse_state} {p t : Int}
    (h0 : next_token { st0 with error := false } = st) (h1 : st.token ≠ [])
    (h2 : strcaseeq st.token "joystick".toList = true)
    (h4 : consume_num (consume st "joystick".toList) = (st2, p))
    (h5 : st2.error = false)
    (h7 : (consume st2 "threshold".toList).error = false)
    (h8 : consume_num (consume st2 "threshold".toList) = (st4, t)) (h9 : st4.error = false) :
    parse_config_line host keys fuel st0 s = after_call st4 (VControl_SetJoyThreshold s p t) := by
  subst h0
  have e1 : (consume_num (consume (next_token { st0 with error := false })
      "joystick".toList)).1 = st2 := congrArg Prod.fst h4
  have e2 : (consume_num (consume (next_token { st0 with error := false })
      "joystick".toList)).2 = p := congrArg Prod.snd h4
  subst e1 e2
  unfold parse_config_line
  refine (if_neg h1).trans ((if_pos h2).trans ?_)
  simp only []
  rw [if_neg (not_true_of_false h5), if_neg (not_true_of_false h7), h8]
  exact if_neg (not_true_of_false h9)




theorem parse_key_line (host : Host) (keys : KeyNames) {table : List VControl_NameBinding}
    {s : Store} (hn : s.nametable = some table) {sp0 sp1 sp2 nm kw kn tail : List Char}
    (hsep : Separated [(sp0, nm ++ [':']), (sp1, kw), (sp2, kn)]) (ht : IsBlank tail)
    (hnm : name2target_loop table nm ≠ 0) (hkw : strcaseeq kw "key".toList = true)
    (hkn : keys.name2code kn ≠ 0) (line0 token : List Char) (e : Bool) (linenum fuel : Nat) :
    parse_config_line host keys fuel
        { line := line0, token := token,
          rest := joined [(sp0, nm ++ [':']), (sp1, kw), (sp2, kn)] ++ tail, error := e,
          linenum := linenum } s =
      after_call (scanState line0 linenum tail [])
        (VControl_AddKeyBinding fuel s (keys.name2code kn) (name2target_loop table nm)) := by
  have h1 := hsep.tail_sep
  have h2 := sep_tail h1
  have h3 := sep_tail h2
  refine (parse_config_line_binding host keys fuel _ s
    (next_token_start line0 linenum ht hsep token) (by simp [scanState])
    (idname_not_joystick nm)).trans ?_
  exact parse_binding_key host keys fuel _ s
    (consume_idname_scan hn line0 linenum ht sp0 nm h1 hnm) rfl hkw
    ((congrArg (consume_keyname keys)
      (consume_scan line0 linenum ht "key".toList (sp1, kw) h2 hkw)).trans
      (consume_keyname_scan keys line0 linenum ht (sp2, kn) h3 hkn)) rfl

theorem parse_joy_head (host : Host) (keys : KeyNames) {table : List VControl_NameBinding}
    {s : Store} (hn : s.nametable = some table)
    {sp0 sp1 nm kwj tail : List Char} {r : List (List Char × List Char)}
    (hsep : Separated ((sp0, nm ++ [':']) :: (sp1, kwj) :: r)) (ht : IsBlank tail)
    (hnm : name2target_loop table nm ≠ 0) (hkj : strcaseeq kwj "joystick".toList = true)
    (line0 token : List Char) (e : Bool) (linenum fuel : Nat) :
    parse_config_line host keys fuel
        { line := line0, token := token,
          rest := joined ((sp0, nm ++ [':']) :: (sp1, kwj) :: r) ++ tail,
          error := e, linenum := linenum } s =
      parse_joybinding host fuel (scanState line0 linenum tail ((sp1, kwj) :: r)) s
        (name2target_loop table nm) := by
  have h1 := hsep.tail_sep
  refine (parse_config_line_binding host keys fuel _ s
    (next_token_start line0 linenum ht hsep token) (by simp [scanState])
    (idname_not_joystick nm)).trans ?_
  exact parse_binding_joy host keys fuel _ s
    (consume_idname_scan hn line0 linenum ht sp0 nm h1 hnm) rfl hkj

theorem parse_axis_line (host : Host) (keys : KeyNames) {table : List VControl_NameBinding}
    {s : Store} (hn : s.nametable = some table)
    {sp0 sp1 sp2 sp3 sp4 sp5 nm kwj np kwa na kwp tail : List Char} {p a pol : Int}
    (hsep : Separated [(sp0, nm ++ [':']), (sp1, kwj), (sp2, np), (sp3, kwa), (sp4, na),
      (sp5, kwp)]) (ht : IsBlank tail)
    (hnm : name2target_loop table nm ≠ 0) (hkj : strcaseeq kwj "joystick".toList = true)
    (hp : IsNum np p) (hka : strcaseeq kwa "axis".toList = true) (ha : IsNum na a)
    (hpol : strcaseeq kwp "positive".toList = true ∧ pol = 1 ∨
      strcaseeq kwp "negative".toList = true ∧ pol = -1)
    (line0 token : List Char) (e : Bool) (linenum fuel : Nat) :
    parse_config_line host keys fuel
        { line := line0, token := token,
          rest := joined [(sp0, nm ++ [':']), (sp1, kwj), (sp2, np), (sp3, kwa), (sp4, na),
            (sp5, kwp)] ++ tail, error := e, linenum := linenum } s =
      after_call (scanState line0 linenum tail [])
        (VControl_AddJoyAxisBinding host fuel s p a pol (name2target_loop table nm)) := by
  have h1 := hsep.tail_sep
  have h2 := sep_tail h1
  have h3 := sep_tail h2
  have h4 := sep_tail h3
  have h5 := sep_tail h4
  have h6 := sep_tail h5
  refine (parse_joy_head host keys hn hsep ht hnm hkj line0 token e linenum fuel).trans ?_
  exact parse_joybinding_axis host fuel _ s _
    ((congrArg consume_num
      (consume_scan line0 linenum ht "joystick".toList (sp1, kwj) h2 hkj)).trans
      (consume_num_scan line0 linenum ht (sp2, np) h3 (strtol_num hp))) rfl hka
    ((congrArg consume_num
      (consume_scan line0 linenum ht "axis".toList (sp3, kwa) h4 hka)).trans
      (consume_num_scan line0 linenum ht (sp4, na) h5 (strtol_num ha))) rfl
    (consume_polarity_scan line0 linenum ht (sp5, kwp) h6 hpol) rfl

theorem parse_button_line (host : Host) (keys : KeyNames) {table : List VControl_NameBinding}
    {s : Store} (hn : s.nametable = some table)
    {sp0 sp1 sp2 sp3 sp4 nm kwj np kwb nb tail : List Char} {p b : Int}
    (hsep : Separated [(sp0, nm ++ [':']), (sp1, kwj), (sp2, np), (sp3, kwb), (sp4, nb)])
    (ht : IsBlank tail)
    (hnm : name2target_loop table nm ≠ 0) (hkj : strcaseeq kwj "joystick".toList = true)
    (hp : IsNum np p) (hkb : strcaseeq kwb "button".toList = true) (hb : IsNum nb b)
    (line0 token : List Char) (e : Bool) (linenum fuel : Nat) :
    parse_config_line host keys fuel
        { line := line0, token := token,
          rest := joined [(sp0, nm ++ [':']), (sp1, kwj), (sp2, np), (sp3, kwb), (sp4, nb)]
            ++ tail, error := e, linenum := linenum } s =
      after_call (scanState line0 linenum tail [])
        (VControl_AddJoyButtonBinding host fuel s p b (name2target_loop table nm)) := by
  have h1 := hsep.tail_sep
  have h2 := sep_tail h1
  have h3 := sep_tail h2
  have h4 := sep_tail h3
  have h5 := sep_tail h4
  refine (parse_joy_head host keys hn hsep ht hnm hkj line0 token e linenum fuel).trans ?_
  exact parse_joybinding_button host fuel _ s _
    ((congrArg consume_num
      (consume_scan line0 linenum ht "joystick".toList (sp1, kwj) h2 hkj)).trans
      (consume_num_scan line0 linenum ht (sp2, np) h3 (strtol_num hp))) rfl hkb
    ((congrArg consume_num
      (consume_scan line0 linenum ht "button".toList (sp3, kwb) h4 hkb)).trans
      (consume_num_scan line0 linenum ht (sp4, nb) h5 (strtol_num hb))) rfl

theorem parse_hat_line (host : Host) (keys : KeyNames) {table : List VControl_NameBinding}
    {s : Store} (hn : s.nametable = some table)
    {sp0 sp1 sp2 sp3 sp4 sp5 nm kwj np kwh nh kwd tail : List Char} {p h : Int} {d : HatDir}
    (hsep : Separated [(sp0, nm ++ [':']), (sp1, kwj), (sp2, np), (sp3, kwh), (sp4, nh),
      (sp5, kwd)]) (ht : IsBlank tail)
    (hnm : name2target_loop table nm ≠ 0) (hkj : strcaseeq kwj "joystick".toList = true)
    (hp : IsNum np p) (hkh : strcaseeq kwh "hat".toList = true) (hh : IsNum nh h)
    (hd : strcaseeq kwd "left".toList = true ∧ d = .left ∨
        strcaseeq kwd "right".toList = true ∧ d = .right ∨
        strcaseeq kwd "up".toList = true ∧ d = .up ∨
        strcaseeq kwd "down".toList = true ∧ d = .down)
    (line0 token : List Char) (e : Bool) (linenum fuel : Nat) :
    parse_config_line host keys fuel
        { line := line0, token := token,
          rest := joined [(sp0, nm ++ [':']), (sp1, kwj), (sp2, np), (sp3, kwh), (sp4, nh),
            (sp5, kwd)] ++ tail, error := e, linenum := linenum } s =
      after_call (scanState line0 linenum tail [])
        (VControl_AddJoyHatBinding host fuel s p h (dirBit d) (name2target_loop table nm)) := by
  have h1 := hsep.tail_sep
  have h2 := sep_tail h1
  have h3 := sep_tail h2
  have h4 := sep_tail h3
  have h5 := sep_tail h4
  have h6 := sep_tail h5
  refine (parse_joy_head host keys hn hsep ht hnm hkj line0 token e linenum fuel).trans ?_
  exact parse_joybinding_hat host fuel _ s _
    ((congrArg consume_num
      (consume_scan line0 linenum ht "joystick".toList (sp1, kwj) h2 hkj)).trans
      (consume_num_scan line0 linenum ht (sp2, np) h3 (strtol_num hp))) rfl hkh
    ((congrArg consume_num
      (consume_scan line0 linenum ht "hat".toList (sp3, kwh) h4 hkh)).trans
      (consume_num_scan line0 linenum ht (sp4, nh) h5 (strtol_num hh))) rfl
    (consume_dir_scan line0 linenum ht (sp5, kwd) h6 hd) rfl

/-- A threshold line whose second number is a NUM or what `%d` writes. -/
theorem parse_threshold_line (host : Host) (keys : KeyNames) (s : Store)
    {sp0 sp1 sp2 sp3 kwj np kwt nt tail : List Char} {p t : Int}
    (hsep : Separated [(sp0, kwj), (sp1, np), (sp2, kwt), (sp3, nt)]) (ht : IsBlank tail)
    (hkj : strcaseeq kwj "joystick".toList = true)
    (hp : IsNum np p) (hkt : strcaseeq kwt "threshold".toList = true)
    (hnt : strtol nt = (t, []) ∧ toInt32 t = t)
    (line0 token : List Char) (e : Bool) (linenum fuel : Nat) :
    parse_config_line host keys fuel
        { line := line0, token := token,
          rest := joined [(sp0, kwj), (sp1, np), (sp2, kwt), (sp3, nt)] ++ tail, error := e,
          linenum := linenum } s =
      after_call (scanState line0 linenum tail []) (VControl_SetJoyThreshold s p t) := by
  have h1 := hsep.tail_sep
  have h2 := sep_tail h1
  have h3 := sep_tail h2
  have h4 := sep_tail h3
  have c3 := consume_scan line0 linenum ht "threshold".toList (sp2, kwt) h3 hkt
  exact parse_config_line_threshold host keys fuel _ s
    (next_token_start line0 linenum ht hsep token) hsep.2.1.1 hkj
    ((congrArg consume_num
      (consume_scan line0 linenum ht "joystick".toList (sp0, kwj) h1 hkj)).trans
      (consume_num_scan line0 linenum ht (sp1, np) h2 (strtol_num hp))) rfl
    (by rw [c3]; rfl)
    ((congrArg consume_num c3).trans (consume_num_scan line0 linenum ht (sp3, nt) h4 hnt)) rfl

/-! ## The bindings of a store under the calls of the Binding Store -/

/-- Two stores with the same pool in which every cell reads the same hold the
same chains. -/
theorem HoldsChain.congr_store {s s1 : Store} (hp : s1.pool = s.pool)
    (hr : ∀ c, readCell s1 c = readCell s c) (c : Cell) (l : List (Nat × Int)) :
    HoldsChain s1 c l ↔ HoldsChain s c l := by
  unfold HoldsChain
  rw [hp, hr]

theorem Inv.of_same_cells {s s1 : Store} (hinv : Inv s) (hp : s1.pool = s.pool)
    (hr : ∀ c, readCell s1 c = readCell s c) : Inv s1 := by
  refine ⟨by rw [hp]; exact hinv.pool, ?_, ?_, ?_⟩
  · intro c head h
    rw [hr] at h
    rw [hp]
    exact hinv.chains c head h
  · intro c1 c2 h1 h2 ps1 ps2 hne hr1 hr2 hc1 hc2
    rw [hr] at hr1 hr2
    rw [hp] at hc1 hc2
    exact hinv.disjoint c1 c2 h1 h2 ps1 ps2 hne hr1 hr2 hc1 hc2
  · intro c l hl
    exact hinv.unique c l ((HoldsChain.congr_store hp hr c l).mp hl)

/-- In a store with device records of the right shape, a cell that can be
read reads the same after a device is opened. -/
theorem readCell_create {host : Host} {s : Store} (hdev : DevicesOK host s) (p : Nat)
    {c : Cell} {head : Option Ptr} (h : readCell s c = .ok head) :
    readCell (create_joystick host s p) c = .ok head := by
  rcases create_joystick_cases host s p with e | ⟨x, caps, hx, hxs, _, e⟩
  · rw [e]; exact h
  · rw [e]
    obtain ⟨_, _, hax, hbu, hha⟩ := (hdev.2 p x hx).1 hxs
    cases c with
    | bucket i => exact h
    | axis port a positive =>
      simp only [readCell, joysticks_set_getElem? _ _ _ _ _ hx] at h ⊢
      by_cases hp : port = p
      · subst hp
        rw [hx] at h
        simp [hax] at h
      · simp only [hp, if_false]; exact h
    | button port b =>
      simp only [readCell, joysticks_set_getElem? _ _ _ _ _ hx] at h ⊢
      by_cases hp : port = p
      · subst hp
        rw [hx] at h
        simp [hbu, Res.ofOption] at h
      · simp only [hp, if_false]; exact h
    | hat port k d =>
      simp only [readCell, joysticks_set_getElem? _ _ _ _ _ hx] at h ⊢
      by_cases hp : port = p
      · subst hp
        rw [hx] at h
        simp [hha] at h
      · simp only [hp, if_false]; exact h

theorem create_joystick_pool (host : Host) (s : Store) (p : Nat) :
    (create_joystick host s p).pool = s.pool ∧
      (create_joystick host s p).nametable = s.nametable ∧
      (create_joystick host s p).bindings = s.bindings ∧
      (create_joystick host s p).joycount = s.joycount := by
  rcases create_joystick_cases host s p with h | ⟨x, caps, _, _, _, h⟩ <;> rw [h] <;>
    exact ⟨rfl, rfl, rfl, rfl⟩

/-- Opening a device adds and removes no binding. -/
theorem Bound.create_iff {host : Host} {s : Store} (hinv : Inv s) (hdev : DevicesOK host s)
    (p : Nat) (c : Cell) (t : Nat) (k : Int) :
    Bound (create_joystick host s p) c t k ↔ Bound s c t k := by
  constructor
  · intro ⟨l, hl, hm⟩
    rcases (hinv.after_create host p).2 c l hl with h0 | h1
    · subst h0; cases hm
    · exact ⟨l, h1, hm⟩
  · intro ⟨l, ⟨head, hr, hl⟩, hm⟩
    exact ⟨l, ⟨head, readCell_create hdev p hr,
      by rw [(create_joystick_pool host s p).1]; exact hl⟩, hm⟩

theorem Good.create {host : Host} {table : List VControl_NameBinding} {s : Store}
    (hg : Good host table s) (p : Nat) : Good host table (create_joystick host s p) := by
  have hf := create_joystick_pool host s p
  exact ⟨(hg.inv.after_create host p).1, hg.devices.create_shape p, hf.2.1.trans hg.names,
    by rw [hf.2.2.1]; exact hg.buckets, hf.2.2.2.trans hg.count⟩

/-- The bindings after `add_binding` has run on a cell. -/
theorem Bound.added {s s1 : Store} {c0 : Cell} {l : List (Nat × Int)} {t0 : Nat} {k0 : Int}
    (h0 : HoldsChain s c0 l)
    (h1 : HoldsChain s1 c0 (if (t0, k0) ∈ l then l else l ++ [(t0, k0)]))
    (h2 : ∀ c' l', c' ≠ c0 → (HoldsChain s1 c' l' ↔ HoldsChain s c' l'))
    (c : Cell) (t : Nat) (k : Int) :
    Bound s1 c t k ↔ Bound s c t k ∨ (c = c0 ∧ t = t0 ∧ k = k0) := by
  by_cases hc : c = c0
  · subst hc
    constructor
    · intro ⟨l1, hl1, hm⟩
      have e := hl1.unique_pairs h1
      subst e
      by_cases hmem : (t0, k0) ∈ l
      · rw [if_pos hmem] at hm
        exact Or.inl ⟨l, h0, hm⟩
      · rw [if_neg hmem] at hm
        rcases List.mem_append.mp hm with h | h
        · exact Or.inl ⟨l, h0, h⟩
        · simp only [List.mem_singleton, Prod.mk.injEq] at h
          exact Or.inr ⟨rfl, h.1, h.2⟩
    · intro h
      refine ⟨_, h1, ?_⟩
      rcases h with ⟨l', hl', hm⟩ | ⟨_, rfl, rfl⟩
      · have e := hl'.unique_pairs h0
        subst e
        by_cases hmem : (t0, k0) ∈ l'
        · rw [if_pos hmem]; exact hm
        · rw [if_neg hmem]; exact List.mem_append_left _ hm
      · exact mem_added
  · constructor
    · intro ⟨l1, hl1, hm⟩
      exact Or.inl ⟨l1, (h2 c l1 hc).mp hl1, hm⟩
    · intro h
      rcases h with ⟨l', hl', hm⟩ | ⟨e, _, _⟩
      · exact ⟨l', (h2 c l' hc).mpr hl', hm⟩
      · exact absurd e hc




theorem AddKeyBinding_eq {symbol : Int} (h0 : 0 ≤ bucketIndex symbol) (fuel : Nat) (s : Store)
    (target : Nat) :
    VControl_AddKeyBinding fuel s symbol target =
      status0 (add_at fuel s (.bucket (bucketIndex symbol).toNat) target symbol) := by
  unfold VControl_AddKeyBinding
  rw [if_neg (not_lt.mpr h0)]
  cases add_at fuel s (.bucket (bucketIndex symbol).toNat) target symbol <;> rfl

/-- A binding call that reaches `add_binding` on a cell of the store it has
opened the device in: it returns 0 and adds the binding to the store. -/
theorem joy_add_runs {host : Host} {table : List VControl_NameBinding} {s : Store}
    (hg : Good host table s) (p : Nat) {c : Cell} {head : Option Ptr}
    (hr : readCell (create_joystick host s p) c = .ok head) (target : Nat) (ht : target ≠ 0) :
    ∃ s1, Returns (fun fuel =>
        status0 (add_at fuel (create_joystick host s p) c target SDLK_UNKNOWN)) (s1, 0) ∧
      Good host table s1 ∧
      ∀ c' t' k', Bound s1 c' t' k' ↔
        Bound s c' t' k' ∨ (c' = c ∧ t' = target ∧ k' = SDLK_UNKNOWN) := by
  obtain ⟨l, s1, h1, h2, h3, h4, h5, h6, h7, h8, h9⟩ :=
    add_joy_cell_spec hg.inv hg.devices p hr target ht
  refine ⟨s1, h2, ⟨h5, h6, h7.trans hg.names, h8.trans hg.buckets, h9.trans hg.count⟩, ?_⟩
  intro c' t' k'
  rw [Bound.added h1 h3 h4, Bound.create_iff hg.inv hg.devices]

theorem key_add_runs {host : Host} {table : List VControl_NameBinding} {s : Store}
    (hg : Good host table s) (code : Int) (h0 : 0 ≤ bucketIndex code) (target : Nat)
    (ht : target ≠ 0) :
    ∃ s1, Returns (fun fuel => VControl_AddKeyBinding fuel s code target) (s1, 0) ∧
      Good host table s1 ∧
      ∀ c' t' k', Bound s1 c' t' k' ↔
        Bound s c' t' k' ∨
          (c' = .bucket (bucketIndex code).toNat ∧ t' = target ∧ k' = code) := by
  have hlt : (bucketIndex code).toNat < s.bindings.length := by
    rw [hg.buckets]; exact bucket_toNat_lt h0
  have hr : readCell s (.bucket (bucketIndex code).toNat) =
      .ok s.bindings[(bucketIndex code).toNat] := by
    simp [readCell, List.getElem?_eq_getElem hlt, Res.ofOption]
  obtain ⟨l, s1, h1, h2, h3, h4, h5, h6, h7, h8, h9⟩ :=
    add_cell_spec hg.inv hg.devices hr target ht code
  refine ⟨s1, ?_, ⟨h5, h6, h7.trans hg.names, h8.trans hg.buckets, h9.trans hg.count⟩,
    Bound.added h1 h3 h4⟩
  have e : (fun fuel => VControl_AddKeyBinding fuel s code target) =
      fun fuel => status0 (add_at fuel s (.bucket (bucketIndex code).toNat) target code) := by
    funext fuel; exact AddKeyBinding_eq h0 fuel s target
  rw [e]; exact h2.status0

theorem Good.threshold {host : Host} {table : List VControl_NameBinding} {s : Store}
    (hg : Good host table s) {p : Nat} {j : joystick} (hj : s.joysticks[p]? = some j)
    (t : Int) :
    Good host table { s with joysticks := s.joysticks.set p { j with threshold := t } } ∧
      ∀ c, readCell { s with joysticks := s.joysticks.set p { j with threshold := t } } c =
        readCell s c := by
  have hr : ∀ c, readCell { s with joysticks := s.joysticks.set p { j with threshold := t } } c =
      readCell s c := by
    intro c
    cases c with
    | bucket i => rfl
    | axis port a positive =>
      simp only [readCell, joysticks_set_getElem? _ _ _ _ _ hj]
      by_cases hp : port = p
      · subst hp; simp [hj]
      · simp [hp]
    | button port b =>
      simp only [readCell, joysticks_set_getElem? _ _ _ _ _ hj]
      by_cases hp : port = p
      · subst hp; simp [hj]
      · simp [hp]
    | hat port k d =>
      simp only [readCell, joysticks_set_getElem? _ _ _ _ _ hj]
      by_cases hp : port = p
      · subst hp; simp [hj]
      · simp [hp]
  refine ⟨⟨hg.inv.of_same_cells (by rfl) hr, ?_, hg.names, hg.buckets, hg.count⟩, hr⟩
  refine ⟨by simpa using hg.devices.1, fun q j' hj' => ?_⟩
  simp only [joysticks_set_getElem? _ _ _ _ _ hj] at hj'
  by_cases hq : q = p
  · subst hq
    simp only [if_true, Option.some.injEq] at hj'
    subst hj'
    exact hg.devices.2 q j hj
  · simp only [hq, if_false] at hj'
    exact hg.devices.2 q j' hj'




theorem hatDirOf_dirBit (d : HatDir) : hatDirOf (dirBit d) = some d := by
  cases d <;> rfl

theorem hatDirOf_some {dir : Nat} {d : HatDir} (h : hatDirOf dir = some d) : dir = dirBit d := by
  unfold hatDirOf at h
  by_cases h1 : dir = SDL_HAT_LEFT
  · rw [if_pos h1] at h; cases h; exact h1
  · rw [if_neg h1] at h
    by_cases h2 : dir = SDL_HAT_RIGHT
    · rw [if_pos h2] at h; cases h; exact h2
    · rw [if_neg h2] at h
      by_cases h3 : dir = SDL_HAT_UP
      · rw [if_pos h3] at h; cases h; exact h3
      · rw [if_neg h3] at h
        by_cases h4 : dir = SDL_HAT_DOWN
        · rw [if_pos h4] at h; cases h; exact h4
        · rw [if_neg h4] at h; cases h


theorem failed_run {host : Host} {table : List VControl_NameBinding} {s s1 : Store}
    {cmd : Command} (hg1 : Good host table s1)
    (hret : ∀ fuel, cmd.run host fuel s = .ok (s1, -1))
    (hb : ∀ c t k, Bound s1 c t k ↔ Bound s c t k) (hin : ¬ cmd.InRange host) :
    RunsTo host table s cmd s1 (-1) :=
  ⟨⟨0, fun fuel _ => hret fuel⟩, hg1, Or.inr rfl, fun h => absurd h hin, fun _ => hb,
    fun h => by simp at h⟩

theorem axis_runs {host : Host} {table : List VControl_NameBinding} {s : Store}
    {port : Int}
    (hh : port.toNat < host.numJoysticks → ∃ caps, host.joystickOpen port.toNat = some caps)
    (hg : Good host table s) (target : Nat) (a pol : Int)
    (ht : target ≠ 0) : ∃ s1 r, RunsTo host table s (.axis target port a pol) s1 r := by
  by_cases hport : 0 ≤ port ∧ port < s.joycount
  · obtain ⟨h0, hp⟩ := hport
    obtain ⟨caps, hc⟩ := hh (by have := hg.count; omega)
    have heq := fun fuel => AddJoyAxisBinding_eq hg.devices h0 hp hc a pol target fuel
    by_cases hv : (0 ≤ a ∧ a < caps.axes) ∧ pol ≠ 0
    · obtain ⟨ha, hpol⟩ := hv
      obtain ⟨j, _, hj, _, _, hlen, _⟩ := open_port_spec hg.devices h0 hp hc
      obtain ⟨head, hr⟩ := (readCell_device hj).1 a.toNat (decide (0 < pol))
        (by rw [hlen]; omega)
      obtain ⟨s1, h1, h2, h3⟩ := joy_add_runs hg port.toNat hr target ht
      refine ⟨s1, 0, ?_, h2, Or.inl rfl, fun _ => rfl, fun h => by simp at h, fun _ => ?_⟩
      · have e : (fun fuel => (Command.axis target port a pol).run host fuel s) =
            fun fuel => status0 (add_at fuel (create_joystick host s port.toNat)
              (.axis port.toNat a.toNat (decide (0 < pol))) target SDLK_UNKNOWN) := by
          funext fuel
          show VControl_AddJoyAxisBinding host fuel s port a pol target = _
          rw [heq, if_pos ha]
          by_cases h1 : pol < 0
          · have : ¬ 0 < pol := by omega
            simp [h1, this]
          · have : 0 < pol := by omega
            simp [h1, this]
        rw [e]; exact h1
      · intro c t k
        rw [h3]
        simp only [Command.binds]
    · refine ⟨create_joystick host s port.toNat, -1,
        failed_run (hg.create port.toNat) (fun fuel => ?_)
          (Bound.create_iff hg.inv hg.devices port.toNat) ?_⟩
      · show VControl_AddJoyAxisBinding host fuel s port a pol target = _
        rw [heq]
        by_cases ha : 0 ≤ a ∧ a < caps.axes
        · rw [if_pos ha]
          have hpol : pol = 0 := by
            by_contra hne; exact hv ⟨ha, hne⟩
          subst hpol; simp
        · rw [if_neg ha]
      · intro ⟨_, _, hpol, caps', hc', ha⟩
        rw [hc] at hc'; cases hc'
        exact hv ⟨ha, hpol⟩
  · refine ⟨s, -1, failed_run hg (fun fuel => ?_) (fun _ _ _ => Iff.rfl) ?_⟩
    · show VControl_AddJoyAxisBinding host fuel s port a pol target = _
      simp only [VControl_AddJoyAxisBinding, hport, if_false]
    · intro ⟨h0, hp, _⟩
      exact hport ⟨h0, by rw [hg.count]; exact hp⟩




theorem button_runs {host : Host} {table : List VControl_NameBinding} {s : Store}
    {port : Int}
    (hh : port.toNat < host.numJoysticks → ∃ caps, host.joystickOpen port.toNat = some caps)
    (hg : Good host table s) (target : Nat) (b : Int)
    (ht : target ≠ 0) : ∃ s1 r, RunsTo host table s (.button target port b) s1 r := by
  by_cases hport : 0 ≤ port ∧ port < s.joycount
  · obtain ⟨h0, hp⟩ := hport
    obtain ⟨caps, hc⟩ := hh (by have := hg.count; omega)
    have heq := fun fuel => AddJoyButtonBinding_eq hg.devices h0 hp hc b target fuel
    by_cases hb : 0 ≤ b ∧ b < caps.buttons
    · obtain ⟨j, _, hj, _, _, _, _, hlen, _⟩ := open_port_spec hg.devices h0 hp hc
      obtain ⟨head, hr⟩ := (readCell_device hj).2.1 b.toNat (by rw [hlen]; omega)
      obtain ⟨s1, h1, h2, h3⟩ := joy_add_runs hg port.toNat hr target ht
      refine ⟨s1, 0, ?_, h2, Or.inl rfl, fun _ => rfl, fun h => by simp at h, fun _ => ?_⟩
      · have e : (fun fuel => (Command.button target port b).run host fuel s) =
            fun fuel => status0 (add_at fuel (create_joystick host s port.toNat)
              (.button port.toNat b.toNat) target SDLK_UNKNOWN) := by
          funext fuel
          show VControl_AddJoyButtonBinding host fuel s port b target = _
          rw [heq, if_pos hb]
        rw [e]; exact h1
      · intro c t k
        rw [h3]
        simp only [Command.binds]
    · refine ⟨create_joystick host s port.toNat, -1,
        failed_run (hg.create port.toNat) (fun fuel => ?_)
          (Bound.create_iff hg.inv hg.devices port.toNat) ?_⟩
      · show VControl_AddJoyButtonBinding host fuel s port b target = _
        rw [heq, if_neg hb]
      · intro ⟨_, _, caps', hc', hb'⟩
        rw [hc] at hc'; cases hc'
        exact hb hb'
  · refine ⟨s, -1, failed_run hg (fun fuel => ?_) (fun _ _ _ => Iff.rfl) ?_⟩
    · show VControl_AddJoyButtonBinding host fuel s port b target = _
      simp only [VControl_AddJoyButtonBinding, hport, if_false]
    · intro ⟨h0, hp, _⟩
      exact hport ⟨h0, by rw [hg.count]; exact hp⟩

theorem hat_runs {host : Host} {table : List VControl_NameBinding} {s : Store}
    {port : Int}
    (hh : port.toNat < host.numJoysticks → ∃ caps, host.joystickOpen port.toNat = some caps)
    (hg : Good host table s) (target : Nat) (h : Int) (dir : Nat)
    (ht : target ≠ 0) : ∃ s1 r, RunsTo host table s (.hat target port h dir) s1 r := by
  by_cases hport : 0 ≤ port ∧ port < s.joycount
  · obtain ⟨h0, hp⟩ := hport
    obtain ⟨caps, hc⟩ := hh (by have := hg.count; omega)
    have heq := fun fuel => AddJoyHatBinding_eq hg.devices h0 hp hc h dir target fuel
    by_cases hv : (0 ≤ h ∧ h < caps.hats) ∧ ∃ d, hatDirOf dir = some d
    · obtain ⟨hw, d, hd⟩ := hv
      obtain ⟨j, _, hj, _, _, _, _, _, _, hlen⟩ := open_port_spec hg.devices h0 hp hc
      obtain ⟨head, hr⟩ := (readCell_device hj).2.2 h.toNat d (by rw [hlen]; omega)
      obtain ⟨s1, h1, h2, h3⟩ := joy_add_runs hg port.toNat hr target ht
      refine ⟨s1, 0, ?_, h2, Or.inl rfl, fun _ => rfl, fun h => by simp at h, fun _ => ?_⟩
      · have e : (fun fuel => (Command.hat target port h dir).run host fuel s) =
            fun fuel => status0 (add_at fuel (create_joystick host s port.toNat)
              (.hat port.toNat h.toNat d) target SDLK_UNKNOWN) := by
          funext fuel
          show VControl_AddJoyHatBinding host fuel s port h dir target = _
          rw [heq, if_pos hw, hd]
        rw [e]; exact h1
      · intro c t k
        rw [h3]
        simp only [Command.binds]
        have hdd := hatDirOf_some hd
        constructor
        · rintro (hb | ⟨rfl, rfl, rfl⟩)
          · exact Or.inl hb
          · exact Or.inr ⟨⟨d, hdd, rfl⟩, rfl, rfl⟩
        · rintro (hb | ⟨⟨d', hd', rfl⟩, rfl, rfl⟩)
          · exact Or.inl hb
          · have : d' = d := by
              have := hatDirOf_dirBit d'
              rw [← hd', hd] at this
              cases this; rfl
            subst this
            exact Or.inr ⟨rfl, rfl, rfl⟩
    · refine ⟨create_joystick host s port.toNat, -1,
        failed_run (hg.create port.toNat) (fun fuel => ?_)
          (Bound.create_iff hg.inv hg.devices port.toNat) ?_⟩
      · show VControl_AddJoyHatBinding host fuel s port h dir target = _
        rw [heq]
        by_cases hw : 0 ≤ h ∧ h < caps.hats
        · rw [if_pos hw]
          cases hd : hatDirOf dir with
          | none => rfl
          | some d => exact absurd ⟨hw, d, hd⟩ hv
        · rw [if_neg hw]
      · intro ⟨_, _, ⟨d, hd⟩, caps', hc', hw⟩
        rw [hc] at hc'; cases hc'
        exact hv ⟨hw, d, by rw [hd]; exact hatDirOf_dirBit d⟩
  · refine ⟨s, -1, failed_run hg (fun fuel => ?_) (fun _ _ _ => Iff.rfl) ?_⟩
    · show VControl_AddJoyHatBinding host fuel s port h dir target = _
      simp only [VControl_AddJoyHatBinding, hport, if_false]
    · intro ⟨h0, hp, _⟩
      exact hport ⟨h0, by rw [hg.count]; exact hp⟩

theorem threshold_runs {host : Host} {table : List VControl_NameBinding} {s : Store}
    (hg : Good host table s) (port t : Int) :
    ∃ s1 r, RunsTo host table s (.threshold port t) s1 r := by
  by_cases hport : 0 ≤ port ∧ port < s.joycount
  · have hlt : port.toNat < s.joysticks.length := by
      have := hg.devices.1; omega
    have hj : s.joysticks[port.toNat]? = some s.joysticks[port.toNat] :=
      List.getElem?_eq_getElem hlt
    obtain ⟨hg1, hr⟩ := hg.threshold hj t
    refine ⟨_, 0, ⟨0, fun fuel _ => ?_⟩, hg1, Or.inl rfl, fun _ => rfl,
      fun h => by simp at h, fun _ c t' k => ?_⟩
    · show VControl_SetJoyThreshold s port t = _
      simp only [VControl_SetJoyThreshold, hport, and_self, if_true, hj]
    · simp only [Command.binds, or_false]
      unfold Bound
      constructor
      · intro ⟨l, hl, hm⟩
        exact ⟨l, (HoldsChain.congr_store (by rfl) hr c l).mp hl, hm⟩
      · intro ⟨l, hl, hm⟩
        exact ⟨l, (HoldsChain.congr_store (by rfl) hr c l).mpr hl, hm⟩
  · refine ⟨s, -1, failed_run hg (fun fuel => ?_) (fun _ _ _ => Iff.rfl) ?_⟩
    · show VControl_SetJoyThreshold s port t = _
      simp only [VControl_SetJoyThreshold, hport, if_false]
    · intro ⟨h0, hp⟩
      exact hport ⟨h0, by rw [hg.count]; exact hp⟩

/-- Every command that can be run returns, in a store of the same kind. -/
theorem command_runs {host : Host} {table : List VControl_NameBinding} {s : Store}
    (hh : HostOpens host) (hg : Good host table s) (cmd : Command) (hs : cmd.Safe) :
    ∃ s1 r, RunsTo host table s cmd s1 r := by
  cases cmd with
  | key target code =>
    obtain ⟨s1, h1, h2, h3⟩ := key_add_runs hg code hs.2 target hs.1
    exact ⟨s1, 0, h1, h2, Or.inl rfl, fun _ => rfl, fun h => by simp at h, fun _ => h3⟩
  | axis target port a polarity => exact axis_runs (hh _) hg target a polarity hs
  | button target port b => exact button_runs (hh _) hg target b hs
  | hat target port h dir => exact hat_runs (hh _) hg target h dir hs
  | threshold port t => exact threshold_runs hg port t

/-- A command in the range of the host returns 0 in a good store. -/
theorem command_runs_in_range {host : Host} {table : List VControl_NameBinding} {s : Store}
    (hg : Good host table s) (cmd : Command) (hs : cmd.Safe) (hr : cmd.InRange host) :
    ∃ s1, RunsTo host table s cmd s1 0 := by
  have key : ∀ {s1 : Store} {r : Int}, RunsTo host table s cmd s1 r →
      ∃ s1, RunsTo host table s cmd s1 0 := by
    intro s1 r h
    have hr0 := h.2.2.2.1 hr
    subst hr0
    exact ⟨s1, h⟩
  cases cmd with
  | key target code =>
    obtain ⟨s1, h1, h2, h3⟩ := key_add_runs hg code hs.2 target hs.1
    exact ⟨s1, h1, h2, Or.inl rfl, fun _ => rfl, fun h => by simp at h, fun _ => h3⟩
  | axis target port a polarity =>
    obtain ⟨_, _, _, caps, hc, _⟩ := hr
    obtain ⟨s1, r, h⟩ := axis_runs (fun _ => ⟨caps, hc⟩) hg target a polarity hs
    exact key h
  | button target port b =>
    obtain ⟨_, _, caps, hc, _⟩ := hr
    obtain ⟨s1, r, h⟩ := button_runs (fun _ => ⟨caps, hc⟩) hg target b hs
    exact key h
  | hat target port h dir =>
    obtain ⟨_, _, _, caps, hc, _⟩ := hr
    obtain ⟨s1, r, h⟩ := hat_runs (fun _ => ⟨caps, hc⟩) hg target h dir hs
    exact key h
  | threshold port t =>
    obtain ⟨s1, r, h⟩ := threshold_runs hg port t
    exact key h

/-! ## What the parser does on an arbitrary line -/

theorem consume_idname_target {s : Store} {table : List VControl_NameBinding}
    (hn : s.nametable = some table) (st : parse_state) :
    ∃ st1 target, consume_idname s st = .ok (st1, target) ∧
      (st1.error = false → target ≠ 0) := by
  unfold consume_idname
  cases hl : st.token.getLast? with
  | none => exact ⟨_, 0, rfl, fun h => by simp at h⟩
  | some c =>
    by_cases hc : c ≠ ':'
    · exact ⟨expected_error st, 0, if_pos hc, fun h => by simp [expected_error] at h⟩
    · simp only [hc, if_false, name2target, hn, Res.bind]
      by_cases hz : name2target_loop table st.token.dropLast = 0
      · exact ⟨_, _, rfl, fun h => by simp [hz] at h⟩
      · exact ⟨_, _, rfl, fun _ => hz⟩

theorem LineDoes.of_same (host : Host) (s : Store) (st1 : parse_state) :
    LineDoes host (fun _ => .ok (st1, s)) s :=
  Or.inl ⟨st1, fun _ => rfl⟩

theorem LineDoes.of_call (host : Host) (s : Store) (st1 : parse_state) (cmd : Command)
    (he : st1.error = false) (hs : cmd.Safe) :
    LineDoes host (fun fuel => after_call st1 (cmd.run host fuel s)) s :=
  Or.inr ⟨st1, cmd, he, hs, fun _ => rfl⟩

theorem LineDoes.of_key (host : Host) (s : Store) (st1 : parse_state) (target : Nat) (code : Int)
    (he : st1.error = false) (ht : target ≠ 0) (hc : 0 ≤ bucketIndex code) :
    LineDoes host (fun fuel => after_call st1 (VControl_AddKeyBinding fuel s code target)) s :=
  LineDoes.of_call host s st1 (.key target code) he ⟨ht, hc⟩

theorem LineDoes.of_axis (host : Host) (s : Store) (st1 : parse_state) (target : Nat)
    (p a pol : Int) (he : st1.error = false) (ht : target ≠ 0) :
    LineDoes host
      (fun fuel => after_call st1 (VControl_AddJoyAxisBinding host fuel s p a pol target)) s :=
  LineDoes.of_call host s st1 (.axis target p a pol) he ht

theorem LineDoes.of_button (host : Host) (s : Store) (st1 : parse_state) (target : Nat)
    (p b : Int) (he : st1.error = false) (ht : target ≠ 0) :
    LineDoes host
      (fun fuel => after_call st1 (VControl_AddJoyButtonBinding host fuel s p b target)) s :=
  LineDoes.of_call host s st1 (.button target p b) he ht

theorem LineDoes.of_hat (host : Host) (s : Store) (st1 : parse_state) (target : Nat)
    (p h : Int) (d : Nat) (he : st1.error = false) (ht : target ≠ 0) :
    LineDoes host
      (fun fuel => after_call st1 (VControl_AddJoyHatBinding host fuel s p h d target)) s :=
  LineDoes.of_call host s st1 (.hat target p h d) he ht

theorem LineDoes.of_threshold (host : Host) (s : Store) (st1 : parse_state) (p t : Int)
    (he : st1.error = false) :
    LineDoes host (fun _ => after_call st1 (VControl_SetJoyThreshold s p t)) s :=
  LineDoes.of_call host s st1 (.threshold p t) he trivial

theorem LineDoes.of_ite {host : Host} {s : Store} {c : Prop} [Decidable c]
    {a b : Nat → Res (parse_state × Store)} (ha : c → LineDoes host a s)
    (hb : ¬c → LineDoes host b s) :
    LineDoes host (fun fuel => if c then a fuel else b fuel) s := by
  by_cases h : c
  · simpa only [if_pos h] using ha h
  · simpa only [if_neg h] using hb h

theorem parse_joybinding_cases (host : Host) (st : parse_state) (s : Store) (target : Nat)
    (ht : target ≠ 0) :
    LineDoes host (fun fuel => parse_joybinding host fuel st s target) s := by
  unfold parse_joybinding
  refine LineDoes.of_ite (fun _ => LineDoes.of_same host s _) fun _ => ?_
  refine LineDoes.of_ite (fun _ => ?_) fun _ => ?_
  · refine LineDoes.of_ite (fun _ => LineDoes.of_same host s _) fun _ => ?_
    refine LineDoes.of_ite (fun _ => LineDoes.of_same host s _) fun h => ?_
    exact LineDoes.of_axis host s _ target _ _ _ (Bool.eq_false_iff.2 h) ht
  refine LineDoes.of_ite (fun _ => ?_) fun _ => ?_
  · refine LineDoes.of_ite (fun _ => LineDoes.of_same host s _) fun h => ?_
    exact LineDoes.of_button host s _ target _ _ (Bool.eq_false_iff.2 h) ht
  refine LineDoes.of_ite (fun _ => ?_) fun _ => ?_
  · refine LineDoes.of_ite (fun _ => LineDoes.of_same host s _) fun _ => ?_
    refine LineDoes.of_ite (fun _ => LineDoes.of_same host s _) fun h => ?_
    exact LineDoes.of_hat host s _ target _ _ _ (Bool.eq_false_iff.2 h) ht
  · exact LineDoes.of_same host s _

theorem consume_keyname_code (keys : KeyNames) (st : parse_state)
    (h : (consume_keyname keys st).1.error = false) : (consume_keyname keys st).2 ≠ 0 := by
  intro hz
  have hz' : keys.name2code st.token = 0 := hz
  have : (consume_keyname keys st).1.error = true := by
    unfold consume_keyname
    simp only [hz', if_true]
    rfl
  rw [h] at this
  exact Bool.noConfusion this

theorem parse_binding_cases (host : Host) (keys : KeyNames) (hk : KeysOK keys)
    {table : List VControl_NameBinding} {s : Store} (hn : s.nametable = some table)
    (st : parse_state) :
    LineDoes host (fun fuel => parse_binding host keys fuel st s) s := by
  obtain ⟨st1, target, h, ht⟩ := consume_idname_target hn st
  unfold parse_binding
  rw [h]
  show LineDoes host (fun fuel => if st1.error = true then _ else _) s
  refine LineDoes.of_ite (fun _ => LineDoes.of_same host s _) fun h1 => ?_
  have ht1 := ht (Bool.eq_false_iff.2 h1)
  refine LineDoes.of_ite (fun _ => ?_) fun _ => ?_
  · refine LineDoes.of_ite (fun _ => LineDoes.of_same host s _) fun h2 => ?_
    exact LineDoes.of_key host s _ target _ (Bool.eq_false_iff.2 h2) ht1 (hk _)
  refine LineDoes.of_ite (fun _ => ?_) fun _ => LineDoes.of_same host s _
  exact parse_joybinding_cases host st1 s target ht1

theorem parse_line_cases (host : Host) (keys : KeyNames) (hk : KeysOK keys)
    {table : List VControl_NameBinding} {s : Store} (hn : s.nametable = some table)
    (st0 : parse_state) :
    LineDoes host (fun fuel => parse_config_line host keys fuel st0 s) s := by
  unfold parse_config_line
  refine LineDoes.of_ite (fun _ => LineDoes.of_same host s _) fun _ => ?_
  refine LineDoes.of_ite (fun _ => ?_) fun _ => parse_binding_cases host keys hk hn _
  refine LineDoes.of_ite (fun _ => LineDoes.of_same host s _) fun h => ?_
  exact LineDoes.of_threshold host s _ _ _ (Bool.eq_false_iff.2 h)

/-- Every line is parsed to the end in a good store; the store is good after
it, and a line that is flagged leaves the bindings as they are. -/
theorem parse_line_runs {host : Host} {keys : KeyNames} {table : List VControl_NameBinding}
    {s : Store} (hh : HostOpens host) (hk : KeysOK keys) (hg : Good host table s)
    (st0 : parse_state) :
    ∃ st1 s1, Returns (fun fuel => parse_config_line host keys fuel st0 s) (st1, s1) ∧
      Good host table s1 ∧
      (st1.error = true → ∀ c t k, Bound s1 c t k ↔ Bound s c t k) := by
  rcases parse_line_cases host keys hk hg.names st0 with ⟨st1, h⟩ | ⟨st1, cmd, he, hs, h⟩
  · exact ⟨st1, s, ⟨0, fun fuel _ => h fuel⟩, hg, fun _ _ _ _ => Iff.rfl⟩
  · obtain ⟨s1, r, ⟨n, hr⟩, hg1, h01, _, hm, _⟩ := command_runs hh hg cmd hs
    refine ⟨if r ≠ 0 then { st1 with error := true } else st1, s1,
      ⟨n, fun fuel hf => ?_⟩, hg1, fun herr => ?_⟩
    · have e1 := h fuel
      have e2 := hr fuel hf
      exact e1.trans (congrArg (after_call st1) e2)
    · refine hm ?_
      rcases h01 with h0 | h1
      · rw [if_neg (not_not.2 h0), he] at herr
        exact Bool.noConfusion herr
      · exact h1

/-! ## Reading a stream line by line -/

theorem read_line_line : ∀ (k : Nat) (content after : List Char) (first : Bool),
    content.length ≤ k → (∀ c ∈ content, c ≠ '\n' ∧ c ≠ '#') →
    (after = [] ∨ after.head? = some '#' ∨ after.head? = some '\n') →
    (read_line k first { data := content ++ after, eof := false }).1 =
      if content = [] then (if first = true ∧ 0 < k then ['\n'] else []) else content := by
  intro k
  induction k with
  | zero =>
    intro content after first hk _ _
    have : content = [] := List.length_eq_zero.1 (Nat.le_zero.1 hk)
    subst this
    simp [read_line]
  | succ k ih =>
    intro content after first hk hc ha
    cases content with
    | nil =>
      cases after with
      | nil => cases first <;> simp [read_line]
      | cons c cs =>
        have hc' : c = '#' ∨ c = '\n' := by
          rcases ha with h | h | h
          · exact absurd h (List.cons_ne_nil _ _)
          · exact Or.inl (by simpa using h)
          · exact Or.inr (by simpa using h)
        cases first <;> simp [read_line, hc']
    | cons c cs =>
      have h1 := hc c (List.mem_cons_self _ _)
      have h2 : ¬(c = '#' ∨ c = '\n') := fun h => h.elim h1.2 h1.1
      have := ih cs after false (Nat.le_of_succ_le_succ hk)
        (fun c' hc' => hc c' (List.mem_cons_of_mem _ hc')) ha
      simp only [List.cons_append, read_line, Bool.false_eq_true, if_false, h2]
      rw [this]
      cases cs <;> simp

theorem read_line_stream : ∀ (k : Nat) (content after : List Char) (first : Bool),
    content.length ≤ k → (∀ c ∈ content, c ≠ '\n' ∧ c ≠ '#') →
    (after = [] ∨ after.head? = some '#' ∨ after.head? = some '\n') →
    (if (read_line k first { data := content ++ after, eof := false }).2.2 = true ∨
        (read_line k first { data := content ++ after, eof := false }).2.1.eof = true
      then (read_line k first { data := content ++ after, eof := false }).2.1
      else skip_line (read_line k first { data := content ++ after, eof := false }).2.1.data) =
      skip_line after := by
  intro k
  induction k with
  | zero =>
    intro content after first hk _ _
    have : content = [] := List.length_eq_zero.1 (Nat.le_zero.1 hk)
    subst this
    simp [read_line]
  | succ k ih =>
    intro content after first hk hc ha
    cases content with
    | nil =>
      cases after with
      | nil => simp [read_line, skip_line]
      | cons c cs =>
        rcases ha with h | h | h
        · exact absurd h (List.cons_ne_nil _ _)
        · have hc' : c = '#' := by simpa using h
          subst hc'
          simp [read_line, skip_line]
        · have hc' : c = '\n' := by simpa using h
          subst hc'
          simp [read_line, skip_line]
    | cons c cs =>
      have h1 := hc c (List.mem_cons_self _ _)
      have h2 : ¬(c = '#' ∨ c = '\n') := fun h => h.elim h1.2 h1.1
      have := ih cs after false (Nat.le_of_succ_le_succ hk)
        (fun c' hc' => hc c' (List.mem_cons_of_mem _ hc')) ha
      simp only [List.cons_append, read_line, Bool.false_eq_true, if_false, h2]
      exact this

/-- The function `next_line` on a line with the text `content` in front of
what ends it: the end of the stream, a comment or a newline. -/
theorem next_line_content (st : parse_state) {content after : List Char}
    (hl : content.length ≤ LINE_SIZE - 1) (hc : ∀ c ∈ content, c ≠ '\n' ∧ c ≠ '#')
    (ha : after = [] ∨ after.head? = some '#' ∨ after.head? = some '\n') :
    next_line st { data := content ++ after, eof := false } =
      ({ line := lineOf content, token := [], rest := lineOf content, error := false,
         linenum := st.linenum + 1 }, skip_line after) := by
  have h1 := read_line_line (LINE_SIZE - 1) content after true hl hc ha
  have h2 := read_line_stream (LINE_SIZE - 1) content after true hl hc ha
  have h3 : (if content = [] then (if true = true ∧ 0 < LINE_SIZE - 1 then ['\n'] else [])
      else content) = lineOf content := by
    unfold lineOf
    by_cases h : content = []
    · rw [if_pos h, if_pos h, if_pos ⟨rfl, by decide⟩]
    · rw [if_neg h, if_neg h]
  rw [h3] at h1
  unfold next_line
  simp only [h1]
  exact congrArg _ h2

theorem next_line_eof (st : parse_state) :
    (next_line st { data := [], eof := true }).1.line = [] := by
  simp [next_line, read_line, LINE_SIZE]

theorem skip_line_comment : ∀ (cm rest : List Char), (∀ c ∈ cm, c ≠ '\n') →
    skip_line (cm ++ '\n' :: rest) = { data := rest, eof := false }
  | [], rest, _ => by simp [skip_line]
  | c :: cm, rest, h => by
    have h1 := h c (List.mem_cons_self _ _)
    simp only [List.cons_append, skip_line, h1, if_false]
    exact skip_line_comment cm rest (fun c' hc' => h c' (List.mem_cons_of_mem _ hc'))

theorem skip_line_last : ∀ (cm : List Char), (∀ c ∈ cm, c ≠ '\n') →
    skip_line cm = { data := [], eof := true }
  | [], _ => rfl
  | c :: cm, h => by
    have h1 := h c (List.mem_cons_self _ _)
    simp only [skip_line, h1, if_false]
    exact skip_line_last cm (fun c' hc' => h c' (List.mem_cons_of_mem _ hc'))

/-- A line of blanks is skipped: no error and no change. -/
theorem parse_blank_line (host : Host) (keys : KeyNames) (st0 : parse_state)
    (s : Store) (h : skip_space st0.rest = [] ∨ (skip_space st0.rest).head? = some NUL) :
    ∃ st1, st1.error = false ∧
      ∀ fuel, parse_config_line host keys fuel st0 s = .ok (st1, s) := by
  have ht : (next_token { st0 with error := false }).token = [] := by
    simp only [next_token, TOKEN_SIZE]
    rcases h with h | h
    · rw [h]; rfl
    · cases hr : skip_space st0.rest with
      | nil => rfl
      | cons c cs =>
        rw [hr] at h
        have : c = NUL := by simpa using h
        subst this
        simp [copy_word]
  refine ⟨next_token { st0 with error := false }, rfl, fun fuel => ?_⟩
  unfold parse_config_line
  exact if_pos ht

theorem map_snd_cons {α β : Type} {ws : List (α × β)} {b : β} {l : List β}
    (h : ws.map Prod.snd = b :: l) : ∃ a r, ws = (a, b) :: r ∧ r.map Prod.snd = l := by
  cases ws with
  | nil => exact absurd h (by simp)
  | cons x r =>
    obtain ⟨a, b'⟩ := x
    simp only [List.map_cons, List.cons.injEq] at h
    obtain ⟨h1, h2⟩ := h
    subst h1
    exact ⟨a, r, rfl, h2⟩

theorem map_snd_nil {α β : Type} {ws : List (α × β)} (h : ws.map Prod.snd = []) : ws = [] :=
  List.map_eq_nil_iff.1 h

/-- A sentence of the grammar is parsed to the call of its command. -/
theorem parse_sentence (host : Host) (keys : KeyNames) {table : List VControl_NameBinding}
    {s : Store} (hn : s.nametable = some table) {ws : List (List Char × List Char)}
    {tail : List Char} {cmd : Command} (hsep : Separated ws) (ht : IsBlank tail)
    (hs : Sentence table keys (ws.map Prod.snd) cmd) (line0 token : List Char) (e : Bool)
    (linenum fuel : Nat) :
    parse_config_line host keys fuel
        { line := line0, token := token, rest := joined ws ++ tail, error := e,
          linenum := linenum } s =
      after_call (scanState line0 linenum tail []) (cmd.run host fuel s) := by
  generalize hw : ws.map Prod.snd = l at hs
  cases hs with
  | key hnm hkw hkn =>
    obtain ⟨sp0, r0, rfl, hw0⟩ := map_snd_cons hw
    obtain ⟨sp1, r1, rfl, hw1⟩ := map_snd_cons hw0
    obtain ⟨sp2, r2, rfl, hw2⟩ := map_snd_cons hw1
    cases map_snd_nil hw2
    exact parse_key_line host keys hn hsep ht hnm hkw hkn line0 token e linenum fuel
  | axis hnm hkj hp hka ha hpol =>
    obtain ⟨sp0, r0, rfl, hw0⟩ := map_snd_cons hw
    obtain ⟨sp1, r1, rfl, hw1⟩ := map_snd_cons hw0
    obtain ⟨sp2, r2, rfl, hw2⟩ := map_snd_cons hw1
    obtain ⟨sp3, r3, rfl, hw3⟩ := map_snd_cons hw2
    obtain ⟨sp4, r4, rfl, hw4⟩ := map_snd_cons hw3
    obtain ⟨sp5, r5, rfl, hw5⟩ := map_snd_cons hw4
    cases map_snd_nil hw5
    exact parse_axis_line host keys hn hsep ht hnm hkj hp hka ha hpol line0 token e linenum fuel
  | button hnm hkj hp hkb hb =>
    obtain ⟨sp0, r0, rfl, hw0⟩ := map_snd_cons hw
    obtain ⟨sp1, r1, rfl, hw1⟩ := map_snd_cons hw0
    obtain ⟨sp2, r2, rfl, hw2⟩ := map_snd_cons hw1
    obtain ⟨sp3, r3, rfl, hw3⟩ := map_snd_cons hw2
    obtain ⟨sp4, r4, rfl, hw4⟩ := map_snd_cons hw3
    cases map_snd_nil hw4
    exact parse_button_line host keys hn hsep ht hnm hkj hp hkb hb line0 token e linenum fuel
  | hat hnm hkj hp hkh hh hd =>
    obtain ⟨sp0, r0, rfl, hw0⟩ := map_snd_cons hw
    obtain ⟨sp1, r1, rfl, hw1⟩ := map_snd_cons hw0
    obtain ⟨sp2, r2, rfl, hw2⟩ := map_snd_cons hw1
    obtain ⟨sp3, r3, rfl, hw3⟩ := map_snd_cons hw2
    obtain ⟨sp4, r4, rfl, hw4⟩ := map_snd_cons hw3
    obtain ⟨sp5, r5, rfl, hw5⟩ := map_snd_cons hw4
    cases map_snd_nil hw5
    exact parse_hat_line host keys hn hsep ht hnm hkj hp hkh hh hd line0 token e linenum fuel
  | threshold hkj hp hkt hnt =>
    obtain ⟨sp0, r0, rfl, hw0⟩ := map_snd_cons hw
    obtain ⟨sp1, r1, rfl, hw1⟩ := map_snd_cons hw0
    obtain ⟨sp2, r2, rfl, hw2⟩ := map_snd_cons hw1
    obtain ⟨sp3, r3, rfl, hw3⟩ := map_snd_cons hw2
    cases map_snd_nil hw3
    exact parse_threshold_line host keys s hsep ht hkj hp hkt (strtol_num hnt) line0 token e
      linenum fuel

theorem Sentence.safe {table : List VControl_NameBinding} {keys : KeyNames} (hk : KeysOK keys)
    {l : List (List Char)} {cmd : Command} (hs : Sentence table keys l cmd) : cmd.Safe := by
  cases hs with
  | key hnm _ _ => exact ⟨hnm, hk _⟩
  | axis hnm _ _ _ _ _ => exact hnm
  | button hnm _ _ _ _ => exact hnm
  | hat hnm _ _ _ _ _ => exact hnm
  | threshold _ _ _ _ => exact trivial

theorem Sentence.ne_nil {table : List VControl_NameBinding} {keys : KeyNames}
    {l : List (List Char)} {cmd : Command} (hs : Sentence table keys l cmd) : l ≠ [] := by
  cases hs <;> exact List.cons_ne_nil _ _

/-- A line of separated tokens starts with a character of a token or a
blank. -/
theorem joined_first {ws : List (List Char × List Char)} (hsep : Separated ws)
    (hne : ws ≠ []) (tail : List Char) :
    joined ws ++ tail ≠ [] ∧ (joined ws ++ tail).head? ≠ some NUL := by
  cases ws with
  | nil => exact absurd rfl hne
  | cons x r =>
    obtain ⟨hb, ⟨hw0, _, hw⟩, _⟩ := hsep
    obtain ⟨c, cs, hx⟩ : ∃ c cs, x.2 = c :: cs := by
      cases h : x.2 with
      | nil => exact absurd h hw0
      | cons c cs => exact ⟨c, cs, rfl⟩
    have hc := (hw c (by rw [hx]; exact List.mem_cons_self _ _)).1
    cases h1 : x.1 with
    | nil =>
      simp only [joined, h1, hx, List.nil_append, List.cons_append, List.head?_cons, ne_eq,
        reduceCtorEq, not_false_eq_true, Option.some.injEq, true_and]
      exact hc
    | cons b bs =>
      have hb' := isspace_ne_nul (hb b (by rw [h1]; exact List.mem_cons_self _ _))
      simp only [joined, h1, List.cons_append, List.head?_cons, ne_eq, reduceCtorEq,
        not_false_eq_true, Option.some.injEq, true_and]
      exact hb'

theorem lineOf_blank {sp : List Char} (h : IsBlank sp) : IsBlank (lineOf sp) := by
  unfold lineOf
  by_cases h0 : sp = []
  · rw [if_pos h0]
    intro c hc
    have : c = '\n' := by simpa using hc
    subst this
    decide
  · rw [if_neg h0]
    exact h

theorem blank_first {sp : List Char} (h : IsBlank sp) : sp.head? ≠ some NUL := by
  cases sp with
  | nil => simp
  | cons c cs =>
    have := isspace_ne_nul (h c (List.mem_cons_self _ _))
    simpa using this

theorem lineOf_ne_nil (content : List Char) : (lineOf content).head? ≠ none := by
  unfold lineOf
  by_cases h0 : content = []
  · rw [if_pos h0]; simp
  · rw [if_neg h0]
    cases content with
    | nil => exact absurd rfl h0
    | cons c cs => simp

/-- What the parser makes of a line that is as `ConfigLine.OK` has it: the
line does not end the read; a sentence runs its command with success, a blank
line does nothing, and a line in error is counted and binds nothing. -/
theorem line_runs {host : Host} {keys : KeyNames} {table : List VControl_NameBinding}
    (hh : HostOpens host) (hk : KeysOK keys) {l : ConfigLine} (hl : l.OK host table keys)
    {s : Store} (hg : Good host table s) (linenum : Nat) :
    (lineOf l.content).head? ≠ some NUL ∧
      ∃ st1 s1,
        Returns (fun fuel => parse_config_line host keys fuel
          { line := lineOf l.content, token := [], rest := lineOf l.content, error := false,
            linenum := linenum } s) (st1, s1) ∧
        Good host table s1 ∧ st1.error = l.isFlagged ∧
        ∀ c t k, Bound s1 c t k ↔
          Bound s c t k ∨ ∃ cmd, l.command = some cmd ∧ cmd.binds c t k := by
  obtain ⟨_, _, _, _, hkind⟩ := hl
  cases l with
  | binding ws tail cmd cm =>
    obtain ⟨hsep, ht, hs, hr⟩ := hkind
    have hne : ws ≠ [] := fun h => hs.ne_nil (by rw [h]; rfl)
    obtain ⟨h1, h2⟩ := joined_first hsep hne tail
    have hline : lineOf (joined ws ++ tail) = joined ws ++ tail := if_neg h1
    obtain ⟨s1, r, ⟨n, hn⟩, hg1, _, hr0, _, hb⟩ := command_runs hh hg cmd (hs.safe hk)
    have hr0' := hr0 hr
    subst hr0'
    refine ⟨?_, scanState (joined ws ++ tail) linenum tail [], s1, ⟨n, fun fuel hf => ?_⟩, hg1,
      rfl, fun c t k => ?_⟩
    · show (lineOf (joined ws ++ tail)).head? ≠ some NUL
      rw [hline]
      exact h2
    · show parse_config_line host keys fuel
        { line := lineOf (joined ws ++ tail), token := [], rest := lineOf (joined ws ++ tail),
          error := false, linenum := linenum } s = _
      rw [hline]
      exact (parse_sentence host keys hg.names hsep ht hs _ [] false linenum fuel).trans
        (congrArg (after_call _) (hn fuel hf))
    · rw [hb rfl c t k]
      constructor
      · rintro (h | h)
        · exact Or.inl h
        · exact Or.inr ⟨cmd, rfl, h⟩
      · rintro (h | ⟨cmd', he, h⟩)
        · exact Or.inl h
        · cases he
          exact Or.inr h
  | blank sp cm =>
    have hb : IsBlank (lineOf sp) := lineOf_blank hkind
    obtain ⟨st1, h2, h1⟩ := parse_blank_line host keys
      { line := lineOf sp, token := [], rest := lineOf sp, error := false,
        linenum := linenum } s (Or.inl (skip_space_blank_end hb))
    refine ⟨blank_first hb, st1, s, ⟨0, fun fuel _ => h1 fuel⟩, hg, h2, fun c t k => ?_⟩
    constructor
    · exact Or.inl
    · rintro (h | ⟨cmd, he, _⟩)
      · exact h
      · cases he
  | flagged content cm =>
    have hblank : ∀ st0 : parse_state, st0.rest = content →
        ¬(skip_space st0.rest = [] ∨ (skip_space st0.rest).head? = some NUL) := by
      intro st0 h0 hb
      obtain ⟨st1, h2, h1⟩ := parse_blank_line host keys st0 s hb
      have := hkind s hg st0 0 (st1, s) h0 (h1 0)
      rw [h2] at this
      exact Bool.noConfusion this
    have hne : content ≠ [] := by
      intro h
      exact hblank { line := [], token := [], rest := content, error := false, linenum := 0 }
        rfl (Or.inl (by rw [h]; rfl))
    have hline : lineOf content = content := if_neg hne
    have hnul : content.head? ≠ some NUL := by
      intro h
      refine hblank { line := [], token := [], rest := content, error := false, linenum := 0 }
        rfl (Or.inr ?_)
      cases content with
      | nil => exact absurd rfl hne
      | cons c cs =>
        have hc : c = NUL := by simpa using h
        subst hc
        simp [skip_space]
    obtain ⟨st1, s1, ⟨n, hn⟩, hg1, hsame⟩ := parse_line_runs hh hk hg
      { line := lineOf content, token := [], rest := lineOf content, error := false,
        linenum := linenum }
    have herr : st1.error = true :=
      hkind s hg _ n (st1, s1) hline (hn n (le_refl n))
    refine ⟨?_, st1, s1, ⟨n, hn⟩, hg1, herr, fun c t k => ?_⟩
    · show (lineOf content).head? ≠ some NUL
      rw [hline]
      exact hnul
    · rw [hsame herr c t k]
      constructor
      · exact Or.inl
      · rintro (h | ⟨cmd, he, _⟩)
        · exact h
        · cases he

/-- One turn of the loop of `VControl_ReadConfiguration` on a line that does
not end the read. -/
theorem read_loop_step (host : Host) (keys : KeyNames) (fuel k : Nat) (st : parse_state)
    (s : Store) (errors : Int) {content after : List Char}
    (hl : content.length ≤ LINE_SIZE - 1) (hc : ∀ c ∈ content, c ≠ '\n' ∧ c ≠ '#')
    (ha : after = [] ∨ after.head? = some '#' ∨ after.head? = some '\n')
    (h2 : (lineOf content).head? ≠ some NUL) :
    read_loop host keys fuel (k + 1) st { data := content ++ after, eof := false } s errors =
      (parse_config_line host keys fuel
        { line := lineOf content, token := [], rest := lineOf content, error := false,
          linenum := st.linenum + 1 } s).bind fun x =>
        read_loop host keys fuel k x.1 (skip_line after) x.2
          (if x.1.error then errors + 1 else errors) := by
  rw [read_loop, next_line_content st hl hc ha]
  exact if_neg (not_or.2 ⟨lineOf_ne_nil content, h2⟩)

/-- The loop ends at the end of the stream. -/
theorem read_loop_end (host : Host) (keys : KeyNames) (fuel k : Nat) (st : parse_state)
    (s : Store) (errors : Int) :
    read_loop host keys fuel (k + 1) st { data := [], eof := true } s errors =
      .ok (s, errors) := by
  rw [read_loop]
  exact if_pos (Or.inl (by rw [next_line_eof st]; rfl))

theorem comment_after {cm : List Char} (h : cm = [] ∨ cm.head? = some '#') (rest : List Char) :
    cm ++ '\n' :: rest = [] ∨ (cm ++ '\n' :: rest).head? = some '#' ∨
      (cm ++ '\n' :: rest).head? = some '\n' := by
  rcases h with h | h
  · subst h
    exact Or.inr (Or.inr rfl)
  · cases cm with
    | nil => exact Or.inr (Or.inr rfl)
    | cons c cs => exact Or.inr (Or.inl h)

/-- The loop of `VControl_ReadConfiguration` on a stream of lines. -/
theorem read_loop_lines {host : Host} {keys : KeyNames} {table : List VControl_NameBinding} :
    ∀ (ls : List ConfigLine) (l : ConfigLine),
      (∀ x ∈ l :: ls, x.Shape ∧ x.Runs host keys table) →
      ∀ (s : Store), Good host table s → ∀ (st : parse_state) (errors : Int),
        ∃ s1 n, Good host table s1 ∧
          (∀ fuel k, n ≤ fuel → (l :: ls).length + 1 ≤ k →
            read_loop host keys fuel k st { data := streamText (l :: ls), eof := false } s
                errors =
              .ok (s1, errors + ((l :: ls).filter ConfigLine.isFlagged).length)) ∧
          ∀ c t k, Bound s1 c t k ↔
            Bound s c t k ∨ ∃ x ∈ l :: ls, ∃ cmd, x.command = some cmd ∧ cmd.binds c t k := by
  intro ls
  induction ls with
  | nil =>
    intro l hok s hg st errors
    obtain ⟨⟨hlen, hc, hcm, hcn⟩, hruns⟩ := hok l (List.mem_cons_self _ _)
    obtain ⟨h2, st1, s1, ⟨n, hn⟩, hg1, herr, hb⟩ := hruns s hg (st.linenum + 1)
    have hn' : ∀ fuel, n ≤ fuel → parse_config_line host keys fuel
        { line := lineOf l.content, token := [], rest := lineOf l.content, error := false,
          linenum := st.linenum + 1 } s = .ok (st1, s1) := hn
    refine ⟨s1, n, hg1, fun fuel k hf hk2 => ?_, fun c t k => ?_⟩
    · obtain ⟨k1, rfl⟩ : ∃ k1, k = k1 + 1 + 1 :=
        ⟨k - 2, by simp only [List.length_singleton] at hk2; omega⟩
      have ha : l.comment = [] ∨ l.comment.head? = some '#' ∨ l.comment.head? = some '\n' :=
        hcm.elim Or.inl fun h => Or.inr (Or.inl h)
      show read_loop host keys fuel (k1 + 1 + 1) st
        { data := l.content ++ l.comment, eof := false } s errors = _
      rw [read_loop_step host keys fuel (k1 + 1) st s errors hlen hc ha h2, hn' fuel hf,
        skip_line_last _ hcn]
      show read_loop host keys fuel (k1 + 1) st1 { data := [], eof := true } s1 _ = _
      rw [read_loop_end, herr]
      cases l <;> simp [ConfigLine.isFlagged]
    · rw [hb c t k]
      constructor
      · rintro (h | ⟨cmd, he, h⟩)
        · exact Or.inl h
        · exact Or.inr ⟨l, List.mem_cons_self _ _, cmd, he, h⟩
      · rintro (h | ⟨x, hx, cmd, he, h⟩)
        · exact Or.inl h
        · have : x = l := by simpa using hx
          subst this
          exact Or.inr ⟨cmd, he, h⟩
  | cons l2 ls ih =>
    intro l hok s hg st errors
    obtain ⟨⟨hlen, hc, hcm, hcn⟩, hruns⟩ := hok l (List.mem_cons_self _ _)
    obtain ⟨h2, st1, s1, ⟨n, hn⟩, hg1, herr, hb⟩ := hruns s hg (st.linenum + 1)
    have hn' : ∀ fuel, n ≤ fuel → parse_config_line host keys fuel
        { line := lineOf l.content, token := [], rest := lineOf l.content, error := false,
          linenum := st.linenum + 1 } s = .ok (st1, s1) := hn
    obtain ⟨s2, n2, hg2, hrun, hb2⟩ := ih l2 (fun x hx => hok x (List.mem_cons_of_mem _ hx))
      s1 hg1 st1 (if st1.error = true then errors + 1 else errors)
    refine ⟨s2, max n n2, hg2, fun fuel k hf hk2 => ?_, fun c t k => ?_⟩
    · obtain ⟨k1, rfl⟩ : ∃ k1, k = k1 + 1 :=
        ⟨k - 1, by simp only [List.length_cons] at hk2; omega⟩
      show read_loop host keys fuel (k1 + 1) st
        { data := l.content ++ (l.comment ++ '\n' :: streamText (l2 :: ls)), eof := false }
        s errors = _
      rw [read_loop_step host keys fuel k1 st s errors hlen hc (comment_after hcm _) h2,
        hn' fuel (le_of_max_le_left hf), skip_line_comment _ _ hcn]
      show read_loop host keys fuel k1 st1 { data := streamText (l2 :: ls), eof := false } s1
        (if st1.error = true then errors + 1 else errors) = _
      rw [hrun fuel k1 (le_of_max_le_right hf)
        (by simp only [List.length_cons] at hk2 ⊢; omega), herr]
      cases l <;> simp [ConfigLine.isFlagged, List.filter_cons]
      ring
    · rw [hb2 c t k, hb c t k]
      constructor
      · rintro ((h | ⟨cmd, he, h⟩) | ⟨x, hx, cmd, he, h⟩)
        · exact Or.inl h
        · exact Or.inr ⟨l, List.mem_cons_self _ _, cmd, he, h⟩
        · exact Or.inr ⟨x, List.mem_cons_of_mem _ hx, cmd, he, h⟩
      · rintro (h | ⟨x, hx, cmd, he, h⟩)
        · exact Or.inl (Or.inl h)
        · rcases List.mem_cons.1 hx with rfl | hx
          · exact Or.inl (Or.inr ⟨cmd, he, h⟩)
          · exact Or.inr ⟨x, hx, cmd, he, h⟩

/-- The store after `key_init` with a name table is a good store of the host. -/
theorem Good.fresh (host : Host) (table : List VControl_NameBinding) :
    Good host table (key_init host (some table)) :=
  ⟨key_init_inv host (some table), key_init_devices host (some table), rfl,
    by simp [key_init], rfl⟩

/-- A line whose first token is not `joystick` and does not end in a colon is
in error, and the store stays as it is. -/
theorem parse_unnamed_line (host : Host) (keys : KeyNames) (fuel : Nat) (st0 : parse_state)
    (s : Store) {w : List Char} (hw : (next_token { st0 with error := false }).token = w)
    (h1 : w ≠ []) (h2 : strcaseeq w "joystick".toList = false) (h3 : w.getLast? ≠ some ':') :
    ∃ st1, st1.error = true ∧ parse_config_line host keys fuel st0 s = .ok (st1, s) := by
  subst hw
  have e1 : consume_idname s (next_token { st0 with error := false }) =
      .ok (expected_error (next_token { st0 with error := false }), 0) := by
    unfold consume_idname
    cases hl : (next_token { st0 with error := false }).token.getLast? with
    | none => rfl
    | some c =>
      have hc : c ≠ ':' := fun h => h3 (by rw [hl, h])
      exact if_pos hc
  refine ⟨expected_error (next_token { st0 with error := false }), rfl, ?_⟩
  unfold parse_config_line
  refine (if_neg h1).trans ((if_neg (not_true_of_false h2)).trans ?_)
  unfold parse_binding
  rw [e1]
  rfl

theorem hostOpens_noJoy : HostOpens noJoyHost :=
  fun p hp => absurd hp (Nat.not_lt_zero p)

theorem keysOK_aKeys : KeysOK aKeys := by
  intro n
  show 0 ≤ bucketIndex (if n = ['a'] then 97 else 0)
  by_cases h : n = ['a']
  · rw [if_pos h]; decide
  · rw [if_neg h]; decide

theorem good_fireFresh : Good noJoyHost fireTable fireFresh :=
  Good.fresh noJoyHost fireTable

set_option maxRecDepth 100000 in
theorem garbageLines_ok : ∀ l ∈ garbageLines, l.OK noJoyHost fireTable aKeys := by
  have hsent : ∀ kw : List Char, strcaseeq kw "key".toList = true →
      Sentence fireTable aKeys ["fire:".toList, kw, ['a']] (.key 100 97) := fun kw hkw =>
    @Sentence.key fireTable aKeys "fire".toList kw ['a'] (by decide) hkw (by decide)
  intro l hl
  simp only [garbageLines, List.mem_cons, List.mem_singleton, List.not_mem_nil, or_false] at hl
  rcases hl with rfl | rfl | rfl
  · refine ⟨by decide, by decide, Or.inl rfl, by decide, ?_, ?_, hsent _ (by decide), trivial⟩
    · simp only [Separated, IsBlank, IsWord]
      decide
    · intro c hc
      cases hc
  · refine ⟨by decide, by decide, Or.inl rfl, by decide, ?_⟩
    intro s _ st0 fuel r h0 hr
    obtain ⟨st1, he, hp⟩ := parse_unnamed_line noJoyHost aKeys fuel st0 s
      (w := "garbage".toList) (by simp only [next_token, h0]; decide) (by decide) (by decide)
        (by decide)
    rw [hp] at hr
    cases hr
    exact he
  · refine ⟨by decide, by decide, Or.inr rfl, by decide, ?_, ?_, hsent _ (by decide), trivial⟩
    · simp only [Separated, IsBlank, IsWord]
      decide
    · simp only [IsBlank]
      decide

/-! ## A stream of lines that the parser takes as they are given -/

/-- A blank line is skipped. -/
theorem blank_line_runs (host : Host) (keys : KeyNames) (table : List VControl_NameBinding)
    {sp : List Char} (hsp : IsBlank sp) (cm : List Char) :
    (ConfigLine.blank sp cm).Runs host keys table := by
  intro s hg linenum
  have hb : IsBlank (lineOf sp) := lineOf_blank hsp
  obtain ⟨st1, h2, h1⟩ := parse_blank_line host keys
    { line := lineOf sp, token := [], rest := lineOf sp, error := false,
      linenum := linenum } s (Or.inl (skip_space_blank_end hb))
  refine ⟨blank_first hb, st1, s, ⟨0, fun fuel _ => h1 fuel⟩, hg, h2, fun c t k => ?_⟩
  constructor
  · exact Or.inl
  · rintro (h | ⟨cmd, he, _⟩)
    · exact h
    · cases he

/-- A line of separated tokens that the parser takes for the call of a
command in the range of the host installs the binding of the command. -/
theorem binding_line_runs {host : Host} {keys : KeyNames} {table : List VControl_NameBinding}
    {ws : List (List Char × List Char)} {tail : List Char} {cmd : Command}
    (hsep : Separated ws) (hne : ws ≠ [])
    (hparse : ∀ s : Store, s.nametable = some table → ∀ (linenum fuel : Nat),
      parse_config_line host keys fuel
        { line := joined ws ++ tail, token := [], rest := joined ws ++ tail, error := false,
          linenum := linenum } s =
        after_call (scanState (joined ws ++ tail) linenum tail []) (cmd.run host fuel s))
    (hs : cmd.Safe) (hr : cmd.InRange host) (cm : List Char) :
    (ConfigLine.binding ws tail cmd cm).Runs host keys table := by
  intro s hg linenum
  obtain ⟨h1, h2⟩ := joined_first hsep hne tail
  have hline : lineOf (joined ws ++ tail) = joined ws ++ tail := if_neg h1
  obtain ⟨s1, ⟨n, hn⟩, hg1, _, _, _, hb⟩ := command_runs_in_range hg cmd hs hr
  refine ⟨?_, scanState (joined ws ++ tail) linenum tail [], s1, ⟨n, fun fuel hf => ?_⟩, hg1,
    rfl, fun c t k => ?_⟩
  · show (lineOf (joined ws ++ tail)).head? ≠ some NUL
    rw [hline]
    exact h2
  · show parse_config_line host keys fuel
      { line := lineOf (joined ws ++ tail), token := [], rest := lineOf (joined ws ++ tail),
        error := false, linenum := linenum } s = _
    rw [hline]
    exact (hparse s hg.names linenum fuel).trans (congrArg (after_call _) (hn fuel hf))
  · rw [hb rfl c t k]
    constructor
    · rintro (h | h)
      · exact Or.inl h
      · exact Or.inr ⟨cmd, rfl, h⟩
    · rintro (h | ⟨cmd', he, h⟩)
      · exact Or.inl h
      · cases he
        exact Or.inr h

/-- A line that is as `ConfigLine.OK` has it is taken as it is given. -/
theorem ConfigLine.OK.shape_runs {host : Host} {keys : KeyNames}
    {table : List VControl_NameBinding} (hh : HostOpens host) (hk : KeysOK keys)
    {l : ConfigLine} (hl : l.OK host table keys) : l.Shape ∧ l.Runs host keys table :=
  ⟨⟨hl.1, hl.2.1, hl.2.2.1, hl.2.2.2.1⟩, fun _ hg linenum => line_runs hh hk hl hg linenum⟩

/-- The function `VControl_ReadConfiguration` on a stream of lines that the
parser takes as they are given: it returns the number of the lines in error,
and the bindings after the read are those before it and those of the commands
of the lines. -/
theorem read_stream_runs {host : Host} {keys : KeyNames} {table : List VControl_NameBinding}
    {s : Store} (hg : Good host table s) (ls : List ConfigLine)
    (hls : ∀ l ∈ ls, l.Shape ∧ l.Runs host keys table) :
    ∃ s1,
      Returns (fun fuel => VControl_ReadConfiguration host keys fuel s
        { data := streamText ls, eof := false })
        (s1, ((ls.filter ConfigLine.isFlagged).length : Int)) ∧
      Good host table s1 ∧
      ∀ c t k, Bound s1 c t k ↔
        Bound s c t k ∨ ∃ l ∈ ls, ∃ cmd, l.command = some cmd ∧ cmd.binds c t k := by
  cases ls with
  | nil =>
    have hb : ∀ x ∈ [ConfigLine.blank [] []], x.Shape ∧ x.Runs host keys table := by
      intro x hx
      have : x = .blank [] [] := by simpa using hx
      subst this
      exact ⟨⟨by decide, by simp [ConfigLine.content], Or.inl rfl, by simp [ConfigLine.comment]⟩,
        blank_line_runs host keys table (fun c hc => by cases hc) []⟩
    obtain ⟨s1, n, hg1, hrun, hbound⟩ := read_loop_lines [] (.blank [] []) hb s hg
      { line := [], token := [], rest := [], error := false, linenum := 0 } 0
    refine ⟨s1, ⟨max n 2, fun fuel hf => ?_⟩, hg1, fun c t k => ?_⟩
    · have := hrun fuel fuel (le_of_max_le_left hf) (le_of_max_le_right hf)
      simpa [ConfigLine.isFlagged] using this
    · rw [hbound c t k]
      constructor
      · rintro (h | ⟨x, hx, cmd, he, _⟩)
        · exact Or.inl h
        · have : x = .blank [] [] := by simpa using hx
          subst this
          cases he
      · rintro (h | ⟨x, hx, _⟩)
        · exact Or.inl h
        · cases hx
  | cons l ls =>
    obtain ⟨s1, n, hg1, hrun, hbound⟩ := read_loop_lines ls l hls s hg
      { line := [], token := [], rest := [], error := false, linenum := 0 } 0
    refine ⟨s1, ⟨max n ((l :: ls).length + 1), fun fuel hf => ?_⟩, hg1, hbound⟩
    have := hrun fuel fuel (le_of_max_le_left hf) (le_of_max_le_right hf)
    rw [zero_add] at this
    exact this

set_option maxRecDepth 1000000 in
/-- C17 fails for a line that starts with a NUL character and for a line of
more than 255 characters.  Of the two lines `garbage` and `fire: key a`, the
read reports 1 error and installs the binding of the second line; with a NUL
character in front of `garbage` the read stops at that line, reports 0 errors
and installs nothing.  The sentence `fire: key a` with 250 blanks in front of
it, the only line of a stream, is cut after 255 characters: the read reports 1
error and installs nothing. -/
theorem nul_line_stops_read :
    VControl_ReadConfiguration noJoyHost aKeys 4 fireFresh
        { data := "garbage\nfire: key a\n".toList, eof := false } =
      .ok ((VControl_AddKeyBinding 1 fireFresh 97 100).storeD fireFresh, 1) ∧
    cell_bindings ((VControl_AddKeyBinding 1 fireFresh 97 100).storeD fireFresh) (.bucket 97) =
      [(100, 97)] ∧
    VControl_ReadConfiguration noJoyHost aKeys 4 fireFresh
        { data := NUL :: "garbage\nfire: key a\n".toList, eof := false } =
      .ok (fireFresh, 0) ∧
    cell_bindings fireFresh (.bucket 97) = [] ∧
    VControl_ReadConfiguration noJoyHost aKeys 4 fireFresh
        { data := List.replicate 250 ' ' ++ "fire: key a\n".toList, eof := false } =
      .ok (fireFresh, 1) := by
  decide

/-- C17, amended: in a good store of a host that opens its devices, with key
codes that have a bucket, `VControl_ReadConfiguration` returns on every stream
of lines that are each a sentence of the grammar in the range of the host, a
blank line or a line on which `parse_config_line` sets the error flag, with at
most 255 characters in front of the comment.  It returns the number of the
lines in error, and the bindings of the store after the read are those before
it and those of the sentences: a line in error installs no binding and does
not stop the lines after it from being read. -/
theorem read_counts_lines_in_error {host : Host} {keys : KeyNames}
    {table : List VControl_NameBinding} {s : Store} (hh : HostOpens host) (hk : KeysOK keys)
    (hg : Good host table s) (ls : List ConfigLine)
    (hls : ∀ l ∈ ls, l.OK host table keys) :
    ∃ s1,
      Returns (fun fuel => VControl_ReadConfiguration host keys fuel s
        { data := streamText ls, eof := false })
        (s1, ((ls.filter ConfigLine.isFlagged).length : Int)) ∧
      Good host table s1 ∧
      ∀ c t k, Bound s1 c t k ↔
        Bound s c t k ∨ ∃ l ∈ ls, ∃ cmd, l.command = some cmd ∧ cmd.binds c t k :=
  read_stream_runs hg ls fun l hl => (hls l hl).shape_runs hh hk

theorem read_counts_lines_in_error_witness :
    (HostOpens noJoyHost ∧ KeysOK aKeys ∧ Good noJoyHost fireTable fireFresh ∧
      ∀ l ∈ garbageLines, l.OK noJoyHost fireTable aKeys) ∧
    ∃ s1,
      Returns (fun fuel => VControl_ReadConfiguration noJoyHost aKeys fuel fireFresh
        { data := "fire: key a\ngarbage\nfire: KEY a # again".toList, eof := false })
        (s1, 1) ∧
      Good noJoyHost fireTable s1 ∧
      ∀ c t k, Bound s1 c t k ↔
        Bound fireFresh c t k ∨
          ∃ l ∈ garbageLines, ∃ cmd, l.command = some cmd ∧ cmd.binds c t k :=
  ⟨⟨hostOpens_noJoy, keysOK_aKeys, good_fireFresh, garbageLines_ok⟩,
    read_counts_lines_in_error hostOpens_noJoy keysOK_aKeys good_fireFresh garbageLines
      garbageLines_ok⟩

/-! ## Stores built by add-binding calls -/

theorem target2name_loop_zero : ∀ table : List VControl_NameBinding,
    target2name_loop table 0 = none
  | [] => rfl
  | b :: bs => by
    unfold target2name_loop
    by_cases h : b.target = 0
    · rw [if_pos h]
    · rw [if_neg h, if_neg (fun h' => h h'.symm)]
      exact target2name_loop_zero bs

theorem NamedTarget.ne_zero {table : List VControl_NameBinding} {t : Nat}
    (h : NamedTarget table t) : t ≠ 0 := by
  obtain ⟨nm, h1, _⟩ := h
  intro h0
  subst h0
  rw [target2name_loop_zero] at h1
  cases h1

/-- No binding is in the store that `key_init` leaves. -/
theorem not_bound_key_init (host : Host) (nt : Option (List VControl_NameBinding)) (c : Cell)
    (t : Nat) (k : Int) : ¬ Bound (key_init host nt) c t k := by
  rintro ⟨l, ⟨head, hr, ps, hch, hl, _⟩, hm⟩
  have := key_init_cell hr
  subst this
  cases hch
  subst hl
  cases hm

/-- The record that `open_port` returns with a count above an index is the
record of an opened device. -/
theorem open_port_caps {host : Host} {s s1 : Store} (hdev : DevicesOK host s) {p : Nat}
    {j : joystick} (ho : open_port host s p = .ok (s1, j)) (hst : j.stick = true) :
    ∃ caps, host.joystickOpen p = some caps ∧ j.numaxes = caps.axes ∧
      j.numbuttons = caps.buttons ∧ j.numhats = caps.hats := by
  obtain ⟨h1, h2⟩ := open_port_eq ho
  have hd : DevicesOK host s1 := by rw [h1]; exact hdev.create_shape p
  obtain ⟨caps, hc, ha, _, hb, _, hh, _⟩ := (hd.2 p j h2).2 hst
  exact ⟨caps, hc, ha, hb, hh⟩

theorem open_port_closed {host : Host} {s s1 : Store} (hdev : DevicesOK host s) {p : Nat}
    {j : joystick} (ho : open_port host s p = .ok (s1, j)) (hst : j.stick = false) :
    j.numaxes = 0 ∧ j.numbuttons = 0 ∧ s1.joysticks[p]? = some j ∧ j.hats = [] := by
  obtain ⟨h1, h2⟩ := open_port_eq ho
  have hd : DevicesOK host s1 := by rw [h1]; exact hdev.create_shape p
  obtain ⟨ha, hb, _, _, hh⟩ := (hd.2 p j h2).1 hst
  exact ⟨ha, hb, h2, hh⟩

theorem status0_ok {r : Res Store} {s1 : Store} {v : Int} (h : status0 r = .ok (s1, v)) :
    r = .ok s1 ∧ v = 0 := by
  cases r with
  | ok s => simp only [status0, Res.ok.injEq, Prod.mk.injEq] at h; exact ⟨by rw [h.1], h.2.symm⟩
  | fuel => cases h
  | fault => cases h

/-- An add-binding call that returns 0 in a good store is in the range of the
host. -/
theorem success_in_range {host : Host} {table : List VControl_NameBinding} {keys : KeyNames}
    {s s1 : Store} (hg : Good host table s) {cmd : Command} (hn : cmd.Named table keys)
    {fuel : Nat} (h : cmd.run host fuel s = .ok (s1, 0)) : cmd.Safe ∧ cmd.InRange host := by
  have hcount := hg.count
  cases cmd with
  | key target code =>
    refine ⟨⟨hn.1.ne_zero, ?_⟩, trivial⟩
    by_contra hneg
    have hlt : bucketIndex code < 0 := by omega
    have : VControl_AddKeyBinding fuel s code target = .fault := by
      unfold VControl_AddKeyBinding
      exact if_pos hlt
    have h' : VControl_AddKeyBinding fuel s code target = .ok (s1, 0) := h
    rw [this] at h'
    cases h'
  | axis target port a pol =>
    refine ⟨NamedTarget.ne_zero hn, ?_⟩
    have h' : VControl_AddJoyAxisBinding host fuel s port a pol target = .ok (s1, 0) := h
    unfold VControl_AddJoyAxisBinding at h'
    by_cases hp : 0 ≤ port ∧ port < s.joycount
    · rw [if_pos hp] at h'
      cases ho : open_port host s port.toNat with
      | fuel => rw [ho] at h'; cases h'
      | fault => rw [ho] at h'; cases h'
      | ok x =>
        obtain ⟨s2, j⟩ := x
        rw [ho] at h'
        simp only at h'
        by_cases ha : 0 ≤ a ∧ a < j.numaxes
        · rw [if_pos ha] at h'
          have hpol : pol ≠ 0 := by
            intro h0
            subst h0
            simp at h'
          cases hst : j.stick with
          | false =>
            have := (open_port_closed hg.devices ho hst).1
            omega
          | true =>
            obtain ⟨caps, hc, hax, _, _⟩ := open_port_caps hg.devices ho hst
            exact ⟨hp.1, by omega, hpol, caps, hc, ha.1, by omega⟩
        · rw [if_neg ha] at h'
          simp at h'
    · rw [if_neg hp] at h'
      simp at h'
  | button target port b =>
    refine ⟨NamedTarget.ne_zero hn, ?_⟩
    have h' : VControl_AddJoyButtonBinding host fuel s port b target = .ok (s1, 0) := h
    unfold VControl_AddJoyButtonBinding at h'
    by_cases hp : 0 ≤ port ∧ port < s.joycount
    · rw [if_pos hp] at h'
      cases ho : open_port host s port.toNat with
      | fuel => rw [ho] at h'; cases h'
      | fault => rw [ho] at h'; cases h'
      | ok x =>
        obtain ⟨s2, j⟩ := x
        rw [ho] at h'
        simp only at h'
        by_cases hb : 0 ≤ b ∧ b < j.numbuttons
        · cases hst : j.stick with
          | false =>
            have := (open_port_closed hg.devices ho hst).2.1
            omega
          | true =>
            obtain ⟨caps, hc, _, hbu, _⟩ := open_port_caps hg.devices ho hst
            exact ⟨hp.1, by omega, caps, hc, hb.1, by omega⟩
        · rw [if_neg hb] at h'
          simp at h'
    · rw [if_neg hp] at h'
      simp at h'
  | hat target port w dir =>
    refine ⟨NamedTarget.ne_zero hn, ?_⟩
    have h' : VControl_AddJoyHatBinding host fuel s port w dir target = .ok (s1, 0) := h
    unfold VControl_AddJoyHatBinding at h'
    by_cases hp : 0 ≤ port ∧ port < s.joycount
    · rw [if_pos hp] at h'
      cases ho : open_port host s port.toNat with
      | fuel => rw [ho] at h'; cases h'
      | fault => rw [ho] at h'; cases h'
      | ok x =>
        obtain ⟨s2, j⟩ := x
        rw [ho] at h'
        simp only at h'
        by_cases hw : 0 ≤ w ∧ w < j.numhats
        · rw [if_pos hw] at h'
          cases hd : hatDirOf dir with
          | none => rw [hd] at h'; simp at h'
          | some d =>
            rw [hd] at h'
            simp only at h'
            cases hst : j.stick with
            | false =>
              obtain ⟨_, _, hj, hh⟩ := open_port_closed hg.devices ho hst
              have hr : readCell s2 (.hat port.toNat w.toNat d) = .fault := by
                simp [readCell, hj, hh]
              have := (status0_ok h').1
              unfold add_at at this
              rw [hr] at this
              cases this
            | true =>
              obtain ⟨caps, hc, _, _, hha⟩ := open_port_caps hg.devices ho hst
              exact ⟨hp.1, by omega, ⟨d, hatDirOf_some hd⟩, caps, hc, hw.1, by omega⟩
        · rw [if_neg hw] at h'
          simp at h'
    · rw [if_neg hp] at h'
      simp at h'
  | threshold port t => exact absurd hn id

theorem Dumpable.of_fresh (host : Host) (table : List VControl_NameBinding) (keys : KeyNames) :
    Dumpable host table keys (VControl_RegisterNameTable (VControl_Init host) table) :=
  ⟨Good.fresh host table, fun c t k h => absurd h (not_bound_key_init host (some table) c t k)⟩

/-- An add-binding call with names that returns 0 keeps the store one that the
dump writes as lines that read back, and adds its binding. -/
theorem Dumpable.step {host : Host} {table : List VControl_NameBinding} {keys : KeyNames}
    {s s1 : Store} (hd : Dumpable host table keys s) {cmd : Command}
    (hn : cmd.Named table keys) (h : Returns (fun fuel => cmd.run host fuel s) (s1, 0)) :
    Dumpable host table keys s1 ∧
      ∀ c t k, Bound s1 c t k ↔ Bound s c t k ∨ cmd.binds c t k := by
  obtain ⟨n, hn0⟩ := h
  obtain ⟨hs, hr⟩ := success_in_range hd.1 hn (hn0 n (le_refl n))
  obtain ⟨s1', hret, hg1, _, _, _, hb⟩ := command_runs_in_range hd.1 cmd hs hr
  have he : (s1', (0 : Int)) = (s1, 0) := hret.unique_result ⟨n, hn0⟩
  have he' : s1' = s1 := congrArg Prod.fst he
  subst he'
  refine ⟨⟨hg1, fun c t k hbd => ?_⟩, hb rfl⟩
  rcases (hb rfl c t k).1 hbd with h0 | h0
  · exact hd.2 c t k h0
  · cases cmd with
    | key target code =>
      obtain ⟨rfl, rfl, rfl⟩ := h0
      exact ⟨hn.1, hn.2, hs.2, rfl⟩
    | axis target port a pol =>
      obtain ⟨rfl, rfl, rfl⟩ := h0
      exact ⟨hn, rfl⟩
    | button target port b =>
      obtain ⟨rfl, rfl, rfl⟩ := h0
      exact ⟨hn, rfl⟩
    | hat target port w dir =>
      obtain ⟨⟨d, _, rfl⟩, rfl, rfl⟩ := h0
      exact ⟨hn, rfl⟩
    | threshold port t => exact absurd hn id

/-- A store built by add-binding calls with names from a store that the dump
writes as lines that read back is such a store, and its bindings are those of
the first store and those of the calls. -/
theorem Built.dumpable {host : Host} {table : List VControl_NameBinding} {keys : KeyNames}
    {s s2 : Store} {cmds : List Command} (hb : Built host s cmds s2) :
    Dumpable host table keys s → (∀ cmd ∈ cmds, cmd.Named table keys) →
      Dumpable host table keys s2 ∧
        ∀ c t k, Bound s2 c t k ↔ Bound s c t k ∨ ∃ cmd ∈ cmds, cmd.binds c t k := by
  induction hb with
  | nil s => exact fun hd _ => ⟨hd, fun c t k => by simp⟩
  | step hret _ ih =>
    intro hd hn
    obtain ⟨hd1, hb1⟩ := hd.step (hn _ (List.mem_cons_self _ _)) hret
    obtain ⟨hd2, hb2⟩ := ih hd1 (fun cmd hc => hn cmd (List.mem_cons_of_mem _ hc))
    refine ⟨hd2, fun c t k => ?_⟩
    rw [hb2 c t k, hb1 c t k]
    simp only [List.mem_cons, exists_eq_or_imp, or_assoc]

/-! ## The lines that the dump writes -/

theorem fmt_d_isNum (n : Nat) (h : (n : Int) < 2 ^ 31) : IsNum (fmt_d (n : Int)) (n : Int) := by
  obtain ⟨ds, h1, h2, h3, h4, _⟩ := fmt_d_digits (n : Int)
  have hfmt : fmt_d (n : Int) = ds := by
    unfold fmt_d
    rw [if_neg (by omega)]
    exact h1
  rw [hfmt]
  refine ⟨h2, h3, ?_, h⟩
  rw [h4]
  simp

theorem fmt_d_nat_word (n : Nat) (h : (n : Int) < 2 ^ 31) :
    IsWord (fmt_d (n : Int)) ∧ (fmt_d (n : Int)).length ≤ 10 ∧
      ∀ c ∈ fmt_d (n : Int), c ≠ '\n' ∧ c ≠ '#' := by
  have hv : IsInt32 (n : Int) := ⟨by omega, h⟩
  obtain ⟨hw, hc⟩ := fmt_d_word hv
  obtain ⟨ds, h1, _, _, _, h5⟩ := fmt_d_digits (n : Int)
  have hfmt : fmt_d (n : Int) = ds := by
    unfold fmt_d
    rw [if_neg (by omega)]
    exact h1
  refine ⟨hw, ?_, fun c hcm => ⟨(hc c hcm).2, (hc c hcm).1⟩⟩
  rw [hfmt]
  exact h5 (by simp only [Int.natAbs_ofNat]; omega)

theorem plain_not_newline {w : List Char} (h : PlainChars w) :
    ∀ c ∈ w, c ≠ '\n' ∧ c ≠ '#' := by
  intro c hc
  obtain ⟨_, h2, h3⟩ := h c hc
  refine ⟨?_, h3⟩
  intro h0
  subst h0
  exact absurd h2 (by decide)

/-- Words with one blank between two of them are separated tokens. -/
theorem separated_words {w0 : List Char} {ws : List (List Char)} (h0 : IsWord w0)
    (hws : ∀ w ∈ ws, IsWord w) :
    Separated (([], w0) :: ws.map fun w => ([' '], w)) := by
  refine And.intro (fun c hc => by cases hc) (And.intro h0 (fun y hy => ?_))
  obtain ⟨w, hw, rfl⟩ := List.mem_map.1 hy
  refine And.intro (by simp) (And.intro (fun c hc => ?_) (hws w hw))
  have : c = ' ' := by simpa using hc
  subst this
  decide

theorem joined_words_length (ws : List (List Char)) :
    (joined (ws.map fun w => ([' '], w))).length = (ws.map fun w => w.length + 1).sum := by
  induction ws with
  | nil => rfl
  | cons w ws ih =>
    simp only [List.map_cons, joined, List.length_append, List.length_singleton, ih,
      List.sum_cons]
    omega

theorem joined_words_chars {ws : List (List Char)}
    (h : ∀ w ∈ ws, ∀ c ∈ w, c ≠ '\n' ∧ c ≠ '#') :
    ∀ c ∈ joined (ws.map fun w => ([' '], w)), c ≠ '\n' ∧ c ≠ '#' := by
  induction ws with
  | nil => intro c hc; cases hc
  | cons w ws ih =>
    intro c hc
    simp only [List.map_cons, joined, List.mem_append, List.mem_singleton] at hc
    rcases hc with rfl | hc | hc
    · exact ⟨by decide, by decide⟩
    · exact h w (List.mem_cons_self _ _) c hc
    · exact ih (fun w' hw' => h w' (List.mem_cons_of_mem _ hw')) c hc

/-- The shape of a line of words with one blank between two of them. -/
theorem words_line_shape {w0 : List Char} {ws : List (List Char)} (cmd : Command)
    (hlen : w0.length + (ws.map fun w => w.length + 1).sum ≤ LINE_SIZE - 1)
    (hch : ∀ w ∈ w0 :: ws, ∀ c ∈ w, c ≠ '\n' ∧ c ≠ '#') :
    (ConfigLine.binding (([], w0) :: ws.map fun w => ([' '], w)) [] cmd []).Shape := by
  refine ⟨?_, ?_, Or.inl rfl, fun c hc => by cases hc⟩
  · simp only [ConfigLine.content, joined, List.nil_append, List.append_nil, List.length_append,
      joined_words_length]
    exact hlen
  · intro c hc
    simp only [ConfigLine.content, joined, List.nil_append, List.append_nil,
      List.mem_append] at hc
    rcases hc with hc | hc
    · exact hch w0 (List.mem_cons_self _ _) c hc
    · exact joined_words_chars (fun w hw => hch w (List.mem_cons_of_mem _ hw)) c hc

/-- A line of words with one blank between two of them that is a sentence of
the grammar for a command in the range of the host reads as that command. -/
theorem words_line_runs {host : Host} {keys : KeyNames} {table : List VControl_NameBinding}
    {w0 : List Char} {ws : List (List Char)} {cmd : Command} (h0 : IsWord w0)
    (hws : ∀ w ∈ ws, IsWord w) (hsent : Sentence table keys (w0 :: ws) cmd)
    (hs : cmd.Safe) (hr : cmd.InRange host) :
    (ConfigLine.binding (([], w0) :: ws.map fun w => ([' '], w)) [] cmd []).Runs
      host keys table := by
  have hsep := separated_words h0 hws
  refine binding_line_runs hsep (List.cons_ne_nil _ _) (fun s hn linenum fuel => ?_) hs hr []
  refine parse_sentence host keys hn hsep (fun c hc => by cases hc) ?_ _ [] false linenum fuel
  have e : (([], w0) :: ws.map fun w => (([' '] : List Char), w)).map Prod.snd = w0 :: ws := by
    simp only [List.map_cons, List.map_map, List.cons.injEq, true_and]
    exact List.map_id' _
  rw [e]
  exact hsent

theorem word_joystick : IsWord "joystick".toList ∧ "joystick".toList.length ≤ 10 ∧
    ∀ c ∈ "joystick".toList, c ≠ '\n' ∧ c ≠ '#' := by
  simp only [IsWord]
  decide

theorem key_line_fine {host : Host} {keys : KeyNames} {table : List VControl_NameBinding}
    {i : Nat} {t : Nat} {k : Int} (ht : NamedTarget table t)
    (hk : CellKey keys (.bucket i) k) : LineFine host keys table (.bucket i) (t, k) := by
  obtain ⟨nm, h1, h2, h3, h4⟩ := ht
  obtain ⟨⟨hk0, kn, hk1, hk2, hk3, hk4, hk5⟩, hb0, hbi⟩ := hk
  have hline : bindingLine table keys (.bucket i) (t, k) =
      .binding (([], nm ++ [':']) :: ["key".toList, kn].map fun w => ([' '], w)) []
        (.key t k) [] := by
    simp only [bindingLine, h1, hk1, Option.getD_some, cellWords, cellCommand]
  have hw0 := PlainChars.word_colon h3 h4
  have hwk : IsWord kn := PlainChars.word hk4 hk3 (by simp only [TOKEN_SIZE]; omega)
  have hws : ∀ w ∈ ["key".toList, kn], IsWord w := by
    intro w hw
    simp only [List.mem_cons, List.mem_singleton, List.not_mem_nil, or_false] at hw
    rcases hw with rfl | rfl
    · simp only [IsWord]; decide
    · exact hwk
  have ht0 : t ≠ 0 := NamedTarget.ne_zero ⟨nm, h1, h2, h3, h4⟩
  have hsent : Sentence table keys [nm ++ [':'], "key".toList, kn] (.key t k) := by
    have := @Sentence.key table keys nm "key".toList kn (by rw [h2]; exact ht0) (by decide)
      (by rw [hk2]; exact hk0)
    rw [h2, hk2] at this
    exact this
  refine ⟨?_, ?_, ?_, fun c' t' k' => ?_⟩
  · rw [hline]
    simp only [linesText, ConfigLine.content, ConfigLine.comment, joined, entryText, h1, hk1,
      Option.getD_some, if_neg hk0, List.map_cons, List.map_nil]
    simp
  · rw [hline]
    refine words_line_shape _ ?_ ?_
    · simp only [List.map_cons, List.map_nil, List.sum_cons, List.sum_nil, List.length_append,
        List.length_singleton, LINE_SIZE, TOKEN_SIZE] at h4 ⊢
      have : "key".toList.length = 3 := rfl
      omega
    · intro w hw c hc
      simp only [List.mem_cons, List.mem_singleton, List.not_mem_nil, or_false] at hw
      rcases hw with rfl | rfl | rfl
      · rcases List.mem_append.1 hc with hc | hc
        · exact plain_not_newline h3 c hc
        · have : c = ':' := by simpa using hc
          subst this
          exact ⟨by decide, by decide⟩
      · revert c
        decide
      · exact plain_not_newline hk4 c hc
  · rw [hline]
    exact words_line_runs hw0 hws hsent ⟨ht0, hb0⟩ trivial
  · simp only [cellCommand, Command.binds, hbi]

theorem joy_words_fine {host : Host} {keys : KeyNames} {table : List VControl_NameBinding}
    {c : Cell} {t : Nat} {ws : List (List Char)} {cmd : Command} (ht : NamedTarget table t)
    (hcw : ∀ kn, cellWords kn c = ws) (hcc : cellCommand t SDLK_UNKNOWN c = cmd)
    (hname : cellName c = (joined (ws.map fun w => ([' '], w))).tail)
    (hws : ∀ w ∈ ws, IsWord w ∧ w.length ≤ 10 ∧ ∀ x ∈ w, x ≠ '\n' ∧ x ≠ '#')
    (hlen : ws.length ≤ 5) (hne : ws ≠ [])
    (hsent : ∀ nm, name2target_loop table nm = t →
      Sentence table keys ((nm ++ [':']) :: ws) cmd)
    (hr : cmd.InRange host) (hs : cmd.Safe)
    (hb : ∀ c' t' k', cmd.binds c' t' k' ↔ c' = c ∧ t' = t ∧ k' = SDLK_UNKNOWN) :
    LineFine host keys table c (t, SDLK_UNKNOWN) := by
  obtain ⟨nm, h1, h2, h3, h4⟩ := ht
  have hline : bindingLine table keys c (t, SDLK_UNKNOWN) =
      .binding (([], nm ++ [':']) :: ws.map fun w => ([' '], w)) [] cmd [] := by
    simp only [bindingLine, h1, Option.getD_some, hcw, hcc]
  have hw0 := PlainChars.word_colon h3 h4
  have hsum : ∀ l : List (List Char), (∀ w ∈ l, w.length ≤ 10) →
      (l.map fun w => w.length + 1).sum ≤ 11 * l.length := by
    intro l
    induction l with
    | nil => intro _; simp
    | cons w l ih =>
      intro h
      have := h w (List.mem_cons_self _ _)
      have := ih (fun w' hw' => h w' (List.mem_cons_of_mem _ hw'))
      simp only [List.map_cons, List.sum_cons, List.length_cons]
      omega
  refine ⟨?_, ?_, ?_, ?_⟩
  · rw [hline]
    simp only [linesText, ConfigLine.content, ConfigLine.comment, joined, entryText, h1,
      Option.getD_some, if_true, hname]
    cases ws with
    | nil => exact absurd rfl hne
    | cons w ws => simp [joined]
  · rw [hline]
    refine words_line_shape _ ?_ ?_
    · have := hsum ws (fun w hw => (hws w hw).2.1)
      simp only [List.length_append, List.length_singleton, LINE_SIZE, TOKEN_SIZE] at h4 ⊢
      omega
    · intro w hw c hc
      rcases List.mem_cons.1 hw with rfl | hw
      · rcases List.mem_append.1 hc with hc | hc
        · exact plain_not_newline h3 c hc
        · have : c = ':' := by simpa using hc
          subst this
          exact ⟨by decide, by decide⟩
      · exact (hws w hw).2.2 c hc
  · rw [hline]
    exact words_line_runs hw0 (fun w hw => (hws w hw).1) (hsent nm h2) hs hr
  · intro c' t' k'
    rw [hcc]
    exact hb c' t' k'

theorem literal_words :
    (∀ w ∈ ["joystick".toList, "axis".toList, "button".toList, "hat".toList,
        "positive".toList, "negative".toList, "left".toList, "right".toList, "up".toList,
        "down".toList, "threshold".toList],
      IsWord w ∧ w.length ≤ 10 ∧ ∀ x ∈ w, x ≠ '\n' ∧ x ≠ '#') := by
  simp only [IsWord]
  decide

theorem axis_line_fine {host : Host} {keys : KeyNames} {table : List VControl_NameBinding}
    (hf : HostFits host) {p a : Nat} {positive : Bool} {t : Nat}
    (hc : CellInRange host (.axis p a positive)) (ht : NamedTarget table t) :
    LineFine host keys table (.axis p a positive) (t, SDLK_UNKNOWN) := by
  obtain ⟨hp, caps, hcaps, ha⟩ := hc
  obtain ⟨hf1, hf2, _⟩ := hf
  have hpi : (p : Int) < 2 ^ 31 := by omega
  have hai : (a : Int) < 2 ^ 31 := by have := (hf2 p caps hcaps).1; omega
  have hlit := literal_words
  have hwp := fmt_d_nat_word p hpi
  have hwa := fmt_d_nat_word a hai
  refine @joy_words_fine host keys table _ _
    (["joystick".toList, fmt_d p, "axis".toList, fmt_d a,
      if positive then "positive".toList else "negative".toList]) _ ht
    (fun _ => rfl) rfl ?_ ?_ (by simp) (by simp) (fun nm hnm => ?_) ?_ ht.ne_zero ?_
  · cases positive <;> simp [cellName, joined]
  · intro w hw
    simp only [List.mem_cons, List.mem_singleton, List.not_mem_nil, or_false] at hw
    rcases hw with rfl | rfl | rfl | rfl | rfl
    · exact hlit _ (by simp)
    · exact hwp
    · exact hlit _ (by simp)
    · exact hwa
    · cases positive
      · exact hlit _ (by simp)
      · exact hlit _ (by simp)
  · have := @Sentence.axis table keys nm "joystick".toList (fmt_d p) "axis".toList (fmt_d a)
      (if positive then "positive".toList else "negative".toList) p a
      (if positive then 1 else -1) (by rw [hnm]; exact ht.ne_zero) (by decide)
      (fmt_d_isNum p hpi) (by decide) (fmt_d_isNum a hai)
      (by cases positive
          · exact Or.inr ⟨by decide, rfl⟩
          · exact Or.inl ⟨by decide, rfl⟩)
    rw [hnm] at this
    exact this
  · refine ⟨by omega, by omega, by cases positive <;> simp, caps, by simpa using hcaps,
      by omega, by omega⟩
  · intro c' t' k'
    simp only [cellCommand, Command.binds, Int.toNat_ofNat]
    cases positive <;> simp

theorem button_line_fine {host : Host} {keys : KeyNames} {table : List VControl_NameBinding}
    (hf : HostFits host) {p b : Nat} {t : Nat}
    (hc : CellInRange host (.button p b)) (ht : NamedTarget table t) :
    LineFine host keys table (.button p b) (t, SDLK_UNKNOWN) := by
  obtain ⟨hp, caps, hcaps, hb⟩ := hc
  obtain ⟨hf1, hf2, _⟩ := hf
  have hpi : (p : Int) < 2 ^ 31 := by omega
  have hbi : (b : Int) < 2 ^ 31 := by have := (hf2 p caps hcaps).2.1; omega
  have hlit := literal_words
  have hwp := fmt_d_nat_word p hpi
  have hwb := fmt_d_nat_word b hbi
  refine @joy_words_fine host keys table _ _
    (["joystick".toList, fmt_d p, "button".toList, fmt_d b]) _ ht
    (fun _ => rfl) rfl ?_ ?_ (by simp) (by simp) (fun nm hnm => ?_) ?_ ht.ne_zero ?_
  · simp [cellName, joined]
  · intro w hw
    simp only [List.mem_cons, List.mem_singleton, List.not_mem_nil, or_false] at hw
    rcases hw with rfl | rfl | rfl | rfl
    · exact hlit _ (by simp)
    · exact hwp
    · exact hlit _ (by simp)
    · exact hwb
  · have := @Sentence.button table keys nm "joystick".toList (fmt_d p) "button".toList
      (fmt_d b) p b (by rw [hnm]; exact ht.ne_zero) (by decide)
      (fmt_d_isNum p hpi) (by decide) (fmt_d_isNum b hbi)
    rw [hnm] at this
    exact this
  · exact ⟨by omega, by omega, caps, by simpa using hcaps, by omega, by omega⟩
  · intro c' t' k'
    simp only [cellCommand, Command.binds, Int.toNat_ofNat]

theorem hat_line_fine {host : Host} {keys : KeyNames} {table : List VControl_NameBinding}
    (hf : HostFits host) {p h : Nat} {d : HatDir} {t : Nat}
    (hc : CellInRange host (.hat p h d)) (ht : NamedTarget table t) :
    LineFine host keys table (.hat p h d) (t, SDLK_UNKNOWN) := by
  obtain ⟨hp, caps, hcaps, hh⟩ := hc
  obtain ⟨hf1, hf2, _⟩ := hf
  have hpi : (p : Int) < 2 ^ 31 := by omega
  have hhi : (h : Int) < 2 ^ 31 := by have := (hf2 p caps hcaps).2.2; omega
  have hlit := literal_words
  have hwp := fmt_d_nat_word p hpi
  have hwh := fmt_d_nat_word h hhi
  refine @joy_words_fine host keys table _ _
    (["joystick".toList, fmt_d p, "hat".toList, fmt_d h, dirName d]) _ ht
    (fun _ => rfl) rfl ?_ ?_ (by simp) (by simp) (fun nm hnm => ?_) ?_ ht.ne_zero ?_
  · simp [cellName, joined]
  · intro w hw
    simp only [List.mem_cons, List.mem_singleton, List.not_mem_nil, or_false] at hw
    rcases hw with rfl | rfl | rfl | rfl | rfl
    · exact hlit _ (by simp)
    · exact hwp
    · exact hlit _ (by simp)
    · exact hwh
    · cases d <;> exact hlit _ (by simp [dirName])
  · have := @Sentence.hat table keys nm "joystick".toList (fmt_d p) "hat".toList (fmt_d h)
      (dirName d) p h d (by rw [hnm]; exact ht.ne_zero) (by decide)
      (fmt_d_isNum p hpi) (by decide) (fmt_d_isNum h hhi)
      (by cases d
          · exact Or.inl ⟨by decide, rfl⟩
          · exact Or.inr (Or.inl ⟨by decide, rfl⟩)
          · exact Or.inr (Or.inr (Or.inl ⟨by decide, rfl⟩))
          · exact Or.inr (Or.inr (Or.inr ⟨by decide, rfl⟩)))
    rw [hnm] at this
    exact this
  · exact ⟨by omega, by omega, ⟨d, rfl⟩, caps, by simpa using hcaps, by omega, by omega⟩
  · intro c' t' k'
    simp only [cellCommand, Command.binds, Int.toNat_ofNat]
    constructor
    · rintro ⟨⟨d', hd, rfl⟩, rfl, rfl⟩
      have : d' = d := by cases d <;> cases d' <;> first | rfl | exact absurd hd (by decide)
      subst this
      exact ⟨rfl, rfl, rfl⟩
    · rintro ⟨rfl, rfl, rfl⟩
      exact ⟨⟨d, rfl, rfl⟩, rfl, rfl⟩

/-- The line of a binding that the store of a host can hold in a cell reads
back as the binding. -/
theorem line_fine {host : Host} {keys : KeyNames} {table : List VControl_NameBinding}
    (hf : HostFits host) {c : Cell} (hc : CellInRange host c) {t : Nat} {k : Int}
    (ht : NamedTarget table t) (hk : CellKey keys c k) : LineFine host keys table c (t, k) := by
  cases c with
  | bucket i => exact key_line_fine ht hk
  | axis p a positive =>
    have : k = SDLK_UNKNOWN := hk
    subst this
    exact axis_line_fine hf hc ht
  | button p b =>
    have : k = SDLK_UNKNOWN := hk
    subst this
    exact button_line_fine hf hc ht
  | hat p h d =>
    have : k = SDLK_UNKNOWN := hk
    subst this
    exact hat_line_fine hf hc ht

/-! ## What the dump writes for a chain -/

theorem dump_keybindings_chain {keys : KeyNames} {s : Store}
    {table : List VControl_NameBinding} (hn : s.nametable = some table) (name : List Char) :
    ∀ {head : Option Ptr} {ps : List (Ptr × keybinding)}, Chain s.pool head ps →
      (∀ x ∈ ps, (∃ nm, target2name_loop table x.2.target = some nm) ∧
        (x.2.keycode ≠ SDLK_UNKNOWN →
          ∃ kn, keys.code2name x.2.keycode = some kn ∧ kn.length ≤ 59)) →
      ∀ fuel, ps.length ≤ fuel →
        dump_keybindings keys s name fuel head =
          .ok (chainText table keys name (ps.map fun x => x.2.pair)) := by
  intro head ps hch
  induction hch with
  | nil =>
    intro _ fuel _
    cases fuel <;> rfl
  | @cons p b l hs _ ih =>
    intro hall fuel hfuel
    obtain ⟨n, rfl⟩ : ∃ n, fuel = n + 1 :=
      ⟨fuel - 1, by simp only [List.length_cons] at hfuel; omega⟩
    obtain ⟨⟨nm, hnm⟩, hkey⟩ := hall (p, b) (List.mem_cons_self _ _)
    have hrest := ih (fun x hx => hall x (List.mem_cons_of_mem _ hx)) n
      (by simp only [List.length_cons] at hfuel; omega)
    have ht : target2name s b.target = .ok (some nm) := by
      simp only [target2name, hn, hnm]
    simp only [dump_keybindings, hs, Res.bind, ht, hrest, List.map_cons, chainText, entryText,
      keybinding.pair, hnm, Option.getD_some]
    by_cases hk : b.keycode = SDLK_UNKNOWN
    · simp only [hk, if_true, Res.bind]
    · obtain ⟨kn, hkn, hlen⟩ := hkey hk
      simp only [hk, if_false, hkn, Option.getD_some, if_neg (by omega : ¬ 59 < kn.length),
        Res.bind]

theorem chainText_lines {host : Host} {keys : KeyNames} {table : List VControl_NameBinding}
    (c : Cell) : ∀ l : List (Nat × Int), (∀ b ∈ l, LineFine host keys table c b) →
      chainText table keys (cellName c) l = linesText (l.map (bindingLine table keys c))
  | [], _ => rfl
  | b :: bs, h => by
    have h1 := (h b (List.mem_cons_self _ _)).1
    have h2 := chainText_lines c bs (fun x hx => h x (List.mem_cons_of_mem _ hx))
    simp only [chainText, List.map_cons, linesText, h2, ← h1, List.append_nil,
      List.append_assoc, List.singleton_append]

/-- A cell that a good store of the host can read is a cell of the host. -/
theorem readCell_in_range {host : Host} {table : List VControl_NameBinding} {s : Store}
    (hg : Good host table s) {c : Cell} {head : Option Ptr} (hr : readCell s c = .ok head) :
    CellInRange host c := by
  have hcount := hg.count
  have hlen := hg.devices.1
  have hdev : ∀ {p : Nat} {j : joystick}, s.joysticks[p]? = some j →
      p < host.numJoysticks ∧ ((j.axes ≠ [] ∨ j.buttons ≠ [] ∨ j.hats ≠ []) →
        ∃ caps, host.joystickOpen p = some caps ∧ j.axes.length = caps.axes ∧
          j.buttons.length = caps.buttons ∧ j.hats.length = caps.hats) := by
    intro p j hj
    have hp := getElem?_lt_of_eq_some hj
    refine ⟨by omega, fun hne => ?_⟩
    cases hst : j.stick with
    | false =>
      obtain ⟨_, _, h1, h2, h3⟩ := (hg.devices.2 p j hj).1 hst
      rcases hne with h | h | h
      · exact absurd h1 h
      · exact absurd h2 h
      · exact absurd h3 h
    | true =>
      obtain ⟨caps, hc, _, h1, _, h2, _, h3⟩ := (hg.devices.2 p j hj).2 hst
      exact ⟨caps, hc, h1, h2, h3⟩
  cases c with
  | bucket i =>
    simp only [readCell] at hr
    cases hb : s.bindings[i]? with
    | none => rw [hb] at hr; cases hr
    | some x =>
      have := getElem?_lt_of_eq_some hb
      have := hg.buckets
      show i < KEYBOARD_INPUT_BUCKETS
      omega
  | axis p a positive =>
    cases hj : s.joysticks[p]? with
    | none => simp [readCell, hj] at hr
    | some j =>
      cases hx : j.axes[a]? with
      | none => simp [readCell, hj, hx, Res.ofOption] at hr
      | some x =>
        have ha := getElem?_lt_of_eq_some hx
        obtain ⟨hp, hcaps⟩ := hdev hj
        obtain ⟨caps, hc, h1, _, _⟩ := hcaps (Or.inl (by
          intro h; rw [h] at ha; exact absurd ha (Nat.not_lt_zero _)))
        exact ⟨hp, caps, hc, by omega⟩
  | button p b =>
    cases hj : s.joysticks[p]? with
    | none => simp [readCell, hj] at hr
    | some j =>
      cases hx : j.buttons[b]? with
      | none => simp [readCell, hj, hx, Res.ofOption] at hr
      | some x =>
        have hb := getElem?_lt_of_eq_some hx
        obtain ⟨hp, hcaps⟩ := hdev hj
        obtain ⟨caps, hc, _, h2, _⟩ := hcaps (Or.inr (Or.inl (by
          intro h; rw [h] at hb; exact absurd hb (Nat.not_lt_zero _))))
        exact ⟨hp, caps, hc, by omega⟩
  | hat p h d =>
    cases hj : s.joysticks[p]? with
    | none => simp [readCell, hj] at hr
    | some j =>
      cases hx : j.hats[h]? with
      | none => simp [readCell, hj, hx, Res.ofOption] at hr
      | some x =>
        have hh := getElem?_lt_of_eq_some hx
        obtain ⟨hp, hcaps⟩ := hdev hj
        obtain ⟨caps, hc, _, _, h3⟩ := hcaps (Or.inr (Or.inr (by
          intro h'; rw [h'] at hh; exact absurd hh (Nat.not_lt_zero _))))
        exact ⟨hp, caps, hc, by omega⟩

/-- The dump of the chain of a cell: `dump_keybindings` returns, and writes
lines that read back as the bindings of the cell. -/
theorem dump_cell {host : Host} {keys : KeyNames} {table : List VControl_NameBinding}
    {s : Store} (hd : Dumpable host table keys s) (hf : HostFits host) {c : Cell}
    {head : Option Ptr} (hr : readCell s c = .ok head) :
    ∃ text, Returns (fun fuel => dump_keybindings keys s (cellName c) fuel head) text ∧
      Renders host keys table s (fun c' => c' = c) text := by
  obtain ⟨l, ps, hch, hl, hnz⟩ := hd.1.inv.chains c head hr
  have hold : HoldsChain s c l := ⟨head, hr, ps, hch, hl, hnz⟩
  have hcr := readCell_in_range hd.1 hr
  have hfine : ∀ b ∈ l, LineFine host keys table c b := by
    intro b hb
    obtain ⟨ht, hk⟩ := hd.2 c b.1 b.2 ⟨l, hold, hb⟩
    exact line_fine hf hcr ht hk
  have hall : ∀ x ∈ ps, (∃ nm, target2name_loop table x.2.target = some nm) ∧
      (x.2.keycode ≠ SDLK_UNKNOWN →
        ∃ kn, keys.code2name x.2.keycode = some kn ∧ kn.length ≤ 59) := by
    intro x hx
    have hb : x.2.pair ∈ l := by
      rw [← hl]
      exact List.mem_map_of_mem _ hx
    obtain ⟨⟨nm, h1, _⟩, hk⟩ := hd.2 c x.2.pair.1 x.2.pair.2 ⟨l, hold, hb⟩
    refine ⟨⟨nm, h1⟩, fun hne => ?_⟩
    cases c with
    | bucket i =>
      obtain ⟨⟨_, kn, hk1, _, _, _, hk5⟩, _⟩ := hk
      exact ⟨kn, hk1, hk5⟩
    | axis p a positive => exact absurd hk hne
    | button p b => exact absurd hk hne
    | hat p h d => exact absurd hk hne
  refine ⟨linesText (l.map (bindingLine table keys c)), ⟨ps.length, fun fuel hfuel => ?_⟩,
    l.map (bindingLine table keys c), rfl, fun x hx => ?_, fun c' t k => ?_⟩
  · show dump_keybindings keys s (cellName c) fuel head = _
    rw [dump_keybindings_chain hd.1.names (cellName c) hch hall fuel hfuel, hl,
      chainText_lines c l hfine]
  · obtain ⟨b, hb, rfl⟩ := List.mem_map.1 hx
    exact ⟨(hfine b hb).2.1, (hfine b hb).2.2.1, rfl⟩
  · constructor
    · rintro ⟨rfl, l', hl', hm⟩
      have := hl'.unique_pairs hold
      subst this
      exact ⟨bindingLine table keys c' (t, k), List.mem_map_of_mem _ hm, _, rfl,
        ((hfine (t, k) hm).2.2.2 c' t k).2 ⟨rfl, rfl, rfl⟩⟩
    · rintro ⟨x, hx, cmd, hcmd, hbinds⟩
      obtain ⟨b, hb, rfl⟩ := List.mem_map.1 hx
      have : cmd = cellCommand b.1 b.2 c := by
        simp only [bindingLine, ConfigLine.command, Option.some.injEq] at hcmd
        exact hcmd.symm
      subst this
      obtain ⟨rfl, rfl, rfl⟩ := ((hfine b hb).2.2.2 c' t k).1 hbinds
      exact ⟨rfl, l, hold, hb⟩

/-! ## Texts of lines that read back -/

theorem linesText_append (a b : List ConfigLine) :
    linesText (a ++ b) = linesText a ++ linesText b := by
  induction a with
  | nil => rfl
  | cons x a ih =>
    show linesText (x :: (a ++ b)) = linesText (x :: a) ++ linesText b
    simp only [linesText, ih, List.append_assoc, List.cons_append]

theorem Renders.append {host : Host} {keys : KeyNames} {table : List VControl_NameBinding}
    {s : Store} {P1 P2 : Cell → Prop} {t1 t2 : List Char}
    (h1 : Renders host keys table s P1 t1) (h2 : Renders host keys table s P2 t2) :
    Renders host keys table s (fun c => P1 c ∨ P2 c) (t1 ++ t2) := by
  obtain ⟨l1, e1, f1, b1⟩ := h1
  obtain ⟨l2, e2, f2, b2⟩ := h2
  refine ⟨l1 ++ l2, by rw [linesText_append, e1, e2], fun x hx => ?_, fun c t k => ?_⟩
  · rcases List.mem_append.1 hx with hx | hx
    · exact f1 x hx
    · exact f2 x hx
  · constructor
    · rintro ⟨hp | hp, hb⟩
      · obtain ⟨x, hx, h⟩ := (b1 c t k).1 ⟨hp, hb⟩
        exact ⟨x, List.mem_append_left _ hx, h⟩
      · obtain ⟨x, hx, h⟩ := (b2 c t k).1 ⟨hp, hb⟩
        exact ⟨x, List.mem_append_right _ hx, h⟩
    · rintro ⟨x, hx, h⟩
      rcases List.mem_append.1 hx with hx | hx
      · obtain ⟨hp, hb⟩ := (b1 c t k).2 ⟨x, hx, h⟩
        exact ⟨Or.inl hp, hb⟩
      · obtain ⟨hp, hb⟩ := (b2 c t k).2 ⟨x, hx, h⟩
        exact ⟨Or.inr hp, hb⟩

theorem Renders.of_iff {host : Host} {keys : KeyNames} {table : List VControl_NameBinding}
    {s : Store} {P P1 : Cell → Prop} {text : List Char}
    (h : Renders host keys table s P text)
    (hp : ∀ c t k, Bound s c t k → (P1 c ↔ P c)) :
    Renders host keys table s P1 text := by
  obtain ⟨l, e, f, b⟩ := h
  refine ⟨l, e, f, fun c t k => ?_⟩
  rw [← b c t k]
  constructor
  · rintro ⟨h1, hb⟩
    exact ⟨(hp c t k hb).1 h1, hb⟩
  · rintro ⟨h1, hb⟩
    exact ⟨(hp c t k hb).2 h1, hb⟩

theorem Renders.empty {host : Host} {keys : KeyNames} {table : List VControl_NameBinding}
    {s : Store} {P : Cell → Prop} (h : ∀ c t k, P c → ¬ Bound s c t k) :
    Renders host keys table s P [] := by
  refine ⟨[], rfl, fun x hx => absurd hx (List.not_mem_nil x), fun c t k => ?_⟩
  constructor
  · rintro ⟨hp, hb⟩
    exact absurd hb (h c t k hp)
  · rintro ⟨x, hx, _⟩
    exact absurd hx (List.not_mem_nil x)

/-- The line `joystick p threshold t` reads back and binds nothing. -/
theorem threshold_line_renders {host : Host} {keys : KeyNames}
    {table : List VControl_NameBinding} (s : Store) (hf : HostFits host) {p : Nat}
    (hp : p < host.numJoysticks) {t : Int} (ht : IsInt32 t) :
    Renders host keys table s (fun _ => False)
      ("joystick ".toList ++ fmt_d p ++ " threshold ".toList ++ fmt_d t ++ ['\n']) := by
  have hpi : (p : Int) < 2 ^ 31 := by have := hf.1; omega
  have hlit := literal_words
  have hwp := fmt_d_nat_word p hpi
  obtain ⟨hwt, hct⟩ := fmt_d_word ht
  have hws : ∀ w ∈ [fmt_d p, "threshold".toList, fmt_d t], IsWord w := by
    intro w hw
    simp only [List.mem_cons, List.mem_singleton, List.not_mem_nil, or_false] at hw
    rcases hw with rfl | rfl | rfl
    · exact hwp.1
    · exact (hlit _ (by simp)).1
    · exact hwt
  have hsep := separated_words (hlit "joystick".toList (by simp)).1 hws
  have hline : thresholdLine p t =
      .binding (([], "joystick".toList) ::
        [fmt_d p, "threshold".toList, fmt_d t].map fun w => ([' '], w)) []
        (.threshold p t) [] := rfl
  refine ⟨[thresholdLine p t], ?_, fun x hx => ?_, fun c t' k => ?_⟩
  · simp [linesText, thresholdLine, ConfigLine.content, ConfigLine.comment, joined]
  · have : x = thresholdLine p t := by simpa using hx
    subst this
    refine ⟨?_, ?_, rfl⟩
    · rw [hline]
      refine words_line_shape _ ?_ ?_
      · have h1 := hwp.2.1
        have h2 := hwt.2.1
        simp only [List.map_cons, List.map_nil, List.sum_cons, List.sum_nil, LINE_SIZE,
          TOKEN_SIZE] at h2 ⊢
        have : "joystick".toList.length = 8 := rfl
        have : "threshold".toList.length = 9 := rfl
        omega
      · intro w hw c hc
        simp only [List.mem_cons, List.mem_singleton, List.not_mem_nil, or_false] at hw
        rcases hw with rfl | rfl | rfl | rfl
        · exact (hlit _ (by simp)).2.2 c hc
        · exact hwp.2.2 c hc
        · exact (hlit _ (by simp)).2.2 c hc
        · exact ⟨(hct c hc).2, (hct c hc).1⟩
    · rw [hline]
      refine @binding_line_runs host keys table _ [] (.threshold p t) hsep
        (List.cons_ne_nil _ _) (fun s1 _ linenum fuel => ?_) trivial ⟨by omega, by omega⟩ []
      exact parse_threshold_line host keys s1 hsep (fun c hc => by cases hc) (by decide)
        (fmt_d_isNum p hpi) (by decide) ⟨strtol_fmt_d ht, toInt32_of_int32 ht⟩ _ [] false
        linenum fuel
  · constructor
    · rintro ⟨h, _⟩
      exact absurd h id
    · rintro ⟨x, hx, cmd, hcmd, hb⟩
      have : x = thresholdLine p t := by simpa using hx
      subst this
      simp only [thresholdLine, ConfigLine.command, Option.some.injEq] at hcmd
      subst hcmd
      exact absurd hb id

theorem Returns.append2 {f g : Nat → Res (List Char)} {a b : List Char} (hf : Returns f a)
    (hg : Returns g b) :
    Returns (fun n => (f n).bind fun t => (g n).bind fun r => .ok (t ++ r)) (a ++ b) := by
  obtain ⟨n1, h1⟩ := hf
  obtain ⟨n2, h2⟩ := hg
  refine ⟨max n1 n2, fun fuel h => ?_⟩
  simp only [h1 fuel (le_of_max_le_left h), h2 fuel (le_of_max_le_right h), Res.bind]

/-- The first loop of `VControl_Dump` on the buckets from the bucket `i` on. -/
theorem dump_buckets_renders {host : Host} {keys : KeyNames}
    {table : List VControl_NameBinding} {s : Store} (hd : Dumpable host table keys s)
    (hf : HostFits host) :
    ∀ (heads : List (Option Ptr)) (i : Nat),
      (∀ j h, heads[j]? = some h → readCell s (.bucket (i + j)) = .ok h) →
      ∃ text, Returns (fun fuel => dump_buckets keys s fuel heads) text ∧
        Renders host keys table s (fun c => ∃ j, j < heads.length ∧ c = .bucket (i + j))
          text := by
  intro heads
  induction heads with
  | nil =>
    intro i _
    exact ⟨[], ⟨0, fun _ _ => rfl⟩, Renders.empty (fun c t k ⟨j, hj, _⟩ => by cases hj)⟩
  | cons kb kbs ih =>
    intro i hcells
    obtain ⟨t1, hr1, hren1⟩ := dump_cell hd hf (hcells 0 kb (by simp))
    obtain ⟨t2, hr2, hren2⟩ := ih (i + 1) (fun j h hj => by
      have := hcells (j + 1) h (by simpa using hj)
      rw [show i + 1 + j = i + (j + 1) by omega]
      exact this)
    refine ⟨t1 ++ t2, Returns.append2 hr1 hr2, (hren1.append hren2).of_iff fun c _ _ _ => ?_⟩
    constructor
    · rintro ⟨j, hj, rfl⟩
      cases j with
      | zero => exact Or.inl rfl
      | succ j =>
        exact Or.inr ⟨j, by simpa using hj, by rw [show i + 1 + j = i + (j + 1) by omega]⟩
    · rintro (rfl | ⟨j, hj, rfl⟩)
      · exact ⟨0, by simp, rfl⟩
      · exact ⟨j + 1, by simpa using hj, by rw [show i + 1 + j = i + (j + 1) by omega]⟩

theorem Returns.of_eq {α : Type} {f g : Nat → Res α} {a : α} (h : ∀ n, f n = g n)
    (hg : Returns g a) : Returns f a := by
  obtain ⟨n, hn⟩ := hg
  exact ⟨n, fun fuel hf => (h fuel).trans (hn fuel hf)⟩

theorem Returns.append3 {f g h : Nat → Res (List Char)} {a b c : List Char}
    (hf : Returns f a) (hg : Returns g b) (hh : Returns h c) :
    Returns (fun n => (f n).bind fun t1 => (g n).bind fun t2 => (h n).bind fun r =>
      .ok (t1 ++ t2 ++ r)) (a ++ b ++ c) := by
  obtain ⟨n1, h1⟩ := hf
  obtain ⟨n2, h2⟩ := hg
  obtain ⟨n3, h3⟩ := hh
  refine ⟨n1 + n2 + n3, fun fuel h => ?_⟩
  simp only [h1 fuel (by omega), h2 fuel (by omega), h3 fuel (by omega), Res.bind]

theorem Returns.append5 {f1 f2 f3 f4 f5 : Nat → Res (List Char)} {a1 a2 a3 a4 a5 : List Char}
    (h1 : Returns f1 a1) (h2 : Returns f2 a2) (h3 : Returns f3 a3) (h4 : Returns f4 a4)
    (h5 : Returns f5 a5) :
    Returns (fun n => (f1 n).bind fun t1 => (f2 n).bind fun t2 => (f3 n).bind fun t3 =>
      (f4 n).bind fun t4 => (f5 n).bind fun r => .ok (t1 ++ t2 ++ t3 ++ t4 ++ r))
      (a1 ++ a2 ++ a3 ++ a4 ++ a5) := by
  obtain ⟨n1, e1⟩ := h1
  obtain ⟨n2, e2⟩ := h2
  obtain ⟨n3, e3⟩ := h3
  obtain ⟨n4, e4⟩ := h4
  obtain ⟨n5, e5⟩ := h5
  refine ⟨n1 + n2 + n3 + n4 + n5, fun fuel h => ?_⟩
  simp only [e1 fuel (by omega), e2 fuel (by omega), e3 fuel (by omega), e4 fuel (by omega),
    e5 fuel (by omega), Res.bind]

/-- The loop of `VControl_Dump` over the axes of the device `i`, from the
axis `j` on. -/
theorem dump_axes_renders {host : Host} {keys : KeyNames}
    {table : List VControl_NameBinding} {s : Store} (hd : Dumpable host table keys s)
    (hf : HostFits host) (i : Nat) :
    ∀ (xs : List axis) (j : Nat),
      (∀ m x, xs[m]? = some x → readCell s (.axis i (j + m) false) = .ok x.neg ∧
        readCell s (.axis i (j + m) true) = .ok x.pos) →
      ∃ text, Returns (fun fuel => dump_axes keys s fuel i j xs) text ∧
        Renders host keys table s
          (fun c => ∃ m positive, m < xs.length ∧ c = .axis i (j + m) positive) text := by
  intro xs
  induction xs with
  | nil =>
    intro j _
    exact ⟨[], ⟨0, fun _ _ => rfl⟩, Renders.empty (fun c t k ⟨m, _, hm, _⟩ => by cases hm)⟩
  | cons x xs ih =>
    intro j hcells
    obtain ⟨hn, hp⟩ := hcells 0 x (by simp)
    rw [Nat.add_zero] at hn hp
    obtain ⟨t1, hr1, hren1⟩ := dump_cell hd hf hn
    obtain ⟨t2, hr2, hren2⟩ := dump_cell hd hf hp
    obtain ⟨t3, hr3, hren3⟩ := ih (j + 1) (fun m y hy => by
      have := hcells (m + 1) y (by simpa using hy)
      rw [show j + 1 + m = j + (m + 1) by omega]
      exact this)
    refine ⟨t1 ++ t2 ++ t3, Returns.of_eq (fun fuel => ?_) (Returns.append3 hr1 hr2 hr3),
      ((hren1.append hren2).append hren3).of_iff fun c _ _ _ => ?_⟩
    · rw [dump_axes]
      rfl
    · constructor
      · rintro ⟨m, positive, hm, rfl⟩
        cases m with
        | zero => cases positive
                  · exact Or.inl (Or.inl rfl)
                  · exact Or.inl (Or.inr rfl)
        | succ m =>
          exact Or.inr ⟨m, positive, by simpa using hm,
            by rw [show j + 1 + m = j + (m + 1) by omega]⟩
      · rintro ((rfl | rfl) | ⟨m, positive, hm, rfl⟩)
        · exact ⟨0, false, by simp, rfl⟩
        · exact ⟨0, true, by simp, rfl⟩
        · exact ⟨m + 1, positive, by simpa using hm,
            by rw [show j + 1 + m = j + (m + 1) by omega]⟩

/-- The loop of `VControl_Dump` over the buttons of the device `i`, from the
button `j` on. -/
theorem dump_buttons_renders {host : Host} {keys : KeyNames}
    {table : List VControl_NameBinding} {s : Store} (hd : Dumpable host table keys s)
    (hf : HostFits host) (i : Nat) :
    ∀ (kbs : List (Option Ptr)) (j : Nat),
      (∀ m h, kbs[m]? = some h → readCell s (.button i (j + m)) = .ok h) →
      ∃ text, Returns (fun fuel => dump_buttons keys s fuel i j kbs) text ∧
        Renders host keys table s
          (fun c => ∃ m, m < kbs.length ∧ c = .button i (j + m)) text := by
  intro kbs
  induction kbs with
  | nil =>
    intro j _
    exact ⟨[], ⟨0, fun _ _ => rfl⟩, Renders.empty (fun c t k ⟨m, hm, _⟩ => by cases hm)⟩
  | cons kb kbs ih =>
    intro j hcells
    have h0 := hcells 0 kb (by simp)
    rw [Nat.add_zero] at h0
    obtain ⟨t1, hr1, hren1⟩ := dump_cell hd hf h0
    obtain ⟨t2, hr2, hren2⟩ := ih (j + 1) (fun m y hy => by
      have := hcells (m + 1) y (by simpa using hy)
      rw [show j + 1 + m = j + (m + 1) by omega]
      exact this)
    refine ⟨t1 ++ t2, Returns.of_eq (fun fuel => ?_) (Returns.append2 hr1 hr2),
      (hren1.append hren2).of_iff fun c _ _ _ => ?_⟩
    · rw [dump_buttons]
      rfl
    · constructor
      · rintro ⟨m, hm, rfl⟩
        cases m with
        | zero => exact Or.inl rfl
        | succ m =>
          exact Or.inr ⟨m, by simpa using hm, by rw [show j + 1 + m = j + (m + 1) by omega]⟩
      · rintro (rfl | ⟨m, hm, rfl⟩)
        · exact ⟨0, by simp, rfl⟩
        · exact ⟨m + 1, by simpa using hm, by rw [show j + 1 + m = j + (m + 1) by omega]⟩

/-- The loop of `VControl_Dump` over the hats of the device `i`, from the hat
`j` on. -/
theorem dump_hats_renders {host : Host} {keys : KeyNames}
    {table : List VControl_NameBinding} {s : Store} (hd : Dumpable host table keys s)
    (hf : HostFits host) (i : Nat) :
    ∀ (xs : List hat) (j : Nat),
      (∀ m x d, xs[m]? = some x → readCell s (.hat i (j + m) d) = .ok (x.chain d)) →
      ∃ text, Returns (fun fuel => dump_hats keys s fuel i j xs) text ∧
        Renders host keys table s
          (fun c => ∃ m d, m < xs.length ∧ c = .hat i (j + m) d) text := by
  intro xs
  induction xs with
  | nil =>
    intro j _
    exact ⟨[], ⟨0, fun _ _ => rfl⟩, Renders.empty (fun c t k ⟨m, _, hm, _⟩ => by cases hm)⟩
  | cons x xs ih =>
    intro j hcells
    have h0 := fun d => hcells 0 x d (by simp)
    simp only [Nat.add_zero] at h0
    obtain ⟨t1, hr1, hren1⟩ := dump_cell hd hf (h0 .left)
    obtain ⟨t2, hr2, hren2⟩ := dump_cell hd hf (h0 .right)
    obtain ⟨t3, hr3, hren3⟩ := dump_cell hd hf (h0 .up)
    obtain ⟨t4, hr4, hren4⟩ := dump_cell hd hf (h0 .down)
    obtain ⟨t5, hr5, hren5⟩ := ih (j + 1) (fun m y d hy => by
      have := hcells (m + 1) y d (by simpa using hy)
      rw [show j + 1 + m = j + (m + 1) by omega]
      exact this)
    refine ⟨t1 ++ t2 ++ t3 ++ t4 ++ t5,
      Returns.of_eq (fun fuel => ?_) (Returns.append5 hr1 hr2 hr3 hr4 hr5),
      ((((hren1.append hren2).append hren3).append hren4).append hren5).of_iff
        fun c _ _ _ => ?_⟩
    · rw [dump_hats]
      rfl
    · constructor
      · rintro ⟨m, d, hm, rfl⟩
        cases m with
        | zero => cases d
                  · exact Or.inl (Or.inl (Or.inl (Or.inl rfl)))
                  · exact Or.inl (Or.inl (Or.inl (Or.inr rfl)))
                  · exact Or.inl (Or.inl (Or.inr rfl))
                  · exact Or.inl (Or.inr rfl)
        | succ m =>
          exact Or.inr ⟨m, d, by simpa using hm,
            by rw [show j + 1 + m = j + (m + 1) by omega]⟩
      · rintro ((((rfl | rfl) | rfl) | rfl) | ⟨m, d, hm, rfl⟩)
        · exact ⟨0, .left, by simp, rfl⟩
        · exact ⟨0, .right, by simp, rfl⟩
        · exact ⟨0, .up, by simp, rfl⟩
        · exact ⟨0, .down, by simp, rfl⟩
        · exact ⟨m + 1, d, by simpa using hm,
            by rw [show j + 1 + m = j + (m + 1) by omega]⟩

theorem arrayTake_all {α : Type} (xs : List α) {n : Int} (h : (xs.length : Int) = n) :
    arrayTake xs n = .ok xs := by
  unfold arrayTake
  rw [if_neg (by omega)]
  have : n.toNat = xs.length := by omega
  rw [this, List.take_length]

/-- No binding is in a cell of a device that is not opened. -/
theorem not_bound_unopened {host : Host} {s : Store} (hdev : DevicesOK host s) {i : Nat}
    {j : joystick} (hj : s.joysticks[i]? = some j) (hst : j.stick = false) (c : Cell)
    (t : Nat) (k : Int) (hc : c.port? = some i) : ¬ Bound s c t k := by
  obtain ⟨_, _, h1, h2, h3⟩ := (hdev.2 i j hj).1 hst
  rintro ⟨l, ⟨head, hr, _⟩, _⟩
  cases c with
  | bucket b => cases hc
  | axis p a positive =>
    have : p = i := by simpa [Cell.port?] using hc
    subst this
    simp [readCell, hj, h1] at hr
  | button p b =>
    have : p = i := by simpa [Cell.port?] using hc
    subst this
    simp [readCell, hj, h2, Res.ofOption] at hr
  | hat p h d =>
    have : p = i := by simpa [Cell.port?] using hc
    subst this
    simp [readCell, hj, h3] at hr

/-- What `VControl_Dump` writes for the device `i`. -/
theorem dump_device {host : Host} {keys : KeyNames} {table : List VControl_NameBinding}
    {s : Store} (hd : Dumpable host table keys s) (hf : HostFits host) {i : Nat}
    {j : joystick} (hj : s.joysticks[i]? = some j) (hthr : IsInt32 j.threshold) :
    ∃ text,
      Returns (fun fuel =>
        if j.stick then
          (arrayTake j.axes j.numaxes).bind fun axes =>
          (dump_axes keys s fuel i 0 axes).bind fun t1 =>
          (arrayTake j.buttons j.numbuttons).bind fun buttons =>
          (dump_buttons keys s fuel i 0 buttons).bind fun t2 =>
          (arrayTake j.hats j.numhats).bind fun hats =>
          (dump_hats keys s fuel i 0 hats).bind fun t3 =>
          Res.ok ("joystick ".toList ++ fmt_d i ++ " threshold ".toList ++ fmt_d j.threshold
            ++ ['\n'] ++ t1 ++ t2 ++ t3)
        else Res.ok []) text ∧
      Renders host keys table s (fun c => c.port? = some i) text := by
  have hi : i < host.numJoysticks := by
    have := getElem?_lt_of_eq_some hj
    have := hd.1.devices.1
    have := hd.1.count
    omega
  cases hst : j.stick with
  | false =>
    exact ⟨[], ⟨0, fun _ _ => by simp⟩,
      Renders.empty fun c t k hc => not_bound_unopened hd.1.devices hj hst c t k hc⟩
  | true =>
    obtain ⟨caps, _, ha, hal, hb, hbl, hh, hhl⟩ := (hd.1.devices.2 i j hj).2 hst
    obtain ⟨t1, ⟨n1, e1⟩, hren1⟩ := dump_axes_renders hd hf i j.axes 0 (fun m x hx => by
      simp [readCell, hj, hx])
    obtain ⟨t2, ⟨n2, e2⟩, hren2⟩ := dump_buttons_renders hd hf i j.buttons 0 (fun m x hx => by
      simp [readCell, hj, hx, Res.ofOption])
    obtain ⟨t3, ⟨n3, e3⟩, hren3⟩ := dump_hats_renders hd hf i j.hats 0 (fun m x d hx => by
      simp [readCell, hj, hx])
    have hrenT := @threshold_line_renders host keys table s hf i hi j.threshold hthr
    refine ⟨"joystick ".toList ++ fmt_d i ++ " threshold ".toList ++ fmt_d j.threshold
        ++ ['\n'] ++ t1 ++ t2 ++ t3, ⟨n1 + n2 + n3, fun fuel hfuel => ?_⟩,
      (((hrenT.append hren1).append hren2).append hren3).of_iff fun c t k hbd => ?_⟩
    · have e1' : dump_axes keys s fuel i 0 j.axes = .ok t1 := e1 fuel (by omega)
      have e2' : dump_buttons keys s fuel i 0 j.buttons = .ok t2 := e2 fuel (by omega)
      have e3' : dump_hats keys s fuel i 0 j.hats = .ok t3 := e3 fuel (by omega)
      simp only [if_true, arrayTake_all j.axes (by omega : (j.axes.length : Int) = j.numaxes),
        arrayTake_all j.buttons (by omega : (j.buttons.length : Int) = j.numbuttons),
        arrayTake_all j.hats (by omega : (j.hats.length : Int) = j.numhats), Res.bind, e1',
        e2', e3']
    · obtain ⟨l, ⟨head, hr, _⟩, _⟩ := hbd
      constructor
      · intro hc
        cases c with
        | bucket b => cases hc
        | axis p a positive =>
          have : p = i := by simpa [Cell.port?] using hc
          subst this
          cases hx : j.axes[a]? with
          | none => simp [readCell, hj, hx] at hr
          | some x =>
            exact Or.inl (Or.inl (Or.inr ⟨a, positive, getElem?_lt_of_eq_some hx,
              by rw [Nat.zero_add]⟩))
        | button p b =>
          have : p = i := by simpa [Cell.port?] using hc
          subst this
          cases hx : j.buttons[b]? with
          | none => simp [readCell, hj, hx, Res.ofOption] at hr
          | some x =>
            exact Or.inl (Or.inr ⟨b, getElem?_lt_of_eq_some hx, by rw [Nat.zero_add]⟩)
        | hat p h d =>
          have : p = i := by simpa [Cell.port?] using hc
          subst this
          cases hx : j.hats[h]? with
          | none => simp [readCell, hj, hx] at hr
          | some x =>
            exact Or.inr ⟨h, d, getElem?_lt_of_eq_some hx, by rw [Nat.zero_add]⟩
      · rintro (((hF | ⟨m, positive, _, rfl⟩) | ⟨m, _, rfl⟩) | ⟨m, d, _, rfl⟩)
        · exact absurd hF id
        · rfl
        · rfl
        · rfl

/-- The second loop of `VControl_Dump`, over the devices from the port `i`
on. -/
theorem dump_joysticks_renders {host : Host} {keys : KeyNames}
    {table : List VControl_NameBinding} {s : Store} (hd : Dumpable host table keys s)
    (hf : HostFits host)
    (hthr : ∀ (p : Nat) (j : joystick), s.joysticks[p]? = some j → IsInt32 j.threshold) :
    ∀ (js : List joystick) (i : Nat),
      (∀ m j, js[m]? = some j → s.joysticks[i + m]? = some j) →
      ∃ text, Returns (fun fuel => dump_joysticks keys s fuel i js) text ∧
        Renders host keys table s
          (fun c => ∃ m, m < js.length ∧ c.port? = some (i + m)) text := by
  intro js
  induction js with
  | nil =>
    intro i _
    exact ⟨[], ⟨0, fun _ _ => rfl⟩, Renders.empty (fun c t k ⟨m, hm, _⟩ => by cases hm)⟩
  | cons j js ih =>
    intro i hrecs
    have hj : s.joysticks[i]? = some j := by
      have := hrecs 0 j (by simp)
      rwa [Nat.add_zero] at this
    obtain ⟨t1, hr1, hren1⟩ := dump_device hd hf hj (hthr i j hj)
    obtain ⟨t2, hr2, hren2⟩ := ih (i + 1) (fun m y hy => by
      have := hrecs (m + 1) y (by simpa using hy)
      rw [show i + 1 + m = i + (m + 1) by omega]
      exact this)
    refine ⟨t1 ++ t2, Returns.of_eq (fun fuel => ?_) (Returns.append2 hr1 hr2),
      (hren1.append hren2).of_iff fun c _ _ _ => ?_⟩
    · rw [dump_joysticks]
    · constructor
      · rintro ⟨m, hm, hc⟩
        cases m with
        | zero => exact Or.inl hc
        | succ m =>
          exact Or.inr ⟨m, by simpa using hm,
            by rw [hc, show i + 1 + m = i + (m + 1) by omega]⟩
      · rintro (hc | ⟨m, hm, hc⟩)
        · exact ⟨0, by simp, hc⟩
        · exact ⟨m + 1, by simpa using hm,
            by rw [hc, show i + 1 + m = i + (m + 1) by omega]⟩

/-- The function `VControl_Dump` on a store built by add-binding calls with
names: it returns, and writes lines that read back as the bindings of the
store. -/
theorem dump_renders {host : Host} {keys : KeyNames} {table : List VControl_NameBinding}
    {s : Store} (hd : Dumpable host table keys s) (hf : HostFits host)
    (hthr : ∀ (p : Nat) (j : joystick), s.joysticks[p]? = some j → IsInt32 j.threshold) :
    ∃ text, Returns (fun fuel => VControl_Dump keys fuel s) text ∧
      Renders host keys table s (fun _ => True) text := by
  obtain ⟨t1, ⟨n1, e1⟩, hren1⟩ := dump_buckets_renders hd hf s.bindings 0 (fun j h hj => by
    simp [readCell, hj, Res.ofOption])
  obtain ⟨t2, ⟨n2, e2⟩, hren2⟩ := dump_joysticks_renders hd hf hthr s.joysticks 0
    (fun m j hj => by rw [Nat.zero_add]; exact hj)
  refine ⟨t1 ++ t2, ⟨n1 + n2, fun fuel hfuel => ?_⟩,
    (hren1.append hren2).of_iff fun c t k hbd => ?_⟩
  · have e1' : dump_buckets keys s fuel s.bindings = .ok t1 := e1 fuel (by omega)
    have e2' : dump_joysticks keys s fuel 0 s.joysticks = .ok t2 := e2 fuel (by omega)
    have hb : ((s.bindings.length : Nat) : Int) = (KEYBOARD_INPUT_BUCKETS : Int) := by
      rw [hd.1.buckets]
    simp only [VControl_Dump, arrayTake_all s.bindings hb,
      arrayTake_all s.joysticks hd.1.devices.1.symm, Res.bind, e1', e2']
  · obtain ⟨l, ⟨head, hr, _⟩, _⟩ := hbd
    refine ⟨fun _ => ?_, fun _ => trivial⟩
    cases c with
    | bucket b =>
      cases hx : s.bindings[b]? with
      | none => simp [readCell, hx, Res.ofOption] at hr
      | some x => exact Or.inl ⟨b, getElem?_lt_of_eq_some hx, by rw [Nat.zero_add]⟩
    | axis p a positive =>
      cases hx : s.joysticks[p]? with
      | none => simp [readCell, hx] at hr
      | some x => exact Or.inr ⟨p, getElem?_lt_of_eq_some hx, by rw [Nat.zero_add]; rfl⟩
    | button p b =>
      cases hx : s.joysticks[p]? with
      | none => simp [readCell, hx] at hr
      | some x => exact Or.inr ⟨p, getElem?_lt_of_eq_some hx, by rw [Nat.zero_add]; rfl⟩
    | hat p h d =>
      cases hx : s.joysticks[p]? with
      | none => simp [readCell, hx] at hr
      | some x => exact Or.inr ⟨p, getElem?_lt_of_eq_some hx, by rw [Nat.zero_add]; rfl⟩

/-! ## The thresholds of a store built by add-binding calls -/

theorem map_set_same {α β : Type} (f : α → β) {xs : List α} {i : Nat} {x y : α}
    (hx : xs[i]? = some x) (hf : f y = f x) : (xs.set i y).map f = xs.map f := by
  apply List.ext_getElem?
  intro q
  simp only [List.getElem?_map, List.getElem?_set]
  by_cases hq : i = q
  · subst hq
    simp [hx, getElem?_lt_of_eq_some hx, hf]
  · simp [hq]

theorem writeCell_thresholds (s : Store) (c : Cell) (v : Option Ptr) :
    (writeCell s c v).joysticks.map (fun x => x.threshold) =
      s.joysticks.map (fun x => x.threshold) := by
  cases c with
  | bucket i => rfl
  | axis port a positive =>
    cases hj : s.joysticks[port]? with
    | none => simp [writeCell, hj]
    | some j =>
      cases hx : j.axes[a]? with
      | none => simp [writeCell, hj, hx]
      | some x =>
        simp only [writeCell, hj, hx]
        exact map_set_same _ hj rfl
  | button port b =>
    cases hj : s.joysticks[port]? with
    | none => simp [writeCell, hj]
    | some j =>
      simp only [writeCell, hj]
      exact map_set_same _ hj rfl
  | hat port h d =>
    cases hj : s.joysticks[port]? with
    | none => simp [writeCell, hj]
    | some j =>
      cases hx : j.hats[h]? with
      | none => simp [writeCell, hj, hx]
      | some x =>
        simp only [writeCell, hj, hx]
        exact map_set_same _ hj rfl

theorem add_at_thresholds {fuel : Nat} {s s1 : Store} {c : Cell} {t : Nat} {k : Int}
    (h : add_at fuel s c t k = .ok s1) :
    s1.joysticks.map (fun x => x.threshold) = s.joysticks.map (fun x => x.threshold) := by
  unfold add_at at h
  cases hr : readCell s c with
  | fuel => rw [hr] at h; cases h
  | fault => rw [hr] at h; cases h
  | ok head =>
    rw [hr] at h
    simp only at h
    cases ha : add_binding fuel s.pool head t k with
    | fuel => rw [ha] at h; cases h
    | fault => rw [ha] at h; cases h
    | ok r =>
      rw [ha] at h
      cases h
      exact writeCell_thresholds s c r.1

theorem create_joystick_thresholds (host : Host) (s : Store) (p : Nat) :
    (create_joystick host s p).joysticks.map (fun x => x.threshold) =
      s.joysticks.map (fun x => x.threshold) := by
  rcases create_joystick_cases host s p with h | ⟨x, caps, hx, hst, _, h⟩
  · rw [h]
  · rw [h]
    exact (opened_store_frame host s p x caps hx hst).1

theorem joy_add_thresholds {host : Host} {fuel : Nat} {s s1 s2 : Store} {p : Nat}
    {j : joystick} {c : Cell} {t : Nat} {r : Int} (ho : open_port host s p = .ok (s1, j))
    (h : status0 (add_at fuel s1 c t SDLK_UNKNOWN) = .ok (s2, r)) :
    s2.joysticks.map (fun x => x.threshold) = s.joysticks.map (fun x => x.threshold) := by
  rw [add_at_thresholds (status0_ok h).1, (open_port_eq ho).1]
  exact create_joystick_thresholds host s p

/-- An add-binding call that returns 0 leaves the thresholds as they are. -/
theorem run_thresholds {host : Host} {table : List VControl_NameBinding} {keys : KeyNames}
    {s s1 : Store} {cmd : Command} (hn : cmd.Named table keys) {fuel : Nat}
    (h : cmd.run host fuel s = .ok (s1, 0)) :
    s1.joysticks.map (fun x => x.threshold) = s.joysticks.map (fun x => x.threshold) := by
  cases cmd with
  | key target code =>
    have h' : VControl_AddKeyBinding fuel s code target = .ok (s1, 0) := h
    unfold VControl_AddKeyBinding at h'
    by_cases hb : bucketIndex code < 0
    · rw [if_pos hb] at h'; cases h'
    · rw [if_neg hb] at h'
      cases ha : add_at fuel s (.bucket (bucketIndex code).toNat) target code with
      | fuel => rw [ha] at h'; cases h'
      | fault => rw [ha] at h'; cases h'
      | ok s2 =>
        rw [ha] at h'
        cases h'
        exact add_at_thresholds ha
  | axis target port a pol =>
    have h' : VControl_AddJoyAxisBinding host fuel s port a pol target = .ok (s1, 0) := h
    unfold VControl_AddJoyAxisBinding at h'
    by_cases hp : 0 ≤ port ∧ port < s.joycount
    · rw [if_pos hp] at h'
      cases ho : open_port host s port.toNat with
      | fuel => rw [ho] at h'; cases h'
      | fault => rw [ho] at h'; cases h'
      | ok x =>
        obtain ⟨s2, j⟩ := x
        rw [ho] at h'
        simp only at h'
        by_cases ha : 0 ≤ a ∧ a < j.numaxes
        · rw [if_pos ha] at h'
          by_cases h1 : pol < 0
          · rw [if_pos h1] at h'
            exact joy_add_thresholds ho h'
          · rw [if_neg h1] at h'
            by_cases h2 : pol > 0
            · rw [if_pos h2] at h'
              exact joy_add_thresholds ho h'
            · rw [if_neg h2] at h'
              simp at h'
        · rw [if_neg ha] at h'
          simp at h'
    · rw [if_neg hp] at h'
      simp at h'
  | button target port b =>
    have h' : VControl_AddJoyButtonBinding host fuel s port b target = .ok (s1, 0) := h
    unfold VControl_AddJoyButtonBinding at h'
    by_cases hp : 0 ≤ port ∧ port < s.joycount
    · rw [if_pos hp] at h'
      cases ho : open_port host s port.toNat with
      | fuel => rw [ho] at h'; cases h'
      | fault => rw [ho] at h'; cases h'
      | ok x =>
        obtain ⟨s2, j⟩ := x
        rw [ho] at h'
        simp only at h'
        by_cases hb : 0 ≤ b ∧ b < j.numbuttons
        · rw [if_pos hb] at h'
          exact joy_add_thresholds ho h'
        · rw [if_neg hb] at h'
          simp at h'
    · rw [if_neg hp] at h'
      simp at h'
  | hat target port w dir =>
    have h' : VControl_AddJoyHatBinding host fuel s port w dir target = .ok (s1, 0) := h
    unfold VControl_AddJoyHatBinding at h'
    by_cases hp : 0 ≤ port ∧ port < s.joycount
    · rw [if_pos hp] at h'
      cases ho : open_port host s port.toNat with
      | fuel => rw [ho] at h'; cases h'
      | fault => rw [ho] at h'; cases h'
      | ok x =>
        obtain ⟨s2, j⟩ := x
        rw [ho] at h'
        simp only at h'
        by_cases hw : 0 ≤ w ∧ w < j.numhats
        · rw [if_pos hw] at h'
          cases hd : hatDirOf dir with
          | none => rw [hd] at h'; simp at h'
          | some d =>
            rw [hd] at h'
            exact joy_add_thresholds ho h'
        · rw [if_neg hw] at h'
          simp at h'
    · rw [if_neg hp] at h'
      simp at h'
  | threshold port t => exact absurd hn id

theorem Built.thresholds {host : Host} {table : List VControl_NameBinding} {keys : KeyNames}
    {s s2 : Store} {cmds : List Command} (hb : Built host s cmds s2) :
    (∀ cmd ∈ cmds, cmd.Named table keys) →
      s2.joysticks.map (fun x => x.threshold) = s.joysticks.map (fun x => x.threshold) := by
  induction hb with
  | nil s => exact fun _ => rfl
  | step hret _ ih =>
    intro hn
    obtain ⟨n, h⟩ := hret
    rw [ih (fun cmd hc => hn cmd (List.mem_cons_of_mem _ hc))]
    exact run_thresholds (hn _ (List.mem_cons_self _ _)) (h n (le_refl n))

/-- The thresholds of a store built by add-binding calls from the store that
`VControl_Init` leaves are values of a C `int`. -/
theorem Built.thresholds_fit {host : Host} {table : List VControl_NameBinding}
    {keys : KeyNames} (hf : HostFits host) {s : Store} {cmds : List Command}
    (hb : Built host (VControl_RegisterNameTable (VControl_Init host) table) cmds s)
    (hn : ∀ cmd ∈ cmds, cmd.Named table keys) (p : Nat) (j : joystick)
    (hj : s.joysticks[p]? = some j) : IsInt32 j.threshold := by
  have h := hb.thresholds hn
  have h1 : (s.joysticks.map fun x => x.threshold)[p]? = some j.threshold := by
    simp [hj]
  rw [h] at h1
  simp only [VControl_RegisterNameTable, VControl_Init, key_init, List.map_map,
    List.getElem?_map] at h1
  cases hp : (List.range host.numJoysticks)[p]? with
  | none => rw [hp] at h1; cases h1
  | some i =>
    rw [hp] at h1
    simp only [Option.map_some', Function.comp_apply, Option.some.injEq] at h1
    rw [← h1]
    exact hf.2.2 i

/-! ## Dump and read back: the round trip -/

theorem status0_add_mono {s : Store} {c : Cell} {t : Nat} {k : Int} {n m : Nat}
    {r : Store × Int} (h : status0 (add_at n s c t k) = .ok r) (hm : n ≤ m) :
    status0 (add_at m s c t k) = .ok r := by
  cases ha : add_at n s c t k with
  | fuel => rw [ha] at h; cases h
  | fault => rw [ha] at h; cases h
  | ok s1 =>
    rw [ha] at h
    have hmono : add_at m s c t k = .ok s1 := add_at_mono s c t k n m s1 ha hm
    rw [hmono]
    exact h

/-- A larger budget does not change the result of a command. -/
theorem Command.run_mono (host : Host) (s : Store) (cmd : Command) :
    Mono (fun fuel => cmd.run host fuel s) := by
  cases cmd with
  | key target code => exact VControl_AddKeyBinding_mono s code target
  | axis target port a pol =>
    intro n m r h hm
    have h' : VControl_AddJoyAxisBinding host n s port a pol target = .ok r := h
    show VControl_AddJoyAxisBinding host m s port a pol target = .ok r
    unfold VControl_AddJoyAxisBinding at h' ⊢
    by_cases hp : 0 ≤ port ∧ port < s.joycount
    · rw [if_pos hp] at h' ⊢
      cases ho : open_port host s port.toNat with
      | fuel => rw [ho] at h'; cases h'
      | fault => rw [ho] at h'; cases h'
      | ok x =>
        obtain ⟨s2, j⟩ := x
        rw [ho] at h'
        simp only at h' ⊢
        by_cases ha : 0 ≤ a ∧ a < j.numaxes
        · rw [if_pos ha] at h' ⊢
          by_cases h1 : pol < 0
          · rw [if_pos h1] at h' ⊢
            exact status0_add_mono h' hm
          · rw [if_neg h1] at h' ⊢
            by_cases h2 : pol > 0
            · rw [if_pos h2] at h' ⊢
              exact status0_add_mono h' hm
            · rw [if_neg h2] at h' ⊢
              exact h'
        · rw [if_neg ha] at h' ⊢
          exact h'
    · rw [if_neg hp] at h' ⊢
      exact h'
  | button target port b =>
    intro n m r h hm
    have h' : VControl_AddJoyButtonBinding host n s port b target = .ok r := h
    show VControl_AddJoyButtonBinding host m s port b target = .ok r
    unfold VControl_AddJoyButtonBinding at h' ⊢
    by_cases hp : 0 ≤ port ∧ port < s.joycount
    · rw [if_pos hp] at h' ⊢
      cases ho : open_port host s port.toNat with
      | fuel => rw [ho] at h'; cases h'
      | fault => rw [ho] at h'; cases h'
      | ok x =>
        obtain ⟨s2, j⟩ := x
        rw [ho] at h'
        simp only at h' ⊢
        by_cases hb : 0 ≤ b ∧ b < j.numbuttons
        · rw [if_pos hb] at h' ⊢
          exact status0_add_mono h' hm
        · rw [if_neg hb] at h' ⊢
          exact h'
    · rw [if_neg hp] at h' ⊢
      exact h'
  | hat target port w dir =>
    intro n m r h hm
    have h' : VControl_AddJoyHatBinding host n s port w dir target = .ok r := h
    show VControl_AddJoyHatBinding host m s port w dir target = .ok r
    unfold VControl_AddJoyHatBinding at h' ⊢
    by_cases hp : 0 ≤ port ∧ port < s.joycount
    · rw [if_pos hp] at h' ⊢
      cases ho : open_port host s port.toNat with
      | fuel => rw [ho] at h'; cases h'
      | fault => rw [ho] at h'; cases h'
      | ok x =>
        obtain ⟨s2, j⟩ := x
        rw [ho] at h'
        simp only at h' ⊢
        by_cases hw : 0 ≤ w ∧ w < j.numhats
        · rw [if_pos hw] at h' ⊢
          cases hd : hatDirOf dir with
          | none => rw [hd] at h'; exact h'
          | some d =>
            rw [hd] at h'
            exact status0_add_mono h' hm
        · rw [if_neg hw] at h' ⊢
          exact h'
    · rw [if_neg hp] at h' ⊢
      exact h'
  | threshold port t => exact fun n m r h _ => h

theorem streamText_lines (ls : List ConfigLine) :
    streamText (ls ++ [.blank [] []]) = linesText ls := by
  induction ls with
  | nil => rfl
  | cons l ls ih =>
    cases ls with
    | nil => rfl
    | cons x ls =>
      show l.content ++ (l.comment ++ '\n' :: streamText ((x :: ls) ++ [.blank [] []])) = _
      rw [ih]
      rfl

/-- What a text of lines that read back gives when it is read into the store
that `VControl_Init` and `VControl_RegisterNameTable` leave. -/
theorem read_rendered {host : Host} {keys : KeyNames} {table : List VControl_NameBinding}
    {s : Store} {text : List Char} (h : Renders host keys table s (fun _ => True) text) :
    ∃ s1,
      Returns (fun fuel => VControl_ReadConfiguration host keys fuel
        (VControl_RegisterNameTable (VControl_Init host) table)
        { data := text, eof := false }) (s1, 0) ∧
      ∀ c t k, Bound s1 c t k ↔ Bound s c t k := by
  obtain ⟨ls, rfl, hfine, hb⟩ := h
  have hls : ∀ l ∈ ls ++ [ConfigLine.blank [] []], l.Shape ∧ l.Runs host keys table := by
    intro l hl
    rcases List.mem_append.1 hl with hl | hl
    · exact ⟨(hfine l hl).1, (hfine l hl).2.1⟩
    · have : l = .blank [] [] := by simpa using hl
      subst this
      exact ⟨⟨by decide, by simp [ConfigLine.content], Or.inl rfl, by simp [ConfigLine.comment]⟩,
        blank_line_runs host keys table (fun c hc => by cases hc) []⟩
  obtain ⟨s1, hret, _, hbound⟩ := read_stream_runs (Good.fresh host table) _ hls
  have hcount : ((ls ++ [ConfigLine.blank [] []]).filter ConfigLine.isFlagged).length = 0 := by
    rw [List.length_eq_zero, List.filter_eq_nil_iff]
    intro l hl
    rcases List.mem_append.1 hl with hl | hl
    · rw [(hfine l hl).2.2]; simp
    · have : l = .blank [] [] := by simpa using hl
      subst this
      simp [ConfigLine.isFlagged]
  rw [hcount, streamText_lines] at hret
  refine ⟨s1, hret, fun c t k => ?_⟩
  rw [hbound c t k, ← and_iff_right (trivial : True) (b := Bound s c t k), hb c t k]
  constructor
  · rintro (h | ⟨l, hl, cmd, hc, hbd⟩)
    · exact absurd h (not_bound_key_init host (some table) c t k)
    · rcases List.mem_append.1 hl with hl | hl
      · exact ⟨l, hl, cmd, hc, hbd⟩
      · have : l = .blank [] [] := by simpa using hl
        subst this
        cases hc
  · rintro ⟨l, hl, h⟩
    exact Or.inr ⟨l, List.mem_append_left _ hl, h⟩

set_option maxRecDepth 1000000 in
/-- C1 fails for a binding of the key code `SDLK_UNKNOWN` and for a key whose
name is not one word.  For `SDLK_UNKNOWN` the add returns 0, the dump writes
`fire: <Unknown key>`, and reading that text into the fresh store reports 1
error and installs no binding.  With the key names `blankKeys`, in which the
key 97 has the name `a b` and that name the code 97, the add returns 0, the
dump writes `fire: key a b`, and reading that text reports 1 error and
installs no binding. -/
theorem dump_read_unknown_key :
    VControl_AddKeyBinding 1 fireFresh SDLK_UNKNOWN 100 = .ok (unknownKeyStore, 0) ∧
      cell_bindings unknownKeyStore (.bucket 0) = [(100, SDLK_UNKNOWN)] ∧
      VControl_Dump aKeys 1 unknownKeyStore = .ok "fire: <Unknown key>\n".toList ∧
      VControl_ReadConfiguration noJoyHost aKeys 3 fireFresh
        { data := "fire: <Unknown key>\n".toList, eof := false } = .ok (fireFresh, 1) ∧
      VControl_Dump blankKeys 1 ((VControl_AddKeyBinding 1 fireFresh 97 100).storeD fireFresh) =
        .ok "fire: key a b\n".toList ∧
      cell_bindings ((VControl_AddKeyBinding 1 fireFresh 97 100).storeD fireFresh)
        (.bucket 97) = [(100, 97)] ∧
      VControl_ReadConfiguration noJoyHost blankKeys 3 fireFresh
        { data := "fire: key a b\n".toList, eof := false } = .ok (fireFresh, 1) := by
  refine ⟨by decide, by decide, by decide, by decide, by decide, by decide, by decide⟩

/-- C1, amended: a store built from the store that `VControl_Init` and
`VControl_RegisterNameTable` leave by add-binding calls (key, axis, button,
hat) that each return 0, for targets that have a name in the table and keys
other than `SDLK_UNKNOWN` that have a key name, the names being single words
that read back to the target and the key code, on a host whose counts are
values of a C `int`: `VControl_Dump` returns a text, and
`VControl_ReadConfiguration` on that text, read into the freshly initialised
store with the same name table, returns 0 errors and yields a store that holds
exactly the bindings of the dumped store. -/
theorem dump_read_round_trip {host : Host} {keys : KeyNames}
    {table : List VControl_NameBinding} (hf : HostFits host) (cmds : List Command)
    (hn : ∀ cmd ∈ cmds, cmd.Named table keys) {s : Store}
    (hb : Built host (VControl_RegisterNameTable (VControl_Init host) table) cmds s) :
    ∃ text s1,
      Returns (fun fuel => VControl_Dump keys fuel s) text ∧
      Returns (fun fuel => VControl_ReadConfiguration host keys fuel
        (VControl_RegisterNameTable (VControl_Init host) table)
        { data := text, eof := false }) (s1, 0) ∧
      ∀ c t k, Bound s1 c t k ↔ Bound s c t k := by
  obtain ⟨hd, _⟩ := hb.dumpable (Dumpable.of_fresh host table keys) hn
  obtain ⟨text, hdump, hren⟩ := dump_renders hd hf (hb.thresholds_fit hf hn)
  obtain ⟨s1, hread, hbound⟩ := read_rendered hren
  exact ⟨text, s1, hdump, hread, hbound⟩

theorem hostFits_pad : HostFits padHost :=
  ⟨by decide, fun p caps h => by
    have : caps = { axes := 2, buttons := 2, hats := 1 } := by
      simp only [padHost, Option.some.injEq] at h
      exact h.symm
    subst this
    decide, fun _ => show IsInt32 0 from ⟨by decide, by decide⟩⟩

theorem namedTarget_fire : NamedTarget fireTable 100 :=
  ⟨"fire".toList, by decide, by decide, by simp only [PlainChars]; decide, by decide⟩

theorem fireCalls_named : ∀ cmd ∈ fireCalls, cmd.Named fireTable aKeys := by
  intro cmd hc
  simp only [fireCalls, List.mem_cons, List.mem_singleton, List.not_mem_nil, or_false] at hc
  rcases hc with rfl | rfl
  · exact ⟨namedTarget_fire, by decide, ['a'], by decide, by decide, by decide,
      by simp only [PlainChars]; decide, by decide⟩
  · exact namedTarget_fire

set_option maxRecDepth 1000000 in
theorem fireCalls_built : Built padHost padFresh fireCalls padFire :=
  .step (Mono.returns (Command.run_mono padHost padFresh _)
      (by decide : (Command.key 100 97).run padHost 1 padFresh = .ok (padFireKey, 0)))
    (.step (Mono.returns (Command.run_mono padHost padFireKey _)
      (by decide : (Command.axis 100 0 1 1).run padHost 1 padFireKey = .ok (padFire, 0)))
      (.nil _))

theorem dump_read_round_trip_witness :
    (HostFits padHost ∧ (∀ cmd ∈ fireCalls, cmd.Named fireTable aKeys) ∧
      Built padHost (VControl_RegisterNameTable (VControl_Init padHost) fireTable) fireCalls
        padFire) ∧
    ∃ text s1,
      Returns (fun fuel => VControl_Dump aKeys fuel padFire) text ∧
      Returns (fun fuel => VControl_ReadConfiguration padHost aKeys fuel
        (VControl_RegisterNameTable (VControl_Init padHost) fireTable)
        { data := text, eof := false }) (s1, 0) ∧
      ∀ c t k, Bound s1 c t k ↔ Bound padFire c t k :=
  ⟨⟨hostFits_pad, fireCalls_named, fireCalls_built⟩,
    dump_read_round_trip hostFits_pad fireCalls fireCalls_named fireCalls_built⟩

/-! ## The bucket of a negative key code -/

set_option maxRecDepth 100000 in
/-- C30: for the key code -1, a value of the signed 32-bit key type, the index
`symbol % KEYBOARD_INPUT_BUCKETS` is -1, outside 0..511, and each of the four
functions indexes `bindings` outside the array; for the key codes 0, 511, 512
and 2147483647 the index is in bounds. -/
theorem negative_key_code_leaves_buckets :
    bucketIndex (-1) = -1 ∧ bucketIndex (-2147483648) = 0 ∧ bucketIndex (-513) = -1 ∧
      bucketIndex 0 = 0 ∧ bucketIndex 511 = 511 ∧ bucketIndex 512 = 0 ∧
      bucketIndex 2147483647 = 511 ∧
      VControl_AddKeyBinding 1 (VControl_Init noJoyHost) (-1) 100 = .fault ∧
      VControl_RemoveKeyBinding 1 (VControl_Init noJoyHost) (-1) 100 = .fault ∧
      VControl_ProcessKeyDown 1 (VControl_Init noJoyHost) (fun _ => 0) (-1) = .fault ∧
      VControl_ProcessKeyUp 1 (VControl_Init noJoyHost) (fun _ => 0) (-1) = .fault := by
  refine ⟨by decide, by decide, by decide, by decide, by decide, by decide, by decide, ?_, ?_,
    ?_, ?_⟩
  · exact if_pos (by decide)
  · exact if_pos (by decide)
  · exact if_pos (by decide)
  · exact if_pos (by decide)

/-! ## Removal from a chain of a joystick -/

set_option maxRecDepth 100000 in
/-- C25: with button 0 of joystick 0 bound to the targets 100, 200 and 300,
the chain of the button holds the three bindings in this order, and the
removal of the third, whose chain entry is behind a first and a second entry
that do not match, never returns; the removal of a target that is not bound
never returns either. -/
theorem remove_button_binding_never_returns :
    cell_bindings threeButtons (.button 0 0) = [(100, 0), (200, 0), (300, 0)] ∧
      Diverges (fun fuel => VControl_RemoveJoyButtonBinding padHost fuel threeButtons 0 0 300) ∧
      Diverges (fun fuel => VControl_RemoveJoyButtonBinding padHost fuel threeButtons 0 0 400) := by
  have ho : open_port padHost threeButtons 0 =
      .ok (threeButtons, threeButtons.joysticks.headD
        { stick := false, numaxes := 0, numbuttons := 0, numhats := 0, threshold := 0,
          axes := [], buttons := [], hats := [] }) := by
    decide
  have key : ∀ target : Nat, target ≠ 100 → target ≠ 200 → ∀ fuel,
      VControl_RemoveJoyButtonBinding padHost fuel threeButtons 0 0 target = .fuel := by
    intro target h1 h2 fuel
    unfold VControl_RemoveJoyButtonBinding
    rw [if_pos (by decide)]
    have e0 : (0 : Int).toNat = 0 := rfl
    rw [e0, ho]
    simp only
    rw [if_pos (by decide)]
    exact remove_at_stuck threeButtons _ target SDLK_UNKNOWN ⟨0, 0⟩ ⟨0, 1⟩
      { target := 100, keycode := 0, next := some ⟨0, 1⟩ }
      { target := 200, keycode := 0, next := some ⟨0, 2⟩ }
      (by decide) (by decide) (fun h => h1 h.1.symm) rfl (by decide)
      (fun h => h2 h.symm) fuel
  exact ⟨by decide, key 300 (by decide) (by decide), key 400 (by decide) (by decide)⟩

/-! ## Tokens of any line -/

theorem skip_space_dropWhile : ∀ r : List Char, skip_space r = r.dropWhile spaceChar
  | [] => rfl
  | c :: cs => by
    unfold skip_space
    by_cases h : c ≠ NUL ∧ isspace c = true
    · rw [if_pos h, List.dropWhile_cons_of_pos (by simp [spaceChar, h.1, h.2])]
      exact skip_space_dropWhile cs
    · rw [if_neg h, List.dropWhile_cons_of_neg (by
        simp only [spaceChar, Bool.and_eq_true, decide_eq_true_eq]
        exact h)]

theorem skip_word_dropWhile : ∀ r : List Char, skip_word r = r.dropWhile wordChar
  | [] => rfl
  | c :: cs => by
    unfold skip_word
    by_cases h : c ≠ NUL ∧ (!isspace c) = true
    · rw [if_pos h, List.dropWhile_cons_of_pos (by simp [wordChar, h.1, h.2])]
      exact skip_word_dropWhile cs
    · rw [if_neg h, List.dropWhile_cons_of_neg (by
        simp only [wordChar, Bool.and_eq_true, decide_eq_true_eq]
        exact h)]

theorem copy_word_take : ∀ (n : Nat) (r : List Char),
    copy_word n r = (r.takeWhile wordChar).take n
  | 0, r => by cases r <;> simp [copy_word]
  | n + 1, [] => rfl
  | n + 1, c :: cs => by
    unfold copy_word
    by_cases h : c ≠ NUL ∧ (!isspace c) = true
    · rw [if_pos h, List.takeWhile_cons_of_pos (by simp [wordChar, h.1, h.2]),
        List.take_succ_cons, copy_word_take n cs]
    · rw [if_neg h, List.takeWhile_cons_of_neg (by
        simp only [wordChar, Bool.and_eq_true, decide_eq_true_eq]
        exact h)]
      rfl

/-- C28: for every state of the parser, the token that `next_token` returns is
the first `TOKEN_SIZE - 1` = 63 characters of the next word of the line (the
characters up to the next whitespace or the end of the line, after the
whitespace in front), so it has min (n, 63) characters for a word of n; the
scan position is left behind the whole word, so the next token is taken from
what follows the word. -/
theorem next_token_truncates (st : parse_state) :
    (next_token st).token =
        (((st.rest.dropWhile spaceChar).takeWhile wordChar).take 63) ∧
      (next_token st).token.length =
        min ((st.rest.dropWhile spaceChar).takeWhile wordChar).length 63 ∧
      (next_token st).rest = (st.rest.dropWhile spaceChar).dropWhile wordChar ∧
      (next_token (next_token st)).token =
        (((((st.rest.dropWhile spaceChar).dropWhile wordChar).dropWhile spaceChar).takeWhile
          wordChar).take 63) := by
  have h1 : (next_token st).token =
      (((st.rest.dropWhile spaceChar).takeWhile wordChar).take 63) := by
    show copy_word (TOKEN_SIZE - 1) (skip_space st.rest) = _
    rw [copy_word_take, skip_space_dropWhile]
    rfl
  have h2 : (next_token st).rest = (st.rest.dropWhile spaceChar).dropWhile wordChar := by
    show skip_word (skip_space st.rest) = _
    rw [skip_word_dropWhile, skip_space_dropWhile]
  refine ⟨h1, by rw [h1, List.length_take, Nat.min_comm], h2, ?_⟩
  show copy_word (TOKEN_SIZE - 1) (skip_space (next_token st).rest) = _
  rw [copy_word_take, skip_space_dropWhile, h2]
  rfl

/-! ## Freeing a slot -/

/-- Freeing a slot with a non-`NULL` target leaves `remaining` one below the
number of free slots in that chunk. -/
theorem PoolOff.setSlot_free {pool : List keypool} {p : Ptr} {b0 : keybinding}
    (h : PoolOff p.chunk 0 pool) (hs : slotAt pool p = .ok b0) (h0 : b0.target ≠ 0) :
    PoolOff p.chunk (-1) (setSlot pool p freeSlot) := by
  refine ⟨setSlot_ne_nil h.1 p _, fun i c hc => ?_⟩
  rcases getElem?_setSlot hc with ⟨hi, hc'⟩ | ⟨hi, c0, hc0, rfl⟩
  · have := h.2 i c hc'
    simpa [hi] using this
  · subst hi
    have := h.2 _ c0 hc0
    obtain ⟨c1, hc1, hb1⟩ := slotAt_eq_ok.mp hs
    rw [hc0] at hc1
    cases hc1
    have hlt : p.slot < c0.pool.length := by
      by_contra hge
      rw [List.getElem?_eq_none (not_lt.mp hge)] at hb1
      cases hb1
    have hget : c0.pool[p.slot] = b0 := by
      rw [List.getElem?_eq_getElem hlt] at hb1
      exact Option.some.inj hb1
    refine ⟨by simpa using this.1, ?_⟩
    have hcnt := List.countP_set (fun b => decide (b.target = 0)) c0.pool p.slot freeSlot hlt
    have hfree : freeSlot.target = 0 := rfl
    simp only [hget, h0, decide_False, Bool.false_eq_true, if_false, hfree, decide_True,
      if_true, Nat.sub_zero] at hcnt
    simp only [freeCount, hcnt, if_true]
    have h2 := this.2
    simp only [freeCount, if_true, add_zero] at h2
    rw [h2]
    push_cast
    omega

theorem PoolOK.release {pool : List keypool} {p : Ptr} {b0 : keybinding} (h : PoolOK pool)
    (hs : slotAt pool p = .ok b0) (h0 : b0.target ≠ 0) : PoolOK (VControl.release pool p) := by
  have h1 := (PoolOff.setSlot_free (h.off p.chunk) hs h0).addRemaining
  rw [neg_neg] at h1
  exact h1

theorem slotAt_release_ne {pool : List keypool} {p q : Ptr} (hne : q ≠ p) :
    slotAt (release pool p) q = slotAt pool q := by
  unfold release
  rw [slotAt_addRemaining, slotAt_setSlot_ne hne]

/-! ## A chain visits no slot twice -/

theorem Chain.suffix_at {pool : List keypool} {head : Option Ptr} {ps : List (Ptr × keybinding)}
    (h : Chain pool head ps) :
    ∀ x ∈ ps, ∃ qs, Chain pool (some x.1) qs ∧ qs.length ≤ ps.length := by
  induction h with
  | nil => intro x hx; cases hx
  | cons hs hc ih =>
    intro x hx
    rcases List.mem_cons.mp hx with rfl | hx
    · exact ⟨_, Chain.cons hs hc, le_refl _⟩
    · obtain ⟨qs, hq, hl⟩ := ih x hx
      exact ⟨qs, hq, by simp only [List.length_cons]; omega⟩

theorem Chain.head_not_in_tail {pool : List keypool} {p : Ptr} {b : keybinding}
    {l : List (Ptr × keybinding)} (hs : slotAt pool p = .ok b) (hc : Chain pool b.next l) :
    ∀ x ∈ l, x.1 ≠ p := by
  intro x hx hxp
  obtain ⟨qs, hq, hl⟩ := hc.suffix_at x hx
  rw [hxp] at hq
  have e := Chain.unique_list hq (Chain.cons hs hc)
  rw [e] at hl
  simp only [List.length_cons] at hl
  omega

/-! ## The invariant when a chain loses bindings -/

/-- The invariant carries over to a store in which one chain keeps a part of
its bindings, in slots it had, and every slot outside that chain is as it was. -/
theorem Inv.of_shrink {s s' : Store} (hinv : Inv s) (c : Cell) {head head' : Option Ptr}
    {ps ps' : List (Ptr × keybinding)} (hpool : PoolOK s'.pool)
    (hread : readCell s c = .ok head) (hch : Chain s.pool head ps)
    (hread' : readCell s' c = .ok head') (hch' : Chain s'.pool head' ps')
    (hother : ∀ c', c' ≠ c → readCell s' c' = readCell s c')
    (hsub : (ps'.map fun x => x.2.pair).Sublist (ps.map fun x => x.2.pair))
    (hptr : ∀ x ∈ ps', ∃ y ∈ ps, y.1 = x.1)
    (hframe : ∀ q, (∀ x ∈ ps, x.1 ≠ q) → slotAt s'.pool q = slotAt s.pool q) : Inv s' := by
  obtain ⟨bs, ps0, hps0, hbs, hlive⟩ := hinv.chains c head hread
  have e0 := Chain.unique_list hps0 hch
  subst e0
  have hnd : (ps0.map fun x => x.2.pair).Nodup :=
    hinv.unique c _ ⟨head, hread, ps0, hch, rfl, by rw [hbs]; exact hlive⟩
  have hcarry : ∀ c' h qs, c' ≠ c → readCell s c' = .ok h → Chain s.pool h qs →
      Chain s'.pool h qs := by
    intro c' h qs hne hr hq
    refine hq.congr fun x hx => ?_
    rw [hframe x.1 (fun y hy e =>
      hinv.disjoint c c' head h ps0 qs (Ne.symm hne) hread hr hch hq y hy x hx e)]
    exact hq.slot x hx
  have hback : ∀ c' h qs', c' ≠ c → readCell s' c' = .ok h → Chain s'.pool h qs' →
      Chain s.pool h qs' := by
    intro c' h qs' hne hr hq
    rw [hother c' hne] at hr
    obtain ⟨_, qs, hqs, _, _⟩ := hinv.chains c' h hr
    have e := Chain.unique_list (hcarry c' h qs hne hr hqs) hq
    exact e ▸ hqs
  refine ⟨hpool, ?_, ?_, ?_⟩
  · intro c' h hr
    by_cases hc : c' = c
    · subst hc
      rw [hread'] at hr
      cases hr
      refine ⟨_, ps', hch', rfl, fun b hb => hlive b ?_⟩
      rw [← hbs]
      exact hsub.subset hb
    · have hr0 := hr
      rw [hother c' hc] at hr0
      obtain ⟨bs', qs, hqs, hm, hl⟩ := hinv.chains c' h hr0
      exact ⟨bs', qs, hcarry c' h qs hc hr0 hqs, hm, hl⟩
  · intro c1 c2 h1 h2 ps1 ps2 hne hr1 hr2 hc1 hc2 x hx y hy
    by_cases e1 : c1 = c
    · subst e1
      have e2 : c2 ≠ c1 := Ne.symm hne
      rw [hread'] at hr1
      cases hr1
      have e := Chain.unique_list hc1 hch'
      subst e
      have hc2' := hback c2 h2 ps2 e2 hr2 hc2
      obtain ⟨z, hz, hzx⟩ := hptr x hx
      rw [← hzx]
      rw [hother c2 e2] at hr2
      exact hinv.disjoint c1 c2 head h2 ps0 ps2 hne hread hr2 hch hc2' z hz y hy
    · by_cases e2 : c2 = c
      · subst e2
        rw [hread'] at hr2
        cases hr2
        have e := Chain.unique_list hc2 hch'
        subst e
        have hc1' := hback c1 h1 ps1 e1 hr1 hc1
        obtain ⟨z, hz, hzy⟩ := hptr y hy
        rw [← hzy]
        rw [hother c1 e1] at hr1
        exact hinv.disjoint c1 c2 h1 head ps1 ps0 hne hr1 hread hc1' hch x hx z hz
      · have hc1' := hback c1 h1 ps1 e1 hr1 hc1
        have hc2' := hback c2 h2 ps2 e2 hr2 hc2
        rw [hother c1 e1] at hr1
        rw [hother c2 e2] at hr2
        exact hinv.disjoint c1 c2 h1 h2 ps1 ps2 hne hr1 hr2 hc1' hc2' x hx y hy
  · rintro c' l ⟨h, hr, qs, hq, hm, hl⟩
    by_cases hc : c' = c
    · subst hc
      rw [hread'] at hr
      cases hr
      have e := Chain.unique_list hq hch'
      subst e
      rw [← hm]
      exact hnd.sublist hsub
    · have hq' := hback c' h qs hc hr hq
      rw [hother c' hc] at hr
      exact hinv.unique c' l ⟨h, hr, qs, hq', hm, hl⟩

/-- The invariant after the head of a chain is unlinked and freed. -/
theorem remove_head_inv {s : Store} (hinv : Inv s) {c : Cell} {p : Ptr} {b : keybinding}
    (hr : readCell s c = .ok (some p)) (hs : slotAt s.pool p = .ok b) :
    Inv { writeCell s c b.next with pool := release s.pool p } := by
  obtain ⟨bs, ps, hps, hbs, hlive⟩ := hinv.chains c _ hr
  cases hps with
  | cons hs' hc =>
    rw [hs] at hs'
    cases hs'
    have hnot := Chain.head_not_in_tail hs hc
    have hb0 : b.target ≠ 0 := hlive b.pair (by rw [← hbs]; simp) 
    refine hinv.of_shrink c (PoolOK.release hinv.pool hs hb0) hr (Chain.cons hs hc)
      (by rw [readCell_pool]; exact readCell_writeCell_self hr _)
      (hc.congr fun x hx => ?_) (fun c' hne => ?_) ?_ (fun x hx => ⟨x, List.mem_cons_of_mem _ hx, rfl⟩)
      (fun q hq => ?_)
    · show slotAt (release s.pool p) x.1 = .ok x.2
      rw [slotAt_release_ne (hnot x hx)]
      exact hc.slot x hx
    · rw [readCell_pool]
      exact readCell_writeCell_ne hne _
    · simp only [List.map_cons]
      exact List.sublist_cons_self _ _
    · show slotAt (release s.pool p) q = slotAt s.pool q
      exact slotAt_release_ne (fun e => hq (p, b) (List.mem_cons_self _ _) e.symm)

/-- The invariant after the second slot of a chain is unlinked and freed. -/
theorem unlink_inv {s : Store} (hinv : Inv s) {c : Cell} {prev q : Ptr} {pb qb : keybinding}
    (hr : readCell s c = .ok (some prev)) (hp : slotAt s.pool prev = .ok pb)
    (hn : pb.next = some q) (hq : slotAt s.pool q = .ok qb) :
    Inv { s with pool := release (setNext s.pool prev qb.next) q } := by
  obtain ⟨bs, ps, hps, hbs, hlive⟩ := hinv.chains c _ hr
  cases hps with
  | cons hs' hc =>
    rw [hp] at hs'
    cases hs'
    rw [hn] at hc
    cases hc with
    | cons hq' hc2 =>
      rw [hq] at hq'
      cases hq'
      rename_i l
      have hc1 : Chain s.pool pb.next ((q, qb) :: l) := by rw [hn]; exact Chain.cons hq hc2
      have hnot1 := Chain.head_not_in_tail hp hc1
      have hnot2 := Chain.head_not_in_tail hq hc2
      have hqp : q ≠ prev := hnot1 (q, qb) (List.mem_cons_self _ _)
      have hqb0 : qb.target ≠ 0 := hlive qb.pair (by rw [← hbs]; simp)
      have hq1 : slotAt (setNext s.pool prev qb.next) q = .ok qb := by
        rw [slotAt_setNext_ne hqp]; exact hq
      have hpool : PoolOK (release (setNext s.pool prev qb.next) q) :=
        PoolOK.release ((hinv.pool.off 0).setNext prev qb.next).ok hq1 hqb0
      refine @Inv.of_shrink s { s with pool := release (setNext s.pool prev qb.next) q } hinv c
        (some prev) (some prev) ((prev, pb) :: (q, qb) :: l)
        ((prev, { pb with next := qb.next }) :: l) hpool hr (Chain.cons hp hc1)
        (by rw [readCell_pool]; exact hr) (Chain.cons ?_ (hc2.congr fun x hx => ?_))
        (fun c' _ => readCell_pool s _ c') ?_ ?_ (fun z hz => ?_)
      · show slotAt (release (setNext s.pool prev qb.next) q) prev = _
        rw [slotAt_release_ne (Ne.symm hqp)]
        exact slotAt_setNext_self hp _
      · show slotAt (release (setNext s.pool prev qb.next) q) x.1 = .ok x.2
        rw [slotAt_release_ne (hnot2 x hx),
          slotAt_setNext_ne (hnot1 x (List.mem_cons_of_mem _ hx))]
        exact hc2.slot x hx
      · simp only [List.map_cons]
        exact List.Sublist.cons₂ _ (List.sublist_cons_self _ _)
      · intro x hx
        rcases List.mem_cons.mp hx with rfl | hx
        · exact ⟨(prev, pb), List.mem_cons_self _ _, rfl⟩
        · exact ⟨x, List.mem_cons_of_mem _ (List.mem_cons_of_mem _ hx), rfl⟩
      · show slotAt (release (setNext s.pool prev qb.next) q) z = slotAt s.pool z
        have hzq : z ≠ q := fun e =>
          hz (q, qb) (List.mem_cons_of_mem _ (List.mem_cons_self _ _)) e.symm
        have hzp : z ≠ prev := fun e => hz (prev, pb) (List.mem_cons_self _ _) e.symm
        rw [slotAt_release_ne hzq, slotAt_setNext_ne hzp]

/-! ## remove_binding keeps the invariant -/

theorem store_pool_self (s : Store) : ({ s with pool := s.pool } : Store) = s := by
  cases s
  rfl

/-- The loop of `remove_binding`, when it ends, leaves a store that satisfies
the invariant. -/
theorem remove_loop_inv (target : Nat) (c : Cell) (prev : Ptr) :
    ∀ (n : Nat) (s : Store) (pool1 : List keypool), Inv s → readCell s c = .ok (some prev) →
      remove_loop target n s.pool prev = .ok pool1 → Inv { s with pool := pool1 }
  | 0, _, _, _, _, h => by
    unfold remove_loop at h
    cases h
  | n + 1, s, pool1, hinv, hr, h => by
    unfold remove_loop at h
    cases hp : slotAt s.pool prev with
    | fuel => rw [hp] at h; cases h
    | fault => rw [hp] at h; cases h
    | ok pb =>
      rw [hp] at h
      simp only at h
      cases hn : pb.next with
      | none =>
        rw [hn] at h
        simp only [Res.ok.injEq] at h
        subst h
        rw [store_pool_self]
        exact hinv
      | some q =>
        rw [hn] at h
        simp only at h
        cases hq : slotAt s.pool q with
        | fuel => rw [hq] at h; cases h
        | fault => rw [hq] at h; cases h
        | ok qb =>
          rw [hq] at h
          simp only at h
          by_cases ht : qb.target = target
          · rw [if_pos ht] at h
            exact remove_loop_inv target c prev n
              { s with pool := release (setNext s.pool prev qb.next) q } pool1
              (unlink_inv hinv hr hp hn hq) (by rw [readCell_pool]; exact hr) h
          · rw [if_neg ht] at h
            exact remove_loop_inv target c prev n s pool1 hinv hr h

/-- A call of `remove_binding` on a cell that returns leaves a store that
satisfies the invariant. -/
theorem remove_at_inv {s s1 : Store} (hinv : Inv s) {c : Cell} {target : Nat} {keycode : Int}
    {n : Nat} (h : remove_at n s c target keycode = .ok s1) : Inv s1 := by
  unfold remove_at at h
  cases hr : readCell s c with
  | fuel => rw [hr] at h; cases h
  | fault => rw [hr] at h; cases h
  | ok head =>
    rw [hr] at h
    simp only at h
    cases head with
    | none =>
      simp only [remove_binding, Res.ok.injEq] at h
      subst h
      rw [writeCell_self hr, store_pool_self]
      exact hinv
    | some p =>
      unfold remove_binding at h
      simp only at h
      cases hs : slotAt s.pool p with
      | fuel => rw [hs] at h; cases h
      | fault => rw [hs] at h; cases h
      | ok b =>
        rw [hs] at h
        simp only at h
        by_cases hm : b.target = target ∧ b.keycode = keycode
        · rw [if_pos hm] at h
          simp only [Res.ok.injEq] at h
          subst h
          exact remove_head_inv hinv hr hs
        · rw [if_neg hm] at h
          cases hl : remove_loop target n s.pool p with
          | fuel => rw [hl] at h; cases h
          | fault => rw [hl] at h; cases h
          | ok pool1 =>
            rw [hl] at h
            simp only [Res.ok.injEq] at h
            subst h
            rw [writeCell_self hr]
            exact remove_loop_inv target c p n s pool1 hinv hr hl

/-- A call of `add_binding` on a cell, with a target that is not `NULL`, that
returns leaves a store that satisfies the invariant. -/
theorem add_at_inv {s s1 : Store} (hinv : Inv s) {c : Cell} {target : Nat} (ht : target ≠ 0)
    {keycode : Int} {n : Nat} (h : add_at n s c target keycode = .ok s1) : Inv s1 := by
  have hr : ∃ head, readCell s c = .ok head := by
    unfold add_at at h
    cases hr : readCell s c with
    | fuel => rw [hr] at h; cases h
    | fault => rw [hr] at h; cases h
    | ok head => exact ⟨head, rfl⟩
  obtain ⟨head, hr⟩ := hr
  obtain ⟨l, hl⟩ := hinv.chains c head hr
  obtain ⟨v, pool1, hret, _, _, hinv1⟩ := add_at_spec hinv ⟨head, hr, hl⟩ target ht keycode
  have e := Returns.unique_result ((add_at_mono s c target keycode).returns h) hret
  rw [e]
  exact hinv1

theorem status0_inv {r : Res Store} {s1 : Store} {v : Int} (h : status0 r = .ok (s1, v)) :
    r = .ok s1 := by
  cases r with
  | fuel => cases h
  | fault => cases h
  | ok s2 =>
    simp only [status0, Res.ok.injEq, Prod.mk.injEq] at h
    rw [h.1]

theorem open_port_inv {host : Host} {s s1 : Store} {p : Nat} {j : joystick} (hinv : Inv s)
    (h : open_port host s p = .ok (s1, j)) : Inv s1 := by
  rw [(open_port_eq h).1]
  exact (hinv.after_create host p).1

/-- A call that changes the bindings, with a target that is not `NULL`, that
returns leaves a store that satisfies the invariant. -/
theorem BindingCall.run_inv {host : Host} {s s1 : Store} (hinv : Inv s) {call : BindingCall}
    (ht : ∀ t, call.target = some t → t ≠ 0) {n : Nat} (h : call.run host n s = .ok s1) :
    Inv s1 := by
  cases call with
  | addKey symbol target =>
    have ht0 : target ≠ 0 := ht target rfl
    simp only [BindingCall.run, VControl_AddKeyBinding] at h
    by_cases hb : bucketIndex symbol < 0
    · rw [if_pos hb] at h; cases h
    · rw [if_neg hb] at h
      cases ha : add_at n s (.bucket (bucketIndex symbol).toNat) target symbol with
      | fuel => rw [ha] at h; cases h
      | fault => rw [ha] at h; cases h
      | ok s2 =>
        rw [ha] at h
        simp only [Res.bind, Res.ok.injEq] at h
        subst h
        exact add_at_inv hinv ht0 ha
  | removeKey symbol target =>
    simp only [BindingCall.run, VControl_RemoveKeyBinding] at h
    by_cases hb : bucketIndex symbol < 0
    · rw [if_pos hb] at h; cases h
    · rw [if_neg hb] at h
      exact remove_at_inv hinv h
  | addAxis port a pol target =>
    have ht0 : target ≠ 0 := ht target rfl
    simp only [BindingCall.run, VControl_AddJoyAxisBinding] at h
    by_cases hp : 0 ≤ port ∧ port < s.joycount
    · rw [if_pos hp] at h
      cases ho : open_port host s port.toNat with
      | fuel => rw [ho] at h; cases h
      | fault => rw [ho] at h; cases h
      | ok r =>
        obtain ⟨s2, j⟩ := r
        have hinv2 := open_port_inv hinv ho
        rw [ho] at h
        simp only at h
        by_cases hx : 0 ≤ a ∧ a < j.numaxes
        · rw [if_pos hx] at h
          by_cases h1 : pol < 0
          · rw [if_pos h1] at h
            cases hc : status0 (add_at n s2 (.axis port.toNat a.toNat false) target SDLK_UNKNOWN) with
            | fuel => rw [hc] at h; cases h
            | fault => rw [hc] at h; cases h
            | ok r2 =>
              rw [hc] at h
              simp only [Res.bind, Res.ok.injEq] at h
              subst h
              exact add_at_inv hinv2 ht0 (status0_inv hc)
          · rw [if_neg h1] at h
            by_cases h2 : pol > 0
            · rw [if_pos h2] at h
              cases hc : status0 (add_at n s2 (.axis port.toNat a.toNat true) target SDLK_UNKNOWN) with
              | fuel => rw [hc] at h; cases h
              | fault => rw [hc] at h; cases h
              | ok r2 =>
                rw [hc] at h
                simp only [Res.bind, Res.ok.injEq] at h
                subst h
                exact add_at_inv hinv2 ht0 (status0_inv hc)
            · rw [if_neg h2] at h
              simp only [Res.bind, Res.ok.injEq] at h
              subst h
              exact hinv2
        · rw [if_neg hx] at h
          simp only [Res.bind, Res.ok.injEq] at h
          subst h
          exact hinv2
    · rw [if_neg hp] at h
      simp only [Res.bind, Res.ok.injEq] at h
      subst h
      exact hinv
  | removeAxis port a pol target =>
    simp only [BindingCall.run, VControl_RemoveJoyAxisBinding] at h
    by_cases hp : 0 ≤ port ∧ port < s.joycount
    · rw [if_pos hp] at h
      cases ho : open_port host s port.toNat with
      | fuel => rw [ho] at h; cases h
      | fault => rw [ho] at h; cases h
      | ok r =>
        obtain ⟨s2, j⟩ := r
        have hinv2 := open_port_inv hinv ho
        rw [ho] at h
        simp only at h
        by_cases hx : 0 ≤ a ∧ a < j.numaxes
        · rw [if_pos hx] at h
          by_cases h1 : pol < 0
          · rw [if_pos h1] at h
            exact remove_at_inv hinv2 h
          · rw [if_neg h1] at h
            by_cases h2 : pol > 0
            · rw [if_pos h2] at h
              exact remove_at_inv hinv2 h
            · rw [if_neg h2] at h
              simp only [Res.ok.injEq] at h
              subst h
              exact hinv2
        · rw [if_neg hx] at h
          simp only [Res.ok.injEq] at h
          subst h
          exact hinv2
    · rw [if_neg hp] at h
      simp only [Res.ok.injEq] at h
      subst h
      exact hinv
  | addButton port b target =>
    have ht0 : target ≠ 0 := ht target rfl
    simp only [BindingCall.run, VControl_AddJoyButtonBinding] at h
    by_cases hp : 0 ≤ port ∧ port < s.joycount
    · rw [if_pos hp] at h
      cases ho : open_port host s port.toNat with
      | fuel => rw [ho] at h; cases h
      | fault => rw [ho] at h; cases h
      | ok r =>
        obtain ⟨s2, j⟩ := r
        have hinv2 := open_port_inv hinv ho
        rw [ho] at h
        simp only at h
        by_cases hx : 0 ≤ b ∧ b < j.numbuttons
        · rw [if_pos hx] at h
          cases hc : status0 (add_at n s2 (.button port.toNat b.toNat) target SDLK_UNKNOWN) with
          | fuel => rw [hc] at h; cases h
          | fault => rw [hc] at h; cases h
          | ok r2 =>
            rw [hc] at h
            simp only [Res.bind, Res.ok.injEq] at h
            subst h
            exact add_at_inv hinv2 ht0 (status0_inv hc)
        · rw [if_neg hx] at h
          simp only [Res.bind, Res.ok.injEq] at h
          subst h
          exact hinv2
    · rw [if_neg hp] at h
      simp only [Res.bind, Res.ok.injEq] at h
      subst h
      exact hinv
  | removeButton port b target =>
    simp only [BindingCall.run, VControl_RemoveJoyButtonBinding] at h
    by_cases hp : 0 ≤ port ∧ port < s.joycount
    · rw [if_pos hp] at h
      cases ho : open_port host s port.toNat with
      | fuel => rw [ho] at h; cases h
      | fault => rw [ho] at h; cases h
      | ok r =>
        obtain ⟨s2, j⟩ := r
        have hinv2 := open_port_inv hinv ho
        rw [ho] at h
        simp only at h
        by_cases hx : 0 ≤ b ∧ b < j.numbuttons
        · rw [if_pos hx] at h
          exact remove_at_inv hinv2 h
        · rw [if_neg hx] at h
          simp only [Res.ok.injEq] at h
          subst h
          exact hinv2
    · rw [if_neg hp] at h
      simp only [Res.ok.injEq] at h
      subst h
      exact hinv
  | addHat port which dir target =>
    have ht0 : target ≠ 0 := ht target rfl
    simp only [BindingCall.run, VControl_AddJoyHatBinding] at h
    by_cases hp : 0 ≤ port ∧ port < s.joycount
    · rw [if_pos hp] at h
      cases ho : open_port host s port.toNat with
      | fuel => rw [ho] at h; cases h
      | fault => rw [ho] at h; cases h
      | ok r =>
        obtain ⟨s2, j⟩ := r
        have hinv2 := open_port_inv hinv ho
        rw [ho] at h
        simp only at h
        by_cases hx : 0 ≤ which ∧ which < j.numhats
        · rw [if_pos hx] at h
          cases hd : hatDirOf dir with
          | none =>
            rw [hd] at h
            simp only [Res.bind, Res.ok.injEq] at h
            subst h
            exact hinv2
          | some d =>
            rw [hd] at h
            simp only at h
            cases hc : status0 (add_at n s2 (.hat port.toNat which.toNat d) target SDLK_UNKNOWN) with
            | fuel => rw [hc] at h; cases h
            | fault => rw [hc] at h; cases h
            | ok r2 =>
              rw [hc] at h
              simp only [Res.bind, Res.ok.injEq] at h
              subst h
              exact add_at_inv hinv2 ht0 (status0_inv hc)
        · rw [if_neg hx] at h
          simp only [Res.bind, Res.ok.injEq] at h
          subst h
          exact hinv2
    · rw [if_neg hp] at h
      simp only [Res.bind, Res.ok.injEq] at h
      subst h
      exact hinv
  | removeHat port which dir target =>
    simp only [BindingCall.run, VControl_RemoveJoyHatBinding] at h
    by_cases hp : 0 ≤ port ∧ port < s.joycount
    · rw [if_pos hp] at h
      cases ho : open_port host s port.toNat with
      | fuel => rw [ho] at h; cases h
      | fault => rw [ho] at h; cases h
      | ok r =>
        obtain ⟨s2, j⟩ := r
        have hinv2 := open_port_inv hinv ho
        rw [ho] at h
        simp only at h
        by_cases hx : 0 ≤ which ∧ which < j.numhats
        · rw [if_pos hx] at h
          cases hd : hatDirOf dir with
          | none =>
            rw [hd] at h
            simp only [Res.ok.injEq] at h
            subst h
            exact hinv2
          | some d =>
            rw [hd] at h
            exact remove_at_inv hinv2 h
        · rw [if_neg hx] at h
          simp only [Res.ok.injEq] at h
          subst h
          exact hinv2
    · rw [if_neg hp] at h
      simp only [Res.ok.injEq] at h
      subst h
      exact hinv
  | removeAll =>
    simp only [BindingCall.run, Res.ok.injEq] at h
    subst h
    exact key_init_inv host _

/-- Every reached state satisfies the invariant of the Binding Store. -/
theorem Reach.inv {host : Host} {s : Store} (h : Reach host s) : Inv s := by
  induction h with
  | init => exact VControl_Init_inv host
  | @call s0 s2 fuel cl hreach ht hrun ih =>
    obtain ⟨t, ht1, ht2⟩ := ht
    refine BindingCall.run_inv ih (fun t' e => ?_) hrun
    rw [ht1] at e
    cases e
    exact ht2

theorem Reach.of_calls {host : Host} {fuel : Nat} :
    ∀ (calls : List BindingCall) {s s1 : Store}, Reach host s →
      (∀ cl ∈ calls, ∃ t, cl.target = some t ∧ t ≠ 0) →
      run_calls host fuel s calls = .ok s1 → Reach host s1
  | [], s, s1, hs, _, h => by
    simp only [run_calls, Res.ok.injEq] at h
    subst h
    exact hs
  | cl :: rest, s, s1, hs, ht, h => by
    simp only [run_calls] at h
    cases hr : cl.run host fuel s with
    | fuel => rw [hr] at h; cases h
    | fault => rw [hr] at h; cases h
    | ok s2 =>
      rw [hr] at h
      exact Reach.of_calls rest (Reach.call fuel cl hs (ht cl (List.mem_cons_self _ _)) hr)
        (fun c hc => ht c (List.mem_cons_of_mem _ hc)) h

/-! ## The invariants in every reached state -/

set_option maxRecDepth 100000 in
theorem reachStore_reached : Reach padHost reachStore :=
  @Reach.of_calls padHost 4 reachCalls _ _ Reach.init (by decide) (by decide)

/-- C26: in every state reached from `VControl_Init` by calls of the add and
remove binding functions (key, axis, button, hat) with targets that are not
`NULL`, the pool is allocated and every chunk has `POOL_CHUNK_SIZE` = 64 slots
and a `remaining` count equal to the number of its slots whose target is
`NULL`. -/
theorem pool_free_count_invariant {host : Host} {s : Store} (h : Reach host s) :
    s.pool ≠ [] ∧ ∀ c ∈ s.pool, c.pool.length = POOL_CHUNK_SIZE ∧
      c.remaining = ((c.pool.countP fun b => b.target = 0 : Nat) : Int) :=
  h.inv.pool

theorem pool_free_count_invariant_witness :
    Reach padHost reachStore ∧
      (reachStore.pool ≠ [] ∧ ∀ c ∈ reachStore.pool, c.pool.length = POOL_CHUNK_SIZE ∧
        c.remaining = ((c.pool.countP fun b => b.target = 0 : Nat) : Int)) :=
  ⟨reachStore_reached, pool_free_count_invariant reachStore_reached⟩

set_option maxRecDepth 100000 in
/-- C27, as the claim has it: the calls `VControl_AddJoyButtonBinding (0, 0,
&a)`, `VControl_AddJoyButtonBinding (0, 0, NULL)` and
`VControl_AddJoyButtonBinding (0, 1, &a)` after `VControl_Init` all return,
and the chain of button 0 then holds the pair `(a, SDLK_UNKNOWN)` twice: the
third call takes the slot of the `NULL` binding, which is still linked in the
chain of button 0, as a free slot. -/
theorem null_target_repeats_pair :
    run_calls padHost 3 (VControl_Init padHost) nullTargetCalls = .ok nullTargetStore ∧
      HoldsChain nullTargetStore (.button 0 0) [(100, SDLK_UNKNOWN), (100, SDLK_UNKNOWN)] ∧
      cell_bindings nullTargetStore (.button 0 0) =
        [(100, SDLK_UNKNOWN), (100, SDLK_UNKNOWN)] ∧
      ¬ChainsUnique nullTargetStore := by
  have hc : HoldsChain nullTargetStore (.button 0 0)
      [(100, SDLK_UNKNOWN), (100, SDLK_UNKNOWN)] :=
    ⟨some ⟨0, 0⟩, by decide,
      [(⟨0, 0⟩, { target := 100, keycode := 0, next := some ⟨0, 1⟩ }),
        (⟨0, 1⟩, { target := 100, keycode := 0, next := none })],
      Chain.cons (by decide) (Chain.cons (by decide) Chain.nil), by decide, by decide⟩
  exact ⟨by decide, hc, by decide, fun hu => absurd (hu _ _ hc) (by decide)⟩

/-- C27: in every state reached from `VControl_Init` by calls of the add and
remove binding functions with targets that are not `NULL`, every chain head
cell (a keyboard bucket, a side of an axis, a button, a direction of a hat)
holds a chain without a cycle in which no pair `(target, key code)` occurs
twice. -/
theorem chains_unique_invariant {host : Host} {s : Store} (h : Reach host s) :
    (∀ c head, readCell s c = .ok head → ∃ l, HoldsChain s c l) ∧
      ∀ c l, HoldsChain s c l → l.Nodup :=
  ⟨fun c head hr => (h.inv.chains c head hr).imp fun _ hl => ⟨head, hr, hl⟩, h.inv.unique⟩

theorem chains_unique_invariant_witness :
    Reach padHost reachStore ∧
      ((∀ c head, readCell reachStore c = .ok head → ∃ l, HoldsChain reachStore c l) ∧
        ∀ c l, HoldsChain reachStore c l → l.Nodup) :=
  ⟨reachStore_reached, chains_unique_invariant reachStore_reached⟩

/-! ## The bindings of a cell -/

theorem Chain.nodup_ptrs {pool : List keypool} {head : Option Ptr}
    {ps : List (Ptr × keybinding)} (h : Chain pool head ps) : (ps.map Prod.fst).Nodup := by
  induction h with
  | nil => exact List.nodup_nil
  | cons hs hc ih =>
    rw [List.map_cons, List.nodup_cons]
    refine ⟨fun hm => ?_, ih⟩
    obtain ⟨x, hx, hxp⟩ := List.mem_map.mp hm
    exact Chain.head_not_in_tail hs hc x hx hxp

theorem slotList_length : ∀ (pool : List keypool) (i : Nat),
    (slotList pool i).length = poolSlots pool
  | [], _ => rfl
  | c :: cs, i => by
    simp only [slotList, List.length_append, List.length_map, List.length_range,
      slotList_length cs (i + 1), poolSlots, List.map_cons, List.sum_cons]

theorem mem_slotList : ∀ (pool : List keypool) (i k j : Nat) (c : keypool),
    pool[k]? = some c → j < c.pool.length → ({ chunk := i + k, slot := j } : Ptr) ∈ slotList pool i
  | [], _, _, _, _, h, _ => by simp at h
  | c0 :: cs, i, 0, j, c, h, hj => by
    simp only [List.getElem?_cons_zero, Option.some.injEq] at h
    subst h
    simp only [slotList, List.mem_append, List.mem_map, List.mem_range]
    exact Or.inl ⟨j, hj, rfl⟩
  | c0 :: cs, i, k + 1, j, c, h, hj => by
    simp only [List.getElem?_cons_succ] at h
    simp only [slotList, List.mem_append]
    right
    have := mem_slotList cs (i + 1) k j c h hj
    have e : i + 1 + k = i + (k + 1) := by omega
    rw [e] at this
    exact this

theorem slotAt_mem_slotList {pool : List keypool} {p : Ptr} {b : keybinding}
    (h : slotAt pool p = .ok b) : p ∈ slotList pool 0 := by
  obtain ⟨c, hc, hb⟩ := slotAt_eq_ok.mp h
  have := mem_slotList pool 0 p.chunk p.slot c hc (getElem?_lt_of_eq_some hb)
  rw [Nat.zero_add] at this
  exact this

/-- A chain without a cycle has no more slots than the pool. -/
theorem Chain.length_le {pool : List keypool} {head : Option Ptr}
    {ps : List (Ptr × keybinding)} (h : Chain pool head ps) : ps.length ≤ poolSlots pool := by
  have hsub : ps.map Prod.fst ⊆ slotList pool 0 := by
    intro p hp
    obtain ⟨x, hx, rfl⟩ := List.mem_map.mp hp
    exact slotAt_mem_slotList (h.slot x hx)
  have := (List.subperm_of_subset h.nodup_ptrs hsub).length_le
  rw [List.length_map, slotList_length] at this
  exact this

theorem Chain.chain_pairs_eq {pool : List keypool} {head : Option Ptr}
    {ps : List (Ptr × keybinding)} (h : Chain pool head ps) :
    ∀ n, ps.length ≤ n → chain_pairs pool n head = ps.map (fun x => x.2.pair) := by
  induction h with
  | nil => intro n _; cases n <;> rfl
  | cons hs hc ih =>
    intro n hn
    cases n with
    | zero => simp at hn
    | succ n =>
      simp only [chain_pairs, hs, List.map_cons]
      rw [ih n (by simpa using hn)]

/-- The walk `cell_bindings` reads the whole chain of a cell. -/
theorem HoldsChain.cell_bindings_eq {s : Store} {c : Cell} {l : List (Nat × Int)}
    (h : HoldsChain s c l) : cell_bindings s c = l := by
  obtain ⟨head, hr, ps, hch, hm, _⟩ := h
  simp only [cell_bindings, hr]
  rw [hch.chain_pairs_eq _ hch.length_le, hm]

/-! ## Counters under a sequence of key events -/

theorem filter_erase_length (p : Int → Bool) (k : Int) :
    ∀ held : List Int, held.Nodup → k ∈ held →
      ((held.erase k).filter p).length + (if p k = true then 1 else 0) =
        (held.filter p).length
  | [], _, h => by cases h
  | x :: xs, hnd, hm => by
    obtain ⟨hx, hnd'⟩ := List.nodup_cons.mp hnd
    by_cases e : x = k
    · subst e
      rw [List.erase_cons_head]
      by_cases hp : p x = true
      · simp [List.filter_cons, hp]
      · simp [List.filter_cons, hp]
    · have hk : k ∈ xs := by
        rcases List.mem_cons.mp hm with h | h
        · exact absurd h.symm e
        · exact h
      have ih := filter_erase_length p k xs hnd' hk
      rw [List.erase_cons_tail (by simpa using e)]
      by_cases hp : p x = true
      · simp only [List.filter_cons, hp, if_true, List.length_cons]
        omega
      · simp only [List.filter_cons, hp, if_false, Bool.false_eq_true]
        exact ih

theorem heldCount_cons (s : Store) (k : Int) (held : List Int) (a : Nat) :
    heldCount s (k :: held) a =
      (if (a, k) ∈ cell_bindings s (.bucket (bucketIndex k).toNat) then 1 else 0) +
        heldCount s held a := by
  unfold heldCount
  by_cases h : (a, k) ∈ cell_bindings s (.bucket (bucketIndex k).toNat)
  · simp only [List.filter_cons, h, decide_True, if_true, List.length_cons]
    omega
  · simp only [List.filter_cons, h, decide_False, if_false, Bool.false_eq_true]
    omega

theorem heldCount_erase (s : Store) (k : Int) {held : List Int} (hnd : held.Nodup)
    (hk : k ∈ held) (a : Nat) :
    heldCount s (held.erase k) a +
        (if (a, k) ∈ cell_bindings s (.bucket (bucketIndex k).toNat) then 1 else 0) =
      heldCount s held a := by
  have := filter_erase_length
    (fun k => decide ((a, k) ∈ cell_bindings s (.bucket (bucketIndex k).toNat))) k held hnd hk
  simp only [decide_eq_true_eq] at this
  exact this

theorem bound_count_mem {keycode : Int} {a : Nat} {l : List (Nat × Int)} (hnd : l.Nodup) :
    bound_count keycode l a = if (a, keycode) ∈ l then 1 else 0 := by
  by_cases h : (a, keycode) ∈ l
  · rw [if_pos h, bound_count_eq_one hnd h]
  · rw [if_neg h, bound_count_eq_zero h]

/-- After a well-formed sequence of key events, each counter has grown from
the number of held keys bound to it to the number of keys then held and bound
to it. -/
theorem key_run_counts {s : Store} (hinv : Inv s)
    (hlen : s.bindings.length = KEYBOARD_INPUT_BUCKETS) :
    ∀ (es : List KeyEvent) (held : List Int) (m : Mem), held.Nodup → WellFormed held es →
      (∀ e ∈ es, 0 ≤ bucketIndex e.symbol) → (∀ a, m a = (heldCount s held a : Int)) →
      ∃ m1, Returns (fun fuel => key_run fuel s es m) m1 ∧ (heldAfter held es).Nodup ∧
        ∀ a, m1 a = (heldCount s (heldAfter held es) a : Int)
  | [], held, m, hnd, _, _, hm => ⟨m, Returns.pure m, hnd, hm⟩
  | .down k :: es, held, m, hnd, hw, hk, hm => by
    have hk0 : 0 ≤ bucketIndex k := hk (.down k) (List.mem_cons_self _ _)
    obtain ⟨l, hl⟩ := hinv.holds_bucket (i := (bucketIndex k).toNat)
      (by rw [hlen]; exact bucket_toNat_lt hk0)
    have hcb := hl.cell_bindings_eq
    have hndl := hinv.unique _ _ hl
    obtain ⟨m1, hret, hnd1, hm1⟩ := key_run_counts hinv hlen es (k :: held)
      (activate_list k l m) (List.nodup_cons.mpr ⟨hw.1, hnd⟩) hw.2
      (fun e he => hk e (List.mem_cons_of_mem _ he)) (fun a => by
        rw [activate_list_apply, hm a, heldCount_cons, hcb, bound_count_mem hndl]
        by_cases h : (a, k) ∈ l
        · simp only [if_pos h]; push_cast; ring
        · simp only [if_neg h]; push_cast; ring)
    exact ⟨m1, Returns.bind (g := fun n => key_run n s es) (hl.keyDown hk0 m) hret, hnd1, hm1⟩
  | .up k :: es, held, m, hnd, hw, hk, hm => by
    have hk0 : 0 ≤ bucketIndex k := hk (.up k) (List.mem_cons_self _ _)
    obtain ⟨l, hl⟩ := hinv.holds_bucket (i := (bucketIndex k).toNat)
      (by rw [hlen]; exact bucket_toNat_lt hk0)
    have hcb := hl.cell_bindings_eq
    have hndl := hinv.unique _ _ hl
    have hcount : ∀ a, (heldCount s (held.erase k) a : Int) +
        (if (a, k) ∈ l then 1 else 0) = m a := by
      intro a
      have := heldCount_erase s k hnd hw.1 a
      rw [hcb] at this
      rw [hm a, ← this]
      by_cases h : (a, k) ∈ l
      · simp only [if_pos h]; push_cast; ring
      · simp only [if_neg h]; push_cast; ring
    obtain ⟨m1, hret, hnd1, hm1⟩ := key_run_counts hinv hlen es (held.erase k)
      (deactivate_list k l m) (hnd.erase k) hw.2
      (fun e he => hk e (List.mem_cons_of_mem _ he)) (fun a => by
        rw [deactivate_list_apply k l m a (fun a' hne => by
          rw [bound_count_mem hndl] at hne ⊢
          have := hcount a'
          by_cases h : (a', k) ∈ l
          · simp only [if_pos h] at this ⊢; omega
          · simp only [if_neg h] at hne; exact absurd rfl hne), bound_count_mem hndl]
        have := hcount a
        by_cases h : (a, k) ∈ l
        · simp only [if_pos h] at this ⊢; omega
        · simp only [if_neg h] at this ⊢; omega)
    exact ⟨m1, Returns.bind (g := fun n => key_run n s es) (hl.keyUp hk0 m) hret, hnd1, hm1⟩

set_option maxRecDepth 100000 in
theorem fourKeys_inv : Inv fourKeys ∧ fourKeys.bindings.length = KEYBOARD_INPUT_BUCKETS :=
  ⟨(@Reach.of_calls noJoyHost 4 [.addKey 1 100, .addKey 513 200, .addKey 1025 300, .addKey 2 100]
    _ fourKeys Reach.init (by decide) (by decide)).inv, by decide⟩

/-- C29: on a store that satisfies the store invariant, with all counters at
0 and no key held, every well-formed sequence of `VControl_ProcessKeyDown` and
`VControl_ProcessKeyUp` calls (a key is pressed only while released, released
only while held; key codes with a bucket) returns, and the counter of every
target is then the number of the held key codes, all distinct, whose binding
to that target is in the chain of its bucket; so a counter is 0 exactly when no
held key is bound to it. -/
theorem counter_counts_held_keys (s : Store) (hinv : Inv s)
    (hlen : s.bindings.length = KEYBOARD_INPUT_BUCKETS) (es : List KeyEvent)
    (hw : WellFormed [] es) (hk : ∀ e ∈ es, 0 ≤ bucketIndex e.symbol) :
    ∃ m1, Returns (fun fuel => key_run fuel s es (fun _ => 0)) m1 ∧
      (heldAfter [] es).Nodup ∧
      (∀ a, m1 a = (heldCount s (heldAfter [] es) a : Int)) ∧
      ∀ a, m1 a = 0 ↔ ∀ k ∈ heldAfter [] es,
        (a, k) ∉ cell_bindings s (.bucket (bucketIndex k).toNat) := by
  obtain ⟨m1, hret, hnd, hm⟩ := key_run_counts hinv hlen es [] (fun _ => 0) List.nodup_nil hw hk
    (fun _ => rfl)
  refine ⟨m1, hret, hnd, hm, fun a => ?_⟩
  rw [hm a]
  simp only [heldCount, Nat.cast_eq_zero, List.length_eq_zero, List.filter_eq_nil_iff,
    decide_eq_true_eq]

set_option maxRecDepth 100000 in
theorem counter_counts_held_keys_witness :
    heldAfter [] heldEvents = [1, 2] ∧ heldCount fourKeys [1, 2] 100 = 2 ∧
      heldCount fourKeys [1, 2] 200 = 0 ∧
      ∃ m1, Returns (fun fuel => key_run fuel fourKeys heldEvents (fun _ => 0)) m1 ∧
        (heldAfter [] heldEvents).Nodup ∧
        (∀ a, m1 a = (heldCount fourKeys (heldAfter [] heldEvents) a : Int)) ∧
        ∀ a, m1 a = 0 ↔ ∀ k ∈ heldAfter [] heldEvents,
          (a, k) ∉ cell_bindings fourKeys (.bucket (bucketIndex k).toNat) :=
  ⟨by decide, by decide, by decide,
    counter_counts_held_keys fourKeys fourKeys_inv.1 fourKeys_inv.2 heldEvents
      (by simp [WellFormed, heldEvents]) (by decide)⟩

/-! ## The order of the lines that the dump writes -/

theorem itemsText_append (table : List VControl_NameBinding) (keys : KeyNames) :
    ∀ a b : List DumpItem,
      itemsText table keys (a ++ b) = itemsText table keys a ++ itemsText table keys b
  | [], b => rfl
  | x :: a, b => by
    show itemText table keys x ++ itemsText table keys (a ++ b) = _
    rw [itemsText_append table keys a b]
    simp only [itemsText, List.append_assoc]

theorem itemsText_bindings (table : List VControl_NameBinding) (keys : KeyNames) (c : Cell) :
    ∀ l : List (Nat × Int),
      itemsText table keys (l.map (DumpItem.binding c)) = chainText table keys (cellName c) l
  | [] => rfl
  | b :: l => by
    simp only [List.map_cons, itemsText, itemText, chainText, itemsText_bindings table keys c l]

/-- The function `dump_keybindings` on the chain of a cell writes the lines of
the bindings of the cell, in chain order. -/
theorem dump_cell_text {host : Host} {keys : KeyNames} {table : List VControl_NameBinding}
    {s : Store} (hg : Good host table s) (hw : Writable table keys s) {c : Cell}
    {head : Option Ptr} (hr : readCell s c = .ok head) (name : List Char)
    (hname : name = cellName c) (fuel : Nat) (hfuel : poolSlots s.pool ≤ fuel) :
    dump_keybindings keys s name fuel head = .ok (itemsText table keys (cellItems s c)) := by
  obtain ⟨l, ps, hch, hl, hnz⟩ := hg.inv.chains c head hr
  have hold : HoldsChain s c l := ⟨head, hr, ps, hch, hl, hnz⟩
  have hall : ∀ x ∈ ps, (∃ nm, target2name_loop table x.2.target = some nm) ∧
      (x.2.keycode ≠ SDLK_UNKNOWN →
        ∃ kn, keys.code2name x.2.keycode = some kn ∧ kn.length ≤ 59) := by
    intro x hx
    have hb : x.2.pair ∈ l := by
      rw [← hl]
      exact List.mem_map_of_mem _ hx
    exact hw c x.2.pair.1 x.2.pair.2 ⟨l, hold, hb⟩
  rw [dump_keybindings_chain hg.names name hch hall fuel (le_trans hch.length_le hfuel), hl,
    cellItems, hold.cell_bindings_eq, itemsText_bindings, hname]

theorem dump_buckets_text {host : Host} {keys : KeyNames} {table : List VControl_NameBinding}
    {s : Store} (hg : Good host table s) (hw : Writable table keys s) (fuel : Nat)
    (hfuel : poolSlots s.pool ≤ fuel) :
    ∀ (heads : List (Option Ptr)) (i : Nat),
      (∀ j h, heads[j]? = some h → readCell s (.bucket (i + j)) = .ok h) →
      dump_buckets keys s fuel heads =
        .ok (itemsText table keys (catRange (fun i => cellItems s (.bucket i)) i heads.length))
  | [], _, _ => rfl
  | kb :: kbs, i, hcells => by
    have h1 := dump_cell_text hg hw (hcells 0 kb (by simp)) "<Unknown key>".toList rfl fuel hfuel
    have h2 := dump_buckets_text hg hw fuel hfuel kbs (i + 1) (fun j h hj => by
      have := hcells (j + 1) h (by simpa using hj)
      rw [show i + 1 + j = i + (j + 1) by omega]
      exact this)
    rw [Nat.add_zero] at h1
    simp only [dump_buckets, h1, h2, Res.bind, List.length_cons, catRange, itemsText_append]

theorem dump_axes_text {host : Host} {keys : KeyNames} {table : List VControl_NameBinding}
    {s : Store} (hg : Good host table s) (hw : Writable table keys s) (fuel : Nat)
    (hfuel : poolSlots s.pool ≤ fuel) (p : Nat) :
    ∀ (xs : List axis) (j : Nat),
      (∀ m x, xs[m]? = some x → readCell s (.axis p (j + m) false) = .ok x.neg ∧
        readCell s (.axis p (j + m) true) = .ok x.pos) →
      dump_axes keys s fuel p j xs =
        .ok (itemsText table keys (catRange
          (fun a => cellItems s (.axis p a false) ++ cellItems s (.axis p a true)) j xs.length))
  | [], _, _ => rfl
  | x :: xs, j, hcells => by
    have h0 := hcells 0 x (by simp)
    rw [Nat.add_zero] at h0
    have h1 := dump_cell_text hg hw h0.1
      ("joystick ".toList ++ fmt_d p ++ " axis ".toList ++ fmt_d j ++ " negative".toList)
      (by simp [cellName]) fuel hfuel
    have h2 := dump_cell_text hg hw h0.2
      ("joystick ".toList ++ fmt_d p ++ " axis ".toList ++ fmt_d j ++ " positive".toList)
      (by simp [cellName]) fuel hfuel
    have h3 := dump_axes_text hg hw fuel hfuel p xs (j + 1) (fun m y hy => by
      have := hcells (m + 1) y (by simpa using hy)
      rw [show j + 1 + m = j + (m + 1) by omega]
      exact this)
    rw [dump_axes, h1, h2, h3]
    simp only [Res.bind, List.length_cons, catRange, itemsText_append, List.append_assoc]

theorem dump_buttons_text {host : Host} {keys : KeyNames} {table : List VControl_NameBinding}
    {s : Store} (hg : Good host table s) (hw : Writable table keys s) (fuel : Nat)
    (hfuel : poolSlots s.pool ≤ fuel) (p : Nat) :
    ∀ (heads : List (Option Ptr)) (j : Nat),
      (∀ m h, heads[m]? = some h → readCell s (.button p (j + m)) = .ok h) →
      dump_buttons keys s fuel p j heads =
        .ok (itemsText table keys (catRange (fun b => cellItems s (.button p b)) j
          heads.length))
  | [], _, _ => rfl
  | kb :: kbs, j, hcells => by
    have h0 := hcells 0 kb (by simp)
    rw [Nat.add_zero] at h0
    have h1 := dump_cell_text hg hw h0
      ("joystick ".toList ++ fmt_d p ++ " button ".toList ++ fmt_d j) (by simp [cellName])
      fuel hfuel
    have h2 := dump_buttons_text hg hw fuel hfuel p kbs (j + 1) (fun m h hm => by
      have := hcells (m + 1) h (by simpa using hm)
      rw [show j + 1 + m = j + (m + 1) by omega]
      exact this)
    rw [dump_buttons, h1, h2]
    simp only [Res.bind, List.length_cons, catRange, itemsText_append]

theorem dump_hats_text {host : Host} {keys : KeyNames} {table : List VControl_NameBinding}
    {s : Store} (hg : Good host table s) (hw : Writable table keys s) (fuel : Nat)
    (hfuel : poolSlots s.pool ≤ fuel) (p : Nat) :
    ∀ (xs : List hat) (j : Nat),
      (∀ m x d, xs[m]? = some x → readCell s (.hat p (j + m) d) = .ok (x.chain d)) →
      dump_hats keys s fuel p j xs =
        .ok (itemsText table keys (catRange
          (fun h => cellItems s (.hat p h .left) ++ cellItems s (.hat p h .right) ++
            cellItems s (.hat p h .up) ++ cellItems s (.hat p h .down)) j xs.length))
  | [], _, _ => rfl
  | x :: xs, j, hcells => by
    have h0 := fun d => hcells 0 x d (by simp)
    rw [Nat.add_zero] at h0
    have h1 := dump_cell_text hg hw (h0 .left)
      ("joystick ".toList ++ fmt_d p ++ " hat ".toList ++ fmt_d j ++ " left".toList)
      (by simp [cellName, dirName]) fuel hfuel
    have h2 := dump_cell_text hg hw (h0 .right)
      ("joystick ".toList ++ fmt_d p ++ " hat ".toList ++ fmt_d j ++ " right".toList)
      (by simp [cellName, dirName]) fuel hfuel
    have h3 := dump_cell_text hg hw (h0 .up)
      ("joystick ".toList ++ fmt_d p ++ " hat ".toList ++ fmt_d j ++ " up".toList)
      (by simp [cellName, dirName]) fuel hfuel
    have h4 := dump_cell_text hg hw (h0 .down)
      ("joystick ".toList ++ fmt_d p ++ " hat ".toList ++ fmt_d j ++ " down".toList)
      (by simp [cellName, dirName]) fuel hfuel
    have h5 := dump_hats_text hg hw fuel hfuel p xs (j + 1) (fun m y d hy => by
      have := hcells (m + 1) y d (by simpa using hy)
      rw [show j + 1 + m = j + (m + 1) by omega]
      exact this)
    simp only [hat.chain] at h1 h2 h3 h4
    rw [dump_hats, h1, h2, h3, h4, h5]
    simp only [Res.bind, List.length_cons, catRange, itemsText_append, List.append_assoc]

theorem dump_device_text {host : Host} {keys : KeyNames} {table : List VControl_NameBinding}
    {s : Store} (hg : Good host table s) (hw : Writable table keys s) (fuel : Nat)
    (hfuel : poolSlots s.pool ≤ fuel) {p : Nat} {j : joystick}
    (hj : s.joysticks[p]? = some j) :
    (if j.stick then
        (arrayTake j.axes j.numaxes).bind fun axes =>
        (dump_axes keys s fuel p 0 axes).bind fun t1 =>
        (arrayTake j.buttons j.numbuttons).bind fun buttons =>
        (dump_buttons keys s fuel p 0 buttons).bind fun t2 =>
        (arrayTake j.hats j.numhats).bind fun hats =>
        (dump_hats keys s fuel p 0 hats).bind fun t3 =>
        Res.ok ("joystick ".toList ++ fmt_d p ++ " threshold ".toList ++ fmt_d j.threshold
          ++ ['\n'] ++ t1 ++ t2 ++ t3)
      else Res.ok []) = .ok (itemsText table keys (deviceItems s p)) := by
  cases hst : j.stick with
  | false =>
    simp only [deviceItems, hj, hst, Bool.false_eq_true, if_false, itemsText]
  | true =>
    obtain ⟨caps, _, ha, hal, hb, hbl, hh, hhl⟩ := (hg.devices.2 p j hj).2 hst
    have e1 := dump_axes_text hg hw fuel hfuel p j.axes 0 (fun m x hx => by
      simp [readCell, hj, hx])
    have e2 := dump_buttons_text hg hw fuel hfuel p j.buttons 0 (fun m x hx => by
      simp [readCell, hj, hx, Res.ofOption])
    have e3 := dump_hats_text hg hw fuel hfuel p j.hats 0 (fun m x d hx => by
      simp [readCell, hj, hx])
    have n1 : j.numaxes.toNat = j.axes.length := by omega
    have n2 : j.numbuttons.toNat = j.buttons.length := by omega
    have n3 : j.numhats.toNat = j.hats.length := by omega
    simp only [if_true, arrayTake_all j.axes (by omega : (j.axes.length : Int) = j.numaxes),
      arrayTake_all j.buttons (by omega : (j.buttons.length : Int) = j.numbuttons),
      arrayTake_all j.hats (by omega : (j.hats.length : Int) = j.numhats), Res.bind, e1,
      e2, e3, deviceItems, hj, hst, n1, n2, n3, itemsText, itemText, itemsText_append,
      List.append_assoc]

theorem dump_joysticks_text {host : Host} {keys : KeyNames}
    {table : List VControl_NameBinding} {s : Store} (hg : Good host table s)
    (hw : Writable table keys s) (fuel : Nat) (hfuel : poolSlots s.pool ≤ fuel) :
    ∀ (js : List joystick) (i : Nat),
      (∀ m j, js[m]? = some j → s.joysticks[i + m]? = some j) →
      dump_joysticks keys s fuel i js =
        .ok (itemsText table keys (catRange (deviceItems s) i js.length))
  | [], _, _ => rfl
  | j :: js, i, hrecs => by
    have hj : s.joysticks[i]? = some j := by
      have := hrecs 0 j (by simp)
      rwa [Nat.add_zero] at this
    have h1 := dump_device_text hg hw fuel hfuel hj
    have h2 := dump_joysticks_text hg hw fuel hfuel js (i + 1) (fun m y hy => by
      have := hrecs (m + 1) y (by simpa using hy)
      rw [show i + 1 + m = i + (m + 1) by omega]
      exact this)
    rw [dump_joysticks, h1, h2]
    simp only [Res.bind, List.length_cons, catRange, itemsText_append]

/-- The function `VControl_Dump` writes the lines of the items of the store
in traversal order, under every budget that covers the slots of the pool. -/
theorem dump_text {host : Host} {keys : KeyNames} {table : List VControl_NameBinding}
    {s : Store} (hg : Good host table s) (hw : Writable table keys s) (fuel : Nat)
    (hfuel : poolSlots s.pool ≤ fuel) :
    VControl_Dump keys fuel s = .ok (itemsText table keys (traversal s)) := by
  have e1 := dump_buckets_text hg hw fuel hfuel s.bindings 0 (fun j h hj => by
    simp [readCell, hj, Res.ofOption])
  have e2 := dump_joysticks_text hg hw fuel hfuel s.joysticks 0 (fun m j hj => by
    rw [Nat.zero_add]; exact hj)
  have hb := hg.buckets
  have hc := hg.devices.1
  have n2 : s.joycount.toNat = s.joysticks.length := by omega
  unfold VControl_Dump
  rw [arrayTake_all s.bindings (by rw [hb]), arrayTake_all s.joysticks hc.symm]
  simp only [Res.bind, e1, e2, traversal, itemsText_append, hb, n2]

theorem Dumpable.writable {host : Host} {keys : KeyNames} {table : List VControl_NameBinding}
    {s : Store} (hd : Dumpable host table keys s) : Writable table keys s := by
  intro c t k hb
  obtain ⟨⟨nm, h1, _⟩, hk⟩ := hd.2 c t k hb
  refine ⟨⟨nm, h1⟩, fun hne => ?_⟩
  cases c with
  | bucket i =>
    obtain ⟨⟨_, kn, hk1, _, _, _, hk5⟩, _⟩ := hk
    exact ⟨kn, hk1, hk5⟩
  | axis p a positive => exact absurd hk hne
  | button p b => exact absurd hk hne
  | hat p h d => exact absurd hk hne

theorem padFire_dumpable : Dumpable padHost fireTable aKeys padFire :=
  (fireCalls_built.dumpable (Dumpable.of_fresh padHost fireTable aKeys) fireCalls_named).1

/-- C21: on a store that satisfies the store invariant, with a name for every
bound target and every bound key code, `VControl_Dump` returns and its text is
the lines of the items of the store in traversal order, one line for each:
the bindings of the 512 keyboard buckets in bucket order, each chain in chain
order; then for each port in port order, nothing when the device is not
opened, else the line `joystick N threshold T` followed by the bindings of its
axes in index order (the negative chain, then the positive chain), of its
buttons in index order and of its hats in index order (left, right, up,
down). -/
theorem dump_traversal_order {host : Host} {keys : KeyNames}
    {table : List VControl_NameBinding} {s : Store} (hg : Good host table s)
    (hw : Writable table keys s) :
    Returns (fun fuel => VControl_Dump keys fuel s) (itemsText table keys (traversal s)) ∧
      (∀ p j, s.joysticks[p]? = some j → j.stick = false → deviceItems s p = []) ∧
      ∀ c l, HoldsChain s c l → cellItems s c = l.map (DumpItem.binding c) :=
  ⟨⟨poolSlots s.pool, fun fuel hfuel => dump_text hg hw fuel hfuel⟩,
    fun p j hj hst => by simp only [deviceItems, hj, hst, Bool.false_eq_true, if_false],
    fun c l hl => by rw [cellItems, hl.cell_bindings_eq]⟩

set_option maxRecDepth 1000000 in
theorem dump_traversal_order_witness :
    VControl_Dump aKeys 64 padFire =
        .ok "fire: key a\njoystick 0 threshold 0\nfire: joystick 0 axis 1 positive\n".toList ∧
      cellItems padFire (.bucket 97) = [.binding (.bucket 97) (100, 97)] ∧
      deviceItems padFire 0 = [.threshold 0 0, .binding (.axis 0 1 true) (100, 0)] ∧
      (Returns (fun fuel => VControl_Dump aKeys fuel padFire)
          (itemsText fireTable aKeys (traversal padFire)) ∧
        (∀ p j, padFire.joysticks[p]? = some j → j.stick = false → deviceItems padFire p = []) ∧
        ∀ c l, HoldsChain padFire c l → cellItems padFire c = l.map (DumpItem.binding c)) :=
  ⟨by decide, by decide, by decide,
    dump_traversal_order padFire_dumpable.1 padFire_dumpable.writable⟩

/-! ## Letter case -/

theorem ofNat_add_32 (n : Nat) (h1 : 65 ≤ n) (h2 : n ≤ 90) :
    (Char.ofNat (n + 32)).toNat = n + 32 := by
  interval_cases n <;> rfl

theorem toLower_upper {c : Char} (h : 65 ≤ c.toNat ∧ c.toNat ≤ 90) :
    c.toLower.toNat = c.toNat + 32 := by
  have : c.toLower = Char.ofNat (c.toNat + 32) := by
    unfold Char.toLower
    simp only [ge_iff_le]
    rw [if_pos h]
  rw [this, ofNat_add_32 _ h.1 h.2]

theorem toLower_other {c : Char} (h : ¬(65 ≤ c.toNat ∧ c.toNat ≤ 90)) : c.toLower = c := by
  unfold Char.toLower
  simp only [ge_iff_le]
  rw [if_neg h]

theorem toNat_inj {c d : Char} (h : c.toNat = d.toNat) : c = d := by
  have := congrArg Char.ofNat h
  rwa [Char.ofNat_toNat, Char.ofNat_toNat] at this

/-- Two characters with the same lower-case form are equal or are both
letters. -/
theorem char_case {c d : Char} (h : c.toLower = d.toLower) :
    c = d ∨ (((65 ≤ c.toNat ∧ c.toNat ≤ 90) ∨ (97 ≤ c.toNat ∧ c.toNat ≤ 122)) ∧
      ((65 ≤ d.toNat ∧ d.toNat ≤ 90) ∨ (97 ≤ d.toNat ∧ d.toNat ≤ 122))) := by
  have hn := congrArg Char.toNat h
  by_cases hc : 65 ≤ c.toNat ∧ c.toNat ≤ 90
  · by_cases hd : 65 ≤ d.toNat ∧ d.toNat ≤ 90
    · exact Or.inr ⟨Or.inl hc, Or.inl hd⟩
    · rw [toLower_upper hc, toLower_other hd] at hn
      exact Or.inr ⟨Or.inl hc, Or.inr (by omega)⟩
  · by_cases hd : 65 ≤ d.toNat ∧ d.toNat ≤ 90
    · rw [toLower_other hc, toLower_upper hd] at hn
      exact Or.inr ⟨Or.inr (by omega), Or.inl hd⟩
    · rw [toLower_other hc, toLower_other hd] at h
      exact Or.inl h

theorem letter_not_space {c : Char}
    (h : (65 ≤ c.toNat ∧ c.toNat ≤ 90) ∨ (97 ≤ c.toNat ∧ c.toNat ≤ 122)) :
    isspace c = false ∧ c ≠ NUL ∧ c ≠ ':' ∧ c ≠ '-' ∧ c ≠ '+' ∧ c.isDigit = false := by
  have n1 : c ≠ ' ' := by
    rintro rfl
    have : (' ' : Char).toNat = 32 := rfl
    omega
  have n2 : c ≠ NUL := by
    rintro rfl
    have : NUL.toNat = 0 := rfl
    omega
  have n3 : c ≠ ':' := by
    rintro rfl
    have : (':' : Char).toNat = 58 := rfl
    omega
  have n4 : c ≠ '-' := by
    rintro rfl
    have : ('-' : Char).toNat = 45 := rfl
    omega
  have n5 : c ≠ '+' := by
    rintro rfl
    have : ('+' : Char).toNat = 43 := rfl
    omega
  refine ⟨?_, n2, n3, n4, n5, ?_⟩
  · unfold isspace
    simp only [n1, decide_False, Bool.false_or, Bool.and_eq_false_iff, decide_eq_false_iff_not]
    omega
  · unfold Char.isDigit
    have h1 : c.val.toNat = c.toNat := rfl
    have : ¬(48 ≤ c.toNat ∧ c.toNat ≤ 57) := by omega
    simp only [ge_iff_le, Bool.and_eq_false_iff, decide_eq_false_iff_not, UInt32.le_def,
      Nat.not_le]
    by_contra hcon
    push_neg at hcon
    apply this
    constructor
    · have := hcon.1
      simpa [UInt32.le_def, Fin.le_def, UInt32.lt_def] using this
    · have := hcon.2
      simpa [UInt32.le_def, Fin.le_def, UInt32.lt_def] using this

theorem char_same {c d : Char} (h : c.toLower = d.toLower) :
    isspace c = isspace d ∧ (c = NUL ↔ d = NUL) ∧ (c = ':' ↔ d = ':') := by
  rcases char_case h with rfl | ⟨hc, hd⟩
  · exact ⟨rfl, Iff.rfl, Iff.rfl⟩
  · obtain ⟨c1, c2, c3, _⟩ := letter_not_space hc
    obtain ⟨d1, d2, d3, _⟩ := letter_not_space hd
    exact ⟨by rw [c1, d1], ⟨fun e => absurd e c2, fun e => absurd e d2⟩,
      ⟨fun e => absurd e c3, fun e => absurd e d3⟩⟩

theorem CaseEq.refl (a : List Char) : CaseEq a a := rfl

theorem CaseEq.symm {a b : List Char} (h : CaseEq a b) : CaseEq b a := Eq.symm h

theorem CaseEq.nil_left {b : List Char} (h : CaseEq [] b) : b = [] := by
  cases b with
  | nil => rfl
  | cons d b => simp [CaseEq] at h

theorem CaseEq.nil_right {a : List Char} (h : CaseEq a []) : a = [] := by
  cases a with
  | nil => rfl
  | cons d b => simp [CaseEq] at h

theorem CaseEq.cons_inv {c d : Char} {a b : List Char} (h : CaseEq (c :: a) (d :: b)) :
    c.toLower = d.toLower ∧ CaseEq a b := by
  simp only [CaseEq, List.map_cons, List.cons.injEq] at h
  exact h

theorem CaseEq.cons {c d : Char} {a b : List Char} (h1 : c.toLower = d.toLower)
    (h2 : CaseEq a b) : CaseEq (c :: a) (d :: b) := by
  simp only [CaseEq, List.map_cons, List.cons.injEq]
  exact ⟨h1, h2⟩

theorem CaseEq.strcaseeq_left {a b : List Char} (h : CaseEq a b) (kw : List Char) :
    strcaseeq a kw = strcaseeq b kw := by
  unfold strcaseeq
  rw [show a.map Char.toLower = b.map Char.toLower from h]

theorem CaseEq.strcaseeq_right {a b : List Char} (h : CaseEq a b) (kw : List Char) :
    strcaseeq kw a = strcaseeq kw b := by
  unfold strcaseeq
  rw [show a.map Char.toLower = b.map Char.toLower from h]

theorem skip_space_case : ∀ {a b : List Char}, CaseEq a b →
    CaseEq (skip_space a) (skip_space b)
  | [], b, h => by rw [h.nil_left]; exact CaseEq.refl _
  | c :: a, [], h => by rw [h.nil_right]; exact CaseEq.refl _
  | c :: a, d :: b, h => by
    obtain ⟨h1, h2⟩ := h.cons_inv
    obtain ⟨e1, e2, _⟩ := char_same h1
    unfold skip_space
    by_cases hc : c ≠ NUL ∧ isspace c = true
    · have hd : d ≠ NUL ∧ isspace d = true := ⟨fun e => hc.1 (e2.2 e), by rw [← e1]; exact hc.2⟩
      rw [if_pos hc, if_pos hd]
      exact skip_space_case h2
    · have hd : ¬(d ≠ NUL ∧ isspace d = true) :=
        fun hd => hc ⟨fun e => hd.1 (e2.1 e), by rw [e1]; exact hd.2⟩
      rw [if_neg hc, if_neg hd]
      exact h

theorem skip_word_case : ∀ {a b : List Char}, CaseEq a b →
    CaseEq (skip_word a) (skip_word b)
  | [], b, h => by rw [h.nil_left]; exact CaseEq.refl _
  | c :: a, [], h => by rw [h.nil_right]; exact CaseEq.refl _
  | c :: a, d :: b, h => by
    obtain ⟨h1, h2⟩ := h.cons_inv
    obtain ⟨e1, e2, _⟩ := char_same h1
    unfold skip_word
    by_cases hc : c ≠ NUL ∧ (!isspace c) = true
    · have hd : d ≠ NUL ∧ (!isspace d) = true :=
        ⟨fun e => hc.1 (e2.2 e), by rw [← e1]; exact hc.2⟩
      rw [if_pos hc, if_pos hd]
      exact skip_word_case h2
    · have hd : ¬(d ≠ NUL ∧ (!isspace d) = true) :=
        fun hd => hc ⟨fun e => hd.1 (e2.1 e), by rw [e1]; exact hd.2⟩
      rw [if_neg hc, if_neg hd]
      exact h

theorem copy_word_case : ∀ (n : Nat) {a b : List Char}, CaseEq a b →
    CaseEq (copy_word n a) (copy_word n b)
  | 0, a, b, _ => by
    cases a <;> cases b <;> exact CaseEq.refl _
  | n + 1, [], b, h => by rw [h.nil_left]; exact CaseEq.refl _
  | n + 1, c :: a, [], h => by rw [h.nil_right]; exact CaseEq.refl _
  | n + 1, c :: a, d :: b, h => by
    obtain ⟨h1, h2⟩ := h.cons_inv
    obtain ⟨e1, e2, _⟩ := char_same h1
    unfold copy_word
    by_cases hc : c ≠ NUL ∧ (!isspace c) = true
    · have hd : d ≠ NUL ∧ (!isspace d) = true :=
        ⟨fun e => hc.1 (e2.2 e), by rw [← e1]; exact hc.2⟩
      rw [if_pos hc, if_pos hd]
      exact CaseEq.cons h1 (copy_word_case n h2)
    · have hd : ¬(d ≠ NUL ∧ (!isspace d) = true) :=
        fun hd => hc ⟨fun e => hd.1 (e2.1 e), by rw [e1]; exact hd.2⟩
      rw [if_neg hc, if_neg hd]
      exact CaseEq.refl _

theorem line_token_case : ∀ (k : Nat) {a b : List Char}, CaseEq a b →
    CaseEq (line_token k a) (line_token k b)
  | 0, _, _, h => copy_word_case _ (skip_space_case h)
  | k + 1, _, _, h => line_token_case k (skip_word_case (skip_space_case h))

theorem next_token_case {st st' : parse_state} (hr : CaseEq st.rest st'.rest)
    (he : st.error = st'.error) : SameCase (next_token st) (next_token st') :=
  ⟨copy_word_case _ (skip_space_case hr), skip_word_case (skip_space_case hr), he⟩

theorem consume_case {st st' : parse_state} (h : SameCase st st') (kw : List Char) :
    SameCase (consume st kw) (consume st' kw) := by
  unfold consume
  rw [h.token.strcaseeq_right kw]
  by_cases hc : strcaseeq kw st'.token = true
  · rw [if_pos hc, if_pos hc]
    exact next_token_case h.rest h.error
  · rw [if_neg hc, if_neg hc]
    exact next_token_case h.rest rfl

theorem consume_polarity_case {st st' : parse_state} (h : SameCase st st') :
    SameCase (consume_polarity st).1 (consume_polarity st').1 ∧
      (consume_polarity st).2 = (consume_polarity st').2 := by
  unfold consume_polarity
  rw [h.token.strcaseeq_left, h.token.strcaseeq_left]
  by_cases h1 : strcaseeq st'.token "positive".toList = true
  · rw [if_pos h1, if_pos h1]
    exact ⟨next_token_case h.rest h.error, rfl⟩
  · rw [if_neg h1, if_neg h1]
    by_cases h2 : strcaseeq st'.token "negative".toList = true
    · rw [if_pos h2, if_pos h2]
      exact ⟨next_token_case h.rest h.error, rfl⟩
    · rw [if_neg h2, if_neg h2]
      exact ⟨next_token_case h.rest rfl, rfl⟩

theorem consume_dir_case {st st' : parse_state} (h : SameCase st st') :
    SameCase (consume_dir st).1 (consume_dir st').1 ∧
      (consume_dir st).2 = (consume_dir st').2 := by
  unfold consume_dir
  rw [h.token.strcaseeq_left, h.token.strcaseeq_left, h.token.strcaseeq_left,
    h.token.strcaseeq_left]
  by_cases h1 : strcaseeq st'.token "left".toList = true
  · rw [if_pos h1, if_pos h1]
    exact ⟨next_token_case h.rest h.error, rfl⟩
  · rw [if_neg h1, if_neg h1]
    by_cases h2 : strcaseeq st'.token "right".toList = true
    · rw [if_pos h2, if_pos h2]
      exact ⟨next_token_case h.rest h.error, rfl⟩
    · rw [if_neg h2, if_neg h2]
      by_cases h3 : strcaseeq st'.token "up".toList = true
      · rw [if_pos h3, if_pos h3]
        exact ⟨next_token_case h.rest h.error, rfl⟩
      · rw [if_neg h3, if_neg h3]
        by_cases h4 : strcaseeq st'.token "down".toList = true
        · rw [if_pos h4, if_pos h4]
          exact ⟨next_token_case h.rest h.error, rfl⟩
        · rw [if_neg h4, if_neg h4]
          exact ⟨next_token_case h.rest rfl, rfl⟩

theorem consume_keyname_case (keys : KeyNames) {st st' : parse_state} (h : SameCase st st')
    (ht : st.token = st'.token) :
    SameCase (consume_keyname keys st).1 (consume_keyname keys st').1 ∧
      (consume_keyname keys st).2 = (consume_keyname keys st').2 := by
  unfold consume_keyname
  rw [ht]
  refine ⟨?_, rfl⟩
  by_cases h1 : keys.name2code st'.token = 0
  · simp only [h1, if_true]
    exact next_token_case h.rest rfl
  · simp only [h1, if_false]
    exact next_token_case h.rest h.error

/-! ## Numbers and names up to letter case -/

theorem mem_dropWhile_of_false {p : Char → Bool} {x : Char} :
    ∀ {l : List Char}, x ∈ l → p x = false → x ∈ l.dropWhile p
  | [], h, _ => by cases h
  | c :: l, h, hp => by
    by_cases hc : p c = true
    · rw [List.dropWhile_cons_of_pos hc]
      rcases List.mem_cons.mp h with rfl | h
      · rw [hp] at hc; cases hc
      · exact mem_dropWhile_of_false h hp
    · rw [List.dropWhile_cons_of_neg hc]
      exact h

/-- A token with a letter is no number: `strtol` leaves a part of it. -/
theorem strtol_letter {a : List Char} {x : Char} (hx : x ∈ a)
    (hl : (65 ≤ x.toNat ∧ x.toNat ≤ 90) ∨ (97 ≤ x.toNat ∧ x.toNat ≤ 122)) :
    (strtol a).2 ≠ [] := by
  obtain ⟨l1, _, _, l4, l5, l6⟩ := letter_not_space hl
  have h1 : x ∈ a.dropWhile isspace := mem_dropWhile_of_false hx l1
  have h2 : x ∈ (if (a.dropWhile isspace).head? = some '-' ∨
      (a.dropWhile isspace).head? = some '+' then (a.dropWhile isspace).tail
      else a.dropWhile isspace) := by
    by_cases hs : (a.dropWhile isspace).head? = some '-' ∨
        (a.dropWhile isspace).head? = some '+'
    · rw [if_pos hs]
      cases hd : a.dropWhile isspace with
      | nil => rw [hd] at h1; cases h1
      | cons c cs =>
        rw [hd] at h1 hs
        simp only [List.head?_cons, Option.some.injEq] at hs
        rcases List.mem_cons.mp h1 with rfl | h
        · rcases hs with e | e
          · exact absurd e l4
          · exact absurd e l5
        · exact h
    · rw [if_neg hs]
      exact h1
  have h3 := mem_dropWhile_of_false h2 l6
  unfold strtol
  simp only
  by_cases hs : (a.dropWhile isspace).head? = some '-' ∨
      (a.dropWhile isspace).head? = some '+'
  · rw [if_pos hs] at h3 ⊢
    by_cases hd : List.takeWhile Char.isDigit (List.dropWhile isspace a).tail = []
    · rw [if_pos hd]
      exact List.ne_nil_of_mem hx
    · rw [if_neg hd]
      exact List.ne_nil_of_mem h3
  · rw [if_neg hs] at h3 ⊢
    by_cases hd : List.takeWhile Char.isDigit (List.dropWhile isspace a) = []
    · rw [if_pos hd]
      exact List.ne_nil_of_mem hx
    · rw [if_neg hd]
      exact List.ne_nil_of_mem h3

/-- Two strings equal up to letter case are equal or both have a letter. -/
theorem CaseEq.eq_or_letters : ∀ {a b : List Char}, CaseEq a b →
    a = b ∨ ((∃ x ∈ a, (65 ≤ x.toNat ∧ x.toNat ≤ 90) ∨ (97 ≤ x.toNat ∧ x.toNat ≤ 122)) ∧
      ∃ x ∈ b, (65 ≤ x.toNat ∧ x.toNat ≤ 90) ∨ (97 ≤ x.toNat ∧ x.toNat ≤ 122))
  | [], b, h => Or.inl h.nil_left.symm
  | c :: a, [], h => Or.inl h.nil_right
  | c :: a, d :: b, h => by
    obtain ⟨h1, h2⟩ := h.cons_inv
    rcases char_case h1 with rfl | ⟨hc, hd⟩
    · rcases CaseEq.eq_or_letters h2 with rfl | ⟨⟨x, hx, hxl⟩, ⟨y, hy, hyl⟩⟩
      · exact Or.inl rfl
      · exact Or.inr ⟨⟨x, List.mem_cons_of_mem _ hx, hxl⟩, ⟨y, List.mem_cons_of_mem _ hy, hyl⟩⟩
    · exact Or.inr ⟨⟨c, List.mem_cons_self _ _, hc⟩, ⟨d, List.mem_cons_self _ _, hd⟩⟩

theorem consume_num_error (st : parse_state) (h : (strtol st.token).2 ≠ []) :
    (consume_num st).1.error = true := by
  unfold consume_num
  simp only
  rw [if_pos h]
  rfl

theorem consume_num_case {st st' : parse_state} (h : SameCase st st') :
    SameCase (consume_num st).1 (consume_num st').1 ∧
      ((consume_num st).1.error = false → (consume_num st).2 = (consume_num st').2) := by
  rcases h.token.eq_or_letters with e | ⟨⟨x, hx, hxl⟩, ⟨y, hy, hyl⟩⟩
  · unfold consume_num
    simp only
    rw [e]
    refine ⟨?_, fun _ => rfl⟩
    by_cases h1 : (strtol st'.token).2 ≠ []
    · rw [if_pos h1, if_pos h1]
      exact next_token_case h.rest rfl
    · rw [if_neg h1, if_neg h1]
      exact next_token_case h.rest h.error
  · have e1 := strtol_letter hx hxl
    have e2 := strtol_letter hy hyl
    refine ⟨?_, fun hf => ?_⟩
    · unfold consume_num
      simp only
      rw [if_pos e1, if_pos e2]
      exact next_token_case h.rest rfl
    · rw [consume_num_error st e1] at hf
      cases hf

theorem name2target_loop_case : ∀ (table : List VControl_NameBinding) {a b : List Char},
    CaseEq a b → name2target_loop table a = name2target_loop table b
  | [], _, _, _ => rfl
  | x :: xs, a, b, h => by
    unfold name2target_loop
    rw [h.strcaseeq_left, name2target_loop_case xs h]

theorem name2target_case (s : Store) {a b : List Char} (h : CaseEq a b) :
    name2target s a = name2target s b := by
  unfold name2target
  cases s.nametable with
  | none => rfl
  | some table =>
    simp only
    rw [name2target_loop_case table h]

theorem CaseEq.dropLast {a b : List Char} (h : CaseEq a b) : CaseEq a.dropLast b.dropLast := by
  unfold CaseEq at h ⊢
  rw [List.map_dropLast, List.map_dropLast, h]

theorem CaseEq.getLast_colon {a b : List Char} (h : CaseEq a b) :
    a.getLast? = some ':' ↔ b.getLast? = some ':' := by
  have key : ∀ {a b : List Char}, CaseEq a b → a.getLast? = some ':' → b.getLast? = some ':' := by
    intro a b h ha
    have h1 : (a.map Char.toLower).getLast? = (b.map Char.toLower).getLast? := by
      rw [show a.map Char.toLower = b.map Char.toLower from h]
    rw [List.getLast?_map, List.getLast?_map, ha] at h1
    cases hb : b.getLast? with
    | none => rw [hb] at h1; cases h1
    | some d =>
      rw [hb] at h1
      simp only [Option.map_some', Option.some.injEq] at h1
      rw [((char_same h1).2.2).1 rfl]
  exact ⟨key h, key h.symm⟩

/-! ## The parse of a line up to letter case -/

theorem outcome_after_call {st st' : parse_state} (h : st.error = st'.error)
    {r r' : Res (Store × Int)} (hr : r = r') :
    outcome (after_call st r) = outcome (after_call st' r') := by
  subst hr
  cases r with
  | fuel => rfl
  | fault => rfl
  | ok x =>
    simp only [after_call, outcome, Res.bind]
    by_cases hx : x.2 ≠ 0
    · rw [if_pos hx, if_pos hx]
    · rw [if_neg hx, if_neg hx, h]

theorem outcome_same {st st' : parse_state} (h : st.error = st'.error) (s : Store) :
    outcome (.ok (st, s)) = outcome (.ok (st', s)) := by
  simp only [outcome, Res.bind, h]

theorem outcome_ite {c c' : Prop} [Decidable c] [Decidable c']
    {a b a' b' : Res (parse_state × Store)} (hc : c ↔ c') (ht : c → outcome a = outcome a')
    (he : ¬c → outcome b = outcome b') :
    outcome (if c then a else b) = outcome (if c' then a' else b') := by
  by_cases h : c
  · rw [if_pos h, if_pos (hc.1 h)]
    exact ht h
  · rw [if_neg h, if_neg (fun h' => h (hc.2 h'))]
    exact he h

theorem parse_joybinding_case (host : Host) (fuel : Nat) {st st' : parse_state}
    (h : SameCase st st') (s : Store) (target : Nat) :
    outcome (parse_joybinding host fuel st s target) =
      outcome (parse_joybinding host fuel st' s target) := by
  have h1 := consume_num_case (consume_case h "joystick".toList)
  have ha := consume_num_case (consume_case h1.1 "axis".toList)
  have hb := consume_num_case (consume_case h1.1 "button".toList)
  have hh := consume_num_case (consume_case h1.1 "hat".toList)
  have hp := consume_polarity_case ha.1
  have hd := consume_dir_case hh.1
  unfold parse_joybinding
  refine outcome_ite (by rw [h1.1.error]) (fun _ => outcome_same h1.1.error s) fun e1 => ?_
  have v1 := h1.2 (Bool.eq_false_iff.2 e1)
  refine outcome_ite (by rw [h1.1.token.strcaseeq_left]) (fun _ => ?_) fun _ => ?_
  · refine outcome_ite (by rw [ha.1.error]) (fun _ => outcome_same ha.1.error s) fun e2 => ?_
    have v2 := ha.2 (Bool.eq_false_iff.2 e2)
    refine outcome_ite (by rw [hp.1.error]) (fun _ => outcome_same hp.1.error s) fun _ => ?_
    exact outcome_after_call hp.1.error (by rw [v1, v2, hp.2])
  refine outcome_ite (by rw [h1.1.token.strcaseeq_left]) (fun _ => ?_) fun _ => ?_
  · refine outcome_ite (by rw [hb.1.error]) (fun _ => outcome_same hb.1.error s) fun e2 => ?_
    have v2 := hb.2 (Bool.eq_false_iff.2 e2)
    exact outcome_after_call hb.1.error (by rw [v1, v2])
  refine outcome_ite (by rw [h1.1.token.strcaseeq_left]) (fun _ => ?_) fun _ => ?_
  · refine outcome_ite (by rw [hh.1.error]) (fun _ => outcome_same hh.1.error s) fun e2 => ?_
    have v2 := hh.2 (Bool.eq_false_iff.2 e2)
    refine outcome_ite (by rw [hd.1.error]) (fun _ => outcome_same hd.1.error s) fun _ => ?_
    exact outcome_after_call hd.1.error (by rw [v1, v2, hd.2])
  · exact outcome_same (by show true = true; rfl) s

theorem consume_idname_eq (s : Store) (st : parse_state) :
    consume_idname s st =
      if st.token.getLast? = some ':' then
        (name2target s st.token.dropLast).bind fun result =>
          .ok (if result = 0 then
              { next_token { st with token := st.token.dropLast } with error := true }
            else next_token { st with token := st.token.dropLast }, result)
      else .ok ({ st with error := true }, 0) := by
  unfold consume_idname
  cases hl : st.token.getLast? with
  | none =>
    rw [if_neg (by simp)]
  | some c =>
    by_cases hc : c = ':'
    · subst hc
      rw [if_pos rfl]
      simp only [ne_eq, not_true_eq_false, if_false]
    · rw [if_neg (by simpa using hc)]
      simp only [ne_eq, hc, not_false_eq_true, if_true]
      rfl

theorem consume_token (st : parse_state) (kw : List Char) :
    (consume st kw).token = line_token 0 st.rest ∧
      (consume st kw).rest = skip_word (skip_space st.rest) := by
  unfold consume
  by_cases hc : strcaseeq kw st.token = true
  · rw [if_pos hc]
    exact ⟨rfl, rfl⟩
  · rw [if_neg hc]
    exact ⟨rfl, rfl⟩

/-- The function `consume_idname` on two states equal up to letter case:
the same fault, or states equal up to letter case and the same target. -/
theorem consume_idname_case (s : Store) {st st' : parse_state} (h : SameCase st st') :
    (consume_idname s st = .fault ∧ consume_idname s st' = .fault) ∨
      ∃ id id', consume_idname s st = .ok id ∧ consume_idname s st' = .ok id' ∧
        SameCase id.1 id'.1 ∧ id.2 = id'.2 ∧
        (id.1.error = false →
          id.1.token = line_token 0 st.rest ∧ id.1.rest = skip_word (skip_space st.rest) ∧
          id'.1.token = line_token 0 st'.rest ∧
          id'.1.rest = skip_word (skip_space st'.rest)) := by
  rw [consume_idname_eq s st, consume_idname_eq s st']
  by_cases hc : st.token.getLast? = some ':'
  · have hc' := h.token.getLast_colon.1 hc
    rw [if_pos hc, if_pos hc', name2target_case s h.token.dropLast]
    cases hn : name2target s st'.token.dropLast with
    | fuel =>
      unfold name2target at hn
      cases ht : s.nametable with
      | none => rw [ht] at hn; cases hn
      | some table => rw [ht] at hn; cases hn
    | fault => exact Or.inl ⟨rfl, rfl⟩
    | ok result =>
      right
      simp only [Res.bind]
      have hs : SameCase (next_token { st with token := st.token.dropLast })
          (next_token { st' with token := st'.token.dropLast }) :=
        next_token_case h.rest h.error
      by_cases hz : result = 0
      · refine ⟨_, _, rfl, rfl, ?_, rfl, fun he => ?_⟩
        · rw [if_pos hz, if_pos hz]
          exact ⟨hs.token, hs.rest, rfl⟩
        · rw [if_pos hz] at he
          cases he
      · refine ⟨_, _, rfl, rfl, ?_, rfl, fun _ => ?_⟩
        · rw [if_neg hz, if_neg hz]
          exact hs
        · rw [if_neg hz, if_neg hz]
          exact ⟨rfl, rfl, rfl, rfl⟩
  · have hc' : ¬st'.token.getLast? = some ':' := fun e => hc (h.token.getLast_colon.2 e)
    rw [if_neg hc, if_neg hc']
    exact Or.inr ⟨_, _, rfl, rfl, ⟨h.token, h.rest, rfl⟩, rfl, fun he => by cases he⟩

theorem parse_binding_case (host : Host) (keys : KeyNames) (fuel : Nat)
    {st st' : parse_state} (h : SameCase st st') (s : Store)
    (hkey : strcaseeq (line_token 0 st.rest) "key".toList = true →
      line_token 1 st.rest = line_token 1 st'.rest) :
    outcome (parse_binding host keys fuel st s) =
      outcome (parse_binding host keys fuel st' s) := by
  unfold parse_binding
  rcases consume_idname_case s h with ⟨e1, e2⟩ | ⟨id, id', e1, e2, hs, hv, htok⟩
  · rw [e1, e2]
  · rw [e1, e2]
    simp only [Res.bind]
    refine outcome_ite (by rw [hs.error]) (fun _ => outcome_same hs.error s) fun e => ?_
    obtain ⟨t1, t2, t3, t4⟩ := htok (Bool.eq_false_iff.2 e)
    refine outcome_ite (by rw [hs.token.strcaseeq_left]) (fun hk => ?_) fun _ => ?_
    · have hk' : strcaseeq (line_token 0 st.rest) "key".toList = true := by
        rw [← t1]; exact hk
      have hsame : (consume id.1 "key".toList).token = (consume id'.1 "key".toList).token := by
        rw [(consume_token id.1 _).1, (consume_token id'.1 _).1, t2, t4]
        exact hkey hk'
      have hkn := consume_keyname_case keys (consume_case hs "key".toList) hsame
      refine outcome_ite (by rw [hkn.1.error]) (fun _ => outcome_same hkn.1.error s) fun _ => ?_
      exact outcome_after_call hkn.1.error (by rw [hkn.2, hv])
    refine outcome_ite (by rw [hs.token.strcaseeq_left]) (fun _ => ?_) fun _ => ?_
    · rw [hv]
      exact parse_joybinding_case host fuel hs s id'.2
    · exact outcome_same (by show true = true; rfl) s

theorem consume_num_keeps_error (st : parse_state) (h : st.error = true) :
    (consume_num st).1.error = true := by
  unfold consume_num
  simp only
  by_cases h1 : (strtol st.token).2 ≠ []
  · rw [if_pos h1]; rfl
  · rw [if_neg h1]; exact h

/-- The function `parse_config_line` on two lines equal up to letter case,
with the same key name when the line binds a key: the same error flag and the
same store, under every budget. -/
theorem parse_config_line_case (host : Host) (keys : KeyNames) (fuel : Nat)
    {st0 st0' : parse_state} (hr : CaseEq st0.rest st0'.rest) (s : Store)
    (hkey : strcaseeq (line_token 1 st0.rest) "key".toList = true →
      line_token 2 st0.rest = line_token 2 st0'.rest) :
    outcome (parse_config_line host keys fuel st0 s) =
      outcome (parse_config_line host keys fuel st0' s) := by
  have hs : SameCase (next_token { st0 with error := false })
      (next_token { st0' with error := false }) := next_token_case hr rfl
  have h1 := consume_num_case (consume_case hs "joystick".toList)
  unfold parse_config_line
  refine outcome_ite ⟨fun e => ?_, fun e => ?_⟩ (fun _ => outcome_same hs.error s) fun _ => ?_
  · have := hs.token
    rw [e] at this
    exact this.nil_left
  · have := hs.token
    rw [e] at this
    exact this.nil_right
  refine outcome_ite (by rw [hs.token.strcaseeq_left]) (fun _ => ?_) fun _ => ?_
  · by_cases e1 : (consume_num (consume (next_token { st0 with error := false })
        "joystick".toList)).1.error = true
    · have e1' := e1
      rw [h1.1.error] at e1'
      simp only [e1, e1', if_true]
      exact outcome_same h1.1.error s
    · have e1' := e1
      rw [h1.1.error] at e1'
      have v1 := h1.2 (Bool.eq_false_iff.2 e1)
      have h2 := consume_case h1.1 "threshold".toList
      have h3 := consume_num_case h2
      simp only [e1, e1', if_false, Bool.false_eq_true]
      by_cases e2 : (consume (consume_num (consume (next_token { st0 with error := false })
          "joystick".toList)).1 "threshold".toList).error = true
      · have e2' := e2
        rw [h2.error] at e2'
        simp only [e2, e2', if_true]
        exact outcome_same h2.error s
      · have e2' := e2
        rw [h2.error] at e2'
        simp only [e2, e2', if_false, Bool.false_eq_true]
        refine outcome_ite (by rw [h3.1.error]) (fun _ => outcome_same h3.1.error s)
          fun e3 => ?_
        have v2 := h3.2 (Bool.eq_false_iff.2 e3)
        exact outcome_after_call h3.1.error (by rw [v1, v2])
  · exact parse_binding_case host keys fuel hs s hkey

/-- C23: for every line, every other line equal to it up to the letter case of
its characters (so with every keyword and the name before the colon in any
case), and with the same key name when the line binds a key, is parsed to the
same error flag and the same store as the line, in every store and under every
budget: the error flag and the call of the Binding Store are the same. -/
theorem keywords_case_insensitive (host : Host) (keys : KeyNames) (fuel : Nat) (s : Store)
    (line line' : List Char) (linenum : Nat) (hc : CaseEq line line')
    (hkey : strcaseeq (line_token 1 line) "key".toList = true →
      line_token 2 line = line_token 2 line') :
    outcome (parse_config_line host keys fuel (lineState line linenum) s) =
      outcome (parse_config_line host keys fuel (lineState line' linenum) s) :=
  parse_config_line_case host keys fuel hc s hkey

set_option maxRecDepth 1000000 in
theorem keywords_case_insensitive_witness :
    (CaseEq "fire: joystick 0 axis 1 positive".toList
        "FiRe: JOYSTICK 0 Axis 1 pOSITIVE".toList ∧
      (strcaseeq (line_token 1 "fire: joystick 0 axis 1 positive".toList) "key".toList = true →
        line_token 2 "fire: joystick 0 axis 1 positive".toList =
          line_token 2 "FiRe: JOYSTICK 0 Axis 1 pOSITIVE".toList)) ∧
      outcome (parse_config_line padHost aKeys 1
          (lineState "FiRe: JOYSTICK 0 Axis 1 pOSITIVE".toList 1) padFireKey) =
        .ok (false, padFire) ∧
      outcome (parse_config_line padHost aKeys 1
          (lineState "Fire: KEY a".toList 1) padFresh) = .ok (false, padFireKey) ∧
      outcome (parse_config_line padHost aKeys 1
          (lineState "fire: joystick 0 axis 1 positive".toList 1) padFireKey) =
        outcome (parse_config_line padHost aKeys 1
          (lineState "FiRe: JOYSTICK 0 Axis 1 pOSITIVE".toList 1) padFireKey) :=
  ⟨⟨by unfold CaseEq; decide, by decide⟩, by decide, by decide,
    keywords_case_insensitive padHost aKeys 1 padFireKey
      "fire: joystick 0 axis 1 positive".toList "FiRe: JOYSTICK 0 Axis 1 pOSITIVE".toList 1
      (by unfold CaseEq; decide) (by decide)⟩

/-! ## The parse of a line under a larger budget -/

theorem Mono.const {α : Type} (r : Res α) : Mono (fun _ => r) :=
  fun _ _ _ h _ => h

theorem Mono.branch {α : Type} {c : Prop} [Decidable c] {a b : Nat → Res α} (ha : c → Mono a)
    (hb : ¬c → Mono b) : Mono (fun fuel => if c then a fuel else b fuel) := by
  by_cases h : c
  · simpa only [if_pos h] using ha h
  · simpa only [if_neg h] using hb h

theorem Mono.after_call {f : Nat → Res (Store × Int)} (h : Mono f) (st : parse_state) :
    Mono (fun fuel => VControl.after_call st (f fuel)) := by
  intro n m r hr hm
  simp only [VControl.after_call] at hr ⊢
  cases hf : f n with
  | fuel => rw [hf] at hr; cases hr
  | fault => rw [hf] at hr; cases hr
  | ok x =>
    rw [hf] at hr
    rw [h n m x hf hm]
    exact hr

theorem key_call_mono (s : Store) (code : Int) (target : Nat) :
    Mono (fun fuel => VControl_AddKeyBinding fuel s code target) :=
  VControl_AddKeyBinding_mono s code target

theorem axis_call_mono (host : Host) (s : Store) (p a pol : Int) (target : Nat) :
    Mono (fun fuel => VControl_AddJoyAxisBinding host fuel s p a pol target) :=
  Command.run_mono host s (.axis target p a pol)

theorem button_call_mono (host : Host) (s : Store) (p b : Int) (target : Nat) :
    Mono (fun fuel => VControl_AddJoyButtonBinding host fuel s p b target) :=
  Command.run_mono host s (.button target p b)

theorem hat_call_mono (host : Host) (s : Store) (p h : Int) (d : Nat) (target : Nat) :
    Mono (fun fuel => VControl_AddJoyHatBinding host fuel s p h d target) :=
  Command.run_mono host s (.hat target p h d)

theorem parse_joybinding_mono (host : Host) (st : parse_state) (s : Store) (target : Nat) :
    Mono (fun fuel => parse_joybinding host fuel st s target) := by
  unfold parse_joybinding
  refine Mono.branch (fun _ => Mono.const _) fun _ => ?_
  refine Mono.branch (fun _ => ?_) fun _ => ?_
  · refine Mono.branch (fun _ => Mono.const _) fun _ => ?_
    refine Mono.branch (fun _ => Mono.const _) fun _ => ?_
    exact Mono.after_call (axis_call_mono host s _ _ _ target) _
  refine Mono.branch (fun _ => ?_) fun _ => ?_
  · refine Mono.branch (fun _ => Mono.const _) fun _ => ?_
    exact Mono.after_call (button_call_mono host s _ _ target) _
  refine Mono.branch (fun _ => ?_) fun _ => ?_
  · refine Mono.branch (fun _ => Mono.const _) fun _ => ?_
    refine Mono.branch (fun _ => Mono.const _) fun _ => ?_
    exact Mono.after_call (hat_call_mono host s _ _ _ target) _
  · exact Mono.const _

theorem parse_binding_mono (host : Host) (keys : KeyNames) (st : parse_state) (s : Store) :
    Mono (fun fuel => parse_binding host keys fuel st s) := by
  unfold parse_binding
  cases h : consume_idname s st with
  | fuel => exact Mono.const _
  | fault => exact Mono.const _
  | ok id =>
    show Mono (fun fuel => if id.1.error = true then _ else _)
    refine Mono.branch (fun _ => Mono.const _) fun _ => ?_
    refine Mono.branch (fun _ => ?_) fun _ => ?_
    · refine Mono.branch (fun _ => Mono.const _) fun _ => ?_
      exact Mono.after_call (key_call_mono s _ id.2) _
    refine Mono.branch (fun _ => ?_) fun _ => Mono.const _
    exact parse_joybinding_mono host id.1 s id.2

theorem parse_config_line_mono (host : Host) (keys : KeyNames) (st0 : parse_state)
    (s : Store) : Mono (fun fuel => parse_config_line host keys fuel st0 s) := by
  unfold parse_config_line
  refine Mono.branch (fun _ => Mono.const _) fun _ => ?_
  refine Mono.branch (fun _ => ?_) fun _ => parse_binding_mono host keys _ s
  exact Mono.branch (fun _ => Mono.const _) fun _ => Mono.const _

/-- The loop of `VControl_ReadConfiguration` under larger budgets. -/
theorem read_loop_mono (host : Host) (keys : KeyNames) :
    ∀ (k n n' k' : Nat) (st : parse_state) (f : FILE) (s : Store) (e : Int) (r : Store × Int),
      read_loop host keys n k st f s e = .ok r → n ≤ n' → k ≤ k' →
      read_loop host keys n' k' st f s e = .ok r
  | 0, _, _, _, _, _, _, _, _, h, _, _ => by
    unfold read_loop at h
    cases h
  | k + 1, n, n', 0, _, _, _, _, _, _, _, hk => by omega
  | k + 1, n, n', k' + 1, st, f, s, e, r, h, hn, hk => by
    unfold read_loop at h ⊢
    simp only at h ⊢
    by_cases hs : (next_line st f).1.line.head? = none ∨
        (next_line st f).1.line.head? = some NUL
    · rw [if_pos hs] at h ⊢
      exact h
    · rw [if_neg hs] at h ⊢
      cases hp : parse_config_line host keys n (next_line st f).1 s with
      | fuel => rw [hp] at h; cases h
      | fault => rw [hp] at h; cases h
      | ok x =>
        rw [hp] at h
        have hp' : parse_config_line host keys n' (next_line st f).1 s = .ok x :=
          parse_config_line_mono host keys _ s n n' x hp hn
        rw [hp']
        exact read_loop_mono host keys k n n' k' _ _ _ _ r h hn (by omega)

/-- The function `VControl_ReadConfiguration` returns a result exactly when
its loop gives the result under some budgets. -/
theorem read_returns_iff (host : Host) (keys : KeyNames) (s : Store) (f : FILE)
    (r : Store × Int) :
    Returns (fun fuel => VControl_ReadConfiguration host keys fuel s f) r ↔
      ∃ n k, read_loop host keys n k
        { line := [], token := [], rest := [], error := false, linenum := 0 } f s 0 = .ok r := by
  constructor
  · rintro ⟨n, hn⟩
    exact ⟨n, n, hn n (le_refl _)⟩
  · rintro ⟨n, k, h⟩
    exact ⟨max n k, fun fuel hf =>
      read_loop_mono host keys k n fuel fuel _ _ _ _ r h (le_trans (le_max_left _ _) hf)
        (le_trans (le_max_right _ _) hf)⟩

/-! ## Reading one line of any stream -/

theorem next_line_eq (st : parse_state) (f : FILE) :
    next_line st f =
      ({ line := (line_and_stream (LINE_SIZE - 1) true f).1, token := [],
         rest := (line_and_stream (LINE_SIZE - 1) true f).1, error := false,
         linenum := st.linenum + 1 }, (line_and_stream (LINE_SIZE - 1) true f).2) := rfl

/-- The line that is read ends at the first `#` or newline, whichever of the
two it is and whatever follows. -/
theorem read_line_stop : ∀ (l : List Char) (k : Nat) (first : Bool) (c1 c2 : Char)
    (X Y : List Char), (c1 = '#' ∨ c1 = '\n') → (c2 = '#' ∨ c2 = '\n') →
    (read_line k first { data := l ++ c1 :: X, eof := false }).1 =
      (read_line k first { data := l ++ c2 :: Y, eof := false }).1
  | _, 0, _, _, _, _, _, _, _ => rfl
  | [], k + 1, first, c1, c2, X, Y, h1, h2 => by
    simp only [read_line, List.nil_append, Bool.false_eq_true, if_false, h1, h2, if_true]
  | c :: l, k + 1, first, c1, c2, X, Y, h1, h2 => by
    simp only [read_line, List.cons_append, Bool.false_eq_true, if_false]
    by_cases hc : c = '#' ∨ c = '\n'
    · rw [if_pos hc, if_pos hc]
    · rw [if_neg hc, if_neg hc]
      simp only [List.cons.injEq, true_and]
      exact read_line_stop l k false c1 c2 X Y h1 h2

/-- After a line is read the stream stands behind the newline of the line. -/
theorem line_and_stream_rest : ∀ (l : List Char) (k : Nat) (first : Bool) (rest : List Char),
    (∀ c ∈ l, c ≠ '\n') →
    (line_and_stream k first { data := l ++ '\n' :: rest, eof := false }).2 =
      { data := rest, eof := false }
  | l, 0, first, rest, h => by
    simp only [line_and_stream, read_line, Bool.false_eq_true, or_self, if_false]
    exact skip_line_comment l rest h
  | [], k + 1, first, rest, _ => by
    simp [line_and_stream, read_line]
  | c :: l, k + 1, first, rest, h => by
    have hc : c ≠ '\n' := h c (List.mem_cons_self _ _)
    have hl : ∀ c ∈ l, c ≠ '\n' := fun c' hc' => h c' (List.mem_cons_of_mem _ hc')
    by_cases h1 : c = '#'
    · subst h1
      simp only [line_and_stream, read_line, List.cons_append, Bool.false_eq_true, if_false,
        true_or, if_true]
      simp only [show ('#' : Char) ≠ '\n' by decide, decide_False, Bool.false_eq_true,
        or_self, if_false]
      exact skip_line_comment l rest hl
    · have ih := line_and_stream_rest l k false rest hl
      simp only [line_and_stream] at ih ⊢
      simp only [read_line, List.cons_append, Bool.false_eq_true, if_false, h1, hc, or_self]
      exact ih

theorem next_line_split (st : parse_state) {l : List Char} (h : ∀ c ∈ l, c ≠ '\n')
    (rest : List Char) :
    next_line st { data := l ++ '\n' :: rest, eof := false } =
      ({ line := (read_line (LINE_SIZE - 1) true { data := l ++ ['\n'], eof := false }).1,
         token := [],
         rest := (read_line (LINE_SIZE - 1) true { data := l ++ ['\n'], eof := false }).1,
         error := false, linenum := st.linenum + 1 }, { data := rest, eof := false }) := by
  rw [next_line_eq, line_and_stream_rest l _ true rest h]
  have e : (line_and_stream (LINE_SIZE - 1) true { data := l ++ '\n' :: rest, eof := false }).1 =
      (read_line (LINE_SIZE - 1) true { data := l ++ ['\n'], eof := false }).1 :=
    read_line_stop l _ true '\n' '\n' rest [] (Or.inr rfl) (Or.inr rfl)
  rw [e]

/-- A comment at the end of a line changes neither the line that is read nor
the stream behind it. -/
theorem next_line_comment (st : parse_state) {l cm : List Char} (h : ∀ c ∈ l, c ≠ '\n')
    (hcm : ∀ c ∈ cm, c ≠ '\n') (rest : List Char) :
    next_line st { data := l ++ '#' :: (cm ++ '\n' :: rest), eof := false } =
      next_line st { data := l ++ '\n' :: rest, eof := false } := by
  have e : l ++ '#' :: (cm ++ '\n' :: rest) = (l ++ '#' :: cm) ++ '\n' :: rest := by simp
  have h2 : ∀ c ∈ l ++ '#' :: cm, c ≠ '\n' := by
    intro c hc
    rcases List.mem_append.mp hc with hc | hc
    · exact h c hc
    · rcases List.mem_cons.mp hc with rfl | hc
      · decide
      · exact hcm c hc
  rw [e, next_line_split st h2 rest, next_line_split st h rest]
  have e2 : (read_line (LINE_SIZE - 1) true { data := (l ++ '#' :: cm) ++ ['\n'], eof := false }).1 =
      (read_line (LINE_SIZE - 1) true { data := l ++ ['\n'], eof := false }).1 := by
    have e3 : (l ++ '#' :: cm) ++ ['\n'] = l ++ '#' :: (cm ++ ['\n']) := by simp
    rw [e3]
    exact read_line_stop l _ true '#' '\n' _ [] (Or.inl rfl) (Or.inr rfl)
  rw [e2]

/-- The line read from blanks is not empty and holds blanks only. -/
theorem read_line_blank : ∀ (ins : List Char) (k : Nat) (first : Bool), IsBlank ins →
    (∀ c ∈ ins, c ≠ '\n') →
    IsBlank (read_line k first { data := ins ++ ['\n'], eof := false }).1 ∧
      (first = true → 0 < k →
        (read_line k first { data := ins ++ ['\n'], eof := false }).1 ≠ [])
  | _, 0, _, _, _ => ⟨fun c hc => by simp [read_line] at hc, fun _ h => by omega⟩
  | [], k + 1, first, _, _ => by
    simp only [read_line, List.nil_append, Bool.false_eq_true, if_false, or_true, if_true]
    refine ⟨fun c hc => ?_, fun hf _ => by rw [hf]; simp⟩
    cases first with
    | true =>
      have : c = '\n' := by simpa using hc
      subst this
      decide
    | false => simp at hc
  | c :: ins, k + 1, first, hb, hn => by
    have hc : c ≠ '\n' := hn c (List.mem_cons_self _ _)
    have hs : isspace c = true := hb c (List.mem_cons_self _ _)
    have h1 : c ≠ '#' := by
      rintro rfl
      exact absurd hs (by decide)
    have ih := read_line_blank ins k false (fun c' hc' => hb c' (List.mem_cons_of_mem _ hc'))
      (fun c' hc' => hn c' (List.mem_cons_of_mem _ hc'))
    simp only [read_line, List.cons_append, Bool.false_eq_true, if_false, h1, hc, or_self]
    refine ⟨fun c' hc' => ?_, fun _ _ => List.cons_ne_nil _ _⟩
    rcases List.mem_cons.mp hc' with rfl | hc'
    · exact hs
    · exact ih.1 c' hc'

/-- The line read from an ignored line is not empty and holds blanks only. -/
theorem read_line_ignored {ins : List Char} (h : Ignored ins) :
    IsBlank (read_line (LINE_SIZE - 1) true { data := ins ++ ['\n'], eof := false }).1 ∧
      (read_line (LINE_SIZE - 1) true { data := ins ++ ['\n'], eof := false }).1 ≠ [] := by
  rcases h.2 with hb | hc
  · have := read_line_blank ins (LINE_SIZE - 1) true hb h.1
    exact ⟨this.1, this.2 rfl (by decide)⟩
  · cases ins with
    | nil => simp at hc
    | cons c cs =>
      have : c = '#' := by simpa using hc
      subst this
      have e : (read_line (LINE_SIZE - 1) true
          { data := '#' :: cs ++ ['\n'], eof := false }).1 = ['\n'] := by
        simp [read_line, LINE_SIZE]
      rw [e]
      exact ⟨fun c hc => by
        have : c = '\n' := by simpa using hc
        subst this
        decide, by simp⟩

/-! ## Ignored lines and comments in a stream -/

theorem bind_outcome_eq {a b : Res (parse_state × Store)} (h : outcome a = outcome b)
    {g g' : parse_state × Store → Res (Store × Int)}
    (hg : ∀ x y, x.1.error = y.1.error → x.2 = y.2 → g x = g' y) : a.bind g = b.bind g' := by
  cases a with
  | fuel => cases b <;> simp [outcome, Res.bind] at h ⊢
  | fault => cases b <;> simp [outcome, Res.bind] at h ⊢
  | ok x =>
    cases b with
    | fuel => simp [outcome, Res.bind] at h
    | fault => simp [outcome, Res.bind] at h
    | ok y =>
      simp only [outcome, Res.bind, Res.ok.injEq, Prod.mk.injEq] at h
      exact hg x y h.1 h.2

theorem parse_line_relabel (host : Host) (keys : KeyNames) (n : Nat) (L : List Char)
    (a b : Nat) (s : Store) :
    outcome (parse_config_line host keys n
        { line := L, token := [], rest := L, error := false, linenum := a } s) =
      outcome (parse_config_line host keys n
        { line := L, token := [], rest := L, error := false, linenum := b } s) :=
  @parse_config_line_case host keys n
    { line := L, token := [], rest := L, error := false, linenum := a }
    { line := L, token := [], rest := L, error := false, linenum := b }
    (CaseEq.refl L) s (fun _ => Eq.refl (line_token 2 L))

/-- The loop of `VControl_ReadConfiguration` does not depend on the state of
the parser it starts with, which `next_line` overwrites but for the line
number. -/
theorem read_loop_relabel (host : Host) (keys : KeyNames) (n : Nat) :
    ∀ (k : Nat) (st st' : parse_state) (f : FILE) (s : Store) (e : Int),
      read_loop host keys n k st f s e = read_loop host keys n k st' f s e
  | 0, _, _, _, _, _ => rfl
  | k + 1, st, st', f, s, e => by
    rw [read_loop, read_loop, next_line_eq st f, next_line_eq st' f]
    simp only
    by_cases hs : (line_and_stream (LINE_SIZE - 1) true f).1.head? = none ∨
        (line_and_stream (LINE_SIZE - 1) true f).1.head? = some NUL
    · rw [if_pos hs, if_pos hs]
    · rw [if_neg hs, if_neg hs]
      have ho := parse_line_relabel host keys n (line_and_stream (LINE_SIZE - 1) true f).1
        (st.linenum + 1) (st'.linenum + 1) s
      refine bind_outcome_eq ho fun x y he hx => ?_
      rw [he, hx]
      exact read_loop_relabel host keys n k x.1 y.1 _ _ _

/-- One turn of the loop on a stream that starts with the line `l`. -/
theorem read_loop_line (host : Host) (keys : KeyNames) (n k : Nat) (st : parse_state)
    (s : Store) (e : Int) {l : List Char} (hl : ∀ c ∈ l, c ≠ '\n') (A : List Char) :
    read_loop host keys n (k + 1) st { data := l ++ '\n' :: A, eof := false } s e =
      if (read_line (LINE_SIZE - 1) true { data := l ++ ['\n'], eof := false }).1.head? = none ∨
          (read_line (LINE_SIZE - 1) true { data := l ++ ['\n'], eof := false }).1.head? =
            some NUL then .ok (s, e)
      else
        (parse_config_line host keys n
          { line := (read_line (LINE_SIZE - 1) true { data := l ++ ['\n'], eof := false }).1,
            token := [],
            rest := (read_line (LINE_SIZE - 1) true { data := l ++ ['\n'], eof := false }).1,
            error := false, linenum := st.linenum + 1 } s).bind fun x =>
          read_loop host keys n k x.1 { data := A, eof := false } x.2
            (if x.1.error then e + 1 else e) := by
  rw [read_loop, next_line_split st hl A]

/-- An ignored line takes one turn of the loop and changes nothing. -/
theorem read_loop_ignored (host : Host) (keys : KeyNames) (n k : Nat) (st st' : parse_state)
    {ins : List Char} (h : Ignored ins) (post : List Char) (s : Store) (e : Int) :
    read_loop host keys n (k + 1) st { data := ins ++ '\n' :: post, eof := false } s e =
      read_loop host keys n k st' { data := post, eof := false } s e := by
  obtain ⟨hb, hne⟩ := read_line_ignored h
  rw [read_loop_line host keys n k st s e h.1 post]
  have hstop : ¬((read_line (LINE_SIZE - 1) true
        { data := ins ++ ['\n'], eof := false }).1.head? = none ∨
      (read_line (LINE_SIZE - 1) true { data := ins ++ ['\n'], eof := false }).1.head? =
        some NUL) := by
    rintro (h0 | h0)
    · exact hne (List.head?_eq_none_iff.1 h0)
    · exact blank_first hb h0
  rw [if_neg hstop]
  obtain ⟨st1, he1, hp⟩ := parse_blank_line host keys
    { line := (read_line (LINE_SIZE - 1) true { data := ins ++ ['\n'], eof := false }).1,
      token := [],
      rest := (read_line (LINE_SIZE - 1) true { data := ins ++ ['\n'], eof := false }).1,
      error := false, linenum := st.linenum + 1 } s (Or.inl (skip_space_blank_end hb))
  rw [hp n]
  simp only [Res.bind, he1, Bool.false_eq_true, if_false]
  exact read_loop_relabel host keys n k st1 st' _ s e

theorem read_loop_zero (host : Host) (keys : KeyNames) (n : Nat) (st : parse_state) (f : FILE)
    (s : Store) (e : Int) (r : Store × Int) : read_loop host keys n 0 st f s e ≠ .ok r := by
  rw [read_loop]
  exact fun h => by cases h

/-- An ignored line behind the lines `ls` of a stream: the loop gives the
same result, with one turn more. -/
theorem read_loop_insert (host : Host) (keys : KeyNames) (n : Nat) {ins : List Char}
    (h : Ignored ins) (post : List Char) :
    ∀ (ls : List (List Char)), (∀ l ∈ ls, ∀ c ∈ l, c ≠ '\n') →
      ∀ (k : Nat) (st : parse_state) (s : Store) (e : Int) (r : Store × Int),
        (read_loop host keys n k st { data := lines_text ls post, eof := false } s e = .ok r →
          read_loop host keys n (k + 1) st
            { data := lines_text ls (ins ++ '\n' :: post), eof := false } s e = .ok r) ∧
        (read_loop host keys n k st
            { data := lines_text ls (ins ++ '\n' :: post), eof := false } s e = .ok r →
          read_loop host keys n k st { data := lines_text ls post, eof := false } s e = .ok r)
  | [], _, k, st, s, e, r => by
    simp only [lines_text]
    constructor
    · intro h1
      rw [read_loop_ignored host keys n k st st h post s e]
      exact h1
    · intro h1
      cases k with
      | zero => exact absurd h1 (read_loop_zero host keys n st _ s e r)
      | succ k =>
        rw [read_loop_ignored host keys n k st st h post s e] at h1
        exact read_loop_mono host keys k n n (k + 1) st _ s e r h1 (le_refl _) (by omega)
  | l :: ls, hls, k, st, s, e, r => by
    have hl := hls l (List.mem_cons_self _ _)
    have ih := read_loop_insert host keys n h post ls
      (fun l' hl' => hls l' (List.mem_cons_of_mem _ hl'))
    simp only [lines_text]
    cases k with
    | zero =>
      constructor
      · intro h1
        exact absurd h1 (read_loop_zero host keys n st _ s e r)
      · intro h1
        exact absurd h1 (read_loop_zero host keys n st _ s e r)
    | succ k =>
      rw [read_loop_line host keys n k st s e hl, read_loop_line host keys n (k + 1) st s e hl,
        read_loop_line host keys n k st s e hl]
      by_cases hs : (read_line (LINE_SIZE - 1) true
            { data := l ++ ['\n'], eof := false }).1.head? = none ∨
          (read_line (LINE_SIZE - 1) true { data := l ++ ['\n'], eof := false }).1.head? =
            some NUL
      · rw [if_pos hs, if_pos hs, if_pos hs]
        exact ⟨id, id⟩
      · rw [if_neg hs, if_neg hs, if_neg hs]
        cases hp : parse_config_line host keys n
            { line := (read_line (LINE_SIZE - 1) true { data := l ++ ['\n'], eof := false }).1,
              token := [],
              rest := (read_line (LINE_SIZE - 1) true { data := l ++ ['\n'], eof := false }).1,
              error := false, linenum := st.linenum + 1 } s with
        | fuel => constructor <;> intro h1 <;> cases h1
        | fault => constructor <;> intro h1 <;> cases h1
        | ok x => exact ih k x.1 x.2 _ r

/-- A comment at the end of a line behind the lines `ls` of a stream: the
loop does the same. -/
theorem read_loop_comment (host : Host) (keys : KeyNames) (n : Nat) {l cm : List Char}
    (hl : ∀ c ∈ l, c ≠ '\n') (hcm : ∀ c ∈ cm, c ≠ '\n') (post : List Char) :
    ∀ (ls : List (List Char)), (∀ l ∈ ls, ∀ c ∈ l, c ≠ '\n') →
      ∀ (k : Nat) (st : parse_state) (s : Store) (e : Int),
        read_loop host keys n k st
            { data := lines_text ls (l ++ '#' :: (cm ++ '\n' :: post)), eof := false } s e =
          read_loop host keys n k st
            { data := lines_text ls (l ++ '\n' :: post), eof := false } s e
  | _, _, 0, _, _, _ => rfl
  | [], _, k + 1, st, s, e => by
    simp only [lines_text]
    rw [read_loop, read_loop, next_line_comment st hl hcm post]
  | l0 :: ls, hls, k + 1, st, s, e => by
    have hl0 := hls l0 (List.mem_cons_self _ _)
    have ih := read_loop_comment host keys n hl hcm post ls
      (fun l' hl' => hls l' (List.mem_cons_of_mem _ hl')) k
    simp only [lines_text]
    rw [read_loop_line host keys n k st s e hl0, read_loop_line host keys n k st s e hl0]
    by_cases hs : (read_line (LINE_SIZE - 1) true
          { data := l0 ++ ['\n'], eof := false }).1.head? = none ∨
        (read_line (LINE_SIZE - 1) true { data := l0 ++ ['\n'], eof := false }).1.head? =
          some NUL
    · rw [if_pos hs, if_pos hs]
    · rw [if_neg hs, if_neg hs]
      cases hp : parse_config_line host keys n
          { line := (read_line (LINE_SIZE - 1) true { data := l0 ++ ['\n'], eof := false }).1,
            token := [],
            rest := (read_line (LINE_SIZE - 1) true { data := l0 ++ ['\n'], eof := false }).1,
            error := false, linenum := st.linenum + 1 } s with
      | fuel => rfl
      | fault => rfl
      | ok x => exact ih x.1 x.2 _

theorem read_line_stop_end : ∀ (l : List Char) (k : Nat) (first : Bool) (c1 : Char)
    (X : List Char), (c1 = '#' ∨ c1 = '\n') →
    (read_line k first { data := l ++ c1 :: X, eof := false }).1 =
      (read_line k first { data := l, eof := false }).1
  | _, 0, _, _, _, _ => rfl
  | [], k + 1, first, c1, X, h1 => by
    simp only [read_line, List.nil_append, Bool.false_eq_true, if_false, h1, if_true]
  | c :: l, k + 1, first, c1, X, h1 => by
    simp only [read_line, List.cons_append, Bool.false_eq_true, if_false]
    by_cases hc : c = '#' ∨ c = '\n'
    · rw [if_pos hc, if_pos hc]
    · rw [if_neg hc, if_neg hc]
      simp only [List.cons.injEq, true_and]
      exact read_line_stop_end l k false c1 X h1

/-- After a last line without a newline the stream is at its end. -/
theorem line_and_stream_end : ∀ (l : List Char) (k : Nat) (first : Bool),
    (∀ c ∈ l, c ≠ '\n') →
    (line_and_stream k first { data := l, eof := false }).2 = { data := [], eof := true }
  | l, 0, first, h => by
    simp only [line_and_stream, read_line, Bool.false_eq_true, or_self, if_false]
    exact skip_line_last l h
  | [], k + 1, first, _ => by
    simp [line_and_stream, read_line]
  | c :: l, k + 1, first, h => by
    have hc : c ≠ '\n' := h c (List.mem_cons_self _ _)
    have hl : ∀ c ∈ l, c ≠ '\n' := fun c' hc' => h c' (List.mem_cons_of_mem _ hc')
    by_cases h1 : c = '#'
    · subst h1
      simp only [line_and_stream, read_line, Bool.false_eq_true, if_false, true_or, if_true]
      simp only [show ('#' : Char) ≠ '\n' by decide, decide_False, Bool.false_eq_true,
        or_self, if_false]
      exact skip_line_last l hl
    · have ih := line_and_stream_end l k false hl
      simp only [line_and_stream] at ih ⊢
      simp only [read_line, Bool.false_eq_true, if_false, h1, hc, or_self]
      exact ih

/-- A comment at the end of a last line without a newline changes neither the
line that is read nor the stream behind it. -/
theorem next_line_comment_last (st : parse_state) {l cm : List Char} (h : ∀ c ∈ l, c ≠ '\n')
    (hcm : ∀ c ∈ cm, c ≠ '\n') :
    next_line st { data := l ++ '#' :: cm, eof := false } =
      next_line st { data := l, eof := false } := by
  have h2 : ∀ c ∈ l ++ '#' :: cm, c ≠ '\n' := by
    intro c hc
    rcases List.mem_append.mp hc with hc | hc
    · exact h c hc
    · rcases List.mem_cons.mp hc with rfl | hc
      · decide
      · exact hcm c hc
  rw [next_line_eq, next_line_eq, line_and_stream_end _ _ true h2,
    line_and_stream_end _ _ true h]
  have e : (line_and_stream (LINE_SIZE - 1) true { data := l ++ '#' :: cm, eof := false }).1 =
      (line_and_stream (LINE_SIZE - 1) true { data := l, eof := false }).1 :=
    read_line_stop_end l _ true '#' cm (Or.inl rfl)
  rw [e]

theorem read_loop_comment_last (host : Host) (keys : KeyNames) (n : Nat) {l cm : List Char}
    (hl : ∀ c ∈ l, c ≠ '\n') (hcm : ∀ c ∈ cm, c ≠ '\n') :
    ∀ (ls : List (List Char)), (∀ l ∈ ls, ∀ c ∈ l, c ≠ '\n') →
      ∀ (k : Nat) (st : parse_state) (s : Store) (e : Int),
        read_loop host keys n k st
            { data := lines_text ls (l ++ '#' :: cm), eof := false } s e =
          read_loop host keys n k st { data := lines_text ls l, eof := false } s e
  | _, _, 0, _, _, _ => rfl
  | [], _, k + 1, st, s, e => by
    simp only [lines_text]
    rw [read_loop, read_loop, next_line_comment_last st hl hcm]
  | l0 :: ls, hls, k + 1, st, s, e => by
    have hl0 := hls l0 (List.mem_cons_self _ _)
    have ih := read_loop_comment_last host keys n hl hcm ls
      (fun l' hl' => hls l' (List.mem_cons_of_mem _ hl')) k
    simp only [lines_text]
    rw [read_loop_line host keys n k st s e hl0, read_loop_line host keys n k st s e hl0]
    by_cases hs : (read_line (LINE_SIZE - 1) true
          { data := l0 ++ ['\n'], eof := false }).1.head? = none ∨
        (read_line (LINE_SIZE - 1) true { data := l0 ++ ['\n'], eof := false }).1.head? =
          some NUL
    · rw [if_pos hs, if_pos hs]
    · rw [if_neg hs, if_neg hs]
      cases hp : parse_config_line host keys n
          { line := (read_line (LINE_SIZE - 1) true { data := l0 ++ ['\n'], eof := false }).1,
            token := [],
            rest := (read_line (LINE_SIZE - 1) true { data := l0 ++ ['\n'], eof := false }).1,
            error := false, linenum := st.linenum + 1 } s with
      | fuel => rfl
      | fault => rfl
      | ok x => exact ih x.1 x.2 _

/-- C22: in a stream whose first lines are `ls`, an ignored line (an empty
line, a line of whitespace only, or a line that starts with `#`) put behind
these lines, in front of any text `post`, and a comment `#` with any text put
at the end of the line that follows them (a line ended by a newline, or the
last line of the stream without one) change nothing of what
`VControl_ReadConfiguration` returns: it returns the store and the error count
`r` on the stream with the addition exactly when it returns them on the stream
without.  So a blank line in the middle of the stream does not end the
read. -/
theorem blank_lines_and_comments_ignored (host : Host) (keys : KeyNames) (s : Store)
    (ls : List (List Char)) (hls : ∀ l ∈ ls, ∀ c ∈ l, c ≠ '\n') (ins l cm post : List Char)
    (hins : Ignored ins) (hl : ∀ c ∈ l, c ≠ '\n') (hcm : ∀ c ∈ cm, c ≠ '\n')
    (r : Store × Int) :
    (Returns (fun fuel => VControl_ReadConfiguration host keys fuel s
          { data := lines_text ls (ins ++ '\n' :: post), eof := false }) r ↔
        Returns (fun fuel => VControl_ReadConfiguration host keys fuel s
          { data := lines_text ls post, eof := false }) r) ∧
      (Returns (fun fuel => VControl_ReadConfiguration host keys fuel s
          { data := lines_text ls (l ++ '#' :: (cm ++ '\n' :: post)), eof := false }) r ↔
        Returns (fun fuel => VControl_ReadConfiguration host keys fuel s
          { data := lines_text ls (l ++ '\n' :: post), eof := false }) r) ∧
      (Returns (fun fuel => VControl_ReadConfiguration host keys fuel s
          { data := lines_text ls (l ++ '#' :: cm), eof := false }) r ↔
        Returns (fun fuel => VControl_ReadConfiguration host keys fuel s
          { data := lines_text ls l, eof := false }) r) := by
  refine ⟨?_, ?_, ?_⟩
  · rw [read_returns_iff, read_returns_iff]
    constructor
    · rintro ⟨n, k, h⟩
      exact ⟨n, k, (read_loop_insert host keys n hins post ls hls k _ s 0 r).2 h⟩
    · rintro ⟨n, k, h⟩
      exact ⟨n, k + 1, (read_loop_insert host keys n hins post ls hls k _ s 0 r).1 h⟩
  · rw [read_returns_iff, read_returns_iff]
    constructor
    · rintro ⟨n, k, h⟩
      exact ⟨n, k, by rw [← read_loop_comment host keys n hl hcm post ls hls k _ s 0]; exact h⟩
    · rintro ⟨n, k, h⟩
      exact ⟨n, k, by rw [read_loop_comment host keys n hl hcm post ls hls k _ s 0]; exact h⟩
  · rw [read_returns_iff, read_returns_iff]
    constructor
    · rintro ⟨n, k, h⟩
      exact ⟨n, k, by rw [← read_loop_comment_last host keys n hl hcm ls hls k _ s 0]; exact h⟩
    · rintro ⟨n, k, h⟩
      exact ⟨n, k, by rw [read_loop_comment_last host keys n hl hcm ls hls k _ s 0]; exact h⟩

set_option maxRecDepth 1000000 in
theorem blank_lines_and_comments_ignored_witness :
    ((∀ l ∈ ["fire: key a".toList], ∀ c ∈ l, c ≠ '\n') ∧ Ignored "  ".toList ∧
      (∀ c ∈ "fire: key a".toList, c ≠ '\n') ∧ (∀ c ∈ " the trigger".toList, c ≠ '\n')) ∧
    VControl_ReadConfiguration padHost aKeys 6 padFresh
        { data := "fire: key a\n  \n".toList, eof := false } = .ok (padFireKey, 0) ∧
    VControl_ReadConfiguration padHost aKeys 6 padFresh
        { data := "fire: key a\nfire: key a# the trigger\n".toList, eof := false } =
      .ok (padFireKey, 0) ∧
    VControl_ReadConfiguration padHost aKeys 6 padFresh
        { data := "fire: key a\nfire: key a# the trigger".toList, eof := false } =
      .ok (padFireKey, 0) ∧
    ((Returns (fun fuel => VControl_ReadConfiguration padHost aKeys fuel padFresh
          { data := lines_text ["fire: key a".toList] ("  ".toList ++ '\n' :: []),
            eof := false }) (padFireKey, 0) ↔
        Returns (fun fuel => VControl_ReadConfiguration padHost aKeys fuel padFresh
          { data := lines_text ["fire: key a".toList] [], eof := false }) (padFireKey, 0)) ∧
      (Returns (fun fuel => VControl_ReadConfiguration padHost aKeys fuel padFresh
          { data := lines_text ["fire: key a".toList]
              ("fire: key a".toList ++ '#' :: (" the trigger".toList ++ '\n' :: [])),
            eof := false }) (padFireKey, 0) ↔
        Returns (fun fuel => VControl_ReadConfiguration padHost aKeys fuel padFresh
          { data := lines_text ["fire: key a".toList] ("fire: key a".toList ++ '\n' :: []),
            eof := false }) (padFireKey, 0)) ∧
      (Returns (fun fuel => VControl_ReadConfiguration padHost aKeys fuel padFresh
          { data := lines_text ["fire: key a".toList]
              ("fire: key a".toList ++ '#' :: " the trigger".toList),
            eof := false }) (padFireKey, 0) ↔
        Returns (fun fuel => VControl_ReadConfiguration padHost aKeys fuel padFresh
          { data := lines_text ["fire: key a".toList] "fire: key a".toList,
            eof := false }) (padFireKey, 0))) :=
  ⟨⟨by decide, ⟨by decide, Or.inl (by unfold IsBlank; decide)⟩, by decide, by decide⟩,
    by decide, by decide, by decide,
    blank_lines_and_comments_ignored padHost aKeys padFresh ["fire: key a".toList]
      (by decide) "  ".toList "fire: key a".toList " the trigger".toList []
      ⟨by decide, Or.inl (by unfold IsBlank; decide)⟩ (by decide) (by decide) (padFireKey, 0)⟩

/-! ## The chunk and the slot that add_binding takes -/

/-- The chunk that the search of `add_binding` stops at is the first whose
`remaining` is not 0, and a chunk is appended only when every chunk is full. -/
theorem search_chunk_first : ∀ pool : List keypool,
    (∀ i c, i < (search_chunk pool).1 → pool[i]? = some c → c.remaining = 0) ∧
      ((search_chunk pool).2 = pool ∨
        ((search_chunk pool).2 = pool ++ [allocate_key_chunk] ∧
          (search_chunk pool).1 = pool.length ∧ ∀ c ∈ pool, c.remaining = 0))
  | [] => ⟨fun i c hi => by simp [search_chunk] at hi, Or.inr ⟨rfl, rfl, fun c hc => by cases hc⟩⟩
  | c0 :: cs => by
    obtain ⟨ih1, ih2⟩ := search_chunk_first cs
    by_cases h : c0.remaining = 0
    · simp only [search_chunk, h, if_true]
      refine ⟨fun i c hi hc => ?_, ?_⟩
      · cases i with
        | zero =>
          simp only [List.getElem?_cons_zero, Option.some.injEq] at hc
          rw [← hc]
          exact h
        | succ j =>
          simp only [List.getElem?_cons_succ] at hc
          exact ih1 j c (by omega) hc
      · rcases ih2 with e | ⟨e1, e2, e3⟩
        · left
          rw [e]
        · right
          refine ⟨by rw [e1]; rfl, by rw [e2]; rfl, fun c hc => ?_⟩
          rcases List.mem_cons.mp hc with rfl | hc
          · exact h
          · exact e3 c hc
    · simp only [search_chunk, h, if_false]
      exact ⟨fun i c hi => by omega, Or.inl trivial⟩

/-- C31: in every state reached from `VControl_Init` by calls of the add and
remove binding functions with targets that are not `NULL`, also after the
device of a port is opened, the chunk that `add_binding` selects (the first
whose `remaining` is not 0, a new chunk being appended only when every chunk
is full) has `remaining` above 0 and a slot with a `NULL` target, which the
slot search finds; so for a pair that is not yet in the chain of a cell,
`add_binding` returns with the pair linked at the tail of the chain, which the
branch `failed to find a free binding slot` would leave as it is. -/
theorem allocation_never_misses {host : Host} {s : Store} (h : Reach host s) :
    (∃ c si b, (search_chunk s.pool).2[(search_chunk s.pool).1]? = some c ∧ 0 < c.remaining ∧
        find_free c.pool 0 = some si ∧ c.pool[si]? = some b ∧ b.target = 0) ∧
      (∀ i c, i < (search_chunk s.pool).1 → s.pool[i]? = some c → c.remaining = 0) ∧
      ((search_chunk s.pool).2 = s.pool ∨
        ((search_chunk s.pool).2 = s.pool ++ [allocate_key_chunk] ∧
          ∀ c ∈ s.pool, c.remaining = 0)) ∧
      ∀ (s0 : Store), (s0 = s ∨ ∃ p, s0 = create_joystick host s p) →
        s0.pool = s.pool ∧
        ∀ (c : Cell) (l : List (Nat × Int)) (target : Nat) (keycode : Int),
          HoldsChain s0 c l → target ≠ 0 → (target, keycode) ∉ l →
          ∃ s1, Returns (fun fuel => add_at fuel s0 c target keycode) s1 ∧
            HoldsChain s1 c (l ++ [(target, keycode)]) := by
  have hinv := h.inv
  obtain ⟨_, c, hc, hrem⟩ := search_chunk_spec s.pool
  have hok := hinv.pool.search_chunk.2 c (List.getElem?_mem hc)
  obtain ⟨si, b, hfind, hb, hbt⟩ := hok.find_free hrem
  obtain ⟨f1, f2⟩ := search_chunk_first s.pool
  refine ⟨⟨c, si, b, hc, ?_, hfind, hb, hbt⟩, f1, ?_, ?_⟩
  · have := hok.2
    omega
  · rcases f2 with e | ⟨e1, _, e3⟩
    · exact Or.inl e
    · exact Or.inr ⟨e1, e3⟩
  · intro s0 hs0
    have hinv0 : Inv s0 ∧ s0.pool = s.pool := by
      rcases hs0 with rfl | ⟨p, rfl⟩
      · exact ⟨hinv, rfl⟩
      · exact ⟨(hinv.after_create host p).1, (create_joystick_pool host s p).1⟩
    refine ⟨hinv0.2, fun c l target keycode hl ht habs => ?_⟩
    obtain ⟨v, pool1, hret, hch, _, _⟩ := add_at_spec hinv0.1 hl target ht keycode
    rw [if_neg habs] at hch
    exact ⟨_, hret, hch⟩

theorem allocation_never_misses_witness :
    Reach padHost reachStore ∧
      ((∃ c si b, (search_chunk reachStore.pool).2[(search_chunk reachStore.pool).1]? = some c ∧
          0 < c.remaining ∧ find_free c.pool 0 = some si ∧ c.pool[si]? = some b ∧
          b.target = 0) ∧
        (∀ i c, i < (search_chunk reachStore.pool).1 → reachStore.pool[i]? = some c →
          c.remaining = 0) ∧
        ((search_chunk reachStore.pool).2 = reachStore.pool ∨
          ((search_chunk reachStore.pool).2 = reachStore.pool ++ [allocate_key_chunk] ∧
            ∀ c ∈ reachStore.pool, c.remaining = 0)) ∧
        ∀ (s0 : Store), (s0 = reachStore ∨ ∃ p, s0 = create_joystick padHost reachStore p) →
          s0.pool = reachStore.pool ∧
          ∀ (c : Cell) (l : List (Nat × Int)) (target : Nat) (keycode : Int),
            HoldsChain s0 c l → target ≠ 0 → (target, keycode) ∉ l →
            ∃ s1, Returns (fun fuel => add_at fuel s0 c target keycode) s1 ∧
              HoldsChain s1 c (l ++ [(target, keycode)])) :=
  ⟨reachStore_reached, allocation_never_misses reachStore_reached⟩

end VControl
